import Mathlib

/-!
# Task-execution substrate of OS_FinalProject

A shallow embedding of `ActiveObject.cpp`, `Pipeline.cpp` and
`LeaderFollowers.cpp`.

Threads are modelled by interleaving: every thread has a program counter, and
one atomic step of one thread is one `Action`.  A schedule is a list of
actions; `run` folds the step function over it.

* For `ActiveObject` a block guarded by `mtx` is one atomic step (the blocks
  are straight-line, the mutex makes them mutually exclusive); the reads of
  `running` at the loop head and of `nextStage` happen outside the lock and
  are steps of their own.
* For `LeaderFollowers` the mutex `_queue_mutex` is explicit and every
  statement inside the critical section is a step of its own, because the
  leader flag is read and written there.
* `std::thread`: assigning to a joinable thread object calls
  `std::terminate`; an exception leaving a thread function calls
  `std::terminate`.  Both end the process: the field `terminated`, once set,
  freezes the state.
* A call that blocks (`cv.wait`, `join`, locking a held mutex) is a step that
  leaves the state unchanged until it is enabled.
-/

namespace OSFinal

/-! ## Tasks -/

/-- How one call of a task body ends. -/
inductive Outcome where
  /-- the body returns the string `r` -/
  | ret (r : String)
  /-- the body throws an object whose type derives from `std::exception` -/
  | throwStd (what : String)
  /-- the body throws a value of any other type (`throw 42;`) -/
  | throwOther
  deriving DecidableEq, Repr

/-- A value of type `std::function<std::string()>` (ActiveObject.hpp:22). -/
inductive Task where
  /-- an empty `std::function`: `if (task)` is false -/
  | null
  /-- a closure supplied by the caller -/
  | user (o : Outcome)
  /-- the lambda of ActiveObject.cpp:32-35, which captured `result` by value -/
  | relay (result : String)
  /-- the lambdas of Pipeline.cpp:39-42 and 45-48, returning `sharedData`,
  the local string of `Pipeline::execute` that is never assigned -/
  | passThrough
  deriving DecidableEq, Repr

/-- The result of calling a non-empty task; `none` for the empty function. -/
def Task.call : Task → Option Outcome
  | .null => none
  | .user o => some o
  | .relay r => some (.ret r)
  | .passThrough => some (.ret "")

/-! ## ActiveObject -/

/-- Where the worker thread of an `ActiveObject` stands (ActiveObject.cpp:16-39). -/
inductive WorkerPc where
  /-- at the test of `while (running)`, line 17 -/
  | head
  /-- at lines 20-26: taking the lock and waiting in `cv.wait` -/
  | wait
  /-- lock released, `task` holds the dequeued task, at `if (task)`, line 28 -/
  | exec (task : Task)
  /-- `result` computed and logged, at `if (nextStage)`, line 31 -/
  | relay (result : String)
  /-- the thread function has returned; the thread is still joinable -/
  | done
  deriving DecidableEq, Repr

/-- The fields of `ActiveObject` (ActiveObject.hpp:31-36).  `mtx` and `cv` are
implicit in the atomicity of the steps.  The last three fields are history
variables: they record, with their payload, the events the code logs at
lines 59 (enqueued), 26 (dequeued) and 30 (executed, with the result). -/
structure ActiveObject where
  tasks : List Task
  /-- `workerThread`: `none` when not joinable, else the thread and its position -/
  workerThread : Option WorkerPc
  running : Bool
  /-- `nextStage`: `none` is `nullptr`, `some j` the address of object `j` -/
  nextStage : Option Nat
  enqueued : List Task
  dequeued : List Task
  executed : List String
  deriving DecidableEq, Repr

/-- The objects alive in the process, addressed by position, and whether
`std::terminate` has been called. -/
structure Sys where
  heap : List ActiveObject
  terminated : Bool
  deriving DecidableEq, Repr

/-- The process at start: no object. -/
def Sys.init : Sys := { heap := [], terminated := false }

/-- Apply `f` to the object at address `i`. -/
def Sys.modify (s : Sys) (i : Nat) (f : ActiveObject → ActiveObject) : Sys :=
  { s with heap := s.heap.modify f i }

namespace ActiveObject

/-- The object the constructor builds (ActiveObject.cpp:5-7). -/
def fresh : ActiveObject :=
  { tasks := [], workerThread := none, running := false, nextStage := none,
    enqueued := [], dequeued := [], executed := [] }

/-- `ActiveObject::ActiveObject()`: a new object at the next free address. -/
def create (s : Sys) : Sys := { s with heap := s.heap ++ [fresh] }

/-- `ActiveObject::enqueue` (ActiveObject.cpp:55-62): push at the back under
the lock. -/
def enqueue (s : Sys) (i : Nat) (task : Task) : Sys :=
  s.modify i fun o => { o with tasks := o.tasks ++ [task], enqueued := o.enqueued ++ [task] }

/-- `ActiveObject::setNextStage` (ActiveObject.cpp:64-66). -/
def setNextStage (s : Sys) (i : Nat) (next : Option Nat) : Sys :=
  s.modify i fun o => { o with nextStage := next }

/-- `ActiveObject::start` (ActiveObject.cpp:13-40): `running = true`, then the
move-assignment `workerThread = std::thread(...)`, which calls
`std::terminate` when `workerThread` is joinable. -/
def start (s : Sys) (i : Nat) : Sys :=
  match s.heap[i]? with
  | none => s
  | some o =>
    match o.workerThread with
    | some _ => { heap := (s.modify i fun o => { o with running := true }).heap, terminated := true }
    | none => s.modify i fun o => { o with running := true, workerThread := some .head }

/-- First half of `ActiveObject::stop` (ActiveObject.cpp:43-48): clear
`running` under the lock and notify. -/
def stopRequest (s : Sys) (i : Nat) : Sys :=
  s.modify i fun o => { o with running := false }

/-- Second half of `ActiveObject::stop` (ActiveObject.cpp:49-52): join the
worker if joinable.  While the worker has not returned the call blocks. -/
def stopJoin (s : Sys) (i : Nat) : Sys :=
  s.modify i fun o =>
    match o.workerThread with
    | some .done => { o with workerThread := none }
    | _ => o

/-- `ActiveObject::stop` run without the worker moving in between. -/
def stop (s : Sys) (i : Nat) : Sys := stopJoin (stopRequest s i) i

/-- One atomic step of the worker thread of object `i`
(the lambda of ActiveObject.cpp:16-39). -/
def workerStep (s : Sys) (i : Nat) : Sys :=
  match s.heap[i]? with
  | none => s
  | some o =>
    match o.workerThread with
    | none => s
    | some .done => s
    | some .head =>
      -- `while (running)`
      s.modify i fun o => { o with workerThread := some (if o.running then .wait else .done) }
    | some .wait =>
      match o.tasks with
      | [] =>
        -- `cv.wait` keeps waiting while running; otherwise `break`
        if o.running then s
        else s.modify i fun o => { o with workerThread := some .done }
      | t :: _ =>
        -- `task = std::move(tasks.front()); tasks.pop();`
        s.modify i fun o =>
          { o with tasks := o.tasks.tail, dequeued := o.dequeued ++ [t],
                   workerThread := some (.exec t) }
    | some (.exec t) =>
      match t.call with
      | none => s.modify i fun o => { o with workerThread := some .head }
      | some (.ret r) =>
        s.modify i fun o => { o with executed := o.executed ++ [r], workerThread := some (.relay r) }
      | some _ => { s with terminated := true }
    | some (.relay r) =>
      let s1 := s.modify i fun o => { o with workerThread := some .head }
      match o.nextStage with
      | none => s1
      | some j => enqueue s1 j (.relay r)

end ActiveObject

/-- One atomic step of one thread of the process. -/
inductive Action where
  | create
  | enqueue (i : Nat) (task : Task)
  | setNextStage (i : Nat) (next : Option Nat)
  | start (i : Nat)
  | stopRequest (i : Nat)
  | stopJoin (i : Nat)
  | worker (i : Nat)
  deriving DecidableEq, Repr

/-- The actions that are steps of a worker thread. -/
def Action.isWorker : Action → Bool
  | .worker _ => true
  | _ => false

/-- The effect of one action; nothing moves once the process is terminated. -/
def step (s : Sys) (a : Action) : Sys :=
  if s.terminated then s else
  match a with
  | .create => ActiveObject.create s
  | .enqueue i t => ActiveObject.enqueue s i t
  | .setNextStage i n => ActiveObject.setNextStage s i n
  | .start i => ActiveObject.start s i
  | .stopRequest i => ActiveObject.stopRequest s i
  | .stopJoin i => ActiveObject.stopJoin s i
  | .worker i => ActiveObject.workerStep s i

/-- Run a schedule. -/
def run (s : Sys) (acts : List Action) : Sys := acts.foldl step s

/-! ## Pipeline

A `Pipeline` owns its stages in the vector `stages`; here the process holds
exactly the stages of one pipeline, so `stages[i]` is the object at address
`i` and `stages.size()` is `heap.length`. -/

namespace Pipeline

/-- `Pipeline::addTask` (Pipeline.cpp:10-22). -/
def addTask (s : Sys) (task : Task) : Sys :=
  let stage := s.heap.length
  let s1 := ActiveObject.enqueue (ActiveObject.create s) stage task
  if stage = 0 then s1 else ActiveObject.setNextStage s1 (stage - 1) (some stage)

/-- First enqueue of `Pipeline::execute` (Pipeline.cpp:39-42), on `stages.front()`. -/
def executeFront (s : Sys) : Sys :=
  if s.heap.length = 0 then s else ActiveObject.enqueue s 0 .passThrough

/-- Second enqueue of `Pipeline::execute` (Pipeline.cpp:45-48), on `stages.back()`. -/
def executeBack (s : Sys) : Sys :=
  if s.heap.length = 0 then s else ActiveObject.enqueue s (s.heap.length - 1) .passThrough

/-- `Pipeline::execute` (Pipeline.cpp:32-54): the returned string is the local
`sharedData`, which nothing assigns. -/
def execute (s : Sys) : String × Sys := ("", executeBack (executeFront s))

end Pipeline

/-- One atomic step of a thread of a process that only uses the pipeline:
the calls of `Pipeline`, cut at the points where workers can interleave, and
the steps of the workers.  `start k`, `stopRequest k` and `stopJoin k` are the
iterations for `stages[k]` of the loops of `Pipeline::start` and
`Pipeline::stop`. -/
inductive PAction where
  | addTask (task : Task)
  | start (k : Nat)
  | executeFront
  | executeBack
  | stopRequest (k : Nat)
  | stopJoin (k : Nat)
  | worker (k : Nat)
  deriving DecidableEq, Repr

/-- The effect of one pipeline action. -/
def Pipeline.step (s : Sys) (a : PAction) : Sys :=
  if s.terminated then s else
  match a with
  | .addTask t => Pipeline.addTask s t
  | .start k => ActiveObject.start s k
  | .executeFront => Pipeline.executeFront s
  | .executeBack => Pipeline.executeBack s
  | .stopRequest k => ActiveObject.stopRequest s k
  | .stopJoin k => ActiveObject.stopJoin s k
  | .worker k => ActiveObject.workerStep s k

/-- Run a schedule of pipeline actions. -/
def Pipeline.run (s : Sys) (acts : List PAction) : Sys := acts.foldl Pipeline.step s

/-- The pipeline after `addTask` was called once for each task of `ts`, in order. -/
def Pipeline.build (ts : List Task) : Sys := ts.foldl Pipeline.addTask Sys.init

/-! ## LeaderFollowers -/

/-- How one call of a `std::function<void()>` body ends. -/
inductive VoidOutcome where
  /-- the body returns -/
  | ret
  /-- the body throws an object whose type derives from `std::exception` -/
  | throwStd (what : String)
  /-- the body throws a value of any other type -/
  | throwOther
  deriving DecidableEq, Repr

/-- `LeaderFollowers::Task`, a `std::function<void()>` (LeaderFollowers.hpp:20).
The tag tells closures apart. -/
inductive LeaderFollowers.Task where
  /-- an empty `std::function`, also the value of the local `task` at line 73 -/
  | null
  /-- a closure supplied by the caller -/
  | fn (tag : Nat) (o : VoidOutcome)
  deriving DecidableEq, Repr

/-- Where a pool thread stands in `worker_loop` (LeaderFollowers.cpp:71-123). -/
inductive LeaderFollowers.Pc where
  /-- at the test of `while (_running)`, line 72 -/
  | loopHead
  /-- locking `_queue_mutex`: at line 76, or inside `_cv.wait` after a wake-up -/
  | acquire
  /-- holding the mutex, evaluating the predicate of `_cv.wait`, lines 79-81 -/
  | waiting
  /-- holding the mutex, at `if (!_running && _task_queue.empty()) return;`, line 84 -/
  | exitCheck
  /-- holding the mutex, at `_leader_active.exchange(true)`, line 87 -/
  | election
  /-- inside the leader block, at the dequeue of lines 95-98 -/
  | leader
  /-- inside the leader block, at `_leader_active = false`, line 100 -/
  | release (task : LeaderFollowers.Task)
  /-- at the end of the scope of `lock`, line 102 -/
  | unlock (task : LeaderFollowers.Task)
  /-- mutex released, at `if (task)`, line 105 -/
  | execute (task : LeaderFollowers.Task)
  /-- at `_cv.notify_one()`, line 121 -/
  | notify
  /-- `worker_loop` has returned; the thread is still joinable -/
  | done
  deriving DecidableEq, Repr

/-- The fields of `LeaderFollowers` (LeaderFollowers.hpp:21-27).  A condition
variable may wake spuriously, so `_cv` carries no state.  The last four
fields are history variables: the tasks pushed, the tasks popped, the tasks
called at line 113, and the messages written at line 116. -/
structure LeaderFollowers where
  task_queue : List LeaderFollowers.Task
  /-- `_threads`: `none` for a joined thread, else its position -/
  threads : List (Option LeaderFollowers.Pc)
  /-- `_queue_mutex`: the pool thread holding it, if any -/
  queue_mutex : Option Nat
  running : Bool
  leader_active : Bool
  terminated : Bool
  enqueued : List LeaderFollowers.Task
  dequeued : List LeaderFollowers.Task
  executed : List LeaderFollowers.Task
  caught : List String
  deriving DecidableEq, Repr

namespace LeaderFollowers

/-- `LeaderFollowers::LeaderFollowers(int num_threads)` (LeaderFollowers.cpp:11-16). -/
def new (num_threads : Int) : LeaderFollowers :=
  { task_queue := [], threads := List.replicate num_threads.toNat (some .loopHead),
    queue_mutex := none, running := true, leader_active := false, terminated := false,
    enqueued := [], dequeued := [], executed := [], caught := [] }

/-- `LeaderFollowers::add_task` (LeaderFollowers.cpp:34-40); blocks while a
worker holds the mutex. -/
def add_task (p : LeaderFollowers) (task : Task) : LeaderFollowers :=
  match p.queue_mutex with
  | some _ => p
  | none => { p with task_queue := p.task_queue ++ [task], enqueued := p.enqueued ++ [task] }

/-- First half of `LeaderFollowers::stop` (LeaderFollowers.cpp:49-53): clear
`_running` under the mutex and notify all. -/
def stopRequest (p : LeaderFollowers) : LeaderFollowers :=
  match p.queue_mutex with
  | some _ => p
  | none => { p with running := false }

/-- One iteration of the loop of `LeaderFollowers::stop`
(LeaderFollowers.cpp:56-60) for `_threads[k]`; blocks until the thread has
returned. -/
def join (p : LeaderFollowers) (k : Nat) : LeaderFollowers :=
  match p.threads[k]? with
  | some (some .done) => { p with threads := p.threads.set k none }
  | _ => p

/-- `LeaderFollowers::stop` run without any worker moving in between. -/
def stop (p : LeaderFollowers) : LeaderFollowers :=
  (List.range p.threads.length).foldl join (stopRequest p)

/-- Move thread `k` to `pc`. -/
def goto (p : LeaderFollowers) (k : Nat) (pc : Pc) : LeaderFollowers :=
  { p with threads := p.threads.set k (some pc) }

/-- One atomic step of pool thread `k` in `worker_loop`
(LeaderFollowers.cpp:71-123). -/
def worker_loop (p : LeaderFollowers) (k : Nat) : LeaderFollowers :=
  match p.threads[k]? with
  | none => p
  | some none => p
  | some (some pc) =>
    match pc with
    | .loopHead => p.goto k (if p.running then .acquire else .done)
    | .acquire =>
      match p.queue_mutex with
      | some _ => p
      | none => { p with queue_mutex := some k }.goto k .waiting
    | .waiting =>
      if !p.running || !p.task_queue.isEmpty then p.goto k .exitCheck
      else { p with queue_mutex := none }.goto k .acquire
    | .exitCheck =>
      if !p.running && p.task_queue.isEmpty then { p with queue_mutex := none }.goto k .done
      else p.goto k .election
    | .election =>
      -- `if (!_leader_active.exchange(true))`
      if !p.leader_active then { p with leader_active := true }.goto k .leader
      else { p with leader_active := true }.goto k (.unlock .null)
    | .leader =>
      match p.task_queue with
      | [] => p.goto k (.release .null)
      | t :: q => { p with task_queue := q, dequeued := p.dequeued ++ [t] }.goto k (.release t)
    | .release t => { p with leader_active := false }.goto k (.unlock t)
    | .unlock t => { p with queue_mutex := none }.goto k (.execute t)
    | .execute t =>
      match t with
      | .null => p.goto k .notify
      | .fn _ .ret => { p with executed := p.executed ++ [t] }.goto k .notify
      | .fn _ (.throwStd w) =>
        { p with executed := p.executed ++ [t], caught := p.caught ++ [w] }.goto k .notify
      | .fn _ .throwOther => { p with executed := p.executed ++ [t], terminated := true }
    | .notify => p.goto k .loopHead
    | .done => p

/-- One atomic step of one thread using the pool. -/
inductive Action where
  | add_task (task : Task)
  | stopRequest
  | join (k : Nat)
  | worker (k : Nat)
  deriving DecidableEq, Repr

/-- The effect of one action; nothing moves once the process is terminated. -/
def step (p : LeaderFollowers) (a : Action) : LeaderFollowers :=
  if p.terminated then p else
  match a with
  | .add_task t => add_task p t
  | .stopRequest => stopRequest p
  | .join k => join p k
  | .worker k => worker_loop p k

/-- Run a schedule. -/
def run (p : LeaderFollowers) (acts : List Action) : LeaderFollowers := acts.foldl step p

/-- The actions that are steps of a pool thread. -/
def Action.isWorker : Action → Bool
  | .worker _ => true
  | _ => false

/-- A task whose call does not throw a value foreign to `std::exception`. -/
def Task.safe : Task → Bool
  | .fn _ .throwOther => false
  | _ => true

/-- The tasks of a list that get called at line 113: all but the empty ones. -/
def called (q : List Task) : List Task := q.filter fun t => t != .null

/-- The messages the calls of a list of tasks make line 116 write. -/
def logged (q : List Task) : List String :=
  q.filterMap fun t =>
    match t with
    | .fn _ (.throwStd w) => some w
    | _ => none

end LeaderFollowers

/-! ## Graph (Graph.hpp, Graph.cpp) -/

/-- The adjacency structure of `Graph`: for each vertex the list of its entries
`(neighbour, weight)`, both C++ `int`s. -/
structure Graph where
  adjList : List (List (Int × Int))
deriving DecidableEq, Repr

/-- The number of binary digits of `q`, for `q < 2 ^ fuel`. -/
def bitLength : Nat → Nat → Nat
  | 0, _ => 0
  | fuel + 1, q => if q = 0 then 0 else bitLength fuel (q / 2) + 1

/-- The `double` nearest to the integer `z`, and of two equally near ones the
one with the even last digit: a `double` keeps 53 binary digits, so that an
integer of at most 53 digits is kept as it is and a longer one loses its last
`s` digits, rounded.  The result is an integer again. -/
def roundDouble (z : Int) : Int :=
  let q := z.natAbs
  let s := bitLength q q - 53
  let low := q % 2 ^ s
  let half := 2 ^ (s - 1)
  let m := q / 2 ^ s
  let up : Bool := decide (half < low) || (decide (low = half) && decide (m % 2 = 1))
  z.sign * (((if up then m + 1 else m) * 2 ^ s : Nat) : Int)

namespace Graph

/-- `Graph(int vertices)`: `vertices` empty lists. -/
def new (vertices : Nat) : Graph := ⟨List.replicate vertices []⟩

def getNumVertices (g : Graph) : Int := g.adjList.length

def isValidVertex (g : Graph) (v : Int) : Bool :=
  decide (0 ≤ v) && decide (v < (g.adjList.length : Int))

/-- The erase loop of `add_edge`: the first entry whose neighbour is `v` is
erased, then the loop breaks. -/
def eraseFirst (v : Int) : List (Int × Int) → List (Int × Int)
  | [] => []
  | e :: l => if e.1 = v then l else e :: eraseFirst v l

def add_edge (g : Graph) (u v weight : Int) : Graph :=
  if g.isValidVertex u && g.isValidVertex v then
    let a1 := g.adjList.modify (eraseFirst v) u.toNat
    let a2 := a1.modify (eraseFirst u) v.toNat
    let a3 := a2.modify (fun l => l ++ [(v, weight)]) u.toNat
    ⟨a3.modify (fun l => l ++ [(u, weight)]) v.toNat⟩
  else g

/-- The inner loop of `getTotalWeight` on one adjacency list:
`totalWeight += neighbor.second` on the `double` `totalWeight`, whose value
is an integer all along. -/
def addWeights (totalWeight : Int) (row : List (Int × Int)) : Int :=
  row.foldl (fun acc neighbor => roundDouble (acc + neighbor.2)) totalWeight

/-- The `double` `totalWeight` of `getTotalWeight` after the two loops, before
the division. -/
def sumWeights (g : Graph) : Int := g.adjList.foldl addWeights 0

/-- `getTotalWeight`: the weights of all entries, added one by one to a
`double` in the order of the lists, and the sum halved (halving a `double`
is exact). -/
def getTotalWeight (g : Graph) : ℚ := (g.sumWeights : ℚ) / 2

/-- The order of `std::pair<int,int>`: lexicographic. -/
def pairLe (p q : Int × Int) : Prop := p.1 < q.1 ∨ (p.1 = q.1 ∧ p.2 ≤ q.2)

instance : DecidableRel pairLe :=
  fun p q => inferInstanceAs (Decidable (p.1 < q.1 ∨ (p.1 = q.1 ∧ p.2 ≤ q.2)))

/-- `std::sort` on a vector of pairs: the sorted rearrangement. -/
def sortPairs (l : List (Int × Int)) : List (Int × Int) := l.insertionSort pairLe

/-- The loop of `compareGraphs` over the vertices, on two adjacency vectors of
the same length. -/
def compareLists : List (List (Int × Int)) → List (List (Int × Int)) → Bool
  | thisNeighbors :: as, otherNeighbors :: bs =>
    if thisNeighbors.length ≠ otherNeighbors.length then false
    else if sortPairs thisNeighbors ≠ sortPairs otherNeighbors then false
    else compareLists as bs
  | _, _ => true

def compareGraphs (a b : Graph) : Bool :=
  if a.getNumVertices ≠ b.getNumVertices then false
  else if a.getTotalWeight ≠ b.getTotalWeight then false
  else compareLists a.adjList b.adjList

end Graph

/-! ## UnionFind (MSTFactory.cpp) -/

structure UnionFind where
  parent : List Nat
  rank : List Nat
deriving DecidableEq, Repr

namespace UnionFind

/-- `UnionFind(n)`: every vertex is its own parent, with rank 0. -/
def new (n : Nat) : UnionFind := ⟨List.range n, List.replicate n 0⟩

/-- The recursion of `find`, with path compression; `fuel` bounds the depth of
the recursion, an index out of range gives `none`. -/
def findAux : Nat → UnionFind → Nat → Option (Nat × UnionFind)
  | 0, _, _ => none
  | fuel + 1, uf, u =>
    match uf.parent[u]? with
    | none => none
    | some p =>
      if u ≠ p then
        match findAux fuel uf p with
        | none => none
        | some (r, uf1) => some (r, { uf1 with parent := uf1.parent.set u r })
      else some (p, uf)

/-- `find(u)`.  Ranks grow strictly along parent links, so the recursion is
never deeper than the largest rank plus one. -/
def find (uf : UnionFind) (u : Nat) : Option (Nat × UnionFind) :=
  findAux (uf.rank.foldr max 0 + 1) uf u

def unionSets (uf : UnionFind) (u v : Nat) : Option (Bool × UnionFind) :=
  match uf.find u with
  | none => none
  | some (rootU, uf1) =>
    match uf1.find v with
    | none => none
    | some (rootV, uf2) =>
      if rootU ≠ rootV then
        match uf2.rank[rootU]?, uf2.rank[rootV]? with
        | some ru, some rv =>
          if ru > rv then some (true, { uf2 with parent := uf2.parent.set rootV rootU })
          else if ru < rv then some (true, { uf2 with parent := uf2.parent.set rootU rootV })
          else some (true, { parent := uf2.parent.set rootV rootU,
                             rank := uf2.rank.set rootU (ru + 1) })
        | _, _ => none
      else some (false, uf2)

end UnionFind

/-! ## The solvers (MSTFactory.cpp) -/

/-- The order of `std::tuple<int,int,int>`: lexicographic. -/
def tripleLe (a b : Int × Int × Int) : Prop :=
  a.1 < b.1 ∨ (a.1 = b.1 ∧ (a.2.1 < b.2.1 ∨ (a.2.1 = b.2.1 ∧ a.2.2 ≤ b.2.2)))

instance : DecidableRel tripleLe :=
  fun a b => inferInstanceAs
    (Decidable (a.1 < b.1 ∨ (a.1 = b.1 ∧ (a.2.1 < b.2.1 ∨ (a.2.1 = b.2.1 ∧ a.2.2 ≤ b.2.2)))))

/-- The edge vector of Kruskal: `(weight, u, v)` for every entry `(v, weight)`
of the list of `u` with `u < v`, in the order of the two loops; `u` is the
index of the first list. -/
def collectEdges : Nat → List (List (Int × Int)) → List (Int × Int × Int)
  | _, [] => []
  | u, l :: ls =>
    ((l.filter fun e => (u : Int) < e.1).map fun e => (e.2, (u : Int), e.1))
      ++ collectEdges (u + 1) ls

/-- The loop of Kruskal over the sorted edges. -/
def kruskalLoop : List (Int × Int × Int) → UnionFind → Graph → Int → Option (Graph × Int)
  | [], _, mst, edgeCount => some (mst, edgeCount)
  | (weight, u, v) :: es, uf, mst, edgeCount =>
    match uf.unionSets u.toNat v.toNat with
    | none => none
    | some (true, uf1) => kruskalLoop es uf1 (mst.add_edge u v weight) (edgeCount + 1)
    | some (false, uf1) => kruskalLoop es uf1 mst edgeCount

def KruskalSolver.solveMST (graph : Graph) : Option Graph :=
  match kruskalLoop ((collectEdges 0 graph.adjList).insertionSort tripleLe)
      (UnionFind.new graph.adjList.length) (Graph.new graph.adjList.length) 0 with
  | none => none
  | some (mst, edgeCount) =>
    if edgeCount < graph.getNumVertices - 1 then some (Graph.new 0) else some mst

def TarjanSolver.solveMST (graph : Graph) : Option Graph :=
  match kruskalLoop ((collectEdges 0 graph.adjList).insertionSort tripleLe)
      (UnionFind.new graph.adjList.length) (Graph.new graph.adjList.length) 0 with
  | none => none
  | some (mst, edgeCount) =>
    if edgeCount < graph.getNumVertices - 1 then some (Graph.new 0) else some mst

def INT_MAX : Int := 2147483647

/-- The order of the entries `(key, vertex)` of the priority queue. -/
def pqLe (a b : Int × Nat) : Prop := a.1 < b.1 ∨ (a.1 = b.1 ∧ a.2 ≤ b.2)

instance : DecidableRel pqLe :=
  fun a b => inferInstanceAs (Decidable (a.1 < b.1 ∨ (a.1 = b.1 ∧ a.2 ≤ b.2)))

/-- The variables of Prim; the min-priority queue is the sorted list of its
entries, `top` is the head. -/
structure PrimState where
  inMST : List Bool
  key : List Int
  parent : List Int
  pq : List (Int × Nat)
deriving DecidableEq, Repr

/-- The loop over the entries of the list of `u`. -/
def primScan (u : Nat) : List (Int × Int) → PrimState → Option PrimState
  | [], st => some st
  | (v, weight) :: l, st =>
    if v < 0 then none
    else
      match st.inMST[v.toNat]?, st.key[v.toNat]? with
      | some b, some k =>
        if b = false ∧ weight < k then
          primScan u l { st with key := st.key.set v.toNat weight,
                                 pq := st.pq.orderedInsert pqLe (weight, v.toNat),
                                 parent := st.parent.set v.toNat (u : Int) }
        else primScan u l st
      | _, _ => none

/-- The `while (!pq.empty())` loop. -/
def primLoop (adj : List (List (Int × Int))) : Nat → PrimState → Option PrimState
  | 0, _ => none
  | fuel + 1, st =>
    match st.pq with
    | [] => some st
    | (_, u) :: rest =>
      match st.inMST[u]? with
      | none => none
      | some true => primLoop adj fuel { st with pq := rest }
      | some false =>
        match adj[u]? with
        | none => none
        | some l =>
          match primScan u l { st with pq := rest, inMST := st.inMST.set u true } with
          | none => none
          | some st1 => primLoop adj fuel st1

/-- The loop `for (v = 1; v < V; ++v)` that builds the tree from `parent` and
`key`; `vs` are the values of `v` still to come. -/
def primCollect (parent key : List Int) : List Nat → Graph → Int → Option (Graph × Int)
  | [], mst, edgeCount => some (mst, edgeCount)
  | v :: vs, mst, edgeCount =>
    match parent[v]?, key[v]? with
    | some p, some k =>
      if p ≠ -1 then primCollect parent key vs (mst.add_edge p v k) (edgeCount + 1)
      else primCollect parent key vs mst edgeCount
    | _, _ => none

/-- The number of iterations of the `while` loop is at most the number of
pushes plus one, and every push but the first belongs to one entry. -/
def primFuel (graph : Graph) : Nat := (graph.adjList.map List.length).sum + 2

def PrimSolver.solveMST (graph : Graph) : Option Graph :=
  let V := graph.adjList.length
  if V = 0 then none
  else
    match primLoop graph.adjList (primFuel graph)
        { inMST := List.replicate V false, key := (List.replicate V INT_MAX).set 0 0,
          parent := List.replicate V (-1), pq := [(0, 0)] } with
    | none => none
    | some st =>
      match primCollect st.parent st.key (List.range' 1 (V - 1)) (Graph.new V) 0 with
      | none => none
      | some (mst, edgeCount) =>
        if edgeCount < (V : Int) - 1 then some (Graph.new 0) else some mst

def IntegerMSTSolver.solveMST (graph : Graph) : Option Graph :=
  let V := graph.adjList.length
  if V = 0 then none
  else
    match primLoop graph.adjList (primFuel graph)
        { inMST := List.replicate V false, key := (List.replicate V INT_MAX).set 0 0,
          parent := List.replicate V (-1), pq := [(0, 0)] } with
    | none => none
    | some st =>
      match primCollect st.parent st.key (List.range' 1 (V - 1)) (Graph.new V) 0 with
      | none => none
      | some (mst, edgeCount) =>
        if edgeCount < (V : Int) - 1 then some (Graph.new 0) else some mst

/-- One entry `(v, weight)` of the list of `u` in the search of the cheapest
edges of Boruvka. -/
def boruvkaEntry (u : Nat) (e : Int × Int) (uf : UnionFind)
    (cheapest : List (Int × Int × Int)) : Option (UnionFind × List (Int × Int × Int)) :=
  match uf.find u with
  | none => none
  | some (compU, uf1) =>
    if e.1 < 0 then none
    else
      match uf1.find e.1.toNat with
      | none => none
      | some (compV, uf2) =>
        if compU ≠ compV then
          match cheapest[compU]? with
          | none => none
          | some cu =>
            let cheapest1 :=
              if cu.1 = -1 ∨ cu.1 > e.2 then cheapest.set compU (e.2, (u : Int), e.1)
              else cheapest
            match cheapest1[compV]? with
            | none => none
            | some cv =>
              some (uf2, if cv.1 = -1 ∨ cv.1 > e.2 then cheapest1.set compV (e.2, e.1, (u : Int))
                         else cheapest1)
        else some (uf2, cheapest)

def boruvkaRow (u : Nat) : List (Int × Int) → UnionFind → List (Int × Int × Int) →
    Option (UnionFind × List (Int × Int × Int))
  | [], uf, cheapest => some (uf, cheapest)
  | e :: l, uf, cheapest =>
    match boruvkaEntry u e uf cheapest with
    | none => none
    | some (uf1, cheapest1) => boruvkaRow u l uf1 cheapest1

/-- The search of the cheapest edges: the loop over `u`, from the list of
vertex `u` on. -/
def boruvkaScan : Nat → List (List (Int × Int)) → UnionFind → List (Int × Int × Int) →
    Option (UnionFind × List (Int × Int × Int))
  | _, [], uf, cheapest => some (uf, cheapest)
  | u, l :: ls, uf, cheapest =>
    match boruvkaRow u l uf cheapest with
    | none => none
    | some (uf1, cheapest1) => boruvkaScan (u + 1) ls uf1 cheapest1

/-- The variables of Boruvka that the loops change. -/
structure BoruvkaState where
  uf : UnionFind
  mst : Graph
  numComponents : Int
  edgeCount : Int
deriving DecidableEq, Repr

/-- The loop that adds the cheapest edges; the flag is `merged`. -/
def boruvkaMerge : List (Int × Int × Int) → BoruvkaState → Bool → Option (BoruvkaState × Bool)
  | [], st, merged => some (st, merged)
  | (weight, u, v) :: cs, st, merged =>
    if weight ≠ -1 then
      if u < 0 ∨ v < 0 then none
      else
        match st.uf.unionSets u.toNat v.toNat with
        | none => none
        | some (true, uf1) =>
          boruvkaMerge cs { uf := uf1, mst := st.mst.add_edge u v weight,
                            numComponents := st.numComponents - 1,
                            edgeCount := st.edgeCount + 1 } true
        | some (false, uf1) => boruvkaMerge cs { st with uf := uf1 } merged
    else boruvkaMerge cs st merged

/-- The `while (numComponents > 1)` loop and the final test. -/
def boruvkaLoop (graph : Graph) : Nat → BoruvkaState → Option Graph
  | 0, _ => none
  | fuel + 1, st =>
    if st.numComponents > 1 then
      match boruvkaScan 0 graph.adjList st.uf
          (List.replicate graph.adjList.length (-1, -1, -1)) with
      | none => none
      | some (uf1, cheapest) =>
        match boruvkaMerge cheapest { st with uf := uf1 } false with
        | none => none
        | some (st1, merged) =>
          if merged = false ∧ st1.numComponents > 1 then some (Graph.new 0)
          else boruvkaLoop graph fuel st1
    else if st.edgeCount < (graph.adjList.length : Int) - 1 then some (Graph.new 0)
    else some st.mst

/-- Every round of the `while` loop that does not return lowers `numComponents`,
which starts at `V`. -/
def BoruvkaSolver.solveMST (graph : Graph) : Option Graph :=
  let V := graph.adjList.length
  boruvkaLoop graph (V + 1)
    { uf := UnionFind.new V, mst := Graph.new V, numComponents := V, edgeCount := 0 }

/-! ## The graphs of MST_Tests.cpp -/

/-- The graph on `n` vertices built by one `add_edge(u, v, w)` call for each
`(u, v, w)` of the list, in order. -/
def Graph.ofEdges (n : Nat) (es : List (Int × Int × Int)) : Graph :=
  es.foldl (fun g e => g.add_edge e.1 e.2.1 e.2.2) (Graph.new n)

/-- "Test MST with an undirected graph of 3 vertices". -/
def test3 : Graph := Graph.ofEdges 3 [(0, 1, 2), (1, 2, 3), (0, 2, 10)]

def expected3 : Graph := Graph.ofEdges 3 [(0, 1, 2), (1, 2, 3)]

/-- "Test MST with an undirected graph of 5 vertices". -/
def test5 : Graph :=
  Graph.ofEdges 5 [(0, 1, 2), (1, 2, 3), (0, 3, 6), (1, 4, 5), (3, 1, 8), (4, 2, 7)]

def expected5 : Graph := Graph.ofEdges 5 [(0, 1, 2), (1, 2, 3), (0, 3, 6), (1, 4, 5)]

/-- "Test MST with an undirected graph of 6 vertices". -/
def test6 : Graph :=
  Graph.ofEdges 6 [(0, 1, 6), (1, 3, 2), (3, 5, 8), (5, 4, 8), (4, 0, 9), (2, 0, 3),
    (2, 1, 4), (2, 3, 2), (2, 5, 9), (2, 4, 9)]

def expected6 : Graph :=
  Graph.ofEdges 6 [(3, 1, 2), (3, 2, 2), (3, 5, 8), (5, 4, 8), (2, 0, 3)]

/-- "Test MST with a disconnected graph of 6 vertices". -/
def testDisconnected : Graph := Graph.ofEdges 6 [(0, 1, 6), (2, 3, 2), (4, 5, 8)]

/-- "MST: Total Weight Calculation". -/
def testWeight : Graph := Graph.ofEdges 4 [(0, 1, 10), (0, 2, 5), (1, 2, 7), (2, 3, 3)]

/-- Two vertices joined by an edge of weight -1. -/
def minusOneGraph : Graph := Graph.ofEdges 2 [(0, 1, -1)]

/-- Two vertices joined by an edge of weight `INT_MAX`. -/
def intMaxGraph : Graph := Graph.ofEdges 2 [(0, 1, 2147483647)]

/-! ## The orders of the sorts -/

instance Graph.pairLe_total : IsTotal (Int × Int) Graph.pairLe :=
  ⟨fun p q => by unfold Graph.pairLe; omega⟩

instance Graph.pairLe_trans : IsTrans (Int × Int) Graph.pairLe :=
  ⟨fun p q r => by unfold Graph.pairLe; omega⟩

instance Graph.pairLe_antisymm : IsAntisymm (Int × Int) Graph.pairLe :=
  ⟨fun p q h1 h2 => by
    unfold Graph.pairLe at h1 h2
    exact Prod.ext (by omega) (by omega)⟩

instance tripleLe_total : IsTotal (Int × Int × Int) tripleLe :=
  ⟨fun a b => by unfold tripleLe; omega⟩

instance tripleLe_trans : IsTrans (Int × Int × Int) tripleLe :=
  ⟨fun a b c => by unfold tripleLe; omega⟩

instance pqLe_total : IsTotal (Int × Nat) pqLe :=
  ⟨fun a b => by unfold pqLe; omega⟩

instance pqLe_trans : IsTrans (Int × Nat) pqLe :=
  ⟨fun a b c => by unfold pqLe; omega⟩

/-! ## Graphs as the claims speak of them -/

/-- An undirected edge `(u, v, w)` between the vertices `u` and `v`, of
weight `w`. -/
abbrev Edge := Nat × Nat × Int

/-- The vertices that the edges of `E` join, directly or through a chain. -/
def Reach (E : List Edge) : Nat → Nat → Prop :=
  Relation.EqvGen fun a b => ∃ w, (a, b, w) ∈ E

/-- The sum of the weights of the edges of `E`. -/
def totalWeight (E : List Edge) : Int := (E.map fun e => e.2.2).sum

/-- The list of vertex `u` has the entry `(v, w)`. -/
def Graph.HasEdge (g : Graph) (u v : Nat) (w : Int) : Prop :=
  ((v : Int), w) ∈ g.adjList.getD u []

instance (g : Graph) (u v : Nat) (w : Int) : Decidable (g.HasEdge u v w) :=
  inferInstanceAs (Decidable (((v : Int), w) ∈ g.adjList.getD u []))

/-- The adjacency lists describe an undirected graph: every entry `(v, w)` of
the list of `u` names a vertex `v`, whose list has the entry `(u, w)`. -/
def Graph.Undirected (g : Graph) : Prop :=
  ∀ u < g.adjList.length, ∀ e ∈ g.adjList.getD u [],
    0 ≤ e.1 ∧ ((u : Int), e.2) ∈ g.adjList.getD e.1.toNat []

instance (g : Graph) : Decidable g.Undirected :=
  inferInstanceAs (Decidable (∀ u < g.adjList.length, ∀ e ∈ g.adjList.getD u [],
    0 ≤ e.1 ∧ ((u : Int), e.2) ∈ g.adjList.getD e.1.toNat []))

/-- The vertices joined by a chain of entries of the graph. -/
def Graph.Joined (g : Graph) : Nat → Nat → Prop :=
  Relation.EqvGen fun a b => ∃ w, g.HasEdge a b w

/-- Every two vertices are joined. -/
def Graph.Connected (g : Graph) : Prop :=
  ∀ u v, u < g.adjList.length → v < g.adjList.length → g.Joined u v

/-- The number of edges of an undirected graph: every edge has two entries. -/
def Graph.numEdges (g : Graph) : Nat := (g.adjList.map List.length).sum / 2

/-- A spanning tree of `g`, as the list of its edges: one edge less than there
are vertices, every edge an entry of `g`, all the vertices joined. -/
def Graph.IsSpanningTree (g : Graph) (T : List Edge) : Prop :=
  T.length + 1 = g.adjList.length
  ∧ (∀ e ∈ T, g.HasEdge e.1 e.2.1 e.2.2)
  ∧ ∀ u v, u < g.adjList.length → v < g.adjList.length → Reach T u v

/-- Edge lists without a cycle: every edge joins two classes of the edges
that follow it in the list. -/
def IsForest : List Edge → Prop
  | [] => True
  | e :: E => ¬ Reach E e.1 e.2.1 ∧ IsForest E

/-- The least vertex of every class of `E`, among the vertices below `n`. -/
def leastSet (n : Nat) (E : List Edge)
    [DecidablePred fun x => ∀ y, y < x → ¬ Reach E x y] : Finset Nat :=
  (Finset.range n).filter fun x => ∀ y, y < x → ¬ Reach E x y

/-- The number of classes into which `E` divides the vertices below `n`. -/
def classCount (n : Nat) (E : List Edge)
    [DecidablePred fun x => ∀ y, y < x → ¬ Reach E x y] : Nat :=
  (leastSet n E).card

/-- The edges of `E` of weight at most `t`. -/
def lightEdges (t : Int) (E : List Edge) : List Edge := E.filter fun e => e.2.2 ≤ t

/-- The states of a `UnionFind` over `n` vertices whose classes are those of
`f`: `f u` is the root of `u`; parent links stay in the class and climb in
rank. -/
def UnionFind.Inv (n : Nat) (uf : UnionFind) (f : Nat → Nat) : Prop :=
  uf.parent.length = n ∧ uf.rank.length = n ∧
  ∀ u < n, f u < n ∧ uf.parent[f u]? = some (f u) ∧
    ∃ p, uf.parent[u]? = some p ∧ p < n ∧ f p = f u ∧ (p = u → f u = u) ∧
      (p ≠ u → uf.rank.getD u 0 < uf.rank.getD p 0)

/-- The sum of the weights of all entries, as an integer without rounding:
what `getTotalWeight` adds up, were its sum not a `double`. -/
def Graph.weightSum (g : Graph) : Int :=
  (g.adjList.map fun l => (l.map Prod.snd).sum).sum

/-- The weight of an undirected graph: the sum of the weights of its edges,
which is half the sum of its entries, as a number without rounding. -/
def Graph.edgeWeight (g : Graph) : ℚ := (g.weightSum : ℚ) / 2

/-- The sum of the absolute values of the weights of all entries.  While it
is at most 2^53 every sum that `getTotalWeight` forms is a `double`. -/
def Graph.absWeightSum (g : Graph) : Nat :=
  (g.adjList.map fun l => (l.map fun e => e.2.natAbs).sum).sum

/-- The graph `mst` on `n` vertices holds exactly the edges of `A`, each as
two entries. -/
def Graph.IsGraphOf (n : Nat) (mst : Graph) (A : List Edge) : Prop :=
  mst.adjList.length = n ∧ mst.weightSum = 2 * totalWeight A
  ∧ (mst.adjList.map List.length).sum = 2 * A.length
  ∧ (∀ (u : Nat) (e : Int × Int), e ∈ mst.adjList.getD u [] →
      ∃ v : Nat, e.1 = (v : Int) ∧ ((u, v, e.2) ∈ A ∨ (v, u, e.2) ∈ A))
  ∧ (∀ e ∈ A, mst.HasEdge e.1 e.2.1 e.2.2 ∧ mst.HasEdge e.2.1 e.1 e.2.2)

/-- What the claims say of the graph `mst` that a solver returns for the
connected graph `g`: as many vertices as `g`; an undirected graph with one
edge less than vertices; every entry an entry of `g`, with its weight; all
the vertices joined; no spanning tree of `g` weighs less; and `mst` holds
exactly the edges of a spanning tree of `g`. -/
def Graph.IsMinSpanningTreeOf (mst g : Graph) : Prop :=
  mst.adjList.length = g.adjList.length
  ∧ mst.Undirected
  ∧ (mst.adjList.map List.length).sum = 2 * (g.adjList.length - 1)
  ∧ mst.numEdges = g.adjList.length - 1
  ∧ (∀ u v w, mst.HasEdge u v w → g.HasEdge u v w)
  ∧ mst.Connected
  ∧ (∀ T, g.IsSpanningTree T → mst.edgeWeight ≤ (totalWeight T : ℚ))
  ∧ ∃ T, g.IsSpanningTree T ∧ mst.IsGraphOf g.adjList.length T

/-- Every edge of the list was, when it was chosen, a lightest edge of `g`
leaving a set of vertices that none of the edges chosen before it (those that
follow it in the list) leaves. -/
def CutGreedy (g : Graph) : List Edge → Prop
  | [] => True
  | e :: A => CutGreedy g A ∧ ∃ S : Nat → Prop, S e.1 ∧ ¬ S e.2.1
      ∧ (∀ e' ∈ A, (S e'.1 ↔ S e'.2.1))
      ∧ ∀ a b w, g.HasEdge a b w → S a → ¬ S b → e.2.2 ≤ w

/-! ## The states of Prim -/

/-- Vertex `v` has been taken into the tree. -/
def PrimState.inTree (st : PrimState) (v : Nat) : Prop := st.inMST[v]? = some true

/-- The key of vertex `v`. -/
def PrimState.keyOf (st : PrimState) (v : Nat) : Int := st.key.getD v INT_MAX

/-- The entries that the loops of Prim have still to look at: those of the
vertices outside the tree. -/
def primPending : List (List (Int × Int)) → List Bool → Nat
  | l :: ls, b :: bs => (if b then 0 else l.length) + primPending ls bs
  | _, _ => 0

/-- The edges that the last loop of Prim adds, for the vertices `vs`: the newest
first. -/
def primEdges (parent key : List Int) : List Nat → List Edge → List Edge
  | [], acc => acc
  | v :: vs, acc =>
    match parent[v]?, key[v]? with
    | some p, some k =>
      if p ≠ -1 then primEdges parent key vs ((p.toNat, v, k) :: acc)
      else primEdges parent key vs acc
    | _, _ => primEdges parent key vs acc

/-- The states of Prim between two steps: `A` holds the edge by which every
vertex of the tree but vertex 0 was taken in; `done a e` tells the entries `e`
of the tree vertices `a` that the scan has been through. -/
structure PrimInv (g : Graph) (st : PrimState) (A : List Edge)
    (done : Nat → Int × Int → Prop) : Prop where
  len_inMST : st.inMST.length = g.adjList.length
  len_key : st.key.length = g.adjList.length
  len_parent : st.parent.length = g.adjList.length
  sorted : st.pq.Sorted pqLe
  root : st.inTree 0
  root_parent : st.parent[0]? = some (-1)
  key_le : ∀ v, st.keyOf v ≤ INT_MAX
  queue : ∀ e ∈ st.pq, e.2 < g.adjList.length
    ∧ (¬ st.inTree e.2 → st.keyOf e.2 ≤ e.1 ∧ st.keyOf e.2 < INT_MAX)
  seen : ∀ a b w, st.inTree a → g.HasEdge a b w → done a ((b : Int), w) → ¬ st.inTree b →
    st.keyOf b ≤ w
  outside : ∀ v, v < g.adjList.length → ¬ st.inTree v →
    (st.keyOf v = INT_MAX ∧ st.parent[v]? = some (-1))
    ∨ ∃ p : Nat, st.parent[v]? = some (p : Int) ∧ st.inTree p ∧ g.HasEdge p v (st.keyOf v)
        ∧ (st.keyOf v, v) ∈ st.pq
  inside : ∀ v, st.inTree v → v ≠ 0 →
    ∃ p : Nat, st.parent[v]? = some (p : Int) ∧ (p, v, st.keyOf v) ∈ A
  edges : ∀ e ∈ A, st.inTree e.1 ∧ st.inTree e.2.1 ∧ e.2.1 ≠ 0
    ∧ st.parent[e.2.1]? = some (e.1 : Int) ∧ st.keyOf e.2.1 = e.2.2
    ∧ g.HasEdge e.1 e.2.1 e.2.2
  forest : IsForest A
  joined : ∀ a b, st.inTree a → st.inTree b → Reach A a b
  greedy : (∀ a b w, g.HasEdge a b w → w < INT_MAX) → CutGreedy g A

/-! ## The states of Boruvka -/

/-- A slot of `cheapest`, for the class of root `r` in the classes of `f`:
either still the initial triple or an edge of `g` that leaves the class. -/
def SlotOk (g : Graph) (f : Nat → Nat) (r : Nat) (c : Int × Int × Int) : Prop :=
  c = (-1, -1, -1) ∨ ∃ a b : Nat, c.2.1 = (a : Int) ∧ c.2.2 = (b : Int) ∧ g.HasEdge a b c.1
    ∧ f a = r ∧ f b ≠ r

/-- The vector `cheapest` during the search: `done u e` tells the entries `e`
of the list of `u` that the search has been through. -/
structure ScanInv (g : Graph) (f : Nat → Nat) (cheapest : List (Int × Int × Int))
    (done : Nat → Int × Int → Prop) : Prop where
  len : cheapest.length = g.adjList.length
  sound : ∀ r c, cheapest[r]? = some c → SlotOk g f r c
  least : (∀ a b w, g.HasEdge a b w → 0 ≤ w) →
    ∀ u v w, g.HasEdge u v w → done u ((v : Int), w) → f u ≠ f v →
      ∀ r, r = f u ∨ r = f v → ∃ c, cheapest[r]? = some c ∧ c.1 ≠ -1 ∧ c.1 ≤ w

/-- The states of Boruvka between two rounds: `A` holds the edges added so
far, `f` gives the root of every vertex. -/
structure BoruvkaInv (g : Graph) (st : BoruvkaState) (A : List Edge) (f : Nat → Nat) :
    Prop where
  uf : UnionFind.Inv g.adjList.length st.uf f
  classes : ∀ x y, x < g.adjList.length → y < g.adjList.length → (f x = f y ↔ Reach A x y)
  graph : st.mst.IsGraphOf g.adjList.length A
  forest : IsForest A
  edges : ∀ e ∈ A, e.1 < g.adjList.length ∧ e.2.1 < g.adjList.length
    ∧ g.HasEdge e.1 e.2.1 e.2.2
  count : st.edgeCount = (A.length : Int)
  comps : st.numComponents = (g.adjList.length : Int) - (A.length : Int)
  greedy : (∀ a b w, g.HasEdge a b w → 0 ≤ w) → CutGreedy g A

/-- The states of Boruvka inside the loop that adds the cheapest edges, before
slot `i`: `f` and `A0` are the roots and the edges at the start of the round,
`f1` and `A` the present ones. -/
structure MergeInv (g : Graph) (f : Nat → Nat) (A0 : List Edge)
    (cheapest : List (Int × Int × Int)) (i : Nat) (st : BoruvkaState) (merged : Bool)
    (A : List Edge) (f1 : Nat → Nat) : Prop where
  inv : BoruvkaInv g st A f1
  coarser : ∀ x y, x < g.adjList.length → y < g.adjList.length → f x = f y → f1 x = f1 y
  grow : A0.length ≤ A.length
  merged_true : merged = true → A0.length < A.length
  merged_false : merged = false → A = A0
    ∧ (∀ x y, x < g.adjList.length → y < g.adjList.length → f1 x = f1 y → f x = f y)
    ∧ ∀ r c, r < i → cheapest[r]? = some c → c.1 = -1
  single : ∀ r1 r2, i ≤ r1 → i ≤ r2 → r1 < g.adjList.length → r2 < g.adjList.length →
    f r1 = r1 → f r2 = r2 → f1 r1 = f1 r2 → r1 = r2
  light : (∀ a b w, g.HasEdge a b w → 0 ≤ w) →
    ∀ r c, i ≤ r → r < g.adjList.length → cheapest[r]? = some c → c.1 ≠ -1 →
      ∀ x y w, g.HasEdge x y w → f1 x = f1 r → f x ≠ f y → c.1 ≤ w

/-! ## The other operations of Graph (Graph.cpp) -/

namespace Graph

/-- `remove_edge(u, v)`: with two valid vertices, the first entry of `u` that
names `v` is erased, then the first entry of `v` that names `u`. -/
def remove_edge (g : Graph) (u v : Int) : Graph :=
  if g.isValidVertex u && g.isValidVertex v then
    let a1 := g.adjList.modify (eraseFirst v) u.toNat
    ⟨a1.modify (eraseFirst u) v.toNat⟩
  else g

/-- A loop of `changeEdgeWeight` over one list: every entry that names `v`
gets the weight `newWeight`. -/
def setWeight (v newWeight : Int) (l : List (Int × Int)) : List (Int × Int) :=
  l.map fun neighbor => if neighbor.1 = v then (neighbor.1, newWeight) else neighbor

def changeEdgeWeight (g : Graph) (u v newWeight : Int) : Graph :=
  if g.isValidVertex u && g.isValidVertex v then
    let a1 := g.adjList.modify (setWeight v newWeight) u.toNat
    ⟨a1.modify (setWeight u newWeight) v.toNat⟩
  else g

/-- A call of one of the three operations that change a graph. -/
inductive Op where
  | add_edge (u v weight : Int)
  | remove_edge (u v : Int)
  | changeEdgeWeight (u v newWeight : Int)
deriving DecidableEq, Repr

def applyOp (g : Graph) : Op → Graph
  | Op.add_edge u v weight => g.add_edge u v weight
  | Op.remove_edge u v => g.remove_edge u v
  | Op.changeEdgeWeight u v newWeight => g.changeEdgeWeight u v newWeight

/-- The graph obtained from `Graph(n)` by the calls of `ops`, in order. -/
def runOps (n : Nat) (ops : List Op) : Graph := ops.foldl applyOp (Graph.new n)

/-- The weights of the entries of the list of `u` that name `v`, in the order
of the list. -/
def between (g : Graph) (u : Nat) (v : Int) : List Int :=
  ((g.adjList.getD u []).filter fun e => decide (e.1 = v)).map Prod.snd

/-- The entries of the list `l` of vertex `u` that stand for an edge whose
other end is not below `u`: the entries that name a larger vertex, and every
second entry that names `u` itself (a loop has two entries in one list). -/
def rowEdges (u : Nat) (l : List (Int × Int)) : List Edge :=
  ((l.filter fun e => decide ((u : Int) < e.1)).map fun e => (u, e.1.toNat, e.2))
  ++ ((l.filter fun e => decide (e.1 = (u : Int))).tail.map fun e => (u, u, e.2))

/-- The undirected edges of the graph, each listed once, from its smaller
end. -/
def edges (g : Graph) : List Edge :=
  (List.range g.adjList.length).flatMap fun u => rowEdges u (g.adjList.getD u [])

/-- The shape of the adjacency lists of an undirected graph: every entry
names a vertex; two different vertices have at most one entry for each other,
of the same weight in both lists; a vertex has no entry for itself, or two of
the same weight. -/
structure WellFormed (g : Graph) : Prop where
  valid : ∀ (u : Nat) (e : Int × Int), e ∈ g.adjList.getD u [] →
    0 ≤ e.1 ∧ e.1 < (g.adjList.length : Int)
  symm : ∀ u v : Nat, u ≠ v → g.between u v = g.between v u
  single : ∀ u v : Nat, u ≠ v → (g.between u v).length ≤ 1
  loops : ∀ u : Nat, g.between u u = [] ∨ ∃ w, g.between u u = [w, w]

end Graph

/-- "Graph: Adding Edges": the calls of the test on `Graph g(4)`. -/
def testAddOps : List Graph.Op :=
  [Graph.Op.add_edge 0 1 10, Graph.Op.add_edge 0 2 5, Graph.Op.add_edge 1 2 7]

/-- "Graph: Recalculate Total Weight": the calls of the test on `Graph g(3)`. -/
def testRecalculateOps : List Graph.Op :=
  [Graph.Op.add_edge 0 1 4, Graph.Op.add_edge 1 2 6, Graph.Op.changeEdgeWeight 0 1 8,
    Graph.Op.remove_edge 1 2]

/-! ## The analysis of the MST (Graph.cpp) -/

/-- The sum of two `int`s: it wraps around modulo 2^32. -/
def addInt (a b : Int) : Int := (a + b + 2147483648) % 4294967296 - 2147483648

/-- What the lambda `dfs` of `farthestFrom` reads and writes: the vectors
`visited`, `distance` and `parents`, and `maxDistance`, `farthestNode`. -/
structure DfsState where
  visited : List Bool
  distance : List Int
  parents : List Int
  maxDistance : Int
  farthestNode : Nat
deriving DecidableEq, Repr

/-- The loop of `dfs(node)` over the entries of the list of `node` that are
left, `visited[node]` being set.  `len weight` is what an entry of weight
`weight` adds to the distance: 1 in `getTreeDepthPath_MST`, `weight` in
`getMaxWeightPath_MST`.  An index out of range gives `none`; `fuel` bounds the
number of nested steps. -/
def dfsLoop (adj : List (List (Int × Int))) (len : Int → Int) :
    Nat → Nat → List (Int × Int) → DfsState → Option DfsState
  | _, _, [], st => some st
  | 0, _, _ :: _, _ => none
  | fuel + 1, node, (v, weight) :: rest, st =>
    if v < 0 then none
    else
      match st.visited[v.toNat]? with
      | none => none
      | some true => dfsLoop adj len fuel node rest st
      | some false =>
        match st.distance[node]?, adj[v.toNat]? with
        | some d, some l =>
          match dfsLoop adj len fuel v.toNat l
              { st with parents := st.parents.set v.toNat (node : Int)
                        distance := st.distance.set v.toNat (addInt d (len weight))
                        visited := st.visited.set v.toNat true } with
          | none => none
          | some st1 =>
            match st1.distance[v.toNat]? with
            | none => none
            | some dv =>
              if dv > st1.maxDistance then
                dfsLoop adj len fuel node rest
                  { st1 with maxDistance := dv, farthestNode := v.toNat }
              else dfsLoop adj len fuel node rest st1
        | _, _ => none

/-- Every step of `dfs` handles one entry of the list of a visited vertex, or
visits a vertex: there are no more such steps than entries and vertices. -/
def dfsFuel (adj : List (List (Int × Int))) : Nat := (adj.map fun l => l.length + 1).sum

/-- The search of the lambda `farthestFrom(start)`: `dfs(start)` on fresh
vectors `visited` and `distance`, with the vector `parents` as it is. -/
def farthestFrom (adj : List (List (Int × Int))) (len : Int → Int) (parents : List Int)
    (start : Nat) : Option DfsState :=
  match adj[start]? with
  | none => none
  | some l =>
    dfsLoop adj len (dfsFuel adj) start l
      { visited := (List.replicate adj.length false).set start true
        distance := List.replicate adj.length 0
        parents := parents
        maxDistance := 0
        farthestNode := start }

/-- The loop `for (int v = farthestNode; v != -1; v = parents[v])` of
`getTreeDepthPath_MST`, which pushes `v` on `path`. -/
def climb (parents : List Int) : Nat → Int → Option (List Int)
  | 0, v => if v = -1 then some [] else none
  | fuel + 1, v =>
    if v = -1 then some []
    else if v < 0 then none
    else
      match parents[v.toNat]? with
      | none => none
      | some p =>
        match climb parents fuel p with
        | none => none
        | some path => some (v :: path)

/-- The vector `path` of `getTreeDepthPath_MST` after `farthestFrom(0)`. -/
def treeDepthPath (mst : Graph) : Option (List Int) :=
  match farthestFrom mst.adjList (fun _ => 1) (List.replicate mst.adjList.length (-1)) 0 with
  | none => none
  | some st =>
    match climb st.parents (mst.adjList.length + 1) (st.farthestNode : Int) with
    | none => none
    | some path => some path.reverse

/-- The string "0->9->..." made of `path`. -/
def showPath (path : List Int) : String := "->".intercalate (path.map toString)

/-- `getTreeDepthPath_MST()`, as a function of the graph that the field `mst`
points to (`none`: a null pointer). -/
def getTreeDepthPath_MST (mst : Option Graph) : Option String :=
  match mst with
  | none => none
  | some m =>
    if m.getNumVertices = 0 then some ""
    else
      match treeDepthPath m with
      | none => none
      | some path => some (showPath path)

/-- The loops of `getMaxWeightEdge_MST` over the entries of the list of `i`:
the state is `(maxWeightEdge, u, v)`. -/
def maxEdgeRow (i : Int) : List (Int × Int) → Int × Int × Int → Int × Int × Int
  | [], acc => acc
  | edge :: rest, (maxWeightEdge, u, v) =>
    if edge.2 > maxWeightEdge then maxEdgeRow i rest (edge.2, i, edge.1)
    else maxEdgeRow i rest (maxWeightEdge, u, v)

def maxEdgeRows : Nat → List (List (Int × Int)) → Int × Int × Int → Int × Int × Int
  | _, [], acc => acc
  | i, l :: ls, acc => maxEdgeRows (i + 1) ls (maxEdgeRow (i : Int) l acc)

/-- The values `(maxWeightEdge, u, v)` that `getMaxWeightEdge_MST` prints. -/
def maxWeightEdge (mst : Graph) : Int × Int × Int := maxEdgeRows 0 mst.adjList (0, -1, -1)

def getMaxWeightEdge_MST (mst : Option Graph) : Option String :=
  match mst with
  | none => none
  | some m =>
    match maxWeightEdge m with
    | (w, u, v) =>
      some ("Vertex " ++ toString u ++ " <----(" ++ toString w ++ ")----> Vertex " ++ toString v)

/-- The loop `for (int v = end; v != -1; v = parents[v])` of
`getMaxWeightPath_MST`, which pushes on `maxPath` the parent `u` of `v` with
the weight of the first entry for `v` in the list of `u`. -/
def rebuild (adj : List (List (Int × Int))) (parents : List Int) :
    Nat → Int → Option (List (Int × Int))
  | 0, v => if v = -1 then some [] else none
  | fuel + 1, v =>
    if v = -1 then some []
    else if v < 0 then none
    else
      match parents[v.toNat]? with
      | none => none
      | some u =>
        match rebuild adj parents fuel u with
        | none => none
        | some maxPath =>
          if u ≠ -1 then
            if u < 0 then none
            else
              match adj[u.toNat]? with
              | none => none
              | some l =>
                match l.find? fun edge => decide (edge.1 = v) with
                | some edge => some ((u, edge.2) :: maxPath)
                | none => some maxPath
          else some maxPath

/-- The vector `maxPath` and the vertex `end` of `getMaxWeightPath_MST`. -/
def maxWeightPath (mst : Graph) : Option (List (Int × Int) × Int) :=
  match farthestFrom mst.adjList (fun weight => weight)
      (List.replicate mst.adjList.length (-1)) 0 with
  | none => none
  | some st1 =>
    match farthestFrom mst.adjList (fun weight => weight)
        (List.replicate mst.adjList.length (-1)) st1.farthestNode with
    | none => none
    | some st2 =>
      match rebuild mst.adjList st2.parents (mst.adjList.length + 1) (st2.farthestNode : Int) with
      | none => none
      | some maxPath => some (maxPath.reverse, (st2.farthestNode : Int))

/-- The string "Heaviest path: u --(w)--> ... end". -/
def showMaxPath (maxPath : List (Int × Int)) (endVertex : Int) : String :=
  "Heaviest path: "
    ++ String.join (maxPath.map fun p => toString p.1 ++ " --(" ++ toString p.2 ++ ")--> ")
    ++ toString endVertex

def getMaxWeightPath_MST (mst : Option Graph) : Option String :=
  match mst with
  | none => none
  | some m =>
    if m.getNumVertices = 0 then some "Empty graph"
    else
      match maxWeightPath m with
      | none => none
      | some (maxPath, endVertex) => some (showMaxPath maxPath endVertex)

/-! ## Trees and their paths -/

/-- The graph holds a tree: its entries are those of a list of edges, one
less than there are vertices, that joins all the vertices. -/
def Graph.IsTree (t : Graph) : Prop :=
  ∃ A : List Edge, t.IsGraphOf t.adjList.length A ∧ A.length + 1 = t.adjList.length
    ∧ ∀ u v, u < t.adjList.length → v < t.adjList.length → Reach A u v

/-- A path of the graph: the vertices `vs` in a row, each joined to the next
by an entry of the graph, whose weights in the same order are `ws`. -/
def Graph.IsPath (t : Graph) : List Nat → List Int → Prop
  | [v], [] => v < t.adjList.length
  | u :: v :: vs, w :: ws => t.HasEdge u v w ∧ t.IsPath (v :: vs) ws
  | _, _ => False

/-- A path in a list of edges, each taken in either direction. -/
def PathE (E : List Edge) : List Nat → List Int → Prop
  | [_], [] => True
  | u :: v :: vs, w :: ws => ((u, v, w) ∈ E ∨ (v, u, w) ∈ E) ∧ PathE E (v :: vs) ws
  | _, _ => False

/-- The vertices of the tree with root `r` whose edges `(parent, child,
weight)` are those of `B`. -/
def treeVerts (r : Nat) (B : List Edge) : List Nat := r :: B.map fun e => e.2.1

/-- The list `B` builds a tree from the root `r`, the last edge first: every
edge hangs a new vertex, its child, on a vertex that is there already. -/
def LeafOrder (r : Nat) : List Edge → Prop
  | [] => True
  | e :: B => e.1 ∈ treeVerts r B ∧ e.2.1 ∉ treeVerts r B ∧ LeafOrder r B

/-- The distance between `x` and `y` in the tree built by `B`, an edge of
weight `w` being `len w` long. -/
def treeDist (len : Int → Int) : List Edge → Nat → Nat → Int
  | [], _, _ => 0
  | (p, c, w) :: B, x, y =>
    if x = c then (if y = c then 0 else len w + treeDist len B p y)
    else if y = c then len w + treeDist len B x p
    else treeDist len B x y

/-- The way from the root down to `x` in the tree built by `B`: each vertex
before `x` with the weight of the edge that leaves it. -/
def chainPairs : List Edge → Nat → List (Int × Int)
  | [], _ => []
  | (p, c, w) :: B, x => if x = c then chainPairs B p ++ [((p : Int), w)] else chainPairs B x

/-- The steps that a search may still have to make: one for every vertex that
is not visited, and one for each of its entries. -/
def unvisitedCost (adj : List (List (Int × Int))) (visited : List Bool) : Nat :=
  ∑ x in Finset.range adj.length,
    if visited.getD x true = true then 0 else (adj.getD x []).length + 1

/-- The states of the search from `r`: the visited vertices are those of the
tree built by `B`, whose edges are entries of the graph; `distance` holds the
distances from `r` in that tree and `parents` its parents; `farthestNode` is
a visited vertex at the distance `maxDistance`. -/
structure DfsInv (adj : List (List (Int × Int))) (len : Int → Int) (r : Nat)
    (st : DfsState) (B : List Edge) : Prop where
  hv : st.visited.length = adj.length
  hd : st.distance.length = adj.length
  hp : st.parents.length = adj.length
  order : LeafOrder r B
  bound : ∀ x ∈ treeVerts r B, x < adj.length
  vis : ∀ x, st.visited[x]? = some true ↔ x ∈ treeVerts r B
  edge : ∀ e ∈ B, ((e.2.1 : Int), e.2.2) ∈ adj.getD e.1 []
  dist : ∀ x ∈ treeVerts r B, st.distance[x]? = some (treeDist len B r x)
  par : st.parents[r]? = some (-1) ∧ ∀ e ∈ B, st.parents[e.2.1]? = some (e.1 : Int)
  far : st.farthestNode ∈ treeVerts r B ∧ st.maxDistance = treeDist len B r st.farthestNode

/-- What a graph that holds a tree gives to the searches. -/
structure TreeFacts (t : Graph) : Prop where
  names : ∀ (u : Nat) (e : Int × Int), e ∈ t.adjList.getD u [] →
    0 ≤ e.1 ∧ e.1.toNat < t.adjList.length
  symm : ∀ u v w, t.HasEdge u v w → t.HasEdge v u w
  joined : ∀ (S : Nat → Prop), (∀ u v w, t.HasEdge u v w → S u → S v) →
    ∀ r x, r < t.adjList.length → x < t.adjList.length → S r → S x
  covers : ∀ (r : Nat) (B : List Edge), LeafOrder r B →
    (∀ x, x < t.adjList.length → x ∈ treeVerts r B) →
    (∀ e ∈ B, t.HasEdge e.1 e.2.1 e.2.2) →
    ∀ u v w, t.HasEdge u v w → (u, v, w) ∈ B ∨ (v, u, w) ∈ B

/-- A path of two edges of weight 2^30. -/
def overflowTree : Graph := Graph.ofEdges 3 [(0, 1, 1073741824), (1, 2, 1073741824)]

/-- The vertex 0 joined to the vertices 1 and 2. -/
def starTree : Graph := Graph.ofEdges 3 [(0, 1, 1), (0, 2, 1)]


/-! ## Calls of `UnionFind` (MSTFactory.cpp:231-265) -/

namespace UnionFind

/-- A call of one of the two public methods of `UnionFind`. -/
inductive Call where
  | find (u : Nat)
  | unionSets (u v : Nat)
deriving DecidableEq, Repr

/-- The state that a call leaves behind; `none` when the call reads a vector
out of range. -/
def applyCall (uf : UnionFind) : Call → Option UnionFind
  | .find u => (uf.find u).map Prod.snd
  | .unionSets u v => (uf.unionSets u v).map Prod.snd

/-- The state after the calls of the list, made in order on `uf`. -/
def runCallsFrom (uf : UnionFind) : List Call → Option UnionFind
  | [] => some uf
  | c :: cs =>
    match uf.applyCall c with
    | none => none
    | some uf1 => runCallsFrom uf1 cs

/-- The state after `UnionFind(n)` and the calls of the list, in order. -/
def runCalls (n : Nat) (calls : List Call) : Option UnionFind :=
  runCallsFrom (UnionFind.new n) calls

/-- The vertex reached from `u` by following `k` parent links. -/
def ancestor (uf : UnionFind) : Nat → Nat → Nat
  | 0, u => u
  | k + 1, u => ancestor uf k (uf.parent.getD u u)

end UnionFind

/-! ## `Solve` and `displayMST` (Graph.cpp:164-182, 403-413) -/

/-- The object `Graph` with the two fields that `Solve` reads and writes next
to the adjacency lists: `_algorithmChoice`, and `mst`, a `std::unique_ptr`
that is `none` while it is null. -/
structure GraphObject where
  graph : Graph
  _algorithmChoice : String
  mst : Option Graph
deriving DecidableEq, Repr

namespace GraphObject

/-- The object that `std::make_unique<Graph>(size)` builds in the servers:
`_algorithmChoice` has its default `"prim"`, `mst` is null. -/
def new (vertices : Nat) : GraphObject := ⟨Graph.new vertices, "prim", none⟩

/-- The solver that `Solve` makes for `_algorithmChoice`; `none` is the null
`algo`. -/
def algo (_algorithmChoice : String) : Option (Graph → Option Graph) :=
  if _algorithmChoice = "prim" then some PrimSolver.solveMST
  else if _algorithmChoice = "kruskal" then some KruskalSolver.solveMST
  else if _algorithmChoice = "boruvka" then some BoruvkaSolver.solveMST
  else if _algorithmChoice = "tarjan" then some TarjanSolver.solveMST
  else if _algorithmChoice = "integer_mst" then some IntegerMSTSolver.solveMST
  else none

/-- `Graph::Solve` (Graph.cpp:403-413); `none` when the solver reads out of
range. -/
def Solve (o : GraphObject) : Option GraphObject :=
  if o.graph.getNumVertices = 0 then some o
  else
    match algo o._algorithmChoice with
    | none => some o
    | some solveMST =>
      match solveMST o.graph with
      | none => none
      | some t => some { o with mst := some t }

/-- The fifteen blanks that start every line of the display. -/
def indent : String := String.mk (List.replicate 15 ' ')

/-- The lines that the display writes for the entries of the list of `i`. -/
def displayRow (i : Nat) (l : List (Int × Int)) : String :=
  String.join ((l.filter fun neighbor => (i : Int) < neighbor.1).map fun neighbor =>
    indent ++ "Vertex " ++ toString i ++ " <----(" ++ toString neighbor.2
      ++ ")----> Vertex " ++ toString neighbor.1 ++ "\n")

/-- The text of `displayGraph` and of `displayMST` below its first line. -/
def displayBody (g : Graph) : String :=
  indent ++ "Vertices in the graph: "
    ++ String.join ((List.range g.adjList.length).map fun i => toString i ++ " ")
    ++ "\n" ++ indent ++ "Connections between vertices (undirected edges):\n"
    ++ String.join (g.adjList.enum.map fun il => displayRow il.1 il.2)

/-- `Graph::displayMST` (Graph.cpp:164-182): it calls `Solve`, then reads
`this->mst->getNumVertices()`; `none` when `mst` is null at that point. -/
def displayMST (o : GraphObject) : Option (String × GraphObject) :=
  match o.Solve with
  | none => none
  | some o1 =>
    match o1.mst with
    | none => none
    | some t =>
      some (indent ++ "---------------MST Representation----------------------\n"
        ++ displayBody t, o1)

/-- The state of the `graph` object of a connection of the server after
`create n`, the edge commands `ops` and a last `algo name` command with one
of the names that the server accepts. -/
def served (n : Nat) (ops : List Graph.Op) (name : String) : GraphObject :=
  ⟨Graph.runOps n ops, name, none⟩

/-- The five algorithm names that the `algo` command of the servers accepts. -/
def algorithmNames : List String := ["prim", "kruskal", "boruvka", "tarjan", "integer_mst"]

end GraphObject

/-! ## `getAverageDistance_MST` (Graph.cpp:338-368) -/

/-- The element `dist[i][j]` of the matrix. -/
def entry (dist : List (List Int)) (i j : Nat) : Int := (dist.getD i []).getD j 0

/-- The assignment `dist[i][j] = x`. -/
def store (dist : List (List Int)) (i j : Nat) (x : Int) : List (List Int) :=
  dist.modify (fun row => row.set j x) i

/-- The loop over the entries of the list of `i` that fills row `i`; an entry
that names no vertex writes out of range. -/
def initRow (i : Nat) : List (Int × Int) → List (List Int) → Option (List (List Int))
  | [], dist => some dist
  | neighbor :: l, dist =>
    if 0 ≤ neighbor.1 ∧ neighbor.1 < (dist.length : Int) then
      initRow i l (store dist i neighbor.1.toNat neighbor.2)
    else none

/-- The first loop: `dist[i][i] = 0`, then the entries of the list of `i`, for
the lists from the one of vertex `i` on. -/
def initRows : Nat → List (List (Int × Int)) → List (List Int) → Option (List (List Int))
  | _, [], dist => some dist
  | i, l :: ls, dist =>
    match initRow i l (store dist i i 0) with
    | none => none
    | some dist1 => initRows (i + 1) ls dist1

/-- The body of the three loops of Floyd and Warshall. -/
def relax (k i j : Nat) (dist : List (List Int)) : List (List Int) :=
  if entry dist i k < INT_MAX ∧ entry dist k j < INT_MAX then
    store dist i j (min (entry dist i j) (addInt (entry dist i k) (entry dist k j)))
  else dist

/-- The three loops over `k`, `i` and `j`. -/
def floydWarshall (n : Nat) (dist : List (List Int)) : List (List Int) :=
  (List.range n).foldl
    (fun d k => (List.range n).foldl
      (fun d i => (List.range n).foldl (fun d j => relax k i j d) d) d) dist

/-- The body of the loops that add the distances up: `acc` holds
`sumDistances` and `count`. -/
def addPair (dist : List (List Int)) (i : Nat) (acc : Int × Int) (j : Nat) : Int × Int :=
  if entry dist i j < INT_MAX then (addInt acc.1 (entry dist i j), addInt acc.2 1) else acc

/-- The loops over `i` and over `j` from `i + 1` on. -/
def pairTotals (n : Nat) (dist : List (List Int)) : Int × Int :=
  (List.range n).foldl
    (fun acc i => (List.range' (i + 1) (n - (i + 1))).foldl (addPair dist i) acc) (0, 0)

/-- The values of `sumDistances` and `count` at the `return` of
`getAverageDistance_MST`, for the graph that `mst` points to. -/
def averageTotals (t : Graph) : Option (Int × Int) :=
  match initRows 0 t.adjList
      (List.replicate t.adjList.length (List.replicate t.adjList.length INT_MAX)) with
  | none => none
  | some dist => some (pairTotals t.adjList.length (floydWarshall t.adjList.length dist))

/-- The quotient of the `double`s `a` and `b`, for `int`s `a` and `b > 0`: the
number with 53 significant binary digits nearest to `a / b`, the one with an
even last digit when two are as near; the result is the first component
times two to the power of the second component, divided by `2 ^ 84`. -/
def divDoubleParts (a b : Int) : Int × Nat :=
  let q := a.natAbs * 2 ^ 84 / b.natAbs
  let r := a.natAbs * 2 ^ 84 % b.natAbs
  let s := bitLength 128 q - 53
  let low := q % 2 ^ s
  let half := 2 ^ (s - 1)
  let m := q / 2 ^ s
  let up : Bool := decide (half < low) || (decide (low = half) && (decide (r ≠ 0) || decide (m % 2 = 1)))
  (a.sign * ((if up then m + 1 else m : Nat) : Int), s)

/-- The value of the quotient `static_cast<double>(a) / b`. -/
def divDouble (a b : Int) : ℚ :=
  ((divDoubleParts a b).1 : ℚ) * 2 ^ (divDoubleParts a b).2 / 2 ^ 84

/-- `Graph::getAverageDistance_MST`, for the pointee `mst` of the field (`none`
is the null pointer): the value of the `double` returned. -/
def getAverageDistance_MST : Option Graph → Option ℚ
  | none => none
  | some t =>
    match averageTotals t with
    | none => none
    | some (sumDistances, count) =>
      some (if count > 0 then divDouble sumDistances count else 0)

/-- The tree of two vertices joined by an edge of weight `INT_MAX`. -/
def maxEdgeTree : Graph := Graph.ofEdges 2 [(0, 1, 2147483647)]

/-- The tree of two vertices joined by an edge of weight 2^30. -/
def halfEdgeTree : Graph := Graph.ofEdges 2 [(0, 1, 1073741824)]

/-- The matrix has `n` rows of `n` elements. -/
def Square (n : Nat) (dist : List (List Int)) : Prop :=
  dist.length = n ∧ ∀ row ∈ dist, row.length = n

/-- What the loops of Floyd and Warshall need of the distances `d` of a tree on
the vertices below `n`, and of its distances `h` counted in edges. -/
structure TreeMetric (n : Nat) (d h : Nat → Nat → Int) : Prop where
  nonneg : ∀ x y, 0 ≤ d x y
  fits : ∀ x y, x < n → y < n → 2 * d x y ≤ INT_MAX
  self : ∀ x, d x x = 0
  triangle : ∀ x y k, d x y ≤ d x k + d k y
  additive : ∀ x y k, x < n → y < n → k < n → h x y = h x k + h k y →
    d x y = d x k + d k y
  hop_self : ∀ x, h x x = 0
  hop_comm : ∀ x y, h x y = h y x
  hop_pos : ∀ x y, x < n → y < n → x ≠ y → 1 ≤ h x y
  hop_triangle : ∀ x y k, h x y ≤ h x k + h k y
  hop_split : ∀ x y k v, h x y = h x v + h v y →
    h x k = h x v + h v k ∨ h k y = h k v + h v y

/-- The vertex `v` lies on the way from `x` to `y`, and is neither of them. -/
def Inside (h : Nat → Nat → Int) (n : Nat) (v x y : Nat) : Prop :=
  v < n ∧ v ≠ x ∧ v ≠ y ∧ h x y = h x v + h v y

/-- The matrix between two steps of round `K` of the loops of Floyd and
Warshall on a tree: an element is `INT_MAX` or the distance; it is the
distance when only vertices below `K` lie on the way, and only if none above
`K` does; the elements `done` have had their step of round `K`. -/
structure FwInv (n : Nat) (d h : Nat → Nat → Int) (K : Nat) (done : Nat → Nat → Prop)
    (dist : List (List Int)) : Prop where
  square : Square n dist
  exact : ∀ i j, i < n → j < n → entry dist i j = INT_MAX ∨ entry dist i j = d i j
  found : ∀ i j, i < n → j < n → (∀ v, Inside h n v i j → v < K) → entry dist i j < INT_MAX
  only : ∀ i j, i < n → j < n → entry dist i j < INT_MAX → ∀ v, Inside h n v i j → v ≤ K
  finished : ∀ i j, i < n → j < n → done i j → (∀ v, Inside h n v i j → v ≤ K) →
    entry dist i j < INT_MAX

/-- The sum of `pw i j` over the pairs `i < j` of vertices below `n`. -/
def pairSum (n : Nat) (pw : Nat → Nat → Int) : Int :=
  ((List.range n).map fun i => ((List.range' (i + 1) (n - (i + 1))).map (pw i)).sum).sum

/-- The number `r` is, among the numbers with at most 53 significant binary
digits (the values of `double`, exponent range apart), one nearest to `x`. -/
def NearestDouble (x r : ℚ) : Prop :=
  (∃ (M : Int) (E F : Nat), M.natAbs ≤ 2 ^ 53 ∧ r = (M : ℚ) * 2 ^ E / 2 ^ F)
  ∧ ∀ (M : Int) (E F : Nat), M.natAbs ≤ 2 ^ 53 → |r - x| ≤ |(M : ℚ) * 2 ^ E / 2 ^ F - x|

/-- The weights of the ways between the vertices of the tree 0-1:2, 1-2:3. -/
def expected3Weights (i j : Nat) : Int :=
  if i = 0 ∧ j = 1 then 2 else if i = 1 ∧ j = 2 then 3 else 5

/-- The calls `add_edge(0, 1, W)`, ..., `add_edge(0, m, W)`, which join vertex 0
to the vertices 1 to `m` by edges of weight `W`. -/
def starOps (m : Nat) (W : Int) : List Graph.Op :=
  (List.range m).map fun i => Graph.Op.add_edge ((0 : Nat) : Int) ((i + 1 : Nat) : Int) W

/-- The adjacency lists after the calls of `starOps`: the list of vertex 0, the
lists of the vertices 1 to `m`, and the lists `tail` of the other vertices. -/
def starRows (m : Nat) (W : Int) (tail : List (List (Int × Int))) : List (List (Int × Int)) :=
  ((List.range m).map fun i => (((i + 1 : Nat) : Int), W))
    :: (List.replicate m [(((0 : Nat) : Int), W)] ++ tail)

/-! ## Predicates used in the statements -/

/-- The queue discipline of one object: what was dequeued, followed by what is
still queued, is what was enqueued. -/
def Fifo (o : ActiveObject) : Prop := o.dequeued ++ o.tasks = o.enqueued

/-- The chain of a pipeline: stage `i` points to stage `i + 1`, the last stage
to nothing. -/
def Pipeline.Chained (s : Sys) : Prop :=
  ∀ (i : Nat) (o : ActiveObject), s.heap[i]? = some o →
    o.nextStage = if i + 1 < s.heap.length then some (i + 1) else none

/-- The string a task returns; the empty string for a task that does not return. -/
def Task.result (t : Task) : String :=
  match t.call with
  | some (.ret r) => r
  | _ => ""

/-- The task a worker has dequeued and not yet called. -/
def ActiveObject.inHand (o : ActiveObject) : List Task :=
  match o.workerThread with
  | some (.exec t) => [t]
  | _ => []

/-- The result a worker has computed and not yet relayed. -/
def ActiveObject.toRelay (o : ActiveObject) : List String :=
  match o.workerThread with
  | some (.relay r) => [r]
  | _ => []

/-- The results executed so far by the stage before stage `j`. -/
def Pipeline.prevExecuted (s : Sys) : Nat → List String
  | 0 => []
  | j + 1 =>
    match s.heap[j]? with
    | some p => p.executed
    | none => []

/-- The result the stage before stage `j` is about to relay, if any. -/
def Pipeline.prevToRelay (s : Sys) : Nat → List String
  | 0 => []
  | j + 1 =>
    match s.heap[j]? with
    | some p => p.toRelay
    | none => []

/-- What holds of stage `j` of a pipeline built from tasks returning `rs` while
it runs: the queue is first-in first-out, every task enqueued returns, the
results executed are those of the tasks dequeued (the one in hand apart), and
the tasks enqueued are the stage's own task followed by the relays of what
the previous stage executed (the one it is about to relay apart). -/
structure Pipeline.StageOk (rs : List String) (s : Sys) (j : Nat) (o : ActiveObject) : Prop where
  fifo : Fifo o
  returns : ∀ t ∈ o.enqueued, ∃ r, t.call = some (.ret r)
  finished : ∃ d, o.dequeued = d ++ o.inHand ∧ d.map Task.result = o.executed
  fed : ∃ r, rs[j]? = some r ∧
    o.enqueued ++ (Pipeline.prevToRelay s j).map Task.relay
      = Task.user (.ret r) :: (Pipeline.prevExecuted s j).map Task.relay

/-- The invariant of a running pipeline built from tasks returning `rs`. -/
def Pipeline.RelayInv (rs : List String) (s : Sys) : Prop :=
  s.heap.length = rs.length ∧ Pipeline.Chained s ∧
  ∀ (j : Nat) (o : ActiveObject), s.heap[j]? = some o → Pipeline.StageOk rs s j o

/-- The actions of a run of a started pipeline: starting a stage, a worker step. -/
def PAction.isRun : PAction → Bool
  | .start _ => true
  | .worker _ => true
  | _ => false

/-- Nothing is left to do: every queue is empty and no worker holds a task or
a result. -/
def Pipeline.quiescent (s : Sys) : Bool :=
  s.heap.all fun o =>
    o.tasks.isEmpty &&
      match o.workerThread with
      | some (.exec _) => false
      | some (.relay _) => false
      | _ => true

/-- The tasks registered on a pipeline whose stages return `rs`. -/
def Pipeline.tasksOf (rs : List String) : List Task := rs.map fun r => Task.user (.ret r)

/-- The state of a pipeline right after `addTask` was called with tasks
returning `rs`: stage `j` is a fresh object holding its task, chained to the
next one. -/
def Pipeline.Built (rs : List String) (s : Sys) : Prop :=
  s.terminated = false ∧ s.heap.length = rs.length ∧
  ∀ (j : Nat) (o : ActiveObject), s.heap[j]? = some o →
    ∃ r, rs[j]? = some r ∧
      o = { ActiveObject.fresh with
              tasks := [Task.user (.ret r)], enqueued := [Task.user (.ret r)],
              nextStage := if j + 1 < rs.length then some (j + 1) else none }

/-- Every stage is started and its worker stands idle at the loop head; every
queued task returns; the stages before `j` have an empty queue. -/
def Pipeline.Ready (n j : Nat) (s : Sys) : Prop :=
  s.terminated = false ∧ s.heap.length = n ∧ Pipeline.Chained s ∧
  ∀ (i : Nat) (o : ActiveObject), s.heap[i]? = some o →
    o.running = true ∧ o.workerThread = some .head
      ∧ (∀ t ∈ o.tasks, ∃ r, t.call = some (.ret r)) ∧ (i < j → o.tasks = [])

/-- The stages before `k` are started, the others not yet; every queued task
returns. -/
def Pipeline.StartedUpTo (n k : Nat) (s : Sys) : Prop :=
  s.terminated = false ∧ s.heap.length = n ∧ Pipeline.Chained s ∧
  ∀ (i : Nat) (o : ActiveObject), s.heap[i]? = some o →
    (∀ t ∈ o.tasks, ∃ r, t.call = some (.ret r))
      ∧ (i < k → o.running = true ∧ o.workerThread = some .head)
      ∧ (k ≤ i → o.workerThread = none)

/-- A schedule for three stages: `Pipeline::start`, then the three workers in
turn, fourteen times. -/
def Pipeline.roundRobin3 : List PAction :=
  [.start 0, .start 1, .start 2]
    ++ (List.replicate 14 [PAction.worker 0, .worker 1, .worker 2]).flatten

namespace LeaderFollowers

/-- The positions at which a pool thread holds `_queue_mutex`. -/
def Pc.inCritical : Pc → Bool
  | .waiting => true
  | .exitCheck => true
  | .election => true
  | .leader => true
  | .release _ => true
  | .unlock _ => true
  | _ => false

/-- The positions inside the block guarded by the leader flag
(LeaderFollowers.cpp:88-100). -/
def Pc.inLeaderBlock : Pc → Bool
  | .leader => true
  | .release _ => true
  | _ => false

/-- The mutex is held exactly by the thread that stands in the critical
section. -/
def MutexInv (ts : List (Option Pc)) (m : Option Nat) : Prop :=
  (∀ (k : Nat) (pc : Pc), ts[k]? = some (some pc) → (pc.inCritical = true ↔ m = some k))
  ∧ ∀ k : Nat, m = some k → ∃ pc, ts[k]? = some (some pc)

/-- The leader flag is set exactly while a thread is inside the leader block. -/
def FlagInv (ts : List (Option Pc)) (f : Bool) : Prop :=
  f = true ↔ ∃ (k : Nat) (pc : Pc), ts[k]? = some (some pc) ∧ pc.inLeaderBlock = true

/-- What a thread knows about the queue at its position: after the wait, the
pool is stopping or the queue is not empty; after the exit check, the queue
is not empty. -/
def Pc.queueOk (pc : Pc) (q : List Task) (running : Bool) : Prop :=
  match pc with
  | .exitCheck => running = false ∨ q ≠ []
  | .election => q ≠ []
  | .leader => q ≠ []
  | _ => True

/-- Every thread's knowledge about the queue is right. -/
def QueueInv (ts : List (Option Pc)) (q : List Task) (running : Bool) : Prop :=
  ∀ (k : Nat) (pc : Pc), ts[k]? = some (some pc) → pc.queueOk q running

/-- The invariant of a pool. -/
def Inv (p : LeaderFollowers) : Prop :=
  MutexInv p.threads p.queue_mutex ∧ FlagInv p.threads p.leader_active
    ∧ QueueInv p.threads p.task_queue p.running
    ∧ p.dequeued ++ p.task_queue = p.enqueued

end LeaderFollowers

/-- A schedule of a pool of two threads: a task is submitted, thread 0 starts
an iteration, `stop()` clears the flag, thread 0 completes its iteration
(executing the task) and leaves, thread 1 leaves, and both are joined. -/
def LeaderFollowers.stopDemo : List LeaderFollowers.Action :=
  [.add_task (.fn 0 .ret), .worker 0, .stopRequest]
    ++ List.replicate 10 (.worker 0) ++ [.worker 1, .join 0, .join 1]

/-- A schedule of a pool: two tasks are submitted, the first one throwing a
`std::exception`, and thread 0 runs up to the call of the first task. -/
def LeaderFollowers.throwDemo : List LeaderFollowers.Action :=
  [.add_task (.fn 0 (.throwStd "boom")), .add_task (.fn 1 .ret)]
    ++ List.replicate 8 (.worker 0)

/-- The same schedule with a first task that throws a value of another type,
thread 0 making the call as well. -/
def LeaderFollowers.foreignThrowDemo : List LeaderFollowers.Action :=
  [.add_task (.fn 0 .throwOther), .add_task (.fn 1 .ret)]
    ++ List.replicate 9 (.worker 0)

/-- A task whose call throws. -/
def Task.throws (t : Task) : Bool :=
  match t.call with
  | some (.throwStd _) => true
  | some .throwOther => true
  | _ => false

/-! ## Basic facts about the heap and schedules -/

theorem Sys.heap_modify (s : Sys) (i : Nat) (f : ActiveObject → ActiveObject) (j : Nat) :
    (s.modify i f).heap[j]? = (s.heap[j]?).map (fun a => if i = j then f a else a) := by
  simp [Sys.modify, List.getElem?_modify]

theorem Sys.heap_modify_self (s : Sys) (i : Nat) (f : ActiveObject → ActiveObject) :
    (s.modify i f).heap[i]? = (s.heap[i]?).map f := by
  simp [Sys.heap_modify]

theorem Sys.heap_modify_ne (s : Sys) {i j : Nat} (f : ActiveObject → ActiveObject) (h : i ≠ j) :
    (s.modify i f).heap[j]? = s.heap[j]? := by
  simp [Sys.heap_modify, h]

@[simp] theorem Sys.terminated_modify (s : Sys) (i : Nat) (f : ActiveObject → ActiveObject) :
    (s.modify i f).terminated = s.terminated := rfl

@[simp] theorem Sys.length_modify (s : Sys) (i : Nat) (f : ActiveObject → ActiveObject) :
    (s.modify i f).heap.length = s.heap.length := by
  simp [Sys.modify]

@[simp] theorem run_nil (s : Sys) : run s [] = s := rfl

@[simp] theorem run_cons (s : Sys) (a : Action) (acts : List Action) :
    run s (a :: acts) = run (step s a) acts := rfl

theorem run_append (s : Sys) (xs ys : List Action) :
    run s (xs ++ ys) = run (run s xs) ys := by
  simp [run, List.foldl_append]

/-- A property of single objects that every modification keeps is kept by
`Sys.modify`. -/
theorem Sys.forall_modify {P : ActiveObject → Prop} (s : Sys) (i : Nat)
    (f : ActiveObject → ActiveObject)
    (hf : ∀ o, s.heap[i]? = some o → P o → P (f o))
    (h : ∀ (j : Nat) (o : ActiveObject), s.heap[j]? = some o → P o) :
    ∀ (j : Nat) (o : ActiveObject), (s.modify i f).heap[j]? = some o → P o := by
  intro j o ho
  rw [Sys.heap_modify] at ho
  cases hj : s.heap[j]? with
  | none => simp [hj] at ho
  | some a =>
    simp only [hj, Option.map_some', Option.some.injEq] at ho
    by_cases hij : i = j
    · subst hij
      simp only [if_true] at ho
      subst ho
      exact hf a hj (h _ a hj)
    · simp only [hij, if_false] at ho
      subst ho
      exact h j a hj

theorem ActiveObject.heap_create (s : Sys) (j : Nat) (o : ActiveObject)
    (h : (ActiveObject.create s).heap[j]? = some o) :
    s.heap[j]? = some o ∨ o = ActiveObject.fresh := by
  simp only [ActiveObject.create, List.getElem?_append] at h
  split at h
  · exact Or.inl h
  · right
    have hm := List.getElem?_mem h
    simpa using hm

theorem fifo_step (s : Sys) (a : Action) (h : ∀ (j : Nat) (o : ActiveObject), s.heap[j]? = some o → Fifo o) :
    ∀ (j : Nat) (o : ActiveObject), (step s a).heap[j]? = some o → Fifo o := by
  unfold step
  split
  · exact h
  cases a with
  | create =>
    intro j o ho
    rcases ActiveObject.heap_create s j o ho with h1 | h1
    · exact h j o h1
    · subst h1
      simp [Fifo, ActiveObject.fresh]
  | enqueue i t =>
    refine Sys.forall_modify (P := Fifo) _ _ _ ?_ h
    intro o _ ho
    simp only [Fifo] at ho ⊢
    simp [← ho]
  | setNextStage i n =>
    exact Sys.forall_modify _ _ _ (fun o _ ho => ho) h
  | start i =>
    simp only [ActiveObject.start]
    split
    · exact h
    · split
      · exact Sys.forall_modify _ _ _ (fun o _ ho => ho) h
      · exact Sys.forall_modify _ _ _ (fun o _ ho => ho) h
  | stopRequest i =>
    exact Sys.forall_modify _ _ _ (fun o _ ho => ho) h
  | stopJoin i =>
    refine Sys.forall_modify (P := Fifo) _ _ _ ?_ h
    intro o _ ho
    split
    · exact ho
    · exact ho
  | worker i =>
    simp only [ActiveObject.workerStep]
    split
    · exact h
    · rename_i o hi
      split
      · exact h
      · exact h
      · exact Sys.forall_modify _ _ _ (fun o _ ho => ho) h
      · split
        · split
          · exact h
          · exact Sys.forall_modify _ _ _ (fun o _ ho => ho) h
        · rename_i t q hq
          refine Sys.forall_modify (P := Fifo) _ _ _ ?_ h
          intro o' ho' hf
          rw [hi] at ho'
          simp only [Option.some.injEq] at ho'
          subst ho'
          simp only [Fifo] at hf ⊢
          simp [← hf, hq]
      · split
        · exact Sys.forall_modify _ _ _ (fun o _ ho => ho) h
        · exact Sys.forall_modify _ _ _ (fun o _ ho => ho) h
        · exact h
      · have h1 := Sys.forall_modify (P := Fifo) s i
          (fun o => { o with workerThread := some .head }) (fun o _ ho => ho) h
        split
        · exact h1
        · refine Sys.forall_modify (P := Fifo) _ _ _ ?_ h1
          intro o _ ho
          simp only [Fifo] at ho ⊢
          simp [← ho]

theorem fifo_run (acts : List Action) (s : Sys) (h : ∀ (j : Nat) (o : ActiveObject), s.heap[j]? = some o → Fifo o) :
    ∀ (j : Nat) (o : ActiveObject), (run s acts).heap[j]? = some o → Fifo o := by
  induction acts generalizing s with
  | nil => exact h
  | cons a acts ih => exact ih (step s a) (fifo_step s a h)

/-! ## The worker of an ActiveObject, one position at a time -/

theorem step_worker (s : Sys) (i : Nat) (h : s.terminated = false) :
    step s (.worker i) = ActiveObject.workerStep s i := by
  simp [step, h]


theorem ActiveObject.workerStep_head (s : Sys) (i : Nat) (o : ActiveObject)
    (ho : s.heap[i]? = some o) (hpc : o.workerThread = some .head) :
    ActiveObject.workerStep s i
      = s.modify i fun o => { o with workerThread := some (if o.running then .wait else .done) } := by
  simp [ActiveObject.workerStep, ho, hpc]

theorem ActiveObject.workerStep_wait_cons (s : Sys) (i : Nat) (o : ActiveObject) (t : Task)
    (q : List Task) (ho : s.heap[i]? = some o) (hpc : o.workerThread = some .wait)
    (hq : o.tasks = t :: q) :
    ActiveObject.workerStep s i
      = s.modify i fun o => { o with tasks := o.tasks.tail, dequeued := o.dequeued ++ [t],
                                     workerThread := some (.exec t) } := by
  simp [ActiveObject.workerStep, ho, hpc, hq]

theorem ActiveObject.workerStep_exec_ret (s : Sys) (i : Nat) (o : ActiveObject) (t : Task)
    (r : String) (ho : s.heap[i]? = some o) (hpc : o.workerThread = some (.exec t))
    (hcall : t.call = some (.ret r)) :
    ActiveObject.workerStep s i
      = s.modify i fun o => { o with executed := o.executed ++ [r],
                                     workerThread := some (.relay r) } := by
  simp [ActiveObject.workerStep, ho, hpc, hcall]

theorem ActiveObject.workerStep_relay (s : Sys) (i : Nat) (o : ActiveObject) (r : String)
    (ho : s.heap[i]? = some o) (hpc : o.workerThread = some (.relay r)) :
    ActiveObject.workerStep s i
      = match o.nextStage with
        | none => s.modify i fun o => { o with workerThread := some .head }
        | some j => ActiveObject.enqueue
            (s.modify i fun o => { o with workerThread := some .head }) j (.relay r) := by
  simp only [ActiveObject.workerStep, ho, hpc]

/-! ## What the operations leave alone -/

theorem Sys.modify_field {β : Type} (g : ActiveObject → β) (s : Sys) (i : Nat)
    (f : ActiveObject → ActiveObject) (hf : ∀ a, g (f a) = g a) (j : Nat) :
    ((s.modify i f).heap[j]?).map g = (s.heap[j]?).map g := by
  rw [Sys.heap_modify]
  cases s.heap[j]? with
  | none => rfl
  | some a =>
    simp only [Option.map_some', Option.some.injEq]
    split
    · exact hf a
    · rfl

/-- A worker step changes no field other than the queue, the histories and the
position of the worker. -/
theorem ActiveObject.workerStep_frame {β : Type} (g : ActiveObject → β)
    (hg : ∀ (a : ActiveObject) (q : List Task) (w : Option WorkerPc) (e d : List Task)
      (x : List String),
      g { a with tasks := q, workerThread := w, enqueued := e, dequeued := d, executed := x }
        = g a)
    (s : Sys) (i j : Nat) :
    ((ActiveObject.workerStep s i).heap[j]?).map g = (s.heap[j]?).map g := by
  simp only [ActiveObject.workerStep]
  split
  · rfl
  · split
    · rfl
    · rfl
    · exact Sys.modify_field g _ _ _ (fun a => hg a _ _ _ _ _) j
    · split
      · split
        · rfl
        · exact Sys.modify_field g _ _ _ (fun a => hg a _ _ _ _ _) j
      · exact Sys.modify_field g _ _ _ (fun a => hg a _ _ _ _ _) j
    · split
      · exact Sys.modify_field g _ _ _ (fun a => hg a _ _ _ _ _) j
      · exact Sys.modify_field g _ _ _ (fun a => hg a _ _ _ _ _) j
      · rfl
    · split
      · exact Sys.modify_field g _ _ _ (fun a => hg a _ _ _ _ _) j
      · simp only [ActiveObject.enqueue]
        rw [Sys.modify_field g _ _ _ (fun a => hg a _ _ _ _ _) j]
        exact Sys.modify_field g _ _ _ (fun a => hg a _ _ _ _ _) j

theorem ActiveObject.workerStep_length (s : Sys) (i : Nat) :
    (ActiveObject.workerStep s i).heap.length = s.heap.length := by
  have h := fun j => ActiveObject.workerStep_frame (fun _ => ()) (fun _ _ _ _ _ _ => rfl) s i j
  apply Nat.le_antisymm
  · by_contra hlt
    have h1 := h s.heap.length
    rw [List.getElem?_eq_none (Nat.le_refl _)] at h1
    rw [List.getElem?_eq_getElem (by omega)] at h1
    simp at h1
  · by_contra hlt
    have h1 := h (ActiveObject.workerStep s i).heap.length
    rw [List.getElem?_eq_none (Nat.le_refl _)] at h1
    rw [List.getElem?_eq_getElem (by omega)] at h1
    simp at h1

/-- Every pipeline action other than `addTask` keeps the number of stages and
every successor pointer. -/
theorem Pipeline.step_nextStage (s : Sys) (a : PAction) (hne : ∀ t, a ≠ .addTask t) :
    (Pipeline.step s a).heap.length = s.heap.length
    ∧ ∀ j : Nat, ((Pipeline.step s a).heap[j]?).map (fun o => o.nextStage)
        = (s.heap[j]?).map (fun o => o.nextStage) := by
  unfold Pipeline.step
  split
  · exact ⟨rfl, fun _ => rfl⟩
  cases a with
  | addTask t => exact absurd rfl (hne t)
  | start k =>
    simp only [ActiveObject.start]
    split
    · exact ⟨rfl, fun _ => rfl⟩
    · split
      · exact ⟨by simp, fun j => Sys.modify_field (fun o => o.nextStage) _ _ _ (by intro _; rfl) j⟩
      · exact ⟨by simp, fun j => Sys.modify_field (fun o => o.nextStage) _ _ _ (by intro _; rfl) j⟩
  | executeFront =>
    simp only [Pipeline.executeFront, ActiveObject.enqueue]
    split
    · exact ⟨rfl, fun _ => rfl⟩
    · exact ⟨by simp, fun j => Sys.modify_field (fun o => o.nextStage) _ _ _ (by intro _; rfl) j⟩
  | executeBack =>
    simp only [Pipeline.executeBack, ActiveObject.enqueue]
    split
    · exact ⟨rfl, fun _ => rfl⟩
    · exact ⟨by simp, fun j => Sys.modify_field (fun o => o.nextStage) _ _ _ (by intro _; rfl) j⟩
  | stopRequest k =>
    simp only [ActiveObject.stopRequest]
    exact ⟨by simp, fun j => Sys.modify_field (fun o => o.nextStage) _ _ _ (by intro _; rfl) j⟩
  | stopJoin k =>
    simp only [ActiveObject.stopJoin]
    refine ⟨by simp, fun j => Sys.modify_field (fun o => o.nextStage) _ _ _ ?_ j⟩
    intro a
    split <;> rfl
  | worker k =>
    exact ⟨ActiveObject.workerStep_length s k,
      fun j => ActiveObject.workerStep_frame (fun o => o.nextStage)
        (fun _ _ _ _ _ _ => rfl) s k j⟩

/-- The heap after `Pipeline::addTask`, looked up at any address. -/
theorem Pipeline.heap_addTask (s : Sys) (t : Task) (j : Nat) :
    (Pipeline.addTask s t).heap[j]?
      = if j = s.heap.length then
          some { ActiveObject.fresh with tasks := [t], enqueued := [t] }
        else if j + 1 = s.heap.length then
          (s.heap[j]?).map fun o => { o with nextStage := some s.heap.length }
        else s.heap[j]? := by
  simp only [Pipeline.addTask, ActiveObject.enqueue, ActiveObject.setNextStage,
    ActiveObject.create]
  by_cases h0 : s.heap.length = 0
  · simp only [h0, if_true]
    rw [Sys.heap_modify]
    have hnil : s.heap = [] := List.length_eq_zero.mp h0
    simp only [hnil, List.nil_append]
    cases j with
    | zero => simp [ActiveObject.fresh]
    | succ j => simp
  · simp only [h0, if_false]
    rw [Sys.heap_modify, Sys.heap_modify]
    simp only [List.getElem?_append]
    by_cases h1 : j = s.heap.length
    · subst h1
      have : ¬ (s.heap.length - 1 = s.heap.length) := by omega
      simp [this, ActiveObject.fresh]
    · simp only [h1, if_false]
      by_cases h2 : j < s.heap.length
      · simp only [h2, if_true]
        have h3 : ¬ (s.heap.length = j) := fun h => h1 h.symm
        by_cases h4 : j + 1 = s.heap.length
        · have h5 : s.heap.length - 1 = j := by omega
          simp only [h4, h5, if_true, h3, if_false, Option.map_map]
          cases s.heap[j]? <;> simp
        · have h5 : ¬ (s.heap.length - 1 = j) := by omega
          simp only [h4, h5, if_false, h3, Option.map_map]
          cases s.heap[j]? <;> simp
      · have h3 : ¬ (j + 1 = s.heap.length) := by omega
        have h4 : s.heap[j]? = none := List.getElem?_eq_none (by omega)
        have h5 : ([ActiveObject.fresh] : List ActiveObject)[j - s.heap.length]? = none :=
          List.getElem?_eq_none (by simp; omega)
        simp [h2, h3, h4, h5]

theorem Pipeline.length_addTask (s : Sys) (t : Task) :
    (Pipeline.addTask s t).heap.length = s.heap.length + 1 := by
  simp only [Pipeline.addTask, ActiveObject.enqueue, ActiveObject.setNextStage,
    ActiveObject.create]
  split <;> simp

theorem Pipeline.chained_step (s : Sys) (a : PAction) (h : Pipeline.Chained s) :
    Pipeline.Chained (Pipeline.step s a) := by
  by_cases hadd : ∃ t, a = .addTask t
  · obtain ⟨t, rfl⟩ := hadd
    unfold Pipeline.step
    split
    · exact h
    intro i o ho
    rw [Pipeline.heap_addTask] at ho
    rw [Pipeline.length_addTask]
    split at ho
    · rename_i hi
      cases ho
      simp [hi, ActiveObject.fresh]
    · split at ho
      · rename_i hi1 hi2
        cases hs : s.heap[i]? with
        | none => simp [hs] at ho
        | some a =>
          simp only [hs, Option.map_some', Option.some.injEq] at ho
          subst ho
          have : i + 1 < s.heap.length + 1 := by omega
          simp [this, hi2]
      · rename_i hi1 hi2
        have hlt : i < s.heap.length := by
          have := (List.getElem?_eq_some_iff.mp ho).1
          exact this
        have h1 := h i o ho
        have h2 : i + 1 < s.heap.length := by omega
        have h3 : i + 1 < s.heap.length + 1 := by omega
        simp only [h2, if_true] at h1
        simp [h1, h3]
  · have hne : ∀ t, a ≠ .addTask t := fun t ht => hadd ⟨t, ht⟩
    obtain ⟨hlen, hnext⟩ := Pipeline.step_nextStage s a hne
    intro i o ho
    have h1 := hnext i
    rw [ho] at h1
    cases hs : s.heap[i]? with
    | none => simp [hs] at h1
    | some a' =>
      simp only [hs, Option.map_some', Option.some.injEq] at h1
      rw [hlen, h1]
      exact h i a' hs

theorem Pipeline.chained_run (acts : List PAction) (s : Sys) (h : Pipeline.Chained s) :
    Pipeline.Chained (Pipeline.run s acts) := by
  induction acts generalizing s with
  | nil => exact h
  | cons a acts ih => exact ih (Pipeline.step s a) (Pipeline.chained_step s a h)

/-! ## The relay invariant of a running pipeline -/

theorem Pipeline.prev_congr (s s' : Sys) (j : Nat)
    (h : ∀ k, k + 1 = j → s'.heap[k]? = s.heap[k]?) :
    Pipeline.prevExecuted s' j = Pipeline.prevExecuted s j
    ∧ Pipeline.prevToRelay s' j = Pipeline.prevToRelay s j := by
  cases j with
  | zero => exact ⟨rfl, rfl⟩
  | succ k => simp only [Pipeline.prevExecuted, Pipeline.prevToRelay, h k rfl, and_self]

/-- A step that changes one stage only keeps the invariant, provided the stage
keeps its enqueue history and its own bookkeeping, and what it has handed or
is about to hand to its successor is unchanged as a whole. -/
theorem Pipeline.relayInv_local (rs : List String) (s s' : Sys) (i : Nat)
    (o o' : ActiveObject) (hinv : Pipeline.RelayInv rs s) (hch : Pipeline.Chained s')
    (hlen : s'.heap.length = s.heap.length)
    (ho : s.heap[i]? = some o) (ho' : s'.heap[i]? = some o')
    (hother : ∀ j, j ≠ i → s'.heap[j]? = s.heap[j]?)
    (henq : o'.enqueued = o.enqueued) (hfifo : Fifo o')
    (hfin : ∃ d, o'.dequeued = d ++ o'.inHand ∧ d.map Task.result = o'.executed)
    (hout : i + 1 < s.heap.length → ∀ (e : List Task) (x : Task),
      e ++ o.toRelay.map Task.relay = x :: o.executed.map Task.relay →
      e ++ o'.toRelay.map Task.relay = x :: o'.executed.map Task.relay) :
    Pipeline.RelayInv rs s' := by
  obtain ⟨hl, _, hst⟩ := hinv
  refine ⟨by rw [hlen, hl], hch, ?_⟩
  intro j oj hj
  by_cases hji : j = i
  · subst hji
    rw [ho'] at hj
    cases hj
    have hold := hst j o ho
    have hp := Pipeline.prev_congr s s' j (fun k hk => hother k (by omega))
    refine ⟨hfifo, ?_, hfin, ?_⟩
    · rw [henq]; exact hold.returns
    · rw [henq, hp.1, hp.2]; exact hold.fed
  · rw [hother j hji] at hj
    have hold := hst j oj hj
    refine ⟨hold.fifo, hold.returns, hold.finished, ?_⟩
    obtain ⟨r, hr, hfed⟩ := hold.fed
    refine ⟨r, hr, ?_⟩
    by_cases hsucc : j = i + 1
    · subst hsucc
      have hlt : i + 1 < s.heap.length := (List.getElem?_eq_some_iff.mp hj).1
      simp only [Pipeline.prevToRelay, Pipeline.prevExecuted, ho, ho'] at hfed ⊢
      exact hout hlt _ _ hfed
    · have hp := Pipeline.prev_congr s s' j (fun k hk => hother k (by omega))
      rw [hp.1, hp.2]
      exact hfed

/-- The same for `Sys.modify`. -/
theorem Pipeline.relayInv_modify (rs : List String) (s : Sys) (i : Nat)
    (f : ActiveObject → ActiveObject) (o : ActiveObject) (hinv : Pipeline.RelayInv rs s)
    (ho : s.heap[i]? = some o)
    (hnext : (f o).nextStage = o.nextStage)
    (henq : (f o).enqueued = o.enqueued) (hfifo : Fifo (f o))
    (hfin : ∃ d, (f o).dequeued = d ++ (f o).inHand ∧ d.map Task.result = (f o).executed)
    (hout : i + 1 < s.heap.length → ∀ (e : List Task) (x : Task),
      e ++ o.toRelay.map Task.relay = x :: o.executed.map Task.relay →
      e ++ (f o).toRelay.map Task.relay = x :: (f o).executed.map Task.relay) :
    Pipeline.RelayInv rs (s.modify i f) := by
  have ho' : (s.modify i f).heap[i]? = some (f o) := by
    rw [Sys.heap_modify_self, ho]; rfl
  have hother : ∀ j, j ≠ i → (s.modify i f).heap[j]? = s.heap[j]? :=
    fun j hj => Sys.heap_modify_ne s f (Ne.symm hj)
  refine Pipeline.relayInv_local rs s _ i o (f o) hinv ?_ (by simp) ho ho' hother henq hfifo
    hfin hout
  intro j oj hj
  rw [Sys.length_modify]
  by_cases hji : j = i
  · subst hji
    rw [ho'] at hj
    cases hj
    rw [hnext]
    exact hinv.2.1 j o ho
  · rw [hother j hji] at hj
    exact hinv.2.1 j oj hj

theorem Pipeline.relayInv_of_heap_eq (rs : List String) (s s' : Sys) (h : s'.heap = s.heap)
    (hinv : Pipeline.RelayInv rs s) : Pipeline.RelayInv rs s' := by
  obtain ⟨hl, hc, hst⟩ := hinv
  refine ⟨by rw [h, hl], ?_, ?_⟩
  · intro j o ho
    rw [h] at ho ⊢
    exact hc j o ho
  · intro j o ho
    rw [h] at ho
    have hold := hst j o ho
    have hp := Pipeline.prev_congr s s' j (fun k _ => by rw [h])
    refine ⟨hold.fifo, hold.returns, hold.finished, ?_⟩
    rw [hp.1, hp.2]
    exact hold.fed

/-- The relay step towards the next stage keeps the invariant. -/
theorem Pipeline.relayInv_relay (rs : List String) (s : Sys) (i : Nat) (o p : ActiveObject)
    (r : String) (hinv : Pipeline.RelayInv rs s) (ho : s.heap[i]? = some o)
    (hpc : o.workerThread = some (.relay r)) (hp : s.heap[i + 1]? = some p)
    (hch : Pipeline.Chained (ActiveObject.enqueue
      (s.modify i fun o => { o with workerThread := some .head }) (i + 1) (.relay r))) :
    Pipeline.RelayInv rs (ActiveObject.enqueue
      (s.modify i fun o => { o with workerThread := some .head }) (i + 1) (.relay r)) := by
  have hlook : ∀ j : Nat, (ActiveObject.enqueue
      (s.modify i fun o => { o with workerThread := some .head }) (i + 1) (.relay r)).heap[j]?
      = if j = i then some { o with workerThread := some .head }
        else if j = i + 1 then
          some { p with tasks := p.tasks ++ [.relay r], enqueued := p.enqueued ++ [.relay r] }
        else s.heap[j]? := by
    intro j
    simp only [ActiveObject.enqueue, Sys.heap_modify]
    by_cases h1 : j = i
    · subst h1
      simp [ho]
    · by_cases h2 : j = i + 1
      · subst h2
        simp [hp]
      · have h3 : ¬ (i = j) := fun h => h1 h.symm
        have h4 : ¬ (i + 1 = j) := fun h => h2 h.symm
        simp only [h1, h2, h3, h4, if_false]
        cases s.heap[j]? <;> rfl
  obtain ⟨hl, _, hst⟩ := hinv
  refine ⟨by simp [ActiveObject.enqueue, hl], hch, ?_⟩
  intro j oj hj
  rw [hlook] at hj
  have holdi := hst i o ho
  have holdp := hst (i + 1) p hp
  by_cases h1 : j = i
  · subst h1
    simp only [if_true, Option.some.injEq] at hj
    subst hj
    have hpe : Pipeline.prevExecuted (ActiveObject.enqueue
        (s.modify j fun o => { o with workerThread := some .head }) (j + 1) (.relay r)) j
        = Pipeline.prevExecuted s j
      ∧ Pipeline.prevToRelay (ActiveObject.enqueue
        (s.modify j fun o => { o with workerThread := some .head }) (j + 1) (.relay r)) j
        = Pipeline.prevToRelay s j := by
      apply Pipeline.prev_congr
      intro k hk
      rw [hlook]
      have h3 : ¬ (k = j) := by omega
      have h4 : ¬ (k = j + 1) := by omega
      simp [h3, h4]
    refine ⟨holdi.fifo, holdi.returns, ?_, ?_⟩
    · obtain ⟨d, hd, hd'⟩ := holdi.finished
      refine ⟨d, ?_, hd'⟩
      simpa [ActiveObject.inHand, hpc] using hd
    · rw [hpe.1, hpe.2]
      exact holdi.fed
  · by_cases h2 : j = i + 1
    · subst h2
      simp only [h1, if_false, if_true, Option.some.injEq] at hj
      subst hj
      refine ⟨?_, ?_, ?_, ?_⟩
      · have := holdp.fifo
        simp only [Fifo] at this ⊢
        simp [← this]
      · intro t ht
        simp only [List.mem_append, List.mem_singleton] at ht
        rcases ht with ht | ht
        · exact holdp.returns t ht
        · subst ht
          exact ⟨r, rfl⟩
      · exact holdp.finished
      · obtain ⟨r', hr', hfed⟩ := holdp.fed
        refine ⟨r', hr', ?_⟩
        simp only [Pipeline.prevToRelay, Pipeline.prevExecuted, ho] at hfed
        simp only [Pipeline.prevToRelay, Pipeline.prevExecuted, hlook, if_true]
        simp only [ActiveObject.toRelay, hpc, List.map_cons, List.map_nil] at hfed
        simp only [ActiveObject.toRelay, List.map_nil, List.append_nil]
        exact hfed
    · simp only [h1, h2, if_false] at hj
      have hold := hst j oj hj
      refine ⟨hold.fifo, hold.returns, hold.finished, ?_⟩
      obtain ⟨r', hr', hfed⟩ := hold.fed
      refine ⟨r', hr', ?_⟩
      cases j with
      | zero => exact hfed
      | succ k =>
        have hk : ¬ (k = i) := by omega
        simp only [Pipeline.prevToRelay, Pipeline.prevExecuted] at hfed
        simp only [Pipeline.prevToRelay, Pipeline.prevExecuted, hlook, hk, if_false]
        by_cases hk2 : k = i + 1
        · subst hk2
          simp only [hp] at hfed
          simp only [if_true]
          exact hfed
        · simp only [hk2, if_false]
          exact hfed

theorem Pipeline.pl_step_start (s : Sys) (k : Nat) (h : s.terminated = false) :
    Pipeline.step s (.start k) = ActiveObject.start s k := by
  simp [Pipeline.step, h]

theorem Pipeline.pl_step_worker (s : Sys) (k : Nat) (h : s.terminated = false) :
    Pipeline.step s (.worker k) = ActiveObject.workerStep s k := by
  simp [Pipeline.step, h]

/-- Starting a stage and every worker step keep the relay invariant. -/
theorem Pipeline.relayInv_step (rs : List String) (s : Sys) (a : PAction)
    (ha : a.isRun = true) (hinv : Pipeline.RelayInv rs s) :
    Pipeline.RelayInv rs (Pipeline.step s a) := by
  by_cases hterm : s.terminated = true
  · simp only [Pipeline.step, hterm, if_true]
    exact hinv
  have hlive : s.terminated = false := by simpa using hterm
  have hch := Pipeline.chained_step s a hinv.2.1
  cases a with
  | addTask t => simp [PAction.isRun] at ha
  | executeFront => simp [PAction.isRun] at ha
  | executeBack => simp [PAction.isRun] at ha
  | stopRequest k => simp [PAction.isRun] at ha
  | stopJoin k => simp [PAction.isRun] at ha
  | start k =>
    rw [Pipeline.pl_step_start s k hlive]
    cases hk : s.heap[k]? with
    | none => simp only [ActiveObject.start, hk]; exact hinv
    | some o =>
      have hold := hinv.2.2 k o hk
      cases hw : o.workerThread with
      | some pc =>
        simp only [ActiveObject.start, hk, hw]
        refine Pipeline.relayInv_of_heap_eq rs
          (s.modify k fun o => { o with running := true }) _ rfl ?_
        exact Pipeline.relayInv_modify rs s k _ o hinv hk rfl rfl hold.fifo hold.finished
          (fun _ _ _ h => h)
      | none =>
        simp only [ActiveObject.start, hk, hw]
        refine Pipeline.relayInv_modify rs s k _ o hinv hk rfl rfl hold.fifo ?_ ?_
        · obtain ⟨d, hd, hd'⟩ := hold.finished
          refine ⟨d, ?_, hd'⟩
          simpa [ActiveObject.inHand, hw] using hd
        · intro _ e x h
          simpa [ActiveObject.toRelay, hw] using h
  | worker k =>
    rw [Pipeline.pl_step_worker s k hlive] at hch ⊢
    cases hk : s.heap[k]? with
    | none => simp only [ActiveObject.workerStep, hk]; exact hinv
    | some o =>
      have hold := hinv.2.2 k o hk
      cases hw : o.workerThread with
      | none => simp only [ActiveObject.workerStep, hk, hw]; exact hinv
      | some pc =>
        cases pc with
        | done => simp only [ActiveObject.workerStep, hk, hw]; exact hinv
        | head =>
          rw [ActiveObject.workerStep_head s k o hk hw]
          refine Pipeline.relayInv_modify rs s k _ o hinv hk rfl rfl hold.fifo ?_ ?_
          · obtain ⟨d, hd, hd'⟩ := hold.finished
            refine ⟨d, ?_, hd'⟩
            cases o.running <;> simpa [ActiveObject.inHand, hw] using hd
          · intro _ e x h
            cases o.running <;> simpa [ActiveObject.toRelay, hw] using h
        | wait =>
          cases hq : o.tasks with
          | nil =>
            simp only [ActiveObject.workerStep, hk, hw, hq]
            split
            · exact hinv
            · refine Pipeline.relayInv_modify rs s k _ o hinv hk rfl rfl hold.fifo ?_ ?_
              · obtain ⟨d, hd, hd'⟩ := hold.finished
                refine ⟨d, ?_, hd'⟩
                simpa [ActiveObject.inHand, hw] using hd
              · intro _ e x h
                simpa [ActiveObject.toRelay, hw] using h
          | cons t q =>
            rw [ActiveObject.workerStep_wait_cons s k o t q hk hw hq]
            refine Pipeline.relayInv_modify rs s k _ o hinv hk rfl rfl ?_ ?_ ?_
            · have := hold.fifo
              simp only [Fifo] at this ⊢
              simp [← this, hq]
            · obtain ⟨d, hd, hd'⟩ := hold.finished
              refine ⟨o.dequeued, by simp [ActiveObject.inHand], ?_⟩
              simp only [ActiveObject.inHand, hw, List.append_nil] at hd
              rw [hd]; exact hd'
            · intro _ e x h
              simpa [ActiveObject.toRelay, hw] using h
        | exec t =>
          obtain ⟨d, hd, hd'⟩ := hold.finished
          simp only [ActiveObject.inHand, hw] at hd
          have hmem : t ∈ o.enqueued := by
            have := hold.fifo
            simp only [Fifo] at this
            rw [← this, hd]
            simp
          obtain ⟨r, hr⟩ := hold.returns t hmem
          rw [ActiveObject.workerStep_exec_ret s k o t r hk hw hr]
          refine Pipeline.relayInv_modify rs s k _ o hinv hk rfl rfl hold.fifo ?_ ?_
          · refine ⟨o.dequeued, by simp [ActiveObject.inHand], ?_⟩
            simp only
            rw [hd, List.map_append, hd']
            simp [Task.result, hr]
          · intro _ e x h
            simp only [ActiveObject.toRelay, hw, List.map_nil, List.append_nil] at h
            simp [ActiveObject.toRelay, h]
        | relay r =>
          rw [ActiveObject.workerStep_relay s k o r hk hw] at hch ⊢
          have hnext := hinv.2.1 k o hk
          by_cases hlt : k + 1 < s.heap.length
          · simp only [hlt, if_true] at hnext
            simp only [hnext] at hch ⊢
            have hp : s.heap[k + 1]? = some (s.heap[k + 1]) := List.getElem?_eq_getElem hlt
            exact Pipeline.relayInv_relay rs s k o _ r hinv hk hw hp hch
          · simp only [hlt, if_false] at hnext
            simp only [hnext]
            refine Pipeline.relayInv_modify rs s k _ o hinv hk rfl rfl hold.fifo ?_ ?_
            · obtain ⟨d, hd, hd'⟩ := hold.finished
              refine ⟨d, ?_, hd'⟩
              simpa [ActiveObject.inHand, hw] using hd
            · intro h
              exact absurd h hlt

theorem Pipeline.relayInv_run (rs : List String) (acts : List PAction)
    (hacts : ∀ a ∈ acts, a.isRun = true) (s : Sys) (hinv : Pipeline.RelayInv rs s) :
    Pipeline.RelayInv rs (Pipeline.run s acts) := by
  induction acts generalizing s with
  | nil => exact hinv
  | cons a acts ih =>
    exact ih (fun b hb => hacts b (List.mem_cons_of_mem _ hb)) (Pipeline.step s a)
      (Pipeline.relayInv_step rs s a (hacts a (List.mem_cons_self _ _)) hinv)

/-! ## From the built pipeline to a quiescent one -/

@[simp] theorem Pipeline.pl_run_nil (s : Sys) : Pipeline.run s [] = s := rfl

@[simp] theorem Pipeline.pl_run_cons (s : Sys) (a : PAction) (acts : List PAction) :
    Pipeline.run s (a :: acts) = Pipeline.run (Pipeline.step s a) acts := rfl

theorem Pipeline.pl_run_append (s : Sys) (xs ys : List PAction) :
    Pipeline.run s (xs ++ ys) = Pipeline.run (Pipeline.run s xs) ys := by
  simp [Pipeline.run, List.foldl_append]

theorem Pipeline.build_append (ts : List Task) (t : Task) :
    Pipeline.build (ts ++ [t]) = Pipeline.addTask (Pipeline.build ts) t := by
  simp [Pipeline.build, List.foldl_append]

theorem Pipeline.terminated_addTask (s : Sys) (t : Task) :
    (Pipeline.addTask s t).terminated = s.terminated := by
  simp only [Pipeline.addTask, ActiveObject.enqueue, ActiveObject.setNextStage,
    ActiveObject.create]
  split <;> rfl

theorem Pipeline.built_build (rs : List String) :
    Pipeline.Built rs (Pipeline.build (Pipeline.tasksOf rs)) := by
  induction rs using List.reverseRecOn with
  | nil =>
    refine ⟨rfl, rfl, ?_⟩
    intro j o ho
    simp [Pipeline.build, Pipeline.tasksOf, Sys.init] at ho
  | append_singleton rs r ih =>
    obtain ⟨hterm, hlen, hst⟩ := ih
    have hb : Pipeline.build (Pipeline.tasksOf (rs ++ [r]))
        = Pipeline.addTask (Pipeline.build (Pipeline.tasksOf rs)) (.user (.ret r)) := by
      simp only [Pipeline.tasksOf, List.map_append, List.map_cons, List.map_nil]
      exact Pipeline.build_append _ _
    rw [hb]
    refine ⟨by rw [Pipeline.terminated_addTask]; exact hterm,
      by rw [Pipeline.length_addTask, hlen]; simp, ?_⟩
    intro j o ho
    rw [Pipeline.heap_addTask, hlen] at ho
    split at ho
    · rename_i hj
      cases ho
      subst hj
      refine ⟨r, by simp, ?_⟩
      simp [ActiveObject.fresh]
    · split at ho
      · rename_i hj1 hj2
        cases hs : (Pipeline.build (Pipeline.tasksOf rs)).heap[j]? with
        | none => simp [hs] at ho
        | some a =>
          simp only [hs, Option.map_some', Option.some.injEq] at ho
          obtain ⟨r', hr', ha⟩ := hst j a hs
          have hlt : j < rs.length := by omega
          refine ⟨r', by rw [List.getElem?_append_left hlt]; exact hr', ?_⟩
          subst ho
          subst ha
          have h1 : ¬ (j + 1 < rs.length) := by omega
          simp [h1, hj2]
      · rename_i hj1 hj2
        obtain ⟨r', hr', ha⟩ := hst j o ho
        have hlt : j < rs.length := by
          have := (List.getElem?_eq_some_iff.mp ho).1
          omega
        refine ⟨r', by rw [List.getElem?_append_left hlt]; exact hr', ?_⟩
        subst ha
        have h1 : j + 1 < rs.length := by omega
        have h2 : j + 1 < rs.length + 1 := by omega
        simp [h1, h2]

theorem Pipeline.relayInv_built (rs : List String) (s : Sys) (h : Pipeline.Built rs s) :
    Pipeline.RelayInv rs s := by
  obtain ⟨_, hlen, hst⟩ := h
  refine ⟨hlen, ?_, ?_⟩
  · intro j o ho
    obtain ⟨r, _, rfl⟩ := hst j o ho
    rw [hlen]
  · intro j o ho
    obtain ⟨r, hr, rfl⟩ := hst j o ho
    refine ⟨by simp [Fifo, ActiveObject.fresh], ?_,
      ⟨[], by simp [ActiveObject.inHand, ActiveObject.fresh], rfl⟩, ?_⟩
    · intro t ht
      simp only [List.mem_singleton] at ht
      subst ht
      exact ⟨r, rfl⟩
    · refine ⟨r, hr, ?_⟩
      cases j with
      | zero => simp [Pipeline.prevToRelay, Pipeline.prevExecuted]
      | succ k =>
        simp only [Pipeline.prevToRelay, Pipeline.prevExecuted]
        cases hk : s.heap[k]? with
        | none => simp
        | some p =>
          obtain ⟨_, _, rfl⟩ := hst k p hk
          simp [ActiveObject.toRelay, ActiveObject.fresh]

theorem Pipeline.quiescent_iff (s : Sys) :
    Pipeline.quiescent s = true ↔
      ∀ (j : Nat) (o : ActiveObject), s.heap[j]? = some o →
        o.tasks = [] ∧ o.inHand = [] ∧ o.toRelay = [] := by
  simp only [Pipeline.quiescent, List.all_eq_true, Bool.and_eq_true, List.isEmpty_iff]
  constructor
  · intro h j o ho
    obtain ⟨h1, h2⟩ := h o (List.getElem?_mem ho)
    refine ⟨h1, ?_, ?_⟩
    · simp only [ActiveObject.inHand]
      split
      · rename_i t hw; simp [hw] at h2
      · rfl
    · simp only [ActiveObject.toRelay]
      split
      · rename_i t hw; simp [hw] at h2
      · rfl
  · intro h o ho
    obtain ⟨j, hj⟩ := List.mem_iff_getElem?.mp ho
    obtain ⟨h1, h2, h3⟩ := h j o hj
    refine ⟨h1, ?_⟩
    split
    · rename_i t hw; simp [ActiveObject.inHand, hw] at h2
    · rename_i t hw; simp [ActiveObject.toRelay, hw] at h3
    · rfl

/-- In a quiescent state the relay invariant fixes what every stage dequeued
and executed. -/
theorem Pipeline.relayInv_quiescent (rs : List String) (s : Sys)
    (hinv : Pipeline.RelayInv rs s) (hq : Pipeline.quiescent s = true) :
    ∀ (j : Nat) (o : ActiveObject), s.heap[j]? = some o →
      o.executed = (rs.take (j + 1)).reverse
      ∧ ∃ r, rs[j]? = some r
          ∧ o.dequeued = Task.user (.ret r) :: (rs.take j).reverse.map Task.relay := by
  rw [Pipeline.quiescent_iff] at hq
  have hres : ∀ l : List String, (l.map Task.relay).map Task.result = l := by
    intro l
    induction l with
    | nil => rfl
    | cons a l ih => simp only [List.map_cons, ih]; rfl
  intro j
  induction j with
  | zero =>
    intro o ho
    obtain ⟨ht, hh, _⟩ := hq 0 o ho
    have hold := hinv.2.2 0 o ho
    obtain ⟨d, hd, hd'⟩ := hold.finished
    obtain ⟨r, hr, hfed⟩ := hold.fed
    have hf := hold.fifo
    simp only [Fifo, ht, List.append_nil] at hf
    simp only [hh, List.append_nil] at hd
    simp only [Pipeline.prevToRelay, Pipeline.prevExecuted, List.map_nil, List.append_nil] at hfed
    have hdq : o.dequeued = [Task.user (.ret r)] := by rw [hf, hfed]
    refine ⟨?_, r, hr, by simpa using hdq⟩
    rw [← hd', ← hd, hdq, List.take_succ, hr]
    simp [Task.result, Task.call]
  | succ k ih =>
    intro o ho
    have hlt : k + 1 < s.heap.length := (List.getElem?_eq_some_iff.mp ho).1
    have hp : s.heap[k]? = some (s.heap[k]) := List.getElem?_eq_getElem (by omega)
    obtain ⟨hpe, _⟩ := ih _ hp
    obtain ⟨_, _, hpr⟩ := hq k _ hp
    obtain ⟨ht, hh, _⟩ := hq (k + 1) o ho
    have hold := hinv.2.2 (k + 1) o ho
    obtain ⟨d, hd, hd'⟩ := hold.finished
    obtain ⟨r, hr, hfed⟩ := hold.fed
    have hf := hold.fifo
    simp only [Fifo, ht, List.append_nil] at hf
    simp only [hh, List.append_nil] at hd
    simp only [Pipeline.prevToRelay, Pipeline.prevExecuted, hp, hpr, hpe, List.map_nil,
      List.append_nil] at hfed
    have hdq : o.dequeued
        = Task.user (.ret r) :: (rs.take (k + 1)).reverse.map Task.relay := by rw [hf, hfed]
    refine ⟨?_, r, hr, hdq⟩
    rw [← hd', ← hd, hdq, List.take_succ (n := k + 1), hr]
    simp only [List.map_cons, hres, Option.toList, List.reverse_append, List.reverse_cons,
      List.reverse_nil, List.nil_append, List.singleton_append]
    rfl

theorem Pipeline.terminated_step_start (s : Sys) (k : Nat) (o : ActiveObject)
    (hlive : s.terminated = false) (ho : s.heap[k]? = some o) (hw : o.workerThread = none) :
    Pipeline.step s (.start k)
      = s.modify k fun o => { o with running := true, workerThread := some .head } := by
  rw [Pipeline.pl_step_start s k hlive]
  simp only [ActiveObject.start, ho, hw]

/-- `Pipeline::start` on a freshly built pipeline: a schedule of `start` steps
after which every stage is started. -/
theorem Pipeline.start_all (rs : List String) (s : Sys) (h : Pipeline.Built rs s) :
    ∀ k, k ≤ rs.length → ∃ acts : List PAction, (∀ a ∈ acts, a.isRun = true)
      ∧ Pipeline.StartedUpTo rs.length k (Pipeline.run s acts) := by
  intro k
  induction k with
  | zero =>
    intro _
    refine ⟨[], by simp, h.1, h.2.1, (Pipeline.relayInv_built rs s h).2.1, ?_⟩
    intro i o ho
    obtain ⟨r, _, rfl⟩ := h.2.2 i o ho
    refine ⟨?_, by omega, fun _ => rfl⟩
    intro t ht
    simp only [List.mem_singleton] at ht
    subst ht
    exact ⟨r, rfl⟩
  | succ k ih =>
    intro hk
    obtain ⟨acts, hacts, hlive, hlen, hch, hst⟩ := ih (by omega)
    have hko : (Pipeline.run s acts).heap[k]? = some ((Pipeline.run s acts).heap[k]) :=
      List.getElem?_eq_getElem (by omega)
    have hw := (hst k _ hko).2.2 (Nat.le_refl _)
    have hstep := Pipeline.terminated_step_start _ k _ hlive hko hw
    refine ⟨acts ++ [.start k], ?_, ?_⟩
    · intro a ha
      simp only [List.mem_append, List.mem_singleton] at ha
      rcases ha with ha | ha
      · exact hacts a ha
      · subst ha; rfl
    · rw [Pipeline.pl_run_append, Pipeline.pl_run_cons, Pipeline.pl_run_nil]
      have hch' := Pipeline.chained_step _ (.start k) hch
      rw [hstep] at hch' ⊢
      refine ⟨hlive, by simp [hlen], hch', ?_⟩
      intro i o ho
      rw [Sys.heap_modify] at ho
      cases hi : (Pipeline.run s acts).heap[i]? with
      | none => simp [hi] at ho
      | some a =>
        simp only [hi, Option.map_some', Option.some.injEq] at ho
        obtain ⟨h1, h2, h3⟩ := hst i a hi
        by_cases hki : k = i
        · subst hki
          simp only [if_true] at ho
          subst ho
          exact ⟨h1, fun _ => ⟨rfl, rfl⟩, fun h => by omega⟩
        · simp only [hki, if_false] at ho
          subst ho
          exact ⟨h1, fun h => h2 (by omega), fun h => h3 (by omega)⟩

theorem Sys.modify_modify (s : Sys) (i : Nat) (f g : ActiveObject → ActiveObject) :
    (s.modify i f).modify i g = s.modify i (g ∘ f) := by
  simp only [Sys.modify]
  congr 1
  apply List.ext_getElem?
  intro j
  simp only [List.getElem?_modify]
  cases s.heap[j]? with
  | none => rfl
  | some a =>
    simp only [Option.map_eq_map, Option.map_some', Function.comp, Option.some.injEq]
    split <;> rfl

/-- One full iteration of the worker of stage `j`, run without interruption:
the head of the queue is dequeued and executed, and its result is relayed to
stage `j + 1` when there is one. -/
theorem Pipeline.iteration (s : Sys) (j : Nat) (o : ActiveObject) (t : Task) (q : List Task)
    (r : String) (hlive : s.terminated = false) (ho : s.heap[j]? = some o)
    (hpc : o.workerThread = some .head) (hrun : o.running = true) (hq : o.tasks = t :: q)
    (hr : t.call = some (.ret r))
    (hnext : o.nextStage = if j + 1 < s.heap.length then some (j + 1) else none) :
    (Pipeline.run s [.worker j, .worker j, .worker j, .worker j]).terminated = false
    ∧ ∀ i : Nat, (Pipeline.run s [.worker j, .worker j, .worker j, .worker j]).heap[i]?
        = if i = j then
            some { o with tasks := q, dequeued := o.dequeued ++ [t],
                          executed := o.executed ++ [r] }
          else if i = j + 1 then
            (s.heap[i]?).map fun p =>
              { p with tasks := p.tasks ++ [.relay r], enqueued := p.enqueued ++ [.relay r] }
          else s.heap[i]? := by
  -- first step: the loop head
  have e1 := ActiveObject.workerStep_head s j o ho hpc
  have ho1 : (ActiveObject.workerStep s j).heap[j]?
      = some { o with workerThread := some .wait } := by
    rw [e1, Sys.heap_modify_self, ho]; simp [hrun]
  have hl1 : (ActiveObject.workerStep s j).terminated = false := by rw [e1]; exact hlive
  -- second step: the dequeue
  have e2 := ActiveObject.workerStep_wait_cons _ j _ t q ho1 rfl hq
  have ho2 : (ActiveObject.workerStep (ActiveObject.workerStep s j) j).heap[j]?
      = some { o with tasks := q, dequeued := o.dequeued ++ [t],
                      workerThread := some (.exec t) } := by
    rw [e2, Sys.heap_modify_self, ho1]; simp [hq]
  have hl2 : (ActiveObject.workerStep (ActiveObject.workerStep s j) j).terminated = false := by
    rw [e2]; exact hl1
  -- third step: the call
  have e3 := ActiveObject.workerStep_exec_ret _ j _ t r ho2 rfl hr
  have ho3 : (ActiveObject.workerStep
      (ActiveObject.workerStep (ActiveObject.workerStep s j) j) j).heap[j]?
      = some { o with tasks := q, dequeued := o.dequeued ++ [t],
                      executed := o.executed ++ [r], workerThread := some (.relay r) } := by
    rw [e3, Sys.heap_modify_self, ho2]; rfl
  have hl3 : (ActiveObject.workerStep
      (ActiveObject.workerStep (ActiveObject.workerStep s j) j) j).terminated = false := by
    rw [e3]; exact hl2
  -- fourth step: the relay
  have e4 := ActiveObject.workerStep_relay _ j _ r ho3 rfl
  have hrun4 : Pipeline.run s [.worker j, .worker j, .worker j, .worker j]
      = ActiveObject.workerStep (ActiveObject.workerStep
          (ActiveObject.workerStep (ActiveObject.workerStep s j) j) j) j := by
    simp only [Pipeline.pl_run_cons, Pipeline.pl_run_nil]
    rw [Pipeline.pl_step_worker s j hlive, Pipeline.pl_step_worker _ j hl1,
      Pipeline.pl_step_worker _ j hl2, Pipeline.pl_step_worker _ j hl3]
  have hothers : ∀ i, i ≠ j → (ActiveObject.workerStep
      (ActiveObject.workerStep (ActiveObject.workerStep s j) j) j).heap[i]? = s.heap[i]? := by
    intro i hi
    rw [e3, Sys.heap_modify_ne _ _ (Ne.symm hi), e2, Sys.heap_modify_ne _ _ (Ne.symm hi), e1,
      Sys.heap_modify_ne _ _ (Ne.symm hi)]
  rw [hrun4, e4]
  simp only [hnext]
  by_cases hlt : j + 1 < s.heap.length
  · simp only [hlt, if_true, ActiveObject.enqueue]
    refine ⟨hl3, ?_⟩
    intro i
    rw [Sys.heap_modify, Sys.heap_modify]
    by_cases hij : i = j
    · subst hij
      have : ¬ (i + 1 = i) := by omega
      have hn : o.nextStage = some (i + 1) := by rw [hnext, if_pos hlt]
      simp [ho3, this, hpc, hn]
    · have hji : ¬ (j = i) := fun h => hij h.symm
      rw [hothers i hij]
      simp only [hij, hji, if_false]
      by_cases hi1 : i = j + 1
      · subst hi1
        cases s.heap[j + 1]? <;> simp
      · have : ¬ (j + 1 = i) := fun h => hi1 h.symm
        simp only [hi1, this, if_false]
        cases s.heap[i]? <;> simp
  · simp only [hlt, if_false]
    refine ⟨hl3, ?_⟩
    intro i
    rw [Sys.heap_modify]
    by_cases hij : i = j
    · subst hij
      have hn : o.nextStage = none := by rw [hnext, if_neg hlt]
      simp [ho3, hpc, hn]
    · have hji : ¬ (j = i) := fun h => hij h.symm
      rw [hothers i hij]
      simp only [hij, hji, if_false]
      by_cases hi1 : i = j + 1
      · subst hi1
        have : s.heap[j + 1]? = none := List.getElem?_eq_none (by omega)
        simp [this]
      · simp only [hi1, if_false]
        cases s.heap[i]? <;> simp

theorem Pipeline.length_run (acts : List PAction) (hacts : ∀ a ∈ acts, a.isRun = true)
    (s : Sys) : (Pipeline.run s acts).heap.length = s.heap.length := by
  induction acts generalizing s with
  | nil => rfl
  | cons a acts ih =>
    rw [Pipeline.pl_run_cons, ih (fun b hb => hacts b (List.mem_cons_of_mem _ hb))]
    refine (Pipeline.step_nextStage s a ?_).1
    intro t ht
    have := hacts a (List.mem_cons_self _ _)
    rw [ht] at this
    simp [PAction.isRun] at this

/-- The worker of stage `j` alone empties the queue of stage `j`. -/
theorem Pipeline.drain_stage (n j : Nat) (hj : j < n) :
    ∀ (m : Nat) (s : Sys), Pipeline.Ready n j s →
      (∀ o, s.heap[j]? = some o → o.tasks.length = m) →
      ∃ acts : List PAction, (∀ a ∈ acts, a.isRun = true)
        ∧ Pipeline.Ready n (j + 1) (Pipeline.run s acts) := by
  intro m
  induction m with
  | zero =>
    intro s hready hm
    obtain ⟨hlive, hlen, hch, hst⟩ := hready
    refine ⟨[], by simp, hlive, hlen, hch, ?_⟩
    intro i o ho
    obtain ⟨h1, h2, h3, h4⟩ := hst i o ho
    refine ⟨h1, h2, h3, ?_⟩
    intro hi
    by_cases hij : i = j
    · subst hij
      exact List.length_eq_zero.mp (hm o ho)
    · exact h4 (by omega)
  | succ m ih =>
    intro s hready hm
    obtain ⟨hlive, hlen, hch, hst⟩ := hready
    have hjo : s.heap[j]? = some (s.heap[j]) := List.getElem?_eq_getElem (by omega)
    obtain ⟨hrun, hpc, hret, _⟩ := hst j _ hjo
    have hlen' := hm _ hjo
    cases hq : (s.heap[j]).tasks with
    | nil => simp [hq] at hlen'
    | cons t q =>
      obtain ⟨r, hr⟩ := hret t (by simp [hq])
      have hiter := Pipeline.iteration s j _ t q r hlive hjo hpc hrun hq hr (hch j _ hjo)
      have h4run : ∀ a ∈ [PAction.worker j, .worker j, .worker j, .worker j],
          a.isRun = true := by
        intro a ha
        simp only [List.mem_cons, List.mem_singleton, List.not_mem_nil, or_false, or_self] at ha
        subst ha; rfl
      have hready' : Pipeline.Ready n j
          (Pipeline.run s [.worker j, .worker j, .worker j, .worker j]) := by
        refine ⟨hiter.1, by rw [Pipeline.length_run _ h4run, hlen], ?_, ?_⟩
        · have := Pipeline.chained_run [.worker j, .worker j, .worker j, .worker j]
          exact this s hch
        · intro i o ho
          rw [hiter.2 i] at ho
          by_cases hij : i = j
          · subst hij
            simp only [if_true, Option.some.injEq] at ho
            subst ho
            refine ⟨hrun, hpc, ?_, fun h => by omega⟩
            intro t' ht'
            exact hret t' (by simp [hq, ht'])
          · simp only [hij, if_false] at ho
            by_cases hi1 : i = j + 1
            · subst hi1
              simp only [if_true] at ho
              cases hp : s.heap[j + 1]? with
              | none => simp [hp] at ho
              | some p =>
                simp only [hp, Option.map_some', Option.some.injEq] at ho
                subst ho
                obtain ⟨h1, h2, h3, _⟩ := hst (j + 1) p hp
                refine ⟨h1, h2, ?_, fun h => by omega⟩
                intro t' ht'
                simp only [List.mem_append, List.mem_singleton] at ht'
                rcases ht' with ht' | ht'
                · exact h3 t' ht'
                · subst ht'; exact ⟨r, rfl⟩
            · simp only [hi1, if_false] at ho
              exact hst i o ho
      have hm' : ∀ o, (Pipeline.run s [.worker j, .worker j, .worker j, .worker j]).heap[j]?
          = some o → o.tasks.length = m := by
        intro o ho
        rw [hiter.2 j] at ho
        simp only [if_true, Option.some.injEq] at ho
        subst ho
        simp only [hq, List.length_cons] at hlen'
        simpa using hlen'
      obtain ⟨acts, hacts, hfin⟩ := ih _ hready' hm'
      refine ⟨[.worker j, .worker j, .worker j, .worker j] ++ acts, ?_, ?_⟩
      · intro a ha
        rcases List.mem_append.mp ha with ha | ha
        · exact h4run a ha
        · exact hacts a ha
      · rw [Pipeline.pl_run_append]
        exact hfin

/-- The workers of the stages, one stage after the other, empty every queue. -/
theorem Pipeline.drain_all (n : Nat) :
    ∀ (j : Nat), j ≤ n → ∀ s : Sys, Pipeline.Ready n 0 s →
      ∃ acts : List PAction, (∀ a ∈ acts, a.isRun = true)
        ∧ Pipeline.Ready n j (Pipeline.run s acts) := by
  intro j
  induction j with
  | zero =>
    intro _ s h
    exact ⟨[], by simp, h⟩
  | succ j ih =>
    intro hj s h
    obtain ⟨acts, hacts, hready⟩ := ih (by omega) s h
    have hlt : j < (Pipeline.run s acts).heap.length := by rw [hready.2.1]; omega
    obtain ⟨acts', hacts', hready'⟩ :=
      Pipeline.drain_stage n j (by omega) ((Pipeline.run s acts).heap[j]).tasks.length
        (Pipeline.run s acts) hready (by
        intro o ho
        rw [List.getElem?_eq_getElem hlt] at ho
        cases ho
        rfl)
    refine ⟨acts ++ acts', ?_, ?_⟩
    · intro a ha
      rcases List.mem_append.mp ha with ha | ha
      · exact hacts a ha
      · exact hacts' a ha
    · rw [Pipeline.pl_run_append]
      exact hready'

/-- A built pipeline has a run, of `start` steps and worker steps only, that
ends in a quiescent state with the process alive. -/
theorem Pipeline.exists_quiescent_run (rs : List String) :
    ∃ acts : List PAction, (∀ a ∈ acts, a.isRun = true)
      ∧ (Pipeline.run (Pipeline.build (Pipeline.tasksOf rs)) acts).terminated = false
      ∧ Pipeline.quiescent (Pipeline.run (Pipeline.build (Pipeline.tasksOf rs)) acts) = true := by
  obtain ⟨a1, ha1, hs⟩ := Pipeline.start_all rs _ (Pipeline.built_build rs) rs.length
    (Nat.le_refl _)
  have hready0 : Pipeline.Ready rs.length 0
      (Pipeline.run (Pipeline.build (Pipeline.tasksOf rs)) a1) := by
    obtain ⟨hlive, hlen, hch, hst⟩ := hs
    refine ⟨hlive, hlen, hch, ?_⟩
    intro i o ho
    have hi : i < rs.length := by
      have := (List.getElem?_eq_some_iff.mp ho).1
      omega
    obtain ⟨h1, h2, _⟩ := hst i o ho
    exact ⟨(h2 hi).1, (h2 hi).2, h1, fun h => by omega⟩
  obtain ⟨a2, ha2, hready⟩ := Pipeline.drain_all rs.length rs.length (Nat.le_refl _) _ hready0
  refine ⟨a1 ++ a2, ?_, ?_⟩
  · intro a ha
    rcases List.mem_append.mp ha with ha | ha
    · exact ha1 a ha
    · exact ha2 a ha
  · rw [Pipeline.pl_run_append]
    obtain ⟨hlive, hlen, _, hst⟩ := hready
    refine ⟨hlive, ?_⟩
    rw [Pipeline.quiescent_iff]
    intro i o ho
    have hi : i < rs.length := by
      have := (List.getElem?_eq_some_iff.mp ho).1
      omega
    obtain ⟨_, h2, _, h4⟩ := hst i o ho
    exact ⟨h4 hi, by simp [ActiveObject.inHand, h2], by simp [ActiveObject.toRelay, h2]⟩

/-! ## The invariant of a LeaderFollowers pool -/

namespace LeaderFollowers

theorem lf_at_set (ts : List (Option Pc)) (k : Nat) (x0 x : Option Pc)
    (h : ts[k]? = some x0) (j : Nat) (y : Option Pc) :
    (ts.set k x)[j]? = some y ↔ (j = k ∧ y = x) ∨ (j ≠ k ∧ ts[j]? = some y) := by
  have hk : k < ts.length := (List.getElem?_eq_some_iff.mp h).1
  rw [List.getElem?_set]
  by_cases hjk : k = j
  · subst hjk
    simp [hk, eq_comm]
  · have : ¬ (j = k) := fun e => hjk e.symm
    simp [hjk, this]

theorem lf_leaderBlock_critical (pc : Pc) (h : pc.inLeaderBlock = true) :
    pc.inCritical = true := by
  cases pc <;> simp_all [Pc.inLeaderBlock, Pc.inCritical]

theorem lf_queueOk_critical (pc : Pc) (q : List Task) (r : Bool)
    (h : pc.inCritical = false) : pc.queueOk q r := by
  cases pc <;> simp_all [Pc.queueOk, Pc.inCritical]

/-- Moving thread `k` keeps the mutex invariant when the mutex changes hands
accordingly. -/
theorem lf_mutexInv_set (ts : List (Option Pc)) (m m' : Option Nat) (k : Nat) (pc pc' : Pc)
    (hat : ts[k]? = some (some pc)) (h : MutexInv ts m)
    (htr : if pc'.inCritical = true then
             (if pc.inCritical = true then m' = m else m = none ∧ m' = some k)
           else (if pc.inCritical = true then m' = none else m' = m)) :
    MutexInv (ts.set k (some pc')) m' := by
  obtain ⟨h1, h2⟩ := h
  have hk := h1 k pc hat
  constructor
  · intro j pcj hj
    rw [lf_at_set ts k _ _ hat] at hj
    rcases hj with ⟨rfl, hj⟩ | ⟨hjk, hj⟩
    · cases hj
      by_cases hc' : pc'.inCritical = true
      · by_cases hc : pc.inCritical = true
        · rw [if_pos hc', if_pos hc] at htr
          rw [htr]
          exact ⟨fun _ => hk.mp hc, fun _ => hc'⟩
        · rw [if_pos hc', if_neg hc] at htr
          exact ⟨fun _ => htr.2, fun _ => hc'⟩
      · by_cases hc : pc.inCritical = true
        · rw [if_neg hc', if_pos hc] at htr
          rw [htr]
          exact ⟨fun e => absurd e hc', fun e => by simp at e⟩
        · rw [if_neg hc', if_neg hc] at htr
          rw [htr]
          constructor
          · intro e
            exact absurd e hc'
          · intro e
            exact absurd (hk.mpr e) hc
    · have hjj := h1 j pcj hj
      by_cases hc' : pc'.inCritical = true
      · by_cases hc : pc.inCritical = true
        · rw [if_pos hc', if_pos hc] at htr
          rw [htr]; exact hjj
        · rw [if_pos hc', if_neg hc] at htr
          rw [htr.2]
          rw [htr.1] at hjj
          constructor
          · intro e
            exact absurd (hjj.mp e) (by simp)
          · intro e
            simp only [Option.some.injEq] at e
            exact absurd e.symm hjk
      · by_cases hc : pc.inCritical = true
        · rw [if_neg hc', if_pos hc] at htr
          rw [htr]
          have hmk := hk.mp hc
          rw [hmk] at hjj
          constructor
          · intro e
            have := hjj.mp e
            simp only [Option.some.injEq] at this
            exact absurd this.symm hjk
          · intro e
            simp at e
        · rw [if_neg hc', if_neg hc] at htr
          rw [htr]; exact hjj
  · intro j hj
    by_cases hjk : j = k
    · subst hjk
      exact ⟨pc', (lf_at_set ts j _ _ hat j _).mpr (Or.inl ⟨rfl, rfl⟩)⟩
    · have hmj : m = some j := by
        by_cases hc' : pc'.inCritical = true
        · by_cases hc : pc.inCritical = true
          · rw [if_pos hc', if_pos hc] at htr
            rw [← htr]; exact hj
          · rw [if_pos hc', if_neg hc] at htr
            rw [htr.2] at hj
            simp only [Option.some.injEq] at hj
            exact absurd hj.symm hjk
        · by_cases hc : pc.inCritical = true
          · rw [if_neg hc', if_pos hc] at htr
            rw [htr] at hj
            simp at hj
          · rw [if_neg hc', if_neg hc] at htr
            rw [← htr]; exact hj
      obtain ⟨pcj, hpcj⟩ := h2 j hmj
      exact ⟨pcj, (lf_at_set ts k _ _ hat j _).mpr (Or.inr ⟨hjk, hpcj⟩)⟩

/-- Moving thread `k` keeps the flag invariant when the flag follows the
leader block. -/
theorem lf_flagInv_set (ts : List (Option Pc)) (m : Option Nat) (f f' : Bool) (k : Nat)
    (pc pc' : Pc) (hat : ts[k]? = some (some pc)) (hm : MutexInv ts m) (h : FlagInv ts f)
    (htr : if pc'.inLeaderBlock = true then f' = true
           else if pc.inLeaderBlock = true then f' = false else f' = f) :
    FlagInv (ts.set k (some pc')) f' := by
  unfold FlagInv at h ⊢
  by_cases hb' : pc'.inLeaderBlock = true
  · rw [if_pos hb'] at htr
    rw [htr]
    simp only [true_iff]
    exact ⟨k, pc', (lf_at_set ts k _ _ hat k _).mpr (Or.inl ⟨rfl, rfl⟩), hb'⟩
  · rw [if_neg hb'] at htr
    by_cases hb : pc.inLeaderBlock = true
    · rw [if_pos hb] at htr
      rw [htr]
      simp only [Bool.false_eq_true, false_iff, not_exists, not_and]
      intro j pcj hj hbj
      rw [lf_at_set ts k _ _ hat] at hj
      rcases hj with ⟨rfl, hj⟩ | ⟨hjk, hj⟩
      · cases hj
        exact hb' hbj
      · have e1 := (hm.1 j pcj hj).mp (lf_leaderBlock_critical _ hbj)
        have e2 := (hm.1 k pc hat).mp (lf_leaderBlock_critical _ hb)
        rw [e1] at e2
        simp only [Option.some.injEq] at e2
        exact hjk e2
    · rw [if_neg hb] at htr
      rw [htr, h]
      constructor
      · rintro ⟨j, pcj, hj, hbj⟩
        have hjk : j ≠ k := by
          rintro rfl
          rw [hat] at hj
          cases hj
          exact hb hbj
        exact ⟨j, pcj, (lf_at_set ts k _ _ hat j _).mpr (Or.inr ⟨hjk, hj⟩), hbj⟩
      · rintro ⟨j, pcj, hj, hbj⟩
        rw [lf_at_set ts k _ _ hat] at hj
        rcases hj with ⟨rfl, hj⟩ | ⟨hjk, hj⟩
        · cases hj
          exact absurd hbj hb'
        · exact ⟨j, pcj, hj, hbj⟩

/-- Moving thread `k` keeps the queue invariant when the new position is
justified and the queue and the flag `_running` only change under the mutex. -/
theorem lf_queueInv_set (ts : List (Option Pc)) (m : Option Nat) (q q' : List Task)
    (r r' : Bool) (k : Nat) (pc pc' : Pc) (hat : ts[k]? = some (some pc))
    (hm : MutexInv ts m) (h : QueueInv ts q r) (hself : pc'.queueOk q' r')
    (hothers : pc.inCritical = true ∨ (q' = q ∧ r' = r)) :
    QueueInv (ts.set k (some pc')) q' r' := by
  intro j pcj hj
  rw [lf_at_set ts k _ _ hat] at hj
  rcases hj with ⟨rfl, hj⟩ | ⟨hjk, hj⟩
  · cases hj
    exact hself
  · rcases hothers with hc | ⟨rfl, rfl⟩
    · apply lf_queueOk_critical
      by_contra hcj
      simp only [Bool.not_eq_false] at hcj
      have e1 := (hm.1 j pcj hj).mp hcj
      have e2 := (hm.1 k pc hat).mp hc
      rw [e1] at e2
      simp only [Option.some.injEq] at e2
      exact hjk e2
    · exact h j pcj hj

theorem lf_queueOk_push (pc : Pc) (q : List Task) (t : Task) (r : Bool)
    (h : pc.queueOk q r) : pc.queueOk (q ++ [t]) r := by
  cases pc <;> simp_all [Pc.queueOk]

theorem lf_queueOk_stop (pc : Pc) (q : List Task) (r : Bool)
    (h : pc.queueOk q r) : pc.queueOk q false := by
  cases pc <;> simp_all [Pc.queueOk]

theorem lf_inv_new (n : Int) : Inv (new n) := by
  have hall : ∀ (k : Nat) (pc : Pc),
      (List.replicate n.toNat (some Pc.loopHead))[k]? = some (some pc) → pc = .loopHead := by
    intro k pc h
    have := List.getElem?_mem h
    simp only [List.mem_replicate] at this
    exact (Option.some.inj this.2)
  refine ⟨⟨?_, ?_⟩, ?_, ?_, rfl⟩
  · intro k pc h
    rw [hall k pc h]
    simp [Pc.inCritical, new]
  · intro k h
    simp [new] at h
  · simp only [FlagInv, new, Bool.false_eq_true, false_iff, not_exists, not_and]
    intro k pc h
    rw [hall k pc h]
    simp [Pc.inLeaderBlock]
  · intro k pc h
    rw [hall k pc h]
    simp [Pc.queueOk]

theorem lf_inv_worker (p : LeaderFollowers) (k : Nat) (hinv : Inv p) :
    Inv (worker_loop p k) := by
  obtain ⟨hm, hf, hq, hfifo⟩ := hinv
  cases hat : p.threads[k]? with
  | none => simp only [worker_loop, hat]; exact ⟨hm, hf, hq, hfifo⟩
  | some x =>
    cases x with
    | none => simp only [worker_loop, hat]; exact ⟨hm, hf, hq, hfifo⟩
    | some pc =>
      cases pc with
      | loopHead =>
        simp only [worker_loop, hat, goto]
        refine ⟨lf_mutexInv_set _ _ _ k _ _ hat hm ?_, lf_flagInv_set _ _ _ _ k _ _ hat hm hf ?_,
          lf_queueInv_set _ _ _ _ _ _ k _ _ hat hm hq ?_ (Or.inr ⟨rfl, rfl⟩), hfifo⟩
        · cases p.running <;> simp [Pc.inCritical]
        · cases p.running <;> simp [Pc.inLeaderBlock]
        · cases p.running <;> simp [Pc.queueOk]
      | acquire =>
        cases hmx : p.queue_mutex with
        | some j => simp only [worker_loop, hat, hmx]; exact ⟨hmx ▸ hm, hf, hq, hfifo⟩
        | none =>
          simp only [worker_loop, hat, hmx, goto]
          refine ⟨lf_mutexInv_set _ _ _ k _ _ hat hm ?_,
            lf_flagInv_set _ _ _ _ k _ _ hat hm hf ?_,
            lf_queueInv_set _ _ _ _ _ _ k _ _ hat hm hq ?_ (Or.inr ⟨rfl, rfl⟩), hfifo⟩
          · simp [Pc.inCritical, hmx]
          · simp [Pc.inLeaderBlock]
          · simp [Pc.queueOk]
      | waiting =>
        simp only [worker_loop, hat, goto]
        split
        · rename_i hc
          refine ⟨lf_mutexInv_set _ _ _ k _ _ hat hm ?_,
            lf_flagInv_set _ _ _ _ k _ _ hat hm hf ?_,
            lf_queueInv_set _ _ _ _ _ _ k _ _ hat hm hq ?_ (Or.inr ⟨rfl, rfl⟩), hfifo⟩
          · simp [Pc.inCritical]
          · simp [Pc.inLeaderBlock]
          · simp only [Pc.queueOk]
            simp only [Bool.or_eq_true, Bool.not_eq_true', List.isEmpty_eq_false] at hc
            rcases hc with hc | hc
            · exact Or.inl hc
            · exact Or.inr hc
        · refine ⟨lf_mutexInv_set _ _ _ k _ _ hat hm ?_,
            lf_flagInv_set _ _ _ _ k _ _ hat hm hf ?_,
            lf_queueInv_set _ _ _ _ _ _ k _ _ hat hm hq ?_ (Or.inr ⟨rfl, rfl⟩), hfifo⟩
          · simp [Pc.inCritical]
          · simp [Pc.inLeaderBlock]
          · simp [Pc.queueOk]
      | exitCheck =>
        have hok := hq k _ hat
        simp only [worker_loop, hat, goto]
        split
        · refine ⟨lf_mutexInv_set _ _ _ k _ _ hat hm ?_,
            lf_flagInv_set _ _ _ _ k _ _ hat hm hf ?_,
            lf_queueInv_set _ _ _ _ _ _ k _ _ hat hm hq ?_ (Or.inr ⟨rfl, rfl⟩), hfifo⟩
          · simp [Pc.inCritical]
          · simp [Pc.inLeaderBlock]
          · simp [Pc.queueOk]
        · rename_i hc
          refine ⟨lf_mutexInv_set _ _ _ k _ _ hat hm ?_,
            lf_flagInv_set _ _ _ _ k _ _ hat hm hf ?_,
            lf_queueInv_set _ _ _ _ _ _ k _ _ hat hm hq ?_ (Or.inr ⟨rfl, rfl⟩), hfifo⟩
          · simp [Pc.inCritical]
          · simp [Pc.inLeaderBlock]
          · simp only [Pc.queueOk] at hok ⊢
            intro hnil
            simp only [hnil, List.isEmpty_nil, Bool.and_true, Bool.not_eq_true',
              Bool.not_eq_false] at hc
            rcases hok with hok | hok
            · rw [hok] at hc; exact absurd hc (by simp)
            · exact hok hnil
      | election =>
        have hok := hq k _ hat
        simp only [worker_loop, hat, goto]
        split
        · refine ⟨lf_mutexInv_set _ _ _ k _ _ hat hm ?_,
            lf_flagInv_set _ _ _ _ k _ _ hat hm hf ?_,
            lf_queueInv_set _ _ _ _ _ _ k _ _ hat hm hq ?_ (Or.inr ⟨rfl, rfl⟩), hfifo⟩
          · simp [Pc.inCritical]
          · simp [Pc.inLeaderBlock]
          · exact hok
        · rename_i hc
          refine ⟨lf_mutexInv_set _ _ _ k _ _ hat hm ?_,
            lf_flagInv_set _ _ _ _ k _ _ hat hm hf ?_,
            lf_queueInv_set _ _ _ _ _ _ k _ _ hat hm hq ?_ (Or.inr ⟨rfl, rfl⟩), hfifo⟩
          · simp [Pc.inCritical]
          · simp only [Pc.inLeaderBlock, Bool.false_eq_true, if_false]
            simpa using hc
          · simp [Pc.queueOk]
      | leader =>
        have hflag : p.leader_active = true := hf.mpr ⟨k, _, hat, rfl⟩
        cases hqq : p.task_queue with
        | nil =>
          simp only [worker_loop, hat, hqq, goto]
          refine ⟨lf_mutexInv_set _ _ _ k _ _ hat hm ?_,
            lf_flagInv_set _ _ _ _ k _ _ hat hm hf ?_,
            lf_queueInv_set _ _ _ _ _ _ k _ _ hat hm hq ?_ (Or.inl rfl), ?_⟩
          · simp [Pc.inCritical]
          · simp [Pc.inLeaderBlock, hflag]
          · simp [Pc.queueOk]
          · rw [← hfifo, hqq]
        | cons t q' =>
          simp only [worker_loop, hat, hqq, goto]
          refine ⟨lf_mutexInv_set _ _ _ k _ _ hat hm ?_,
            lf_flagInv_set _ _ _ _ k _ _ hat hm hf ?_,
            lf_queueInv_set _ _ _ _ _ _ k _ _ hat hm hq ?_ (Or.inl rfl), ?_⟩
          · simp [Pc.inCritical]
          · simp [Pc.inLeaderBlock, hflag]
          · simp [Pc.queueOk]
          · rw [← hfifo, hqq]; simp
      | release t =>
        simp only [worker_loop, hat, goto]
        refine ⟨lf_mutexInv_set _ _ _ k _ _ hat hm ?_,
          lf_flagInv_set _ _ _ _ k _ _ hat hm hf ?_,
          lf_queueInv_set _ _ _ _ _ _ k _ _ hat hm hq ?_ (Or.inr ⟨rfl, rfl⟩), hfifo⟩
        · simp [Pc.inCritical]
        · simp [Pc.inLeaderBlock]
        · simp [Pc.queueOk]
      | unlock t =>
        simp only [worker_loop, hat, goto]
        refine ⟨lf_mutexInv_set _ _ _ k _ _ hat hm ?_,
          lf_flagInv_set _ _ _ _ k _ _ hat hm hf ?_,
          lf_queueInv_set _ _ _ _ _ _ k _ _ hat hm hq ?_ (Or.inr ⟨rfl, rfl⟩), hfifo⟩
        · simp [Pc.inCritical]
        · simp [Pc.inLeaderBlock]
        · simp [Pc.queueOk]
      | execute t =>
        simp only [worker_loop, hat, goto]
        split
        · refine ⟨lf_mutexInv_set _ _ _ k _ _ hat hm ?_,
            lf_flagInv_set _ _ _ _ k _ _ hat hm hf ?_,
            lf_queueInv_set _ _ _ _ _ _ k _ _ hat hm hq ?_ (Or.inr ⟨rfl, rfl⟩), hfifo⟩
          · simp [Pc.inCritical]
          · simp [Pc.inLeaderBlock]
          · simp [Pc.queueOk]
        · refine ⟨lf_mutexInv_set _ _ _ k _ _ hat hm ?_,
            lf_flagInv_set _ _ _ _ k _ _ hat hm hf ?_,
            lf_queueInv_set _ _ _ _ _ _ k _ _ hat hm hq ?_ (Or.inr ⟨rfl, rfl⟩), hfifo⟩
          · simp [Pc.inCritical]
          · simp [Pc.inLeaderBlock]
          · simp [Pc.queueOk]
        · refine ⟨lf_mutexInv_set _ _ _ k _ _ hat hm ?_,
            lf_flagInv_set _ _ _ _ k _ _ hat hm hf ?_,
            lf_queueInv_set _ _ _ _ _ _ k _ _ hat hm hq ?_ (Or.inr ⟨rfl, rfl⟩), hfifo⟩
          · simp [Pc.inCritical]
          · simp [Pc.inLeaderBlock]
          · simp [Pc.queueOk]
        · exact ⟨hm, hf, hq, hfifo⟩
      | notify =>
        simp only [worker_loop, hat, goto]
        refine ⟨lf_mutexInv_set _ _ _ k _ _ hat hm ?_,
          lf_flagInv_set _ _ _ _ k _ _ hat hm hf ?_,
          lf_queueInv_set _ _ _ _ _ _ k _ _ hat hm hq ?_ (Or.inr ⟨rfl, rfl⟩), hfifo⟩
        · simp [Pc.inCritical]
        · simp [Pc.inLeaderBlock]
        · simp [Pc.queueOk]
      | done => simp only [worker_loop, hat]; exact ⟨hm, hf, hq, hfifo⟩

theorem lf_inv_step (p : LeaderFollowers) (a : Action) (hinv : Inv p) : Inv (step p a) := by
  unfold step
  split
  · exact hinv
  cases a with
  | add_task t =>
    simp only [add_task]
    split
    · exact hinv
    · obtain ⟨hm, hf, hq, hfifo⟩ := hinv
      refine ⟨hm, hf, fun k pc h => lf_queueOk_push _ _ _ _ (hq k pc h), ?_⟩
      simp [← hfifo]
  | stopRequest =>
    simp only [stopRequest]
    split
    · exact hinv
    · obtain ⟨hm, hf, hq, hfifo⟩ := hinv
      exact ⟨hm, hf, fun k pc h => lf_queueOk_stop _ _ _ (hq k pc h), hfifo⟩
  | join k =>
    simp only [join]
    split
    · rename_i hat
      obtain ⟨hm, hf, hq, hfifo⟩ := hinv
      have hnot : p.queue_mutex ≠ some k := by
        intro e
        have := (hm.1 k _ hat).mpr e
        simp [Pc.inCritical] at this
      refine ⟨⟨?_, ?_⟩, ?_, ?_, hfifo⟩
      · intro j pcj hj
        rw [lf_at_set _ k _ _ hat] at hj
        rcases hj with ⟨_, hj⟩ | ⟨_, hj⟩
        · cases hj
        · exact hm.1 j pcj hj
      · intro j hj
        have hjk : j ≠ k := by
          rintro rfl
          exact hnot hj
        obtain ⟨pcj, hpcj⟩ := hm.2 j hj
        exact ⟨pcj, (lf_at_set _ k _ _ hat j _).mpr (Or.inr ⟨hjk, hpcj⟩)⟩
      · unfold FlagInv at hf ⊢
        rw [hf]
        constructor
        · rintro ⟨j, pcj, hj, hbj⟩
          have hjk : j ≠ k := by
            rintro rfl
            rw [hat] at hj
            cases hj
            simp [Pc.inLeaderBlock] at hbj
          exact ⟨j, pcj, (lf_at_set _ k _ _ hat j _).mpr (Or.inr ⟨hjk, hj⟩), hbj⟩
        · rintro ⟨j, pcj, hj, hbj⟩
          rw [lf_at_set _ k _ _ hat] at hj
          rcases hj with ⟨_, hj⟩ | ⟨_, hj⟩
          · cases hj
          · exact ⟨j, pcj, hj, hbj⟩
      · intro j pcj hj
        rw [lf_at_set _ k _ _ hat] at hj
        rcases hj with ⟨_, hj⟩ | ⟨_, hj⟩
        · cases hj
        · exact hq j pcj hj
    · exact hinv
  | worker k => exact lf_inv_worker p k hinv

@[simp] theorem lf_run_nil (p : LeaderFollowers) : run p [] = p := rfl

@[simp] theorem lf_run_cons (p : LeaderFollowers) (a : Action) (acts : List Action) :
    run p (a :: acts) = run (step p a) acts := rfl

theorem lf_run_append (p : LeaderFollowers) (xs ys : List Action) :
    run p (xs ++ ys) = run (run p xs) ys := by
  simp [run, List.foldl_append]

theorem lf_inv_run (acts : List Action) (p : LeaderFollowers) (hinv : Inv p) :
    Inv (run p acts) := by
  induction acts generalizing p with
  | nil => exact hinv
  | cons a acts ih => exact ih (step p a) (lf_inv_step p a hinv)

/-! ### Progress of a running pool -/

theorem lf_set_self (ts : List (Option Pc)) (k : Nat) (x : Option Pc) (h : ts[k]? = some x) :
    ts.set k x = ts := by
  apply List.ext_getElem?
  intro j
  rw [List.getElem?_set]
  split
  · rename_i hkj
    subst hkj
    have hk : k < ts.length := (List.getElem?_eq_some_iff.mp h).1
    simp [hk, h]
  · rfl

theorem lf_run_replicate_add (p : LeaderFollowers) (a : Action) (m n : Nat) :
    run p (List.replicate (m + n) a) = run (run p (List.replicate m a)) (List.replicate n a) := by
  rw [← lf_run_append, List.replicate_add]

/-- One full iteration of thread `k`, run without interruption in a running
pool whose mutex is free: the head of the queue is dequeued and called. -/
theorem lf_iteration (p : LeaderFollowers) (k : Nat) (t : Task) (q : List Task)
    (hlive : p.terminated = false) (hrun : p.running = true) (hmx : p.queue_mutex = none)
    (hflag : p.leader_active = false) (hat : p.threads[k]? = some (some .loopHead))
    (hq : p.task_queue = t :: q) (ht : t.safe = true) :
    run p (List.replicate 10 (.worker k))
      = { p with task_queue := q, dequeued := p.dequeued ++ [t],
                 executed := p.executed ++ called [t], caught := p.caught ++ logged [t] } := by
  have hk : k < p.threads.length := (List.getElem?_eq_some_iff.mp hat).1
  cases t with
  | null =>
    simp [List.replicate, run, step, worker_loop, goto, hlive, hrun, hmx, hflag, hat, hq, hk,
      List.getElem?_set_self, lf_set_self _ _ _ hat, called, logged]
  | fn tag o =>
    cases o with
    | ret =>
      simp [List.replicate, run, step, worker_loop, goto, hlive, hrun, hmx, hflag, hat, hq, hk,
        List.getElem?_set_self, lf_set_self _ _ _ hat, called, logged]
    | throwStd w =>
      simp [List.replicate, run, step, worker_loop, goto, hlive, hrun, hmx, hflag, hat, hq, hk,
        List.getElem?_set_self, lf_set_self _ _ _ hat, called, logged]
    | throwOther => simp [Task.safe] at ht

theorem lf_called_append (a b : List Task) : called (a ++ b) = called a ++ called b := by
  simp [called]

theorem lf_logged_append (a b : List Task) : logged (a ++ b) = logged a ++ logged b := by
  simp [logged]

/-- Thread `k` alone empties the queue of a running pool whose mutex is free. -/
theorem lf_drain (k : Nat) : ∀ (q : List Task) (p : LeaderFollowers),
    p.terminated = false → p.running = true → p.queue_mutex = none →
    p.leader_active = false → p.threads[k]? = some (some .loopHead) →
    p.task_queue = q → (∀ t ∈ q, t.safe = true) →
    ∃ n, run p (List.replicate n (.worker k))
      = { p with task_queue := [], dequeued := p.dequeued ++ q,
                 executed := p.executed ++ called q, caught := p.caught ++ logged q } := by
  intro q
  induction q with
  | nil =>
    intro p _ _ _ _ _ hq _
    refine ⟨0, ?_⟩
    cases p
    simp_all [called, logged]
  | cons t q ih =>
    intro p hlive hrun hmx hflag hat hq hsafe
    have hit := lf_iteration p k t q hlive hrun hmx hflag hat hq
      (hsafe t (List.mem_cons_self _ _))
    obtain ⟨n, hn⟩ := ih (run p (List.replicate 10 (.worker k)))
      (by rw [hit]; exact hlive) (by rw [hit]; exact hrun) (by rw [hit]; exact hmx)
      (by rw [hit]; exact hflag) (by rw [hit]; exact hat) (by rw [hit])
      (fun t' ht' => hsafe t' (List.mem_cons_of_mem _ ht'))
    refine ⟨10 + n, ?_⟩
    rw [lf_run_replicate_add, hn, hit]
    have e1 : called (t :: q) = called [t] ++ called q := lf_called_append [t] q
    have e2 : logged (t :: q) = logged [t] ++ logged q := lf_logged_append [t] q
    simp [e1, e2]

/-- In a running pool the thread that holds the mutex, run alone, releases it:
it completes its critical section, and calls the task it dequeued there if
it dequeued one. -/
theorem lf_release_mutex (p : LeaderFollowers) (j : Nat) (hinv : Inv p)
    (hlive : p.terminated = false) (hrun : p.running = true)
    (hmx : p.queue_mutex = some j) (hsafe : ∀ t ∈ p.task_queue, t.safe = true) :
    ∃ (n : Nat) (d rest : List Task) (pcj : Pc), p.task_queue = d ++ rest
      ∧ run p (List.replicate n (.worker j))
        = { p with task_queue := rest, dequeued := p.dequeued ++ d,
                   executed := p.executed ++ called d, caught := p.caught ++ logged d,
                   queue_mutex := none, leader_active := false,
                   threads := p.threads.set j (some pcj) } := by
  obtain ⟨hm, hf, hq, _⟩ := hinv
  obtain ⟨pc, hat⟩ := hm.2 j hmx
  have hcrit : pc.inCritical = true := (hm.1 j pc hat).mpr hmx
  have hk : j < p.threads.length := (List.getElem?_eq_some_iff.mp hat).1
  have hok := hq j pc hat
  have hflag : pc.inLeaderBlock = false → p.leader_active = false := by
    intro hb
    by_contra hcon
    simp only [Bool.not_eq_false] at hcon
    obtain ⟨i, pci, hi, hbi⟩ := hf.mp hcon
    have e1 := (hm.1 i pci hi).mp (lf_leaderBlock_critical _ hbi)
    rw [hmx] at e1
    simp only [Option.some.injEq] at e1
    subst e1
    rw [hat] at hi
    cases hi
    rw [hb] at hbi
    cases hbi
  have hsafe1 : ∀ t q, p.task_queue = t :: q → t.safe = true := by
    intro t q h
    exact hsafe t (by rw [h]; exact List.mem_cons_self _ _)
  cases pc with
  | loopHead => simp [Pc.inCritical] at hcrit
  | acquire => simp [Pc.inCritical] at hcrit
  | execute t => simp [Pc.inCritical] at hcrit
  | notify => simp [Pc.inCritical] at hcrit
  | done => simp [Pc.inCritical] at hcrit
  | unlock t =>
    have hfl := hflag rfl
    refine ⟨1, [], p.task_queue, .execute t, rfl, ?_⟩
    cases p
    simp_all [List.replicate, run, step, worker_loop, goto, called, logged]
  | release t =>
    refine ⟨2, [], p.task_queue, .execute t, rfl, ?_⟩
    cases p
    simp_all [List.replicate, run, step, worker_loop, goto, called, logged,
      List.getElem?_set_self]
  | leader =>
    simp only [Pc.queueOk] at hok
    cases hqq : p.task_queue with
    | nil => exact absurd hqq hok
    | cons t q =>
      have hts := hsafe1 t q hqq
      refine ⟨4, [t], q, .notify, rfl, ?_⟩
      cases t with
      | null =>
        cases p
        simp_all [List.replicate, run, step, worker_loop, goto, called, logged,
          List.getElem?_set_self]
      | fn tag o =>
        cases o with
        | ret =>
          cases p
          simp_all [List.replicate, run, step, worker_loop, goto, called, logged,
            List.getElem?_set_self]
        | throwStd w =>
          cases p
          simp_all [List.replicate, run, step, worker_loop, goto, called, logged,
            List.getElem?_set_self]
        | throwOther => simp [Task.safe] at hts
  | election =>
    have hfl := hflag rfl
    simp only [Pc.queueOk] at hok
    cases hqq : p.task_queue with
    | nil => exact absurd hqq hok
    | cons t q =>
      have hts := hsafe1 t q hqq
      refine ⟨5, [t], q, .notify, rfl, ?_⟩
      cases t with
      | null =>
        cases p
        simp_all [List.replicate, run, step, worker_loop, goto, called, logged,
          List.getElem?_set_self]
      | fn tag o =>
        cases o with
        | ret =>
          cases p
          simp_all [List.replicate, run, step, worker_loop, goto, called, logged,
            List.getElem?_set_self]
        | throwStd w =>
          cases p
          simp_all [List.replicate, run, step, worker_loop, goto, called, logged,
            List.getElem?_set_self]
        | throwOther => simp [Task.safe] at hts
  | exitCheck =>
    have hfl := hflag rfl
    simp only [Pc.queueOk, hrun, Bool.true_eq_false, false_or] at hok
    cases hqq : p.task_queue with
    | nil => exact absurd hqq hok
    | cons t q =>
      have hts := hsafe1 t q hqq
      refine ⟨6, [t], q, .notify, rfl, ?_⟩
      cases t with
      | null =>
        cases p
        simp_all [List.replicate, run, step, worker_loop, goto, called, logged,
          List.getElem?_set_self]
      | fn tag o =>
        cases o with
        | ret =>
          cases p
          simp_all [List.replicate, run, step, worker_loop, goto, called, logged,
            List.getElem?_set_self]
        | throwStd w =>
          cases p
          simp_all [List.replicate, run, step, worker_loop, goto, called, logged,
            List.getElem?_set_self]
        | throwOther => simp [Task.safe] at hts
  | waiting =>
    have hfl := hflag rfl
    cases hqq : p.task_queue with
    | nil =>
      refine ⟨1, [], [], .acquire, rfl, ?_⟩
      cases p
      simp_all [List.replicate, run, step, worker_loop, goto, called, logged,
        List.getElem?_set_self]
    | cons t q =>
      have hts := hsafe1 t q hqq
      refine ⟨7, [t], q, .notify, rfl, ?_⟩
      cases t with
      | null =>
        cases p
        simp_all [List.replicate, run, step, worker_loop, goto, called, logged,
          List.getElem?_set_self]
      | fn tag o =>
        cases o with
        | ret =>
          cases p
          simp_all [List.replicate, run, step, worker_loop, goto, called, logged,
            List.getElem?_set_self]
        | throwStd w =>
          cases p
          simp_all [List.replicate, run, step, worker_loop, goto, called, logged,
            List.getElem?_set_self]
        | throwOther => simp [Task.safe] at hts

theorem lf_flag_of_free (p : LeaderFollowers) (hinv : Inv p) (hmx : p.queue_mutex = none) :
    p.leader_active = false := by
  by_contra hcon
  simp only [Bool.not_eq_false] at hcon
  obtain ⟨i, pci, hi, hbi⟩ := hinv.2.1.mp hcon
  have e1 := (hinv.1.1 i pci hi).mp (lf_leaderBlock_critical _ hbi)
  rw [hmx] at e1
  cases e1

/-- In a running pool, with thread `k` about to notify, the workers can free
the mutex without thread `k` moving. -/
theorem lf_free_mutex (p : LeaderFollowers) (k : Nat) (hinv : Inv p)
    (hlive : p.terminated = false) (hrun : p.running = true)
    (hat : p.threads[k]? = some (some .notify))
    (hsafe : ∀ t ∈ p.task_queue, t.safe = true) :
    ∃ (ws : List Action) (d rest : List Task), (∀ a ∈ ws, a.isWorker = true)
      ∧ p.task_queue = d ++ rest
      ∧ (run p ws).terminated = false ∧ (run p ws).running = true
      ∧ (run p ws).queue_mutex = none ∧ (run p ws).leader_active = false
      ∧ (run p ws).threads[k]? = some (some .notify)
      ∧ (run p ws).task_queue = rest ∧ (run p ws).enqueued = p.enqueued
      ∧ (run p ws).dequeued = p.dequeued ++ d
      ∧ (run p ws).executed = p.executed ++ called d := by
  cases hmx : p.queue_mutex with
  | none =>
    refine ⟨[], [], p.task_queue, by simp, rfl, hlive, hrun, hmx,
      lf_flag_of_free p hinv hmx, hat, rfl, rfl, by simp, by simp [called]⟩
  | some j =>
    obtain ⟨n, d, rest, pcj, hsplit, heq⟩ := lf_release_mutex p j hinv hlive hrun hmx hsafe
    have hjk : j ≠ k := by
      rintro rfl
      have := (hinv.1.1 j _ hat).mpr hmx
      simp [Pc.inCritical] at this
    refine ⟨List.replicate n (.worker j), d, rest, ?_, hsplit, ?_⟩
    · intro a ha
      rw [List.eq_of_mem_replicate ha]
      rfl
    · rw [heq]
      refine ⟨hlive, hrun, rfl, rfl, ?_, rfl, rfl, rfl, rfl⟩
      simp only
      rw [List.getElem?_set_ne hjk]
      exact hat

/-- Submitting tasks to a pool whose mutex is free appends them to the queue. -/
theorem lf_submit : ∀ (later : List Task) (p : LeaderFollowers),
    p.terminated = false → p.queue_mutex = none →
    run p (later.map .add_task)
      = { p with task_queue := p.task_queue ++ later, enqueued := p.enqueued ++ later } := by
  intro later
  induction later with
  | nil =>
    intro p _ _
    cases p
    simp
  | cons t later ih =>
    intro p hlive hmx
    have e1 : step p (.add_task t)
        = { p with task_queue := p.task_queue ++ [t], enqueued := p.enqueued ++ [t] } := by
      simp [step, hlive, add_task, hmx]
    rw [List.map_cons, lf_run_cons, e1]
    rw [ih { p with task_queue := p.task_queue ++ [t], enqueued := p.enqueued ++ [t] }
      hlive hmx]
    simp

/-- After thread `k` has caught an exception and stands at the notify, the
workers can run, the tasks `later` be submitted, and the workers run again,
so that every task of the queue and of `later` is dequeued and called. -/
theorem lf_progress (p : LeaderFollowers) (k : Nat) (hinv : Inv p)
    (hlive : p.terminated = false) (hrun : p.running = true)
    (hat : p.threads[k]? = some (some .notify)) (later : List Task)
    (hsafe : ∀ t ∈ p.task_queue ++ later, t.safe = true) :
    ∃ ws1 ws2 : List Action, (∀ a ∈ ws1 ++ ws2, a.isWorker = true)
      ∧ (run p (ws1 ++ later.map .add_task ++ ws2)).terminated = false
      ∧ (run p (ws1 ++ later.map .add_task ++ ws2)).task_queue = []
      ∧ (run p (ws1 ++ later.map .add_task ++ ws2)).enqueued = p.enqueued ++ later
      ∧ (run p (ws1 ++ later.map .add_task ++ ws2)).dequeued
          = p.dequeued ++ (p.task_queue ++ later)
      ∧ (run p (ws1 ++ later.map .add_task ++ ws2)).executed
          = p.executed ++ called (p.task_queue ++ later) := by
  obtain ⟨ws1, d, rest, hws1, hsplit, h1, h2, h3, h4, h5, h6, h7, h8, h9⟩ :=
    lf_free_mutex p k hinv hlive hrun hat
      (fun t ht => hsafe t (List.mem_append_left _ ht))
  have hsub := lf_submit later (run p ws1) h1 h3
  have hk : k < (run p ws1).threads.length := (List.getElem?_eq_some_iff.mp h5).1
  -- thread `k` notifies and is back at the loop head
  have hstep : step (run (run p ws1) (later.map .add_task)) (.worker k)
      = { run p ws1 with task_queue := rest ++ later, enqueued := p.enqueued ++ later,
                         threads := (run p ws1).threads.set k (some .loopHead) } := by
    rw [hsub]
    simp [step, h1, worker_loop, h5, goto, h6, h7]
  obtain ⟨n, hn⟩ := lf_drain k (rest ++ later)
    (step (run (run p ws1) (later.map .add_task)) (.worker k))
    (by rw [hstep]; exact h1) (by rw [hstep]; exact h2) (by rw [hstep]; exact h3)
    (by rw [hstep]; exact h4)
    (by rw [hstep]; simp [List.getElem?_set_self hk])
    (by rw [hstep])
    (fun t ht => hsafe t (by
      rw [hsplit]
      rcases List.mem_append.mp ht with h | h
      · exact List.mem_append_left _ (List.mem_append_right _ h)
      · exact List.mem_append_right _ h))
  refine ⟨ws1, .worker k :: List.replicate n (.worker k), ?_, ?_⟩
  · intro a ha
    rcases List.mem_append.mp ha with h | h
    · exact hws1 a h
    · rcases List.mem_cons.mp h with h | h
      · rw [h]; rfl
      · rw [List.eq_of_mem_replicate h]; rfl
  · rw [lf_run_append, lf_run_append, lf_run_cons, hn, hstep]
    refine ⟨h1, rfl, rfl, ?_, ?_⟩
    · simp only [h8, hsplit, List.append_assoc]
    · simp only [h9, hsplit, lf_called_append, List.append_assoc]

end LeaderFollowers

/-! ## Stopping and starting -/

theorem step_terminated (s : Sys) (a : Action) (h : s.terminated = true) : step s a = s := by
  simp [step, h]

theorem run_terminated (acts : List Action) (s : Sys) (h : s.terminated = true) :
    run s acts = s := by
  induction acts with
  | nil => rfl
  | cons a acts ih => rw [run_cons, step_terminated s a h, ih]

theorem live_of_step_live (s : Sys) (a : Action) (h : (step s a).terminated = false) :
    s.terminated = false := by
  by_contra hcon
  simp only [Bool.not_eq_false] at hcon
  rw [step_terminated s a hcon, hcon] at h
  cases h

theorem live_of_run_live (acts : List Action) (s : Sys) (h : (run s acts).terminated = false) :
    s.terminated = false := by
  by_contra hcon
  simp only [Bool.not_eq_false] at hcon
  rw [run_terminated acts s hcon, hcon] at h
  cases h

theorem step_stopRequest (s : Sys) (i : Nat) (h : s.terminated = false) :
    step s (.stopRequest i) = ActiveObject.stopRequest s i := by
  simp [step, h]

theorem step_stopJoin (s : Sys) (i : Nat) (h : s.terminated = false) :
    step s (.stopJoin i) = ActiveObject.stopJoin s i := by
  simp [step, h]

theorem step_start (s : Sys) (i : Nat) (h : s.terminated = false) :
    step s (.start i) = ActiveObject.start s i := by
  simp [step, h]

theorem Sys.modify_eq_self (s : Sys) (i : Nat) (f : ActiveObject → ActiveObject)
    (o : ActiveObject) (ho : s.heap[i]? = some o) (hf : f o = o) : s.modify i f = s := by
  cases s with
  | mk heap term =>
    simp only [Sys.modify, Sys.mk.injEq, and_true]
    apply List.ext_getElem?
    intro j
    rw [List.getElem?_modify]
    by_cases hij : i = j
    · subst hij
      simp only at ho
      simp [ho, hf]
    · cases heap[j]? <;> simp [hij]

/-- Worker steps never write the flag `running`. -/
theorem running_run_workers (ws : List Action) (hws : ∀ a ∈ ws, a.isWorker = true)
    (s : Sys) (i : Nat) :
    ((run s ws).heap[i]?).map (fun o => o.running) = (s.heap[i]?).map (fun o => o.running) := by
  induction ws generalizing s with
  | nil => rfl
  | cons a ws ih =>
    have ha := hws _ (List.mem_cons_self _ _)
    rw [run_cons, ih (fun b hb => hws b (List.mem_cons_of_mem _ hb))]
    cases a <;> simp only [Action.isWorker, Bool.false_eq_true] at ha
    rename_i k
    unfold step
    split
    · rfl
    · exact ActiveObject.workerStep_frame (fun o => o.running) (fun _ _ _ _ _ _ => rfl) s k i

theorem LeaderFollowers.lf_foldl_join (ks : List Nat) (p : LeaderFollowers)
    (h : ∀ k, LeaderFollowers.join p k = p) : ks.foldl LeaderFollowers.join p = p := by
  induction ks with
  | nil => rfl
  | cons k ks ih => rw [List.foldl_cons, h k, ih]

/-- The relay step, taken in any state: it appends one relay task at the tail
of the successor's queue and touches no other queue. -/
theorem ActiveObject.relay_queues (s : Sys) (i : Nat) (o : ActiveObject) (r : String)
    (hlive : s.terminated = false) (ho : s.heap[i]? = some o)
    (hpc : o.workerThread = some (.relay r)) :
    (step s (.worker i)).terminated = false
    ∧ (∀ j, o.nextStage = some j →
        (∀ p, s.heap[j]? = some p →
          ∃ p', (step s (.worker i)).heap[j]? = some p' ∧ p'.tasks = p.tasks ++ [Task.relay r])
        ∧ ∀ k, k ≠ j →
          ((step s (.worker i)).heap[k]?).map (fun a => a.tasks)
            = (s.heap[k]?).map (fun a => a.tasks))
    ∧ (o.nextStage = none → ∀ k : Nat,
          ((step s (.worker i)).heap[k]?).map (fun a => a.tasks)
            = (s.heap[k]?).map (fun a => a.tasks)) := by
  rw [step_worker s i hlive, ActiveObject.workerStep_relay s i o r ho hpc]
  refine ⟨?_, ?_, ?_⟩
  · cases o.nextStage <;> simp [ActiveObject.enqueue, hlive]
  · intro j hj
    simp only [hj]
    refine ⟨?_, ?_⟩
    · intro p hp
      simp only [ActiveObject.enqueue, Sys.heap_modify_self, Sys.heap_modify, hp,
        Option.map_some']
      by_cases hij : i = j
      · subst hij
        rw [ho] at hp
        cases hp
        simp
      · simp [hij]
    · intro k hk
      simp only [ActiveObject.enqueue, Sys.heap_modify, Option.map_map]
      cases s.heap[k]? with
      | none => rfl
      | some a =>
        simp only [Option.map_some', Function.comp, Option.some.injEq]
        by_cases hik : i = k <;> simp [hik, Ne.symm hk]
  · intro hn k
    simp only [hn, Sys.heap_modify, Option.map_map]
    cases s.heap[k]? with
    | none => rfl
    | some a =>
      simp only [Option.map_some', Function.comp, Option.some.injEq]
      by_cases hik : i = k <;> simp [hik]

/-! ## Claims -/

/-- C1 (drain on stop, ActiveObject), evaluated on the code: a task queued
before `stop()` is left in the queue, never dequeued nor executed, when the
flag is cleared while the worker stands at the loop-head test (first run),
is executing another task (second run), or is waiting (third run, two tasks
queued); in each run the worker has returned, `stop()` has joined it and the
queue is not empty. -/
theorem C1_stop_leaves_tasks_queued :
    (run Sys.init [.create, .enqueue 0 (.user (.ret "A")), .start 0,
        .stopRequest 0, .worker 0, .stopJoin 0]).heap
      = [{ tasks := [.user (.ret "A")], workerThread := none, running := false,
           nextStage := none, enqueued := [.user (.ret "A")], dequeued := [],
           executed := [] }]
    ∧ (run Sys.init [.create, .enqueue 0 (.user (.ret "A")), .enqueue 0 (.user (.ret "B")),
        .start 0, .worker 0, .worker 0,
        .stopRequest 0, .worker 0, .worker 0, .worker 0, .stopJoin 0]).heap
      = [{ tasks := [.user (.ret "B")], workerThread := none, running := false,
           nextStage := none, enqueued := [.user (.ret "A"), .user (.ret "B")],
           dequeued := [.user (.ret "A")], executed := ["A"] }]
    ∧ (run Sys.init [.create, .start 0, .worker 0,
        .enqueue 0 (.user (.ret "A")), .enqueue 0 (.user (.ret "B")),
        .stopRequest 0, .worker 0, .worker 0, .worker 0, .worker 0, .stopJoin 0]).heap
      = [{ tasks := [.user (.ret "B")], workerThread := none, running := false,
           nextStage := none, enqueued := [.user (.ret "A"), .user (.ret "B")],
           dequeued := [.user (.ret "A")], executed := ["A"] }] := by
  decide

/-- C2 (FIFO order, ActiveObject): in every state reached by any schedule,
for every object, `enqueue` appends the task at the tail of its queue; a
worker step that dequeues removes exactly the head; and the tasks dequeued so
far followed by the tasks still queued are the tasks enqueued so far, so the
dequeued sequence is an initial segment of the enqueued one. -/
theorem C2_activeObject_fifo (acts : List Action) (i : Nat) (o : ActiveObject)
    (h : (run Sys.init acts).heap[i]? = some o)
    (hlive : (run Sys.init acts).terminated = false) :
    (∀ t, ∃ o', (step (run Sys.init acts) (.enqueue i t)).heap[i]? = some o'
        ∧ o'.tasks = o.tasks ++ [t] ∧ o'.enqueued = o.enqueued ++ [t]
        ∧ o'.dequeued = o.dequeued)
    ∧ (∀ o', (step (run Sys.init acts) (.worker i)).heap[i]? = some o' →
        (o'.dequeued = o.dequeued ∧ ∃ l, o'.tasks = o.tasks ++ l)
        ∨ ∃ t q, o.tasks = t :: q ∧ o'.tasks = q ∧ o'.dequeued = o.dequeued ++ [t]
            ∧ o'.workerThread = some (.exec t))
    ∧ o.dequeued ++ o.tasks = o.enqueued := by
  refine ⟨?_, ?_, ?_⟩
  · intro t
    simp [step, hlive, ActiveObject.enqueue, Sys.heap_modify_self, h]
  · intro o' ho'
    simp only [step, hlive, Bool.false_eq_true, if_false, ActiveObject.workerStep, h] at ho'
    split at ho'
    · left
      rw [h] at ho'
      simp only [Option.some.injEq] at ho'
      subst ho'
      exact ⟨rfl, [], by simp⟩
    · left
      rw [h] at ho'
      simp only [Option.some.injEq] at ho'
      subst ho'
      exact ⟨rfl, [], by simp⟩
    · left
      rw [Sys.heap_modify_self, h] at ho'
      simp only [Option.map_some', Option.some.injEq] at ho'
      subst ho'
      exact ⟨rfl, [], by simp⟩
    · split at ho'
      · left
        split at ho'
        · rw [h] at ho'
          simp only [Option.some.injEq] at ho'
          subst ho'
          exact ⟨rfl, [], by simp⟩
        · rw [Sys.heap_modify_self, h] at ho'
          simp only [Option.map_some', Option.some.injEq] at ho'
          subst ho'
          exact ⟨rfl, [], by simp⟩
      · right
        rename_i t q hq
        rw [Sys.heap_modify_self, h] at ho'
        simp only [Option.map_some', Option.some.injEq] at ho'
        subst ho'
        exact ⟨t, q, hq, by simp [hq], rfl, rfl⟩
    · left
      split at ho'
      · rw [Sys.heap_modify_self, h] at ho'
        simp only [Option.map_some', Option.some.injEq] at ho'
        subst ho'
        exact ⟨rfl, [], by simp⟩
      · rw [Sys.heap_modify_self, h] at ho'
        simp only [Option.map_some', Option.some.injEq] at ho'
        subst ho'
        exact ⟨rfl, [], by simp⟩
      · rw [h] at ho'
        simp only [Option.some.injEq] at ho'
        subst ho'
        exact ⟨rfl, [], by simp⟩
    · left
      split at ho'
      · rw [Sys.heap_modify_self, h] at ho'
        simp only [Option.map_some', Option.some.injEq] at ho'
        subst ho'
        exact ⟨rfl, [], by simp⟩
      · rename_i j hj
        simp only [ActiveObject.enqueue] at ho'
        rw [Sys.heap_modify, Sys.heap_modify_self, h] at ho'
        simp only [Option.map_some', Option.some.injEq] at ho'
        subst ho'
        by_cases hji : j = i
        · rw [if_pos hji]
          exact ⟨rfl, _, rfl⟩
        · rw [if_neg hji]
          exact ⟨rfl, [], by simp⟩
  · exact fifo_run acts Sys.init (by simp [Sys.init]) i o h

/-- Witness of C2: one object, two tasks enqueued, the first one dequeued. -/
theorem C2_activeObject_fifo_witness :
    ([Task.user (.ret "A")] ++ [Task.user (.ret "B")] : List Task)
      = [Task.user (.ret "A"), Task.user (.ret "B")] :=
  (C2_activeObject_fifo
    [.create, .enqueue 0 (.user (.ret "A")), .enqueue 0 (.user (.ret "B")), .start 0,
      .worker 0, .worker 0] 0
    { tasks := [.user (.ret "B")], workerThread := some (.exec (.user (.ret "A"))),
      running := true, nextStage := none,
      enqueued := [.user (.ret "A"), .user (.ret "B")],
      dequeued := [.user (.ret "A")], executed := [] }
    (by decide) (by decide)).2.2

/-- C3 (relay step): a worker that holds a dequeued task returning `r`
executes it and then relays: when a successor `j` is set, the queue of `j`
becomes its old queue followed by exactly one relay task, that task returns
`r`, and no other queue changes; when no successor is set, no queue changes.
The same holds of the relay step alone, taken in whatever state the other
threads have produced since the execution. -/
theorem C3_relay_step (s : Sys) (i : Nat) (o : ActiveObject) (t : Task) (r : String)
    (hlive : s.terminated = false) (ho : s.heap[i]? = some o)
    (hpc : o.workerThread = some (.exec t)) (hcall : t.call = some (.ret r)) :
    (run s [.worker i, .worker i]).terminated = false
    ∧ (∀ j, o.nextStage = some j →
        (∀ p, s.heap[j]? = some p →
          ∃ p', (run s [.worker i, .worker i]).heap[j]? = some p'
            ∧ p'.tasks = p.tasks ++ [Task.relay r])
        ∧ (Task.relay r).call = some (.ret r)
        ∧ ∀ k, k ≠ j →
          ((run s [.worker i, .worker i]).heap[k]?).map (fun a => a.tasks)
            = (s.heap[k]?).map (fun a => a.tasks))
    ∧ (o.nextStage = none → ∀ k : Nat,
          ((run s [.worker i, .worker i]).heap[k]?).map (fun a => a.tasks)
            = (s.heap[k]?).map (fun a => a.tasks))
    ∧ ∃ o1, (step s (.worker i)).heap[i]? = some o1 ∧ o1.workerThread = some (.relay r)
        ∧ o1.executed = o.executed ++ [r]
        ∧ ∀ (s2 : Sys) (o2 : ActiveObject), s2.terminated = false → s2.heap[i]? = some o2 →
            o2.workerThread = some (.relay r) →
            (∀ j, o2.nextStage = some j →
              (∀ p, s2.heap[j]? = some p →
                ∃ p', (step s2 (.worker i)).heap[j]? = some p'
                  ∧ p'.tasks = p.tasks ++ [Task.relay r])
              ∧ ∀ k, k ≠ j →
                ((step s2 (.worker i)).heap[k]?).map (fun a => a.tasks)
                  = (s2.heap[k]?).map (fun a => a.tasks))
            ∧ (o2.nextStage = none → ∀ k : Nat,
                ((step s2 (.worker i)).heap[k]?).map (fun a => a.tasks)
                  = (s2.heap[k]?).map (fun a => a.tasks)) := by
  have h1 : step s (.worker i)
      = s.modify i fun o => { o with executed := o.executed ++ [r],
                                     workerThread := some (.relay r) } := by
    simp only [step, hlive, Bool.false_eq_true, if_false]
    exact ActiveObject.workerStep_exec_ret s i o t r ho hpc hcall
  have ho1 : (step s (.worker i)).heap[i]?
      = some { o with executed := o.executed ++ [r], workerThread := some (.relay r) } := by
    rw [h1, Sys.heap_modify_self, ho]; rfl
  have h2 := ActiveObject.workerStep_relay (step s (.worker i)) i _ r ho1 rfl
  have hl1 : (step s (.worker i)).terminated = false := by rw [h1]; exact hlive
  have hrun : run s [.worker i, .worker i] = ActiveObject.workerStep (step s (.worker i)) i := by
    rw [run_cons, run_cons, run_nil, step_worker _ _ hl1]
  rw [hrun, h2]
  refine ⟨?_, ?_, ?_, ⟨_, ho1, rfl, rfl, fun s2 o2 hl2 ho2 hpc2 =>
    (ActiveObject.relay_queues s2 i o2 r hl2 ho2 hpc2).2⟩⟩
  · cases o.nextStage <;> simp [ActiveObject.enqueue, hl1]
  · intro j hj
    simp only [hj]
    refine ⟨?_, rfl, ?_⟩
    · intro p hp
      simp only [ActiveObject.enqueue, Sys.heap_modify_self, Sys.heap_modify, h1, hp,
        Option.map_some']
      by_cases hij : i = j
      · subst hij
        rw [ho] at hp
        cases hp
        simp
      · simp [hij]
    · intro k hk
      simp only [ActiveObject.enqueue, Sys.heap_modify, h1, Option.map_map]
      cases s.heap[k]? with
      | none => rfl
      | some a =>
        simp only [Option.map_some', Function.comp, Option.some.injEq]
        by_cases hik : i = k <;> simp [hik, Ne.symm hk]
  · intro hn k
    simp only [hn, Sys.heap_modify, h1, Option.map_map]
    cases s.heap[k]? with
    | none => rfl
    | some a =>
      simp only [Option.map_some', Function.comp, Option.some.injEq]
      by_cases hik : i = k <;> simp [hik]

/-- Witness of C3: stage 0 of a two-stage pipeline holds its task, which
returns "A"; after the two steps stage 1 has its own task followed by the
relay of "A". -/
theorem C3_relay_step_witness :
    ∃ p', (run (run (Pipeline.build [.user (.ret "A"), .user (.ret "B")])
              [.start 0, .worker 0, .worker 0]) [.worker 0, .worker 0]).heap[1]? = some p'
      ∧ p'.tasks = [Task.user (.ret "B")] ++ [Task.relay "A"] :=
  ((C3_relay_step
      (run (Pipeline.build [.user (.ret "A"), .user (.ret "B")]) [.start 0, .worker 0, .worker 0])
      0
      { tasks := [], workerThread := some (.exec (.user (.ret "A"))), running := true,
        nextStage := some 1, enqueued := [.user (.ret "A")], dequeued := [.user (.ret "A")],
        executed := [] }
      (.user (.ret "A")) "A" (by decide) (by decide) rfl rfl).2.1 1 rfl).1
    { tasks := [.user (.ret "B")], workerThread := none, running := false,
      nextStage := none, enqueued := [.user (.ret "B")], dequeued := [], executed := [] }
    (by decide)

/-- C4 (relay correctness through a pipeline): for a pipeline built by one
`addTask` per result of `rs`, (1) some run of `start` steps and worker steps
ends with every queue empty, no task in hand and the process alive; (2) at
the end of every such run, stage `j` has executed exactly the results
`r_j, r_(j-1), ..., r_0`, that is `j + 1` tasks, and what it dequeued is its
own task followed by the relay tasks of `r_(j-1), ..., r_0`; so for every
`i < j` stage `j` executed a relay task whose result is `r_i`. -/
theorem C4_pipeline_relay (rs : List String) :
    (∃ acts : List PAction, (∀ a ∈ acts, a.isRun = true)
      ∧ (Pipeline.run (Pipeline.build (Pipeline.tasksOf rs)) acts).terminated = false
      ∧ Pipeline.quiescent (Pipeline.run (Pipeline.build (Pipeline.tasksOf rs)) acts) = true)
    ∧ ∀ acts : List PAction, (∀ a ∈ acts, a.isRun = true) →
        Pipeline.quiescent (Pipeline.run (Pipeline.build (Pipeline.tasksOf rs)) acts) = true →
        (Pipeline.run (Pipeline.build (Pipeline.tasksOf rs)) acts).heap.length = rs.length
        ∧ ∀ (j : Nat) (o : ActiveObject),
            (Pipeline.run (Pipeline.build (Pipeline.tasksOf rs)) acts).heap[j]? = some o →
            o.executed = (rs.take (j + 1)).reverse
            ∧ o.executed.length = j + 1
            ∧ (∃ r, rs[j]? = some r
                ∧ o.dequeued = Task.user (.ret r) :: (rs.take j).reverse.map Task.relay)
            ∧ ∀ (i : Nat) (r : String), i < j → rs[i]? = some r →
                Task.relay r ∈ o.dequeued ∧ r ∈ o.executed := by
  refine ⟨Pipeline.exists_quiescent_run rs, ?_⟩
  intro acts hacts hq
  have hinv := Pipeline.relayInv_run rs acts hacts _
    (Pipeline.relayInv_built rs _ (Pipeline.built_build rs))
  refine ⟨hinv.1, ?_⟩
  intro j o ho
  obtain ⟨hex, r, hr, hdq⟩ := Pipeline.relayInv_quiescent rs _ hinv hq j o ho
  have hj : j < rs.length := by
    have := (List.getElem?_eq_some_iff.mp ho).1
    rw [hinv.1] at this
    exact this
  refine ⟨hex, ?_, ⟨r, hr, hdq⟩, ?_⟩
  · rw [hex, List.length_reverse, List.length_take]
    omega
  · intro i r' hi hr'
    have hmem : r' ∈ rs.take j := by
      rw [List.mem_iff_getElem?]
      exact ⟨i, by rw [List.getElem?_take_of_lt hi]; exact hr'⟩
    constructor
    · rw [hdq]
      exact List.mem_cons_of_mem _ (List.mem_map.mpr ⟨r', List.mem_reverse.mpr hmem, rfl⟩)
    · rw [hex, List.mem_reverse]
      exact List.take_subset_take_left rs (Nat.le_succ j) hmem

/-- Witness of C4: the three-stage pipeline of the specification, the workers
taking turns; the run ends quiescent and stage 2 (the third) has executed
"C", then the relays of "B" and of "A". -/
theorem C4_pipeline_relay_witness :
    (∀ a ∈ Pipeline.roundRobin3, a.isRun = true)
    ∧ Pipeline.quiescent
        (Pipeline.run (Pipeline.build (Pipeline.tasksOf ["A", "B", "C"])) Pipeline.roundRobin3)
        = true
    ∧ (Pipeline.run (Pipeline.build (Pipeline.tasksOf ["A", "B", "C"]))
        Pipeline.roundRobin3).heap[2]?
        = some { tasks := [], workerThread := some .wait, running := true, nextStage := none,
                 enqueued := [.user (.ret "C"), .relay "B", .relay "A"],
                 dequeued := [.user (.ret "C"), .relay "B", .relay "A"],
                 executed := ["C", "B", "A"] }
    ∧ ["C", "B", "A"] = (["A", "B", "C"].take (2 + 1)).reverse :=
  ⟨by decide, by decide, by decide,
    (((C4_pipeline_relay ["A", "B", "C"]).2 Pipeline.roundRobin3 (by decide) (by decide)).2 2
      { tasks := [], workerThread := some .wait, running := true, nextStage := none,
        enqueued := [.user (.ret "C"), .relay "B", .relay "A"],
        dequeued := [.user (.ret "C"), .relay "B", .relay "A"],
        executed := ["C", "B", "A"] } (by decide)).1⟩

/-- C5 (pipeline chain invariant): after any sequence of steps of
`addTask`, `start`, `execute` and `stop` calls and of the workers, every
stage but the last has the next stage as successor and the last stage has
none; and a successor, once set, is still the same after every further
step. -/
theorem C5_pipeline_chain (acts : List PAction) :
    (∀ (i : Nat) (o : ActiveObject), (Pipeline.run Sys.init acts).heap[i]? = some o →
        o.nextStage = if i + 1 < (Pipeline.run Sys.init acts).heap.length
          then some (i + 1) else none)
    ∧ ∀ (a : PAction) (i : Nat) (o : ActiveObject) (j : Nat),
        (Pipeline.run Sys.init acts).heap[i]? = some o → o.nextStage = some j →
        ∃ o', (Pipeline.step (Pipeline.run Sys.init acts) a).heap[i]? = some o'
          ∧ o'.nextStage = some j := by
  have hc : Pipeline.Chained (Pipeline.run Sys.init acts) :=
    Pipeline.chained_run acts Sys.init (by intro i o ho; simp [Sys.init] at ho)
  refine ⟨hc, ?_⟩
  intro a i o j ho hj
  have hc' := Pipeline.chained_step _ a hc
  have hi := hc i o ho
  rw [hj] at hi
  have hlt : i + 1 < (Pipeline.run Sys.init acts).heap.length := by
    by_contra hcon
    simp [hcon] at hi
  simp only [hlt, if_true, Option.some.injEq] at hi
  have hlen : (Pipeline.run Sys.init acts).heap.length
      ≤ (Pipeline.step (Pipeline.run Sys.init acts) a).heap.length := by
    by_cases hadd : ∃ t, a = .addTask t
    · obtain ⟨t, rfl⟩ := hadd
      unfold Pipeline.step
      split
      · exact Nat.le_refl _
      · rw [Pipeline.length_addTask]; omega
    · exact Nat.le_of_eq (Pipeline.step_nextStage _ a (fun t ht => hadd ⟨t, ht⟩)).1.symm
  have hlt' : i < (Pipeline.step (Pipeline.run Sys.init acts) a).heap.length := by omega
  refine ⟨_, List.getElem?_eq_getElem hlt', ?_⟩
  have h1 := hc' i _ (List.getElem?_eq_getElem hlt')
  have h2 : i + 1 < (Pipeline.step (Pipeline.run Sys.init acts) a).heap.length := by omega
  rw [h1, hi, if_pos h2]

/-- Witness of C5: three stages, started, `execute` called, the first stage
stopped; stage 0 points to stage 1, and still does after a further `addTask`. -/
theorem C5_pipeline_chain_witness :
    ∃ o', (Pipeline.step (Pipeline.run Sys.init
        [.addTask (.user (.ret "A")), .addTask (.user (.ret "B")), .addTask (.user (.ret "C")),
          .start 0, .start 1, .start 2, .executeFront, .executeBack, .worker 0,
          .stopRequest 0]) (.addTask .null)).heap[0]? = some o'
      ∧ o'.nextStage = some 1 :=
  (C5_pipeline_chain
    [.addTask (.user (.ret "A")), .addTask (.user (.ret "B")), .addTask (.user (.ret "C")),
      .start 0, .start 1, .start 2, .executeFront, .executeBack, .worker 0,
      .stopRequest 0]).2 (.addTask .null) 0
    { tasks := [.user (.ret "A"), .passThrough], workerThread := some .wait, running := false,
      nextStage := some 1, enqueued := [.user (.ret "A"), .passThrough], dequeued := [],
      executed := [] } 1 (by decide) rfl

/-- C6 (FIFO and single dequeue, LeaderFollowers): in every state reached by
any schedule of a pool, (1) the tasks dequeued so far followed by the tasks
still queued are the tasks submitted so far, so the dequeue order is the
submission order and no task is dequeued twice; (2) `add_task`, when it gets
the mutex, appends at the tail; (3) a worker step changes the queue only by
removing its head; (4) a worker that passes the exit check goes on to the
election, wins it, and at the dequeue finds the queue non-empty and removes
exactly its head. -/
theorem C6_leaderFollowers_fifo (n : Int) (acts : List LeaderFollowers.Action) :
    (LeaderFollowers.run (LeaderFollowers.new n) acts).dequeued
        ++ (LeaderFollowers.run (LeaderFollowers.new n) acts).task_queue
      = (LeaderFollowers.run (LeaderFollowers.new n) acts).enqueued
    ∧ (∀ t, (LeaderFollowers.run (LeaderFollowers.new n) acts).terminated = false →
        (LeaderFollowers.run (LeaderFollowers.new n) acts).queue_mutex = none →
        (LeaderFollowers.step (LeaderFollowers.run (LeaderFollowers.new n) acts)
            (.add_task t)).task_queue
          = (LeaderFollowers.run (LeaderFollowers.new n) acts).task_queue ++ [t])
    ∧ (∀ k,
        ((LeaderFollowers.step (LeaderFollowers.run (LeaderFollowers.new n) acts)
            (.worker k)).task_queue
          = (LeaderFollowers.run (LeaderFollowers.new n) acts).task_queue
         ∧ (LeaderFollowers.step (LeaderFollowers.run (LeaderFollowers.new n) acts)
            (.worker k)).dequeued
          = (LeaderFollowers.run (LeaderFollowers.new n) acts).dequeued)
        ∨ ∃ t q, (LeaderFollowers.run (LeaderFollowers.new n) acts).task_queue = t :: q
          ∧ (LeaderFollowers.step (LeaderFollowers.run (LeaderFollowers.new n) acts)
              (.worker k)).task_queue = q
          ∧ (LeaderFollowers.step (LeaderFollowers.run (LeaderFollowers.new n) acts)
              (.worker k)).dequeued
            = (LeaderFollowers.run (LeaderFollowers.new n) acts).dequeued ++ [t])
    ∧ (∀ k, (LeaderFollowers.run (LeaderFollowers.new n) acts).terminated = false →
        ((LeaderFollowers.run (LeaderFollowers.new n) acts).threads[k]?
            = some (some .exitCheck) →
          ¬ ((LeaderFollowers.run (LeaderFollowers.new n) acts).running = false
              ∧ (LeaderFollowers.run (LeaderFollowers.new n) acts).task_queue = []) →
          (LeaderFollowers.step (LeaderFollowers.run (LeaderFollowers.new n) acts)
            (.worker k)).threads[k]? = some (some .election))
        ∧ ((LeaderFollowers.run (LeaderFollowers.new n) acts).threads[k]?
            = some (some .election) →
          (LeaderFollowers.step (LeaderFollowers.run (LeaderFollowers.new n) acts)
            (.worker k)).threads[k]? = some (some .leader))
        ∧ ((LeaderFollowers.run (LeaderFollowers.new n) acts).threads[k]?
            = some (some .leader) →
          ∃ t q, (LeaderFollowers.run (LeaderFollowers.new n) acts).task_queue = t :: q
            ∧ (LeaderFollowers.step (LeaderFollowers.run (LeaderFollowers.new n) acts)
                (.worker k)).task_queue = q
            ∧ (LeaderFollowers.step (LeaderFollowers.run (LeaderFollowers.new n) acts)
                (.worker k)).dequeued
              = (LeaderFollowers.run (LeaderFollowers.new n) acts).dequeued ++ [t]
            ∧ (LeaderFollowers.step (LeaderFollowers.run (LeaderFollowers.new n) acts)
                (.worker k)).threads[k]? = some (some (.release t)))) := by
  have hinv := LeaderFollowers.lf_inv_run acts _ (LeaderFollowers.lf_inv_new n)
  generalize LeaderFollowers.run (LeaderFollowers.new n) acts = p at hinv ⊢
  obtain ⟨hm, hf, hq, hfifo⟩ := hinv
  refine ⟨hfifo, ?_, ?_, ?_⟩
  · intro t hlive hmx
    simp [LeaderFollowers.step, hlive, LeaderFollowers.add_task, hmx]
  · intro k
    unfold LeaderFollowers.step
    split
    · exact Or.inl ⟨rfl, rfl⟩
    simp only [LeaderFollowers.worker_loop]
    split
    · exact Or.inl ⟨rfl, rfl⟩
    · exact Or.inl ⟨rfl, rfl⟩
    · split
      · exact Or.inl ⟨rfl, rfl⟩
      · split <;> exact Or.inl ⟨rfl, rfl⟩
      · split <;> exact Or.inl ⟨rfl, rfl⟩
      · split <;> exact Or.inl ⟨rfl, rfl⟩
      · split <;> exact Or.inl ⟨rfl, rfl⟩
      · split
        · exact Or.inl ⟨rfl, rfl⟩
        · rename_i t q hqq
          exact Or.inr ⟨t, q, hqq, rfl, rfl⟩
      · exact Or.inl ⟨rfl, rfl⟩
      · exact Or.inl ⟨rfl, rfl⟩
      · split <;> exact Or.inl ⟨rfl, rfl⟩
      · exact Or.inl ⟨rfl, rfl⟩
      · exact Or.inl ⟨rfl, rfl⟩
  · intro k hlive
    refine ⟨?_, ?_, ?_⟩
    · intro hat hpass
      have hk : k < p.threads.length := (List.getElem?_eq_some_iff.mp hat).1
      have hc : ¬ ((!p.running && p.task_queue.isEmpty) = true) := by
        intro hc
        simp only [Bool.and_eq_true, Bool.not_eq_true', List.isEmpty_iff] at hc
        exact hpass hc
      simp [LeaderFollowers.step, hlive, LeaderFollowers.worker_loop, hat, hc,
        LeaderFollowers.goto, hk]
    · intro hat
      have hk : k < p.threads.length := (List.getElem?_eq_some_iff.mp hat).1
      have hflag : p.leader_active = false := by
        by_contra hcon
        simp only [Bool.not_eq_false] at hcon
        obtain ⟨j, pcj, hj, hbj⟩ := hf.mp hcon
        have e1 := (hm.1 j pcj hj).mp (LeaderFollowers.lf_leaderBlock_critical _ hbj)
        have e2 := (hm.1 k _ hat).mp rfl
        rw [e1] at e2
        simp only [Option.some.injEq] at e2
        subst e2
        rw [hat] at hj
        cases hj
        simp [LeaderFollowers.Pc.inLeaderBlock] at hbj
      simp [LeaderFollowers.step, hlive, LeaderFollowers.worker_loop, hat, hflag,
        LeaderFollowers.goto, hk]
    · intro hat
      have hk : k < p.threads.length := (List.getElem?_eq_some_iff.mp hat).1
      have hne := hq k _ hat
      simp only [LeaderFollowers.Pc.queueOk] at hne
      cases hqq : p.task_queue with
      | nil => exact absurd hqq hne
      | cons t q =>
        refine ⟨t, q, rfl, ?_⟩
        simp [LeaderFollowers.step, hlive, LeaderFollowers.worker_loop, hat, hqq,
          LeaderFollowers.goto, hk]

/-- Witness of C6: a pool of two threads, two tasks submitted; thread 1 has
passed the exit check and the election and stands at the dequeue: its next
step removes the head, task 0. -/
theorem C6_leaderFollowers_fifo_witness :
    ∃ t q, (LeaderFollowers.run (LeaderFollowers.new 2)
        [.add_task (.fn 0 .ret), .add_task (.fn 1 .ret), .worker 1, .worker 0, .worker 1,
          .worker 1, .worker 1, .worker 1]).task_queue = t :: q
      ∧ (LeaderFollowers.step (LeaderFollowers.run (LeaderFollowers.new 2)
          [.add_task (.fn 0 .ret), .add_task (.fn 1 .ret), .worker 1, .worker 0, .worker 1,
            .worker 1, .worker 1, .worker 1]) (.worker 1)).task_queue = q
      ∧ (LeaderFollowers.step (LeaderFollowers.run (LeaderFollowers.new 2)
          [.add_task (.fn 0 .ret), .add_task (.fn 1 .ret), .worker 1, .worker 0, .worker 1,
            .worker 1, .worker 1, .worker 1]) (.worker 1)).dequeued
        = (LeaderFollowers.run (LeaderFollowers.new 2)
          [.add_task (.fn 0 .ret), .add_task (.fn 1 .ret), .worker 1, .worker 0, .worker 1,
            .worker 1, .worker 1, .worker 1]).dequeued ++ [t]
      ∧ (LeaderFollowers.step (LeaderFollowers.run (LeaderFollowers.new 2)
          [.add_task (.fn 0 .ret), .add_task (.fn 1 .ret), .worker 1, .worker 0, .worker 1,
            .worker 1, .worker 1, .worker 1]) (.worker 1)).threads[1]?
        = some (some (.release t)) :=
  ((C6_leaderFollowers_fifo 2
    [.add_task (.fn 0 .ret), .add_task (.fn 1 .ret), .worker 1, .worker 0, .worker 1,
      .worker 1, .worker 1, .worker 1]).2.2.2 1 (by decide)).2.2 (by decide)

/-- C7 (drain on stop, LeaderFollowers), evaluated on the code: a task
submitted before `stop()` is left in the queue, never dequeued nor executed,
when `_running` is cleared while the only worker stands at the loop-head test
(first run) or is executing another task (second run); both workers of a
pool of two leave the same way (third run).  In each run every worker has
returned and been joined, and the queue is not empty. -/
theorem C7_stop_leaves_tasks_queued :
    LeaderFollowers.run (LeaderFollowers.new 1)
        [.add_task (.fn 0 .ret), .stopRequest, .worker 0, .join 0]
      = { task_queue := [.fn 0 .ret], threads := [none], queue_mutex := none,
          running := false, leader_active := false, terminated := false,
          enqueued := [.fn 0 .ret], dequeued := [], executed := [], caught := [] }
    ∧ LeaderFollowers.run (LeaderFollowers.new 1)
        [.add_task (.fn 0 .ret), .add_task (.fn 1 .ret),
          .worker 0, .worker 0, .worker 0, .worker 0, .worker 0, .worker 0, .worker 0, .worker 0,
          .stopRequest, .worker 0, .worker 0, .worker 0, .join 0]
      = { task_queue := [.fn 1 .ret], threads := [none], queue_mutex := none,
          running := false, leader_active := false, terminated := false,
          enqueued := [.fn 0 .ret, .fn 1 .ret], dequeued := [.fn 0 .ret],
          executed := [.fn 0 .ret], caught := [] }
    ∧ LeaderFollowers.run (LeaderFollowers.new 2)
        [.add_task (.fn 0 .ret), .stopRequest, .worker 0, .worker 1, .join 0, .join 1]
      = { task_queue := [.fn 0 .ret], threads := [none, none], queue_mutex := none,
          running := false, leader_active := false, terminated := false,
          enqueued := [.fn 0 .ret], dequeued := [], executed := [], caught := [] } := by
  decide

/-- C8 as stated fails: a task that throws a value whose type does not derive
from `std::exception` is not caught; the process is terminated by the call,
the task queued behind it stays in the queue, and nothing moves afterwards,
whatever the workers and the submitters do. -/
theorem C8_foreign_throw_terminates :
    LeaderFollowers.run (LeaderFollowers.new 1) LeaderFollowers.foreignThrowDemo
      = { task_queue := [.fn 1 .ret], threads := [some (.execute (.fn 0 .throwOther))],
          queue_mutex := none, running := true, leader_active := false, terminated := true,
          enqueued := [.fn 0 .throwOther, .fn 1 .ret], dequeued := [.fn 0 .throwOther],
          executed := [.fn 0 .throwOther], caught := [] }
    ∧ LeaderFollowers.run (LeaderFollowers.new 1)
        (LeaderFollowers.foreignThrowDemo ++ List.replicate 3 (.worker 0)
          ++ [.add_task (.fn 2 .ret)] ++ List.replicate 10 (.worker 0))
      = LeaderFollowers.run (LeaderFollowers.new 1) LeaderFollowers.foreignThrowDemo := by
  decide

/-- C8 amended (fault isolation for `std::exception`): in every reachable
state of a pool, when thread `k` calls a task that throws an object derived
from `std::exception`, (1) the step only records the call and the logged
message and moves the thread to the notify: the process is not terminated,
the queue, the mutex, the flags and every other thread are untouched, as
after a task that returned; (2) the next step of the thread takes it to the
loop head; (3) if the pool is running, for all tasks `later` none of which,
like those queued, throws a foreign value, there are worker steps `ws1`,
`ws2` such that running `ws1`, submitting `later`, and running `ws2` leaves
the process alive, the queue empty, and every task of the queue and of
`later` dequeued and called in order. -/
theorem C8_std_exception_contained (n : Int) (acts : List LeaderFollowers.Action)
    (k tag : Nat) (w : String)
    (hlive : (LeaderFollowers.run (LeaderFollowers.new n) acts).terminated = false)
    (hat : (LeaderFollowers.run (LeaderFollowers.new n) acts).threads[k]?
      = some (some (.execute (.fn tag (.throwStd w))))) :
    LeaderFollowers.step (LeaderFollowers.run (LeaderFollowers.new n) acts) (.worker k)
      = { LeaderFollowers.run (LeaderFollowers.new n) acts with
            executed := (LeaderFollowers.run (LeaderFollowers.new n) acts).executed
              ++ [.fn tag (.throwStd w)],
            caught := (LeaderFollowers.run (LeaderFollowers.new n) acts).caught ++ [w],
            threads := (LeaderFollowers.run (LeaderFollowers.new n) acts).threads.set k
              (some .notify) }
    ∧ LeaderFollowers.step
        (LeaderFollowers.step (LeaderFollowers.run (LeaderFollowers.new n) acts) (.worker k))
        (.worker k)
      = { LeaderFollowers.run (LeaderFollowers.new n) acts with
            executed := (LeaderFollowers.run (LeaderFollowers.new n) acts).executed
              ++ [.fn tag (.throwStd w)],
            caught := (LeaderFollowers.run (LeaderFollowers.new n) acts).caught ++ [w],
            threads := (LeaderFollowers.run (LeaderFollowers.new n) acts).threads.set k
              (some .loopHead) }
    ∧ ((LeaderFollowers.run (LeaderFollowers.new n) acts).running = true →
        ∀ later : List LeaderFollowers.Task,
        (∀ t ∈ (LeaderFollowers.run (LeaderFollowers.new n) acts).task_queue ++ later,
          t.safe = true) →
        ∃ ws1 ws2 : List LeaderFollowers.Action, (∀ a ∈ ws1 ++ ws2, a.isWorker = true)
          ∧ (LeaderFollowers.run
              (LeaderFollowers.step (LeaderFollowers.run (LeaderFollowers.new n) acts)
                (.worker k))
              (ws1 ++ later.map .add_task ++ ws2)).terminated = false
          ∧ (LeaderFollowers.run
              (LeaderFollowers.step (LeaderFollowers.run (LeaderFollowers.new n) acts)
                (.worker k))
              (ws1 ++ later.map .add_task ++ ws2)).task_queue = []
          ∧ (LeaderFollowers.run
              (LeaderFollowers.step (LeaderFollowers.run (LeaderFollowers.new n) acts)
                (.worker k))
              (ws1 ++ later.map .add_task ++ ws2)).dequeued
            = (LeaderFollowers.run (LeaderFollowers.new n) acts).dequeued
                ++ ((LeaderFollowers.run (LeaderFollowers.new n) acts).task_queue ++ later)
          ∧ (LeaderFollowers.run
              (LeaderFollowers.step (LeaderFollowers.run (LeaderFollowers.new n) acts)
                (.worker k))
              (ws1 ++ later.map .add_task ++ ws2)).executed
            = (LeaderFollowers.run (LeaderFollowers.new n) acts).executed
                ++ [.fn tag (.throwStd w)]
                ++ LeaderFollowers.called
                    ((LeaderFollowers.run (LeaderFollowers.new n) acts).task_queue ++ later)) := by
  have hinv := LeaderFollowers.lf_inv_run acts _ (LeaderFollowers.lf_inv_new n)
  generalize LeaderFollowers.run (LeaderFollowers.new n) acts = p at hinv hlive hat ⊢
  have hk : k < p.threads.length := (List.getElem?_eq_some_iff.mp hat).1
  have e1 : LeaderFollowers.step p (.worker k)
      = { p with executed := p.executed ++ [.fn tag (.throwStd w)],
                 caught := p.caught ++ [w],
                 threads := p.threads.set k (some .notify) } := by
    simp [LeaderFollowers.step, hlive, LeaderFollowers.worker_loop, hat, LeaderFollowers.goto]
  refine ⟨e1, ?_, ?_⟩
  · rw [e1]
    simp [LeaderFollowers.step, hlive, LeaderFollowers.worker_loop, LeaderFollowers.goto, hk,
      List.getElem?_set_self]
  · intro hrun later hsafe
    have hinv1 := LeaderFollowers.lf_inv_step p (.worker k) hinv
    obtain ⟨ws1, ws2, hws, h1, h2, _, h4, h5⟩ :=
      LeaderFollowers.lf_progress (LeaderFollowers.step p (.worker k)) k hinv1
        (by rw [e1]; exact hlive) (by rw [e1]; exact hrun)
        (by rw [e1]; simp [List.getElem?_set_self hk]) later
        (by rw [e1]; exact hsafe)
    refine ⟨ws1, ws2, hws, h1, h2, ?_, ?_⟩
    · rw [h4, e1]
    · rw [h5, e1]

/-- Witness of C8: in a pool of one thread, thread 0 calls task 0, which
throws a `std::exception` with message "boom", task 1 being queued behind;
the exception is logged and the thread moves on; and task 1 and a task 2
submitted later can both be dequeued and called. -/
theorem C8_std_exception_contained_witness :
    LeaderFollowers.step
        (LeaderFollowers.run (LeaderFollowers.new 1) LeaderFollowers.throwDemo) (.worker 0)
      = { LeaderFollowers.run (LeaderFollowers.new 1) LeaderFollowers.throwDemo with
            executed := (LeaderFollowers.run (LeaderFollowers.new 1)
              LeaderFollowers.throwDemo).executed ++ [.fn 0 (.throwStd "boom")],
            caught := (LeaderFollowers.run (LeaderFollowers.new 1)
              LeaderFollowers.throwDemo).caught ++ ["boom"],
            threads := (LeaderFollowers.run (LeaderFollowers.new 1)
              LeaderFollowers.throwDemo).threads.set 0 (some .notify) }
    ∧ ∃ ws1 ws2 : List LeaderFollowers.Action, (∀ a ∈ ws1 ++ ws2, a.isWorker = true)
        ∧ (LeaderFollowers.run
            (LeaderFollowers.step
              (LeaderFollowers.run (LeaderFollowers.new 1) LeaderFollowers.throwDemo)
              (.worker 0))
            (ws1 ++ [LeaderFollowers.Task.fn 2 .ret].map .add_task ++ ws2)).terminated = false
        ∧ (LeaderFollowers.run
            (LeaderFollowers.step
              (LeaderFollowers.run (LeaderFollowers.new 1) LeaderFollowers.throwDemo)
              (.worker 0))
            (ws1 ++ [LeaderFollowers.Task.fn 2 .ret].map .add_task ++ ws2)).task_queue = []
        ∧ (LeaderFollowers.run
            (LeaderFollowers.step
              (LeaderFollowers.run (LeaderFollowers.new 1) LeaderFollowers.throwDemo)
              (.worker 0))
            (ws1 ++ [LeaderFollowers.Task.fn 2 .ret].map .add_task ++ ws2)).dequeued
          = (LeaderFollowers.run (LeaderFollowers.new 1) LeaderFollowers.throwDemo).dequeued
              ++ ((LeaderFollowers.run (LeaderFollowers.new 1)
                    LeaderFollowers.throwDemo).task_queue ++ [.fn 2 .ret])
        ∧ (LeaderFollowers.run
            (LeaderFollowers.step
              (LeaderFollowers.run (LeaderFollowers.new 1) LeaderFollowers.throwDemo)
              (.worker 0))
            (ws1 ++ [LeaderFollowers.Task.fn 2 .ret].map .add_task ++ ws2)).executed
          = (LeaderFollowers.run (LeaderFollowers.new 1) LeaderFollowers.throwDemo).executed
              ++ [.fn 0 (.throwStd "boom")]
              ++ LeaderFollowers.called
                  ((LeaderFollowers.run (LeaderFollowers.new 1)
                    LeaderFollowers.throwDemo).task_queue ++ [.fn 2 .ret]) :=
  ⟨(C8_std_exception_contained 1 LeaderFollowers.throwDemo 0 0 "boom" (by decide)
      (by decide)).1,
    (C8_std_exception_contained 1 LeaderFollowers.throwDemo 0 0 "boom" (by decide)
      (by decide)).2.2 (by decide) [.fn 2 .ret] (by decide)⟩

/-- C9 (idempotent stop).  ActiveObject: when a first `stop()` has cleared the
flag, the worker has moved on in any way and the join has returned with the
process alive, the object is stopped (flag false, no joinable worker), and a
second `stop()`, both halves, leaves the whole state as it is; more
generally `stop()` changes nothing on any object that is stopped.
LeaderFollowers: in every reachable state in which the flag is false and
every thread is joined, `stop()` (the flag, then every join) changes
nothing; and once the flag is false or a thread joined, it stays so. -/
theorem C9_stop_idempotent :
    (∀ (s : Sys) (i : Nat) (ws : List Action), (∀ a ∈ ws, a.isWorker = true) →
      (step (run (step s (.stopRequest i)) ws) (.stopJoin i)).terminated = false →
      (∃ o, (run (step s (.stopRequest i)) ws).heap[i]? = some o
        ∧ (o.workerThread = some .done ∨ o.workerThread = none)) →
      (∃ o1, (step (run (step s (.stopRequest i)) ws) (.stopJoin i)).heap[i]? = some o1
        ∧ o1.running = false ∧ o1.workerThread = none)
      ∧ run (step (run (step s (.stopRequest i)) ws) (.stopJoin i))
          [.stopRequest i, .stopJoin i]
        = step (run (step s (.stopRequest i)) ws) (.stopJoin i))
    ∧ (∀ (s : Sys) (i : Nat) (o : ActiveObject), s.heap[i]? = some o →
        o.running = false → o.workerThread = none →
        ActiveObject.stopRequest s i = s ∧ ActiveObject.stopJoin s i = s
          ∧ ActiveObject.stop s i = s)
    ∧ (∀ (n : Int) (acts : List LeaderFollowers.Action),
        (LeaderFollowers.run (LeaderFollowers.new n) acts).running = false →
        (∀ x ∈ (LeaderFollowers.run (LeaderFollowers.new n) acts).threads, x = none) →
        LeaderFollowers.stopRequest (LeaderFollowers.run (LeaderFollowers.new n) acts)
            = LeaderFollowers.run (LeaderFollowers.new n) acts
          ∧ (∀ k, LeaderFollowers.join (LeaderFollowers.run (LeaderFollowers.new n) acts) k
              = LeaderFollowers.run (LeaderFollowers.new n) acts)
          ∧ LeaderFollowers.stop (LeaderFollowers.run (LeaderFollowers.new n) acts)
              = LeaderFollowers.run (LeaderFollowers.new n) acts)
    ∧ (∀ (p : LeaderFollowers) (a : LeaderFollowers.Action), p.running = false →
        (LeaderFollowers.step p a).running = false)
    ∧ (∀ (p : LeaderFollowers) (a : LeaderFollowers.Action) (k : Nat),
        p.threads[k]? = some none → (LeaderFollowers.step p a).threads[k]? = some none) := by
  have hAO : ∀ (s : Sys) (i : Nat) (o : ActiveObject), s.heap[i]? = some o →
      o.running = false → o.workerThread = none →
      ActiveObject.stopRequest s i = s ∧ ActiveObject.stopJoin s i = s
        ∧ ActiveObject.stop s i = s := by
    intro s i o ho hr hw
    have h1 : ActiveObject.stopRequest s i = s := by
      apply Sys.modify_eq_self s i _ o ho
      cases o; simp_all
    have h2 : ActiveObject.stopJoin s i = s := by
      apply Sys.modify_eq_self s i _ o ho
      simp [hw]
    exact ⟨h1, h2, by rw [ActiveObject.stop, h1, h2]⟩
  refine ⟨?_, hAO, ?_, ?_, ?_⟩
  · intro s i ws hws hlive ⟨o, ho, hw⟩
    have hlive0 : (run (step s (.stopRequest i)) ws).terminated = false :=
      live_of_step_live _ _ hlive
    have hlive00 : (step s (.stopRequest i)).terminated = false :=
      live_of_run_live _ _ hlive0
    have hlives : s.terminated = false := live_of_step_live _ _ hlive00
    have hrun : o.running = false := by
      have h1 := running_run_workers ws hws (step s (.stopRequest i)) i
      rw [ho, step_stopRequest s i hlives, ActiveObject.stopRequest, Sys.heap_modify_self] at h1
      cases hs : s.heap[i]? with
      | none => simp [hs] at h1
      | some a => simpa [hs] using h1
    have hjoin : (step (run (step s (.stopRequest i)) ws) (.stopJoin i)).heap[i]?
        = some { o with workerThread := none } := by
      rw [step_stopJoin _ i hlive0, ActiveObject.stopJoin, Sys.heap_modify_self, ho]
      rcases hw with hw | hw
      · simp [hw]
      · cases o; simp_all
    refine ⟨⟨_, hjoin, hrun, rfl⟩, ?_⟩
    obtain ⟨h1, h2, _⟩ := hAO _ i _ hjoin hrun rfl
    rw [run_cons, run_cons, run_nil, step_stopRequest _ i hlive, h1, step_stopJoin _ i hlive, h2]
  · intro n acts hr hts
    have hinv := LeaderFollowers.lf_inv_run acts _ (LeaderFollowers.lf_inv_new n)
    generalize LeaderFollowers.run (LeaderFollowers.new n) acts = p at hinv hr hts ⊢
    have hmx : p.queue_mutex = none := by
      cases hmx : p.queue_mutex with
      | none => rfl
      | some k =>
        obtain ⟨pc, hpc⟩ := hinv.1.2 k hmx
        have := hts _ (List.getElem?_mem hpc)
        cases this
    have h1 : LeaderFollowers.stopRequest p = p := by
      simp only [LeaderFollowers.stopRequest, hmx]
      cases p; simp_all
    have h2 : ∀ k, LeaderFollowers.join p k = p := by
      intro k
      simp only [LeaderFollowers.join]
      split
      · rename_i hat
        have := hts _ (List.getElem?_mem hat)
        cases this
      · rfl
    refine ⟨h1, h2, ?_⟩
    rw [LeaderFollowers.stop, h1]
    exact LeaderFollowers.lf_foldl_join _ p h2
  · intro p a hr
    unfold LeaderFollowers.step
    split
    · exact hr
    cases a with
    | add_task t => simp only [LeaderFollowers.add_task]; split <;> exact hr
    | stopRequest => simp only [LeaderFollowers.stopRequest]; split <;> first | exact hr | rfl
    | join k => simp only [LeaderFollowers.join]; split <;> exact hr
    | worker k =>
      simp only [LeaderFollowers.worker_loop]
      split
      · exact hr
      · exact hr
      · split <;> (try split) <;> exact hr
  · intro p a k hk
    have hset : ∀ (j : Nat) (x : Option LeaderFollowers.Pc) (pc : LeaderFollowers.Pc),
        p.threads[j]? = some (some pc) → (p.threads.set j x)[k]? = some none := by
      intro j x pc hj
      rw [LeaderFollowers.lf_at_set _ j _ _ hj]
      right
      refine ⟨?_, hk⟩
      rintro rfl
      rw [hk] at hj
      cases hj
    unfold LeaderFollowers.step
    split
    · exact hk
    cases a with
    | add_task t => simp only [LeaderFollowers.add_task]; split <;> exact hk
    | stopRequest => simp only [LeaderFollowers.stopRequest]; split <;> exact hk
    | join j =>
      simp only [LeaderFollowers.join]
      split
      · rename_i hat
        exact hset j _ _ hat
      · exact hk
    | worker j =>
      simp only [LeaderFollowers.worker_loop]
      split
      · exact hk
      · exact hk
      · rename_i pc hat
        split <;> (try split) <;>
          first
          | exact hk
          | exact hset j _ _ hat

/-- Witness of C9: an object with one task is started and stopped, the worker
leaving at once; the second `stop()` changes nothing.  A pool of two threads
is stopped and joined; the second `stop()` changes nothing. -/
theorem C9_stop_idempotent_witness :
    run (step (run (step (run Sys.init [.create, .enqueue 0 (.user (.ret "A")), .start 0])
          (.stopRequest 0)) [.worker 0]) (.stopJoin 0)) [.stopRequest 0, .stopJoin 0]
      = step (run (step (run Sys.init [.create, .enqueue 0 (.user (.ret "A")), .start 0])
          (.stopRequest 0)) [.worker 0]) (.stopJoin 0)
    ∧ LeaderFollowers.stop (LeaderFollowers.run (LeaderFollowers.new 2)
          LeaderFollowers.stopDemo)
      = LeaderFollowers.run (LeaderFollowers.new 2)
          LeaderFollowers.stopDemo :=
  ⟨(C9_stop_idempotent.1 (run Sys.init [.create, .enqueue 0 (.user (.ret "A")), .start 0]) 0
      [.worker 0] (by decide) (by decide)
      ⟨{ tasks := [.user (.ret "A")], workerThread := some .done, running := false,
         nextStage := none, enqueued := [.user (.ret "A")], dequeued := [], executed := [] },
        by decide, Or.inl rfl⟩).2,
    (C9_stop_idempotent.2.2.1 2
      LeaderFollowers.stopDemo
      (by decide) (by decide)).2.2⟩

/-- C10 as stated fails: a second `start()` on a running object terminates
the process. -/
theorem C10_repeated_start_terminates :
    (run Sys.init [.create, .start 0]).heap
      = [{ ActiveObject.fresh with running := true, workerThread := some .head }]
    ∧ (run Sys.init [.create, .start 0]).terminated = false
    ∧ (run Sys.init [.create, .start 0, .start 0]).terminated = true := by
  decide

/-- C10 amended (start): on an object without a joinable worker (created, or
stopped and joined) `start()` sets the flag and creates exactly one worker, at
the loop head, and changes nothing else: the queue, the successor, every
other object are as before and the process is alive.  On an object whose
worker is joinable (running, or returned and not yet joined) `start()`
terminates the process. -/
theorem C10_start (s : Sys) (i : Nat) (o : ActiveObject) (hlive : s.terminated = false)
    (ho : s.heap[i]? = some o) :
    (o.workerThread = none →
      (step s (.start i)).terminated = false
      ∧ (step s (.start i)).heap[i]?
          = some { o with running := true, workerThread := some .head }
      ∧ ∀ j, j ≠ i → (step s (.start i)).heap[j]? = s.heap[j]?)
    ∧ (o.workerThread ≠ none → (step s (.start i)).terminated = true) := by
  rw [step_start s i hlive]
  constructor
  · intro hw
    simp only [ActiveObject.start, ho, hw]
    refine ⟨hlive, ?_, ?_⟩
    · rw [Sys.heap_modify_self, ho]; rfl
    · intro j hj
      exact Sys.heap_modify_ne s _ (Ne.symm hj)
  · intro hw
    cases hw' : o.workerThread with
    | none => exact absurd hw' hw
    | some pc => simp only [ActiveObject.start, ho, hw']

/-- Witness of C10: a stopped and joined object, with a task enqueued since,
is started again and runs; an object that is running is started again and
the process is terminated. -/
theorem C10_start_witness :
    (step (run Sys.init [.create, .start 0, .stopRequest 0, .worker 0, .stopJoin 0,
        .enqueue 0 (.user (.ret "A"))]) (.start 0)).heap[0]?
      = some { tasks := [.user (.ret "A")], workerThread := some .head, running := true,
               nextStage := none, enqueued := [.user (.ret "A")], dequeued := [],
               executed := [] }
    ∧ (step (run Sys.init [.create, .enqueue 0 (.user (.ret "A")), .start 0, .worker 0])
        (.start 0)).terminated = true :=
  ⟨((C10_start (run Sys.init [.create, .start 0, .stopRequest 0, .worker 0, .stopJoin 0,
        .enqueue 0 (.user (.ret "A"))]) 0
      { tasks := [.user (.ret "A")], workerThread := none, running := false,
        nextStage := none, enqueued := [.user (.ret "A")], dequeued := [], executed := [] }
      (by decide) (by decide)).1 rfl).2.1,
    (C10_start (run Sys.init [.create, .enqueue 0 (.user (.ret "A")), .start 0, .worker 0]) 0
      { tasks := [.user (.ret "A")], workerThread := some .wait, running := true,
        nextStage := none, enqueued := [.user (.ret "A")], dequeued := [], executed := [] }
      (by decide) (by decide)).2 (by decide)⟩

/-! ## A stopped object; a failing task; adding a stage; the leader block -/

/-- An object without worker keeps what it dequeued and executed, and only
gains queued tasks, under every step other than its own `start`. -/
theorem stopped_step (s : Sys) (a : Action) (i : Nat) (o : ActiveObject)
    (ho : s.heap[i]? = some o) (hw : o.workerThread = none) (ha : a ≠ .start i) :
    ∃ o', (step s a).heap[i]? = some o' ∧ o'.workerThread = none
      ∧ o'.dequeued = o.dequeued ∧ o'.executed = o.executed
      ∧ ∃ l, o'.tasks = o.tasks ++ l ∧ o'.enqueued = o.enqueued ++ l := by
  have hsame : ∃ o', s.heap[i]? = some o' ∧ o'.workerThread = none
      ∧ o'.dequeued = o.dequeued ∧ o'.executed = o.executed
      ∧ ∃ l, o'.tasks = o.tasks ++ l ∧ o'.enqueued = o.enqueued ++ l :=
    ⟨o, ho, hw, rfl, rfl, [], by simp, by simp⟩
  -- a modification elsewhere, or one of the flag or the successor here
  have hmod : ∀ (j : Nat) (f : ActiveObject → ActiveObject),
      (j = i → (f o).workerThread = none ∧ (f o).dequeued = o.dequeued
        ∧ (f o).executed = o.executed
        ∧ ∃ l, (f o).tasks = o.tasks ++ l ∧ (f o).enqueued = o.enqueued ++ l) →
      ∃ o', (s.modify j f).heap[i]? = some o' ∧ o'.workerThread = none
        ∧ o'.dequeued = o.dequeued ∧ o'.executed = o.executed
        ∧ ∃ l, o'.tasks = o.tasks ++ l ∧ o'.enqueued = o.enqueued ++ l := by
    intro j f hf
    rw [Sys.heap_modify, ho]
    by_cases hji : j = i
    · obtain ⟨h1, h2, h3, h4⟩ := hf hji
      exact ⟨f o, by simp [hji], h1, h2, h3, h4⟩
    · exact ⟨o, by simp [hji], hw, rfl, rfl, [], by simp, by simp⟩
  unfold step
  split
  · exact hsame
  cases a with
  | create =>
    refine ⟨o, ?_, hw, rfl, rfl, [], by simp, by simp⟩
    have hi : i < s.heap.length := (List.getElem?_eq_some_iff.mp ho).1
    simp only [ActiveObject.create]
    rw [List.getElem?_append_left hi]
    exact ho
  | enqueue j t =>
    exact hmod j _ (fun _ => ⟨hw, rfl, rfl, [t], rfl, rfl⟩)
  | setNextStage j n =>
    exact hmod j _ (fun _ => ⟨hw, rfl, rfl, [], by simp, by simp⟩)
  | start j =>
    have hji : j ≠ i := fun h => ha (by rw [h])
    simp only [ActiveObject.start]
    split
    · exact hsame
    · split
      · exact hmod j _ (fun h => absurd h hji)
      · exact hmod j _ (fun h => absurd h hji)
  | stopRequest j =>
    exact hmod j _ (fun _ => ⟨hw, rfl, rfl, [], by simp, by simp⟩)
  | stopJoin j =>
    refine hmod j _ (fun _ => ?_)
    split
    · rename_i h
      rw [hw] at h
      cases h
    · exact ⟨hw, rfl, rfl, [], by simp, by simp⟩
  | worker j =>
    by_cases hji : j = i
    · subst hji
      have e : ActiveObject.workerStep s j = s := by
        simp only [ActiveObject.workerStep, ho, hw]
      show ∃ o', (ActiveObject.workerStep s j).heap[j]? = some o' ∧ _
      rw [e]
      exact hsame
    · simp only [ActiveObject.workerStep]
      split
      · exact hsame
      · rename_i oj hoj
        split
        · exact hsame
        · exact hsame
        · exact hmod j _ (fun h => absurd h hji)
        · split
          · split
            · exact hsame
            · exact hmod j _ (fun h => absurd h hji)
          · exact hmod j _ (fun h => absurd h hji)
        · split
          · exact hmod j _ (fun h => absurd h hji)
          · exact hmod j _ (fun h => absurd h hji)
          · exact hsame
        · split
          · exact hmod j _ (fun h => absurd h hji)
          · rename_i k hk
            simp only [ActiveObject.enqueue]
            rw [Sys.heap_modify, Sys.heap_modify, ho]
            by_cases hki : k = i
            · simp only [Option.map_some', hji, hki, if_false, if_true]
              exact ⟨_, rfl, hw, rfl, rfl, _, rfl, rfl⟩
            · exact ⟨o, by simp [hki, hji], hw, rfl, rfl, [], by simp, by simp⟩

theorem stopped_run (acts : List Action) (s : Sys) (i : Nat) (o : ActiveObject)
    (ho : s.heap[i]? = some o) (hw : o.workerThread = none)
    (hacts : ∀ a ∈ acts, a ≠ .start i) :
    ∃ o', (run s acts).heap[i]? = some o' ∧ o'.workerThread = none
      ∧ o'.dequeued = o.dequeued ∧ o'.executed = o.executed
      ∧ ∃ l, o'.tasks = o.tasks ++ l ∧ o'.enqueued = o.enqueued ++ l := by
  induction acts generalizing s o with
  | nil => exact ⟨o, ho, hw, rfl, rfl, [], by simp, by simp⟩
  | cons a acts ih =>
    obtain ⟨o1, ho1, hw1, hd1, he1, l1, ht1, hq1⟩ :=
      stopped_step s a i o ho hw (hacts a (List.mem_cons_self _ _))
    obtain ⟨o2, ho2, hw2, hd2, he2, l2, ht2, hq2⟩ :=
      ih (step s a) o1 ho1 hw1 (fun b hb => hacts b (List.mem_cons_of_mem _ hb))
    refine ⟨o2, ho2, hw2, by rw [hd2, hd1], by rw [he2, he1], l1 ++ l2, ?_, ?_⟩
    · rw [ht2, ht1, List.append_assoc]
    · rw [hq2, hq1, List.append_assoc]

theorem Pipeline.pl_step_terminated (s : Sys) (a : PAction) (h : s.terminated = true) :
    Pipeline.step s a = s := by
  simp [Pipeline.step, h]

theorem Pipeline.pl_run_terminated (acts : List PAction) (s : Sys) (h : s.terminated = true) :
    Pipeline.run s acts = s := by
  induction acts with
  | nil => rfl
  | cons a acts ih => rw [Pipeline.pl_run_cons, Pipeline.pl_step_terminated s a h, ih]

/-- Under steps other than `addTask` the stages stay in place; `addTask` adds
one at the end. -/
theorem Pipeline.length_step_le (s : Sys) (a : PAction) :
    s.heap.length ≤ (Pipeline.step s a).heap.length := by
  by_cases hadd : ∃ t, a = .addTask t
  · obtain ⟨t, rfl⟩ := hadd
    unfold Pipeline.step
    split
    · exact Nat.le_refl _
    · rw [Pipeline.length_addTask]; omega
  · exact Nat.le_of_eq (Pipeline.step_nextStage _ a (fun t ht => hadd ⟨t, ht⟩)).1.symm

theorem Pipeline.length_run_le (acts : List PAction) (s : Sys) :
    s.heap.length ≤ (Pipeline.run s acts).heap.length := by
  induction acts generalizing s with
  | nil => exact Nat.le_refl _
  | cons a acts ih =>
    exact Nat.le_trans (Pipeline.length_step_le s a) (ih (Pipeline.step s a))

/-- C11 as stated fails: a task enqueued after `stop()` has returned is
executed once `start()` is called again. -/
theorem C11_restart_executes :
    (run Sys.init [.create, .start 0, .stopRequest 0, .worker 0, .stopJoin 0]).heap
      = [ActiveObject.fresh]
    ∧ (run Sys.init [.create, .start 0, .stopRequest 0, .worker 0, .stopJoin 0,
        .enqueue 0 (.user (.ret "A")), .start 0, .worker 0, .worker 0, .worker 0]).heap
      = [{ tasks := [], workerThread := some (.relay "A"), running := true,
           nextStage := none, enqueued := [.user (.ret "A")],
           dequeued := [.user (.ret "A")], executed := ["A"] }] := by
  decide

/-- C11 amended (enqueue after stop): on an object whose `stop()` has returned
(no joinable worker), under every sequence of steps of the process that
contains no `start()` of that object (enqueues, stops, anything on other
objects), nothing is dequeued or executed there and every task enqueued
since stays in the queue, behind the older ones.  A `start()` of the object
creates a worker that dequeues and executes the head of the queue. -/
theorem C11_enqueue_after_stop (s : Sys) (i : Nat) (o : ActiveObject)
    (ho : s.heap[i]? = some o) (hw : o.workerThread = none) :
    (∀ acts : List Action, (∀ a ∈ acts, a ≠ .start i) →
      ∃ o', (run s acts).heap[i]? = some o' ∧ o'.workerThread = none
        ∧ o'.dequeued = o.dequeued ∧ o'.executed = o.executed
        ∧ ∃ l, o'.tasks = o.tasks ++ l ∧ o'.enqueued = o.enqueued ++ l)
    ∧ (∀ (t : Task) (q : List Task) (r : String), s.terminated = false →
        o.tasks = t :: q → t.call = some (.ret r) →
        (run s [.start i, .worker i, .worker i, .worker i]).heap[i]?
          = some { o with running := true, tasks := q, dequeued := o.dequeued ++ [t],
                          executed := o.executed ++ [r],
                          workerThread := some (.relay r) }) := by
  refine ⟨fun acts hacts => stopped_run acts s i o ho hw hacts, ?_⟩
  intro t q r hlive hq hr
  have e0 : step s (.start i)
      = s.modify i fun o => { o with running := true, workerThread := some .head } := by
    rw [step_start s i hlive]
    simp only [ActiveObject.start, ho, hw]
  have ho0 : (step s (.start i)).heap[i]?
      = some { o with running := true, workerThread := some .head } := by
    rw [e0, Sys.heap_modify_self, ho]; rfl
  have hl0 : (step s (.start i)).terminated = false := by rw [e0]; exact hlive
  have e1 := ActiveObject.workerStep_head _ i _ ho0 rfl
  have ho1 : (ActiveObject.workerStep (step s (.start i)) i).heap[i]?
      = some { o with running := true, workerThread := some .wait } := by
    rw [e1, Sys.heap_modify_self, ho0]; rfl
  have hl1 : (ActiveObject.workerStep (step s (.start i)) i).terminated = false := by
    rw [e1]; exact hl0
  have e2 := ActiveObject.workerStep_wait_cons _ i _ t q ho1 rfl hq
  have ho2 : (ActiveObject.workerStep (ActiveObject.workerStep (step s (.start i)) i) i).heap[i]?
      = some { o with running := true, tasks := q, dequeued := o.dequeued ++ [t],
                      workerThread := some (.exec t) } := by
    rw [e2, Sys.heap_modify_self, ho1]; simp [hq]
  have hl2 : (ActiveObject.workerStep
      (ActiveObject.workerStep (step s (.start i)) i) i).terminated = false := by
    rw [e2]; exact hl1
  have e3 := ActiveObject.workerStep_exec_ret _ i _ t r ho2 rfl hr
  rw [run_cons, run_cons, run_cons, run_cons, run_nil, step_worker _ i hl0,
    step_worker _ i hl1, step_worker _ i hl2, e3, Sys.heap_modify_self, ho2]
  rfl

/-- Witness of C11: an object is started, stopped and joined; two tasks are
then enqueued and `stop()` is called once more: both tasks are in the queue
and nothing was executed. -/
theorem C11_enqueue_after_stop_witness :
    ∃ o', (run (run Sys.init [.create, .start 0, .stopRequest 0, .worker 0, .stopJoin 0])
        [.enqueue 0 (.user (.ret "A")), .stopRequest 0, .stopJoin 0, .worker 0,
          .enqueue 0 (.user (.ret "B"))]).heap[0]? = some o'
      ∧ o'.workerThread = none ∧ o'.dequeued = [] ∧ o'.executed = []
      ∧ ∃ l, o'.tasks = [] ++ l ∧ o'.enqueued = [] ++ l :=
  (C11_enqueue_after_stop
    (run Sys.init [.create, .start 0, .stopRequest 0, .worker 0, .stopJoin 0]) 0
    ActiveObject.fresh (by decide) rfl).1
    [.enqueue 0 (.user (.ret "A")), .stopRequest 0, .stopJoin 0, .worker 0,
      .enqueue 0 (.user (.ret "B"))] (by decide)

/-- C12 (uncaught task failure, ActiveObject): when the worker of an object
calls a task that throws, whatever it throws, the process is terminated by
that step and nothing else changes; from then on no step of any thread
changes anything: no relay task reaches the successor and no queued task is
dequeued or executed. -/
theorem C12_uncaught_failure (s : Sys) (i : Nat) (o : ActiveObject) (t : Task)
    (hlive : s.terminated = false) (ho : s.heap[i]? = some o)
    (hpc : o.workerThread = some (.exec t)) (hthrow : t.throws = true) :
    step s (.worker i) = { s with terminated := true }
    ∧ (∀ acts : List Action, run (step s (.worker i)) acts = { s with terminated := true })
    ∧ (∀ acts : List PAction,
        Pipeline.run (Pipeline.step s (.worker i)) acts = { s with terminated := true }) := by
  have e : ActiveObject.workerStep s i = { s with terminated := true } := by
    simp only [ActiveObject.workerStep, ho, hpc]
    simp only [Task.throws] at hthrow
    split
    · rename_i h; rw [h] at hthrow; cases hthrow
    · rename_i r h; rw [h] at hthrow; cases hthrow
    · rfl
  refine ⟨by rw [step_worker s i hlive, e], ?_, ?_⟩
  · intro acts
    rw [step_worker s i hlive, e]
    exact run_terminated acts _ rfl
  · intro acts
    rw [Pipeline.pl_step_worker s i hlive, e]
    exact Pipeline.pl_run_terminated acts _ rfl

/-- Witness of C12: stage 0 of a two-stage pipeline holds a task that throws;
after its call and further steps stage 1 still has only its own task. -/
theorem C12_uncaught_failure_witness :
    run (step (run (Pipeline.build [.user (.throwStd "x"), .user (.ret "B")])
          [.start 0, .start 1, .worker 0, .worker 0]) (.worker 0))
        [.worker 0, .worker 1, .worker 1, .worker 1]
      = { run (Pipeline.build [.user (.throwStd "x"), .user (.ret "B")])
            [.start 0, .start 1, .worker 0, .worker 0] with terminated := true } :=
  (C12_uncaught_failure
    (run (Pipeline.build [.user (.throwStd "x"), .user (.ret "B")])
      [.start 0, .start 1, .worker 0, .worker 0]) 0
    { tasks := [], workerThread := some (.exec (.user (.throwStd "x"))), running := true,
      nextStage := some 1, enqueued := [.user (.throwStd "x")],
      dequeued := [.user (.throwStd "x")], executed := [] }
    (.user (.throwStd "x")) (by decide) (by decide) rfl (by decide)).2.1
    [.worker 0, .worker 1, .worker 1, .worker 1]

/-- C13 (addTask): `Pipeline::addTask(task)` adds exactly one stage; every
existing stage keeps its position and all its fields, the queue among them,
except that the former last stage gets the new stage as successor; the new
last stage is a fresh object, not started, whose queue is exactly `[task]`.
No step of a pipeline removes a stage: the number of stages never
decreases and a stage that exists still exists after any schedule. -/
theorem C13_addTask (s : Sys) (task : Task) :
    (Pipeline.addTask s task).heap.length = s.heap.length + 1
    ∧ (∀ (j : Nat) (o : ActiveObject), s.heap[j]? = some o →
        (Pipeline.addTask s task).heap[j]?
          = some (if j + 1 = s.heap.length then { o with nextStage := some s.heap.length }
                  else o))
    ∧ (Pipeline.addTask s task).heap[s.heap.length]?
        = some { tasks := [task], workerThread := none, running := false, nextStage := none,
                 enqueued := [task], dequeued := [], executed := [] }
    ∧ (∀ acts : List PAction, s.heap.length ≤ (Pipeline.run s acts).heap.length)
    ∧ (∀ (acts : List PAction) (j : Nat), j < s.heap.length →
        ∃ o', (Pipeline.run s acts).heap[j]? = some o') := by
  refine ⟨Pipeline.length_addTask s task, ?_, ?_, fun acts => Pipeline.length_run_le acts s, ?_⟩
  · intro j o ho
    have hj : j < s.heap.length := (List.getElem?_eq_some_iff.mp ho).1
    rw [Pipeline.heap_addTask, if_neg (by omega), ho]
    split <;> rfl
  · rw [Pipeline.heap_addTask, if_pos rfl]
    rfl
  · intro acts j hj
    have := Pipeline.length_run_le acts s
    exact ⟨_, List.getElem?_eq_getElem (by omega)⟩

/-- C14 (single-leader exclusivity): in every state a pool reaches under any
schedule of submitters and workers, two threads that both stand in the
critical section (from the wait to the unlock, the election and the dequeue
block included) are the same thread, so at most one thread is inside the
election/dequeue block; and when the submitted tasks are pairwise distinct,
so are the dequeued ones, none of which is still queued: no task is dequeued
twice. -/
theorem C14_single_leader (n : Int) (acts : List LeaderFollowers.Action) :
    (∀ (k k' : Nat) (pc pc' : LeaderFollowers.Pc),
      (LeaderFollowers.run (LeaderFollowers.new n) acts).threads[k]? = some (some pc) →
      (LeaderFollowers.run (LeaderFollowers.new n) acts).threads[k']? = some (some pc') →
      pc.inCritical = true → pc'.inCritical = true → k = k')
    ∧ (∀ (k k' : Nat) (pc pc' : LeaderFollowers.Pc),
      (LeaderFollowers.run (LeaderFollowers.new n) acts).threads[k]? = some (some pc) →
      (LeaderFollowers.run (LeaderFollowers.new n) acts).threads[k']? = some (some pc') →
      (pc = .election ∨ pc.inLeaderBlock = true) →
      (pc' = .election ∨ pc'.inLeaderBlock = true) → k = k')
    ∧ ((LeaderFollowers.run (LeaderFollowers.new n) acts).enqueued.Nodup →
        (LeaderFollowers.run (LeaderFollowers.new n) acts).dequeued.Nodup
        ∧ ∀ t ∈ (LeaderFollowers.run (LeaderFollowers.new n) acts).dequeued,
            t ∉ (LeaderFollowers.run (LeaderFollowers.new n) acts).task_queue) := by
  have hinv := LeaderFollowers.lf_inv_run acts _ (LeaderFollowers.lf_inv_new n)
  generalize LeaderFollowers.run (LeaderFollowers.new n) acts = p at hinv ⊢
  obtain ⟨hm, _, _, hfifo⟩ := hinv
  have hex : ∀ (k k' : Nat) (pc pc' : LeaderFollowers.Pc),
      p.threads[k]? = some (some pc) → p.threads[k']? = some (some pc') →
      pc.inCritical = true → pc'.inCritical = true → k = k' := by
    intro k k' pc pc' h h' hc hc'
    have e1 := (hm.1 k pc h).mp hc
    have e2 := (hm.1 k' pc' h').mp hc'
    rw [e1] at e2
    exact Option.some.inj e2
  have hcrit : ∀ pc : LeaderFollowers.Pc, (pc = .election ∨ pc.inLeaderBlock = true) →
      pc.inCritical = true := by
    intro pc h
    rcases h with h | h
    · rw [h]; rfl
    · exact LeaderFollowers.lf_leaderBlock_critical pc h
  refine ⟨hex, fun k k' pc pc' h h' hc hc' => hex k k' pc pc' h h' (hcrit pc hc) (hcrit pc' hc'),
    ?_⟩
  intro hnd
  rw [← hfifo] at hnd
  rw [List.nodup_append] at hnd
  exact ⟨hnd.1, fun t ht hq => hnd.2.2 ht hq⟩

/-- Witness of C14: a pool of two threads and two distinct tasks; thread 1 is
in the dequeue block and has removed task 0; thread 0 waits for the mutex. -/
theorem C14_single_leader_witness :
    (LeaderFollowers.run (LeaderFollowers.new 2)
        [.add_task (.fn 0 .ret), .add_task (.fn 1 .ret), .worker 1, .worker 0, .worker 1,
          .worker 1, .worker 1, .worker 1, .worker 1, .worker 0]).dequeued.Nodup
    ∧ ∀ t ∈ (LeaderFollowers.run (LeaderFollowers.new 2)
        [.add_task (.fn 0 .ret), .add_task (.fn 1 .ret), .worker 1, .worker 0, .worker 1,
          .worker 1, .worker 1, .worker 1, .worker 1, .worker 0]).dequeued,
        t ∉ (LeaderFollowers.run (LeaderFollowers.new 2)
        [.add_task (.fn 0 .ret), .add_task (.fn 1 .ret), .worker 1, .worker 0, .worker 1,
          .worker 1, .worker 1, .worker 1, .worker 1, .worker 0]).task_queue :=
  (C14_single_leader 2
    [.add_task (.fn 0 .ret), .add_task (.fn 1 .ret), .worker 1, .worker 0, .worker 1,
      .worker 1, .worker 1, .worker 1, .worker 1, .worker 0]).2.2 (by decide)

/-! ## The `double` sum of `getTotalWeight` -/

theorem bitLength_zero (fuel : Nat) : bitLength fuel 0 = 0 := by
  cases fuel <;> rfl

theorem bitLength_spec : ∀ (fuel q : Nat), q < 2 ^ fuel →
    q < 2 ^ bitLength fuel q ∧ (0 < q → 2 ^ bitLength fuel q ≤ 2 * q) := by
  intro fuel
  induction fuel with
  | zero =>
    intro q hq
    have : q = 0 := by simpa using hq
    subst this
    exact ⟨by simp [bitLength], fun h => absurd h (lt_irrefl 0)⟩
  | succ fuel ih =>
    intro q hq
    by_cases h0 : q = 0
    · subst h0
      exact ⟨by simp [bitLength], fun h => absurd h (lt_irrefl 0)⟩
    · have hlt : q / 2 < 2 ^ fuel := by
        rw [pow_succ] at hq
        omega
      obtain ⟨h1, h2⟩ := ih (q / 2) hlt
      have hb : bitLength (fuel + 1) q = bitLength fuel (q / 2) + 1 := by
        rw [bitLength, if_neg h0]
      rw [hb, pow_succ]
      constructor
      · omega
      · intro _
        by_cases h3 : q / 2 = 0
        · rw [h3, bitLength_zero]
          omega
        · have := h2 (Nat.pos_of_ne_zero h3)
          omega

theorem roundDouble_of_le (z : Int) (h : z.natAbs ≤ 2 ^ 53) : roundDouble z = z := by
  by_cases h53 : z.natAbs = 2 ^ 53
  · rcases Int.natAbs_eq z with hz | hz
    · rw [hz, h53]; decide
    · rw [hz, h53]; decide
  · have hlt : z.natAbs < 2 ^ 53 := lt_of_le_of_ne h h53
    have hs : bitLength z.natAbs z.natAbs - 53 = 0 := by
      by_cases h0 : z.natAbs = 0
      · rw [h0, bitLength_zero]
      · have h2 := (bitLength_spec z.natAbs z.natAbs (Nat.lt_two_pow _)).2 (Nat.pos_of_ne_zero h0)
        have h3 : 2 ^ bitLength z.natAbs z.natAbs < 2 ^ 54 := by omega
        have h4 := (Nat.pow_lt_pow_iff_right (by decide : 1 < 2)).mp h3
        omega
    unfold roundDouble
    simp only [hs]
    simp [Nat.mod_one, Int.sign_mul_abs]

/-- Beyond 2^53 `roundDouble` rounds to 53 binary digits, to the nearest and
of two equally near to the even one: with `|z| = m * 2 ^ s + low`, where `m`
has 53 digits and `low < 2 ^ s`, the result is `m * 2 ^ s` or
`(m + 1) * 2 ^ s` with the sign of `z`, the first when `low` is below half of
`2 ^ s` or is the half and `m` is even, the second otherwise. -/
theorem roundDouble_spec (z : Int) (hz : 2 ^ 53 < z.natAbs) :
    ∃ (m low s N : Nat), roundDouble z = z.sign * ((N * 2 ^ s : Nat) : Int)
      ∧ z.natAbs = m * 2 ^ s + low ∧ low < 2 ^ s ∧ 2 ^ 52 ≤ m ∧ m < 2 ^ 53
      ∧ ((N = m ∧ (2 * low < 2 ^ s ∨ (2 * low = 2 ^ s ∧ m % 2 = 0)))
        ∨ (N = m + 1 ∧ (2 ^ s < 2 * low ∨ (2 * low = 2 ^ s ∧ m % 2 = 1)))) := by
  generalize hq : z.natAbs = q at hz
  obtain ⟨hL1, hL2⟩ := bitLength_spec q q (Nat.lt_two_pow q)
  have hL2 := hL2 (by omega)
  have hL54 : 54 ≤ bitLength q q := by
    by_contra hcon
    have h1 : (2 : Nat) ^ bitLength q q ≤ 2 ^ 53 :=
      Nat.pow_le_pow_right (by norm_num) (by omega)
    omega
  obtain ⟨s, hs⟩ : ∃ s, bitLength q q = s + 1 + 53 := ⟨bitLength q q - 54, by omega⟩
  have hs53 : bitLength q q - 53 = s + 1 := by omega
  have hpowL : 2 ^ bitLength q q = 2 * 2 ^ s * 2 ^ 53 := by
    rw [hs, pow_add, pow_succ]
    ring
  have hp : 2 ^ (s + 1) = 2 * 2 ^ s := by
    rw [pow_succ]
    ring
  have hpos : 0 < 2 ^ s := Nat.pow_pos (by norm_num)
  have hdm : 2 ^ (s + 1) * (q / 2 ^ (s + 1)) + q % 2 ^ (s + 1) = q := Nat.div_add_mod _ _
  have hlow : q % 2 ^ (s + 1) < 2 ^ (s + 1) := Nat.mod_lt _ (by rw [hp]; omega)
  generalize hmm : q / 2 ^ (s + 1) = mm at *
  generalize hll : q % 2 ^ (s + 1) = low at *
  generalize hhalf : 2 ^ s = half at *
  rw [hp] at hdm hlow
  have hm1 : mm < 2 ^ 53 := by
    by_contra hcon
    have : 2 * half * 2 ^ 53 ≤ 2 * half * mm := Nat.mul_le_mul_left _ (by omega)
    omega
  have hm2 : 2 ^ 52 ≤ mm := by
    by_contra hcon
    have : 2 * half * (mm + 1) ≤ 2 * half * 2 ^ 52 := Nat.mul_le_mul_left _ (by omega)
    have e : 2 * half * (mm + 1) = 2 * half * mm + 2 * half := by ring
    have e2 : 2 * half * 2 ^ 53 = 2 * (2 * half * 2 ^ 52) := by ring
    omega
  refine ⟨mm, low, s + 1,
    (if (decide (2 ^ (s + 1 - 1) < low) || (decide (low = 2 ^ (s + 1 - 1))
        && decide (mm % 2 = 1))) = true then mm + 1 else mm), ?_, ?_, ?_, hm2, hm1, ?_⟩
  · unfold roundDouble
    simp only [hq, hs53, hmm, hll]
  · rw [hp, ← hdm]
    ring
  · rw [hp]
    exact hlow
  · rw [hp, Nat.add_sub_cancel, hhalf]
    by_cases hup : (decide (half < low) || (decide (low = half) && decide (mm % 2 = 1))) = true
    · rw [if_pos hup]
      right
      refine ⟨rfl, ?_⟩
      simp only [Bool.or_eq_true, Bool.and_eq_true, decide_eq_true_eq] at hup
      omega
    · rw [if_neg hup]
      left
      refine ⟨rfl, ?_⟩
      simp only [Bool.or_eq_true, Bool.and_eq_true, decide_eq_true_eq, not_or, not_and,
        not_lt] at hup
      omega

theorem addWeights_exact (row : List (Int × Int)) : ∀ (acc : Int),
    acc.natAbs + (row.map fun e => e.2.natAbs).sum ≤ 2 ^ 53 →
    Graph.addWeights acc row = acc + (row.map Prod.snd).sum := by
  induction row with
  | nil => intro acc _; simp [Graph.addWeights]
  | cons e row ih =>
    intro acc h
    simp only [List.map_cons, List.sum_cons] at h ⊢
    have h1 := Int.natAbs_add_le acc e.2
    have h2 : Graph.addWeights acc (e :: row) = Graph.addWeights (roundDouble (acc + e.2)) row := rfl
    rw [h2, roundDouble_of_le _ (by omega), ih _ (by omega)]
    ring

theorem foldl_addWeights_exact (rows : List (List (Int × Int))) : ∀ (acc : Int),
    acc.natAbs + (rows.map fun l => (l.map fun e => e.2.natAbs).sum).sum ≤ 2 ^ 53 →
    rows.foldl Graph.addWeights acc = acc + (rows.map fun l => (l.map Prod.snd).sum).sum := by
  induction rows with
  | nil => intro acc _; simp
  | cons row rows ih =>
    intro acc h
    simp only [List.map_cons, List.sum_cons, List.foldl_cons] at h ⊢
    have h1 := addWeights_exact row acc (by omega)
    have h3 : ((row.map Prod.snd).sum).natAbs ≤ (row.map fun e => e.2.natAbs).sum := by
      clear h h1 ih
      induction row with
      | nil => simp
      | cons e row ih2 =>
        simp only [List.map_cons, List.sum_cons]
        have := Int.natAbs_add_le e.2 (row.map Prod.snd).sum
        omega
    have h4 := Int.natAbs_add_le acc (row.map Prod.snd).sum
    rw [ih (Graph.addWeights acc row) (by rw [h1]; omega), h1]
    ring

namespace Graph

/-- No rounding below 2^53: the `double` sum of `getTotalWeight` is the sum of
the entries. -/
theorem sumWeights_exact (g : Graph) (h : g.absWeightSum ≤ 2 ^ 53) :
    g.sumWeights = g.weightSum := by
  have := foldl_addWeights_exact g.adjList 0 (by simpa [absWeightSum] using h)
  simpa [sumWeights, weightSum] using this

theorem getTotalWeight_exact (g : Graph) (h : g.absWeightSum ≤ 2 ^ 53) :
    g.getTotalWeight = g.edgeWeight := by
  rw [getTotalWeight, edgeWeight, sumWeights_exact g h]

theorem natAbs_weightSum_le (g : Graph) : g.weightSum.natAbs ≤ g.absWeightSum := by
  unfold weightSum absWeightSum
  induction g.adjList with
  | nil => simp
  | cons row rows ih =>
    simp only [List.map_cons, List.sum_cons]
    have h3 : ((row.map Prod.snd).sum).natAbs ≤ (row.map fun e => e.2.natAbs).sum := by
      clear ih
      induction row with
      | nil => simp
      | cons e row ih2 =>
        simp only [List.map_cons, List.sum_cons]
        have := Int.natAbs_add_le e.2 (row.map Prod.snd).sum
        omega
    have := Int.natAbs_add_le (row.map Prod.snd).sum (rows.map fun l => (l.map Prod.snd).sum).sum
    omega

end Graph

/-! ## compareGraphs -/

namespace Graph

theorem sortPairs_eq_iff (la lb : List (Int × Int)) :
    sortPairs la = sortPairs lb ↔ la.Perm lb := by
  constructor
  · intro h
    have h1 := List.perm_insertionSort pairLe la
    rw [show la.insertionSort pairLe = lb.insertionSort pairLe from h] at h1
    exact h1.symm.trans (List.perm_insertionSort pairLe lb)
  · intro h
    exact List.eq_of_perm_of_sorted
      (((List.perm_insertionSort pairLe la).trans h).trans (List.perm_insertionSort pairLe lb).symm)
      (List.sorted_insertionSort pairLe la) (List.sorted_insertionSort pairLe lb)

theorem compareLists_iff (as bs : List (List (Int × Int))) (hlen : as.length = bs.length) :
    compareLists as bs = true ↔ List.Forall₂ List.Perm as bs := by
  induction as generalizing bs with
  | nil =>
    cases bs with
    | nil => simp [compareLists]
    | cons b bs => simp at hlen
  | cons la as ih =>
    cases bs with
    | nil => simp at hlen
    | cons lb bs =>
      have hlen' : as.length = bs.length := by simpa using hlen
      rw [List.forall₂_cons, ← ih bs hlen', ← sortPairs_eq_iff]
      by_cases h1 : la.length = lb.length
      · by_cases h2 : sortPairs la = sortPairs lb
        · simp [compareLists, h1, h2]
        · simp [compareLists, h1, h2]
      · have h2 : sortPairs la ≠ sortPairs lb := by
          intro h
          exact h1 ((sortPairs_eq_iff la lb).mp h).length_eq
        simp [compareLists, h1, h2]

theorem weightSum_perm (as bs : List (List (Int × Int))) (h : List.Forall₂ List.Perm as bs) :
    (as.map fun l => (l.map Prod.snd).sum).sum = (bs.map fun l => (l.map Prod.snd).sum).sum := by
  induction h with
  | nil => rfl
  | cons hp _ ih =>
    simp only [List.map_cons, List.sum_cons, ih, (hp.map Prod.snd).sum_eq]

theorem absWeightSum_perm (as bs : List (List (Int × Int))) (h : List.Forall₂ List.Perm as bs) :
    (as.map fun l => (l.map fun e => e.2.natAbs).sum).sum
      = (bs.map fun l => (l.map fun e => e.2.natAbs).sum).sum := by
  induction h with
  | nil => rfl
  | cons hp _ ih =>
    simp only [List.map_cons, List.sum_cons, ih, (hp.map fun e => e.2.natAbs).sum_eq]

theorem getTotalWeight_eq_iff (a b : Graph) :
    a.getTotalWeight = b.getTotalWeight ↔ a.sumWeights = b.sumWeights := by
  unfold getTotalWeight
  constructor
  · intro h
    have h2 : (a.sumWeights : ℚ) = (b.sumWeights : ℚ) := by linarith
    exact_mod_cast h2
  · intro h
    rw [h]

/-- What `compareGraphs` decides: the two `double` totals are equal and the
lists are permutations of each other, vertex by vertex. -/
theorem compareGraphs_iff (a b : Graph) :
    a.compareGraphs b = true ↔
      a.sumWeights = b.sumWeights ∧ List.Forall₂ List.Perm a.adjList b.adjList := by
  unfold compareGraphs getNumVertices
  by_cases hlen : a.adjList.length = b.adjList.length
  · by_cases hw : a.getTotalWeight = b.getTotalWeight
    · simp only [hlen, hw, ne_eq, not_true_eq_false, if_false]
      rw [compareLists_iff _ _ hlen]
      exact ⟨fun h => ⟨(getTotalWeight_eq_iff a b).mp hw, h⟩, fun h => h.2⟩
    · have : ¬ (a.sumWeights = b.sumWeights) := fun h => hw ((getTotalWeight_eq_iff a b).mpr h)
      simp [hlen, hw, this]
  · have : ¬ List.Forall₂ List.Perm a.adjList b.adjList := fun h => hlen h.length_eq
    have hlen' : ¬ ((a.adjList.length : Int) = b.adjList.length) := by
      intro h; exact hlen (by exact_mod_cast h)
    simp [hlen', this]

/-- Below 2^53 the totals of two graphs whose lists are permutations of each
other are equal. -/
theorem sumWeights_perm (a b : Graph) (h : List.Forall₂ List.Perm a.adjList b.adjList)
    (ha : a.absWeightSum ≤ 2 ^ 53) : a.sumWeights = b.sumWeights := by
  have hb : b.absWeightSum ≤ 2 ^ 53 := by
    unfold absWeightSum at ha ⊢
    rw [← absWeightSum_perm _ _ h]
    exact ha
  rw [sumWeights_exact a ha, sumWeights_exact b hb]
  exact weightSum_perm _ _ h

theorem forall₂_perm_iff (as bs : List (List (Int × Int))) :
    List.Forall₂ List.Perm as bs ↔
      as.length = bs.length ∧
        ∀ (i : Nat) (la lb : List (Int × Int)), as[i]? = some la → bs[i]? = some lb → la.Perm lb := by
  rw [List.forall₂_iff_get]
  constructor
  · rintro ⟨hl, h⟩
    refine ⟨hl, fun i la lb ha hb => ?_⟩
    obtain ⟨h1, rfl⟩ := List.getElem?_eq_some_iff.mp ha
    obtain ⟨h2, rfl⟩ := List.getElem?_eq_some_iff.mp hb
    exact h i h1 h2
  · rintro ⟨hl, h⟩
    refine ⟨hl, fun i h1 h2 => ?_⟩
    exact h i _ _ (List.getElem?_eq_getElem h1) (List.getElem?_eq_getElem h2)

theorem forall₂_perm_symm (as bs : List (List (Int × Int)))
    (h : List.Forall₂ List.Perm as bs) : List.Forall₂ List.Perm bs as := by
  induction h with
  | nil => exact List.Forall₂.nil
  | cons hp _ ih => exact List.Forall₂.cons hp.symm ih

end Graph

/-- C20 (compareGraphs): for all graphs `a` and `b`, when `a.compareGraphs(b)`
is true they have the same number of vertices and, for every vertex `i`, the
adjacency list of `i` in `a` is a permutation of the adjacency list of `i` in
`b`; when the absolute values of the weights of all entries of `a` sum to at
most 2^53 the converse holds too, so that `compareGraphs` is true exactly
then; without the bound it is true exactly when the lists are permutations of
each other and the two `double` totals of `getTotalWeight()` are equal;
`compareGraphs` is reflexive and symmetric.  (The function compares the
`double` totals first: below 2^53 they are the sums of the weights, equal for
permuted lists.) -/
theorem C20_compareGraphs (a b : Graph) :
    (a.compareGraphs b = true →
      a.adjList.length = b.adjList.length ∧
        ∀ (i : Nat) (la lb : List (Int × Int)),
          a.adjList[i]? = some la → b.adjList[i]? = some lb → la.Perm lb)
    ∧ (a.absWeightSum ≤ 2 ^ 53 →
      (a.compareGraphs b = true ↔
        a.adjList.length = b.adjList.length ∧
          ∀ (i : Nat) (la lb : List (Int × Int)),
            a.adjList[i]? = some la → b.adjList[i]? = some lb → la.Perm lb))
    ∧ (a.compareGraphs b = true ↔
        (a.adjList.length = b.adjList.length ∧
          ∀ (i : Nat) (la lb : List (Int × Int)),
            a.adjList[i]? = some la → b.adjList[i]? = some lb → la.Perm lb)
        ∧ a.getTotalWeight = b.getTotalWeight)
    ∧ a.compareGraphs a = true
    ∧ a.compareGraphs b = b.compareGraphs a := by
  refine ⟨?_, ?_, ?_, ?_, ?_⟩
  · intro h
    exact (Graph.forall₂_perm_iff _ _).mp ((Graph.compareGraphs_iff a b).mp h).2
  · intro ha
    rw [Graph.compareGraphs_iff, ← Graph.forall₂_perm_iff]
    exact ⟨fun h => h.2, fun h => ⟨Graph.sumWeights_perm a b h ha, h⟩⟩
  · rw [Graph.compareGraphs_iff, ← Graph.forall₂_perm_iff, Graph.getTotalWeight_eq_iff]
    exact ⟨fun h => ⟨h.2, h.1⟩, fun h => ⟨h.2, h.1⟩⟩
  · rw [Graph.compareGraphs_iff]
    exact ⟨rfl, List.forall₂_same.mpr fun _ _ => List.Perm.refl _⟩
  · rw [Bool.eq_iff_iff, Graph.compareGraphs_iff, Graph.compareGraphs_iff]
    exact ⟨fun h => ⟨h.1.symm, Graph.forall₂_perm_symm _ _ h.2⟩,
      fun h => ⟨h.1.symm, Graph.forall₂_perm_symm _ _ h.2⟩⟩

set_option maxRecDepth 100000 in
/-- Witness of C20: the tree that the solvers return for the 3-vertex graph of
the tests and the same tree with the list of vertex 1 in the other order. -/
theorem C20_compareGraphs_witness :
    Graph.absWeightSum ⟨[[(1, 2)], [(0, 2), (2, 3)], [(1, 3)]]⟩ ≤ 2 ^ 53
    ∧ (Graph.compareGraphs ⟨[[(1, 2)], [(0, 2), (2, 3)], [(1, 3)]]⟩
          ⟨[[(1, 2)], [(2, 3), (0, 2)], [(1, 3)]]⟩ = true ↔
        (⟨[[(1, 2)], [(0, 2), (2, 3)], [(1, 3)]]⟩ : Graph).adjList.length
          = (⟨[[(1, 2)], [(2, 3), (0, 2)], [(1, 3)]]⟩ : Graph).adjList.length ∧
        ∀ (i : Nat) (la lb : List (Int × Int)),
          (⟨[[(1, 2)], [(0, 2), (2, 3)], [(1, 3)]]⟩ : Graph).adjList[i]? = some la →
          (⟨[[(1, 2)], [(2, 3), (0, 2)], [(1, 3)]]⟩ : Graph).adjList[i]? = some lb →
          la.Perm lb) :=
  ⟨by decide, (C20_compareGraphs _ _).2.1 (by decide)⟩

/-! ## Chains of edges -/

theorem eqvGen_of_rel {r r' : Nat → Nat → Prop}
    (h : ∀ a b, r a b → Relation.EqvGen r' a b) {a b : Nat}
    (hab : Relation.EqvGen r a b) : Relation.EqvGen r' a b := by
  induction hab with
  | rel x y hxy => exact h x y hxy
  | refl x => exact Relation.EqvGen.refl x
  | symm x y _ ih => exact Relation.EqvGen.symm _ _ ih
  | trans x y z _ _ ih1 ih2 => exact Relation.EqvGen.trans _ _ _ ih1 ih2

theorem eqvGen_side {r : Nat → Nat → Prop} (S : Nat → Prop)
    (h : ∀ a b, r a b → (S a ↔ S b)) {a b : Nat}
    (hab : Relation.EqvGen r a b) : S a ↔ S b := by
  induction hab with
  | rel x y hxy => exact h x y hxy
  | refl x => exact Iff.rfl
  | symm x y _ ih => exact ih.symm
  | trans x y z _ _ ih1 ih2 => exact ih1.trans ih2

theorem Reach.refl (E : List Edge) (a : Nat) : Reach E a a := Relation.EqvGen.refl a

theorem Reach.symm {E : List Edge} {a b : Nat} (h : Reach E a b) : Reach E b a :=
  Relation.EqvGen.symm _ _ h

theorem Reach.trans {E : List Edge} {a b c : Nat} (h1 : Reach E a b) (h2 : Reach E b c) :
    Reach E a c :=
  Relation.EqvGen.trans _ _ _ h1 h2

theorem reach_edge {E : List Edge} {u v : Nat} {w : Int} (h : (u, v, w) ∈ E) : Reach E u v :=
  Relation.EqvGen.rel _ _ ⟨w, h⟩

theorem reach_of_edges {E E' : List Edge}
    (h : ∀ u v w, (u, v, w) ∈ E → Reach E' u v) {a b : Nat} (hab : Reach E a b) :
    Reach E' a b :=
  eqvGen_of_rel (fun x y ⟨w, hw⟩ => h x y w hw) hab

theorem reach_mono {E E' : List Edge} (h : ∀ e ∈ E, e ∈ E') {a b : Nat} (hab : Reach E a b) :
    Reach E' a b :=
  reach_of_edges (fun _ _ _ he => reach_edge (h _ he)) hab

theorem reach_side {E : List Edge} (S : Nat → Prop)
    (h : ∀ u v w, (u, v, w) ∈ E → (S u ↔ S v)) {a b : Nat} (hab : Reach E a b) : S a ↔ S b :=
  eqvGen_side S (fun x y ⟨w, hw⟩ => h x y w hw) hab

theorem reach_nil {a b : Nat} : Reach [] a b ↔ a = b := by
  constructor
  · intro h
    exact (reach_side (fun x => x = b) (fun _ _ _ he => by simp at he) h).mpr rfl
  · rintro rfl
    exact Reach.refl _ _

theorem reach_lt {E : List Edge} {n : Nat} (h : ∀ e ∈ E, e.1 < n ∧ e.2.1 < n) {a b : Nat}
    (hab : Reach E a b) (hne : a ≠ b) : a < n ∧ b < n := by
  have key : ∀ a b, Reach E a b → a = b ∨ (a < n ∧ b < n) := by
    intro a b hab
    induction hab with
    | rel x y hxy =>
      obtain ⟨w, hw⟩ := hxy
      exact Or.inr (h _ hw)
    | refl x => exact Or.inl rfl
    | symm x y _ ih =>
      rcases ih with ih | ih
      · exact Or.inl ih.symm
      · exact Or.inr ⟨ih.2, ih.1⟩
    | trans x y z _ _ ih1 ih2 =>
      rcases ih1 with ih1 | ih1
      · rw [ih1]; exact ih2
      · rcases ih2 with ih2 | ih2
        · rw [← ih2]; exact Or.inr ih1
        · exact Or.inr ⟨ih1.1, ih2.2⟩
  rcases key a b hab with h1 | h1
  · exact absurd h1 hne
  · exact h1

/-- Adding one edge joins exactly the two classes of its ends. -/
theorem reach_cons {E : List Edge} {u v : Nat} {w : Int} {a b : Nat} :
    Reach ((u, v, w) :: E) a b ↔
      Reach E a b ∨ (Reach E a u ∧ Reach E v b) ∨ (Reach E a v ∧ Reach E u b) := by
  constructor
  · intro h
    induction h with
    | rel x y hxy =>
      obtain ⟨w', hw'⟩ := hxy
      rcases List.mem_cons.mp hw' with h1 | h1
      · injection h1 with h2 h3
        injection h3 with h3 h4
        subst h2; subst h3
        exact Or.inr (Or.inl ⟨Reach.refl _ _, Reach.refl _ _⟩)
      · exact Or.inl (reach_edge h1)
    | refl x => exact Or.inl (Reach.refl _ _)
    | symm x y _ ih =>
      rcases ih with ih | ⟨i1, i2⟩ | ⟨i1, i2⟩
      · exact Or.inl ih.symm
      · exact Or.inr (Or.inr ⟨i2.symm, i1.symm⟩)
      · exact Or.inr (Or.inl ⟨i2.symm, i1.symm⟩)
    | trans x y z _ _ ih1 ih2 =>
      rcases ih1 with ih1 | ⟨i1, i2⟩ | ⟨i1, i2⟩
      · rcases ih2 with ih2 | ⟨j1, j2⟩ | ⟨j1, j2⟩
        · exact Or.inl (ih1.trans ih2)
        · exact Or.inr (Or.inl ⟨ih1.trans j1, j2⟩)
        · exact Or.inr (Or.inr ⟨ih1.trans j1, j2⟩)
      · rcases ih2 with ih2 | ⟨j1, j2⟩ | ⟨j1, j2⟩
        · exact Or.inr (Or.inl ⟨i1, i2.trans ih2⟩)
        · exact Or.inr (Or.inl ⟨i1, j2⟩)
        · exact Or.inl (i1.trans j2)
      · rcases ih2 with ih2 | ⟨j1, j2⟩ | ⟨j1, j2⟩
        · exact Or.inr (Or.inr ⟨i1, i2.trans ih2⟩)
        · exact Or.inl (i1.trans j2)
        · exact Or.inr (Or.inr ⟨i1, j2⟩)
  · intro h
    have hm : ∀ {x y : Nat}, Reach E x y → Reach ((u, v, w) :: E) x y :=
      fun hxy => reach_mono (fun e he => List.mem_cons_of_mem _ he) hxy
    have huv : Reach ((u, v, w) :: E) u v := reach_edge (List.mem_cons_self _ _)
    rcases h with h | ⟨h1, h2⟩ | ⟨h1, h2⟩
    · exact hm h
    · exact (hm h1).trans (huv.trans (hm h2))
    · exact (hm h1).trans (huv.symm.trans (hm h2))

/-! ## Counting the classes -/

theorem exists_least (E : List Edge) (u : Nat) :
    ∃ r, Reach E u r ∧ r ≤ u ∧ ∀ y, Reach E u y → r ≤ y := by
  classical
  have hex : ∃ r, Reach E u r := ⟨u, Reach.refl _ _⟩
  refine ⟨Nat.find hex, Nat.find_spec hex, Nat.find_min' hex (Reach.refl _ _), ?_⟩
  intro y hy
  exact Nat.find_min' hex hy

section Counting

open Classical

theorem mem_leastSet {n : Nat} {E : List Edge} {x : Nat} :
    x ∈ leastSet n E ↔ x < n ∧ ∀ y, y < x → ¬ Reach E x y := by
  simp [leastSet]

theorem least_mem_leastSet {n : Nat} {E : List Edge} {u r : Nat} (hu : u < n)
    (h1 : Reach E u r) (h2 : r ≤ u) (h3 : ∀ y, Reach E u y → r ≤ y) : r ∈ leastSet n E := by
  rw [mem_leastSet]
  refine ⟨by omega, fun y hy hr => ?_⟩
  have := h3 y (h1.trans hr)
  omega

theorem eq_least {n : Nat} {E : List Edge} {x u r : Nat} (hx : x ∈ leastSet n E)
    (hxu : Reach E x u) (h1 : Reach E u r) (h3 : ∀ y, Reach E u y → r ≤ y) : x = r := by
  rw [mem_leastSet] at hx
  have h4 := h3 x hxu.symm
  by_contra hne
  exact hx.2 r (by omega) (hxu.trans h1)

theorem classCount_nil (n : Nat) : classCount n [] = n := by
  have : leastSet n [] = Finset.range n := by
    ext x
    rw [mem_leastSet, Finset.mem_range]
    constructor
    · exact fun h => h.1
    · intro h
      refine ⟨h, fun y hy hr => ?_⟩
      have := reach_nil.mp hr
      omega
  rw [classCount, this, Finset.card_range]

theorem leastSet_mono {n : Nat} {E E' : List Edge}
    (h : ∀ a b, a < n → Reach E a b → Reach E' a b) : leastSet n E' ⊆ leastSet n E := by
  intro x hx
  rw [mem_leastSet] at hx ⊢
  exact ⟨hx.1, fun y hy hr => hx.2 y hy (h x y hx.1 hr)⟩

theorem classCount_mono {n : Nat} {E E' : List Edge}
    (h : ∀ a b, a < n → Reach E a b → Reach E' a b) : classCount n E' ≤ classCount n E :=
  Finset.card_le_card (leastSet_mono h)

theorem classCount_cons_le (n : Nat) (e : Edge) (E : List Edge) :
    classCount n E ≤ classCount n (e :: E) + 1 := by
  obtain ⟨u, v, w⟩ := e
  obtain ⟨ru, hru1, -, hru3⟩ := exists_least E u
  obtain ⟨rv, hrv1, -, hrv3⟩ := exists_least E v
  have hsub : leastSet n E ⊆ insert (max ru rv) (leastSet n ((u, v, w) :: E)) := by
    intro x hx
    rw [Finset.mem_insert]
    by_cases hxm : x = max ru rv
    · exact Or.inl hxm
    · right
      have hx' := mem_leastSet.mp hx
      rw [mem_leastSet]
      refine ⟨hx'.1, fun y hy hr => ?_⟩
      rcases reach_cons.mp hr with h | ⟨h1, h2⟩ | ⟨h1, h2⟩
      · exact hx'.2 y hy h
      · have e1 := eq_least hx h1 hru1 hru3
        have e2 := hrv3 y h2
        omega
      · have e1 := eq_least hx h1 hrv1 hrv3
        have e2 := hru3 y h2
        omega
  calc classCount n E ≤ (insert (max ru rv) (leastSet n ((u, v, w) :: E))).card :=
        Finset.card_le_card hsub
    _ ≤ classCount n ((u, v, w) :: E) + 1 := Finset.card_insert_le _ _

theorem classCount_cons_lt {n : Nat} {E : List Edge} {u v : Nat} (w : Int) (hu : u < n)
    (hv : v < n) (h : ¬ Reach E u v) : classCount n ((u, v, w) :: E) + 1 ≤ classCount n E := by
  obtain ⟨ru, hru1, hru2, hru3⟩ := exists_least E u
  obtain ⟨rv, hrv1, hrv2, hrv3⟩ := exists_least E v
  have hne : ru ≠ rv := by
    intro he
    exact h (hru1.trans (he ▸ hrv1.symm))
  have hmu := least_mem_leastSet hu hru1 hru2 hru3
  have hmv := least_mem_leastSet hv hrv1 hrv2 hrv3
  have hmx : max ru rv ∈ leastSet n E := by
    rcases max_choice ru rv with h1 | h1 <;> rw [h1] <;> assumption
  have hle : ∀ {a b : Nat}, Reach E a b → Reach ((u, v, w) :: E) a b :=
    fun hab => reach_mono (fun e he => List.mem_cons_of_mem _ he) hab
  have huv : Reach ((u, v, w) :: E) ru rv :=
    (hle hru1.symm).trans ((reach_edge (List.mem_cons_self _ _)).trans (hle hrv1))
  have hsub : leastSet n ((u, v, w) :: E) ⊆ (leastSet n E).erase (max ru rv) := by
    intro x hx
    rw [Finset.mem_erase]
    refine ⟨?_, leastSet_mono (fun a b _ hab => hle hab) hx⟩
    intro hxm
    have hx' := mem_leastSet.mp hx
    rcases Nat.lt_or_gt_of_ne hne with h1 | h1
    · have : x = rv := by omega
      exact hx'.2 ru (by omega) (this ▸ huv.symm)
    · have : x = ru := by omega
      exact hx'.2 rv (by omega) (this ▸ huv)
  have h1 := Finset.card_le_card hsub
  rw [Finset.card_erase_of_mem hmx] at h1
  have h2 : 0 < (leastSet n E).card := Finset.card_pos.mpr ⟨_, hmx⟩
  unfold classCount
  omega

theorem le_classCount_add_length (n : Nat) (E : List Edge) : n ≤ classCount n E + E.length := by
  induction E with
  | nil => rw [classCount_nil]; exact Nat.le_refl _
  | cons e E ih =>
    have := classCount_cons_le n e E
    simp only [List.length_cons]
    omega

theorem classCount_forest {n : Nat} {E : List Edge} (hE : ∀ e ∈ E, e.1 < n ∧ e.2.1 < n)
    (hf : IsForest E) : classCount n E + E.length = n := by
  induction E with
  | nil => rw [classCount_nil]; rfl
  | cons e E ih =>
    obtain ⟨u, v, w⟩ := e
    have h1 := hE _ (List.mem_cons_self _ _)
    have h2 : classCount n ((u, v, w) :: E) + 1 ≤ classCount n E :=
      classCount_cons_lt w h1.1 h1.2 hf.1
    have h3 := classCount_cons_le n (u, v, w) E
    have h4 := ih (fun e he => hE e (List.mem_cons_of_mem _ he)) hf.2
    simp only [List.length_cons]
    omega

theorem classCount_not_forest {n : Nat} {E : List Edge} (hf : ¬ IsForest E) :
    n + 1 ≤ classCount n E + E.length := by
  induction E with
  | nil => exact absurd trivial hf
  | cons e E ih =>
    obtain ⟨u, v, w⟩ := e
    simp only [List.length_cons]
    by_cases hr : Reach E u v
    · have h1 : classCount n E ≤ classCount n ((u, v, w) :: E) := by
        apply classCount_mono
        intro a b _ hab
        rcases reach_cons.mp hab with h | ⟨h1, h2⟩ | ⟨h1, h2⟩
        · exact h
        · exact h1.trans (hr.trans h2)
        · exact h1.trans (hr.symm.trans h2)
      have h2 := le_classCount_add_length n E
      omega
    · have h1 : ¬ IsForest E := fun h => hf ⟨hr, h⟩
      have h2 := ih h1
      have h3 := classCount_cons_le n (u, v, w) E
      omega

theorem classCount_le_one {n : Nat} {E : List Edge}
    (h : ∀ u v, u < n → v < n → Reach E u v) : classCount n E ≤ 1 := by
  have hsub : leastSet n E ⊆ {0} := by
    intro x hx
    rw [mem_leastSet] at hx
    rw [Finset.mem_singleton]
    by_contra hne
    exact hx.2 0 (by omega) (h x 0 hx.1 (by omega))
  exact Finset.card_le_card hsub

theorem classCount_pos {n : Nat} (E : List Edge) (hn : 0 < n) : 1 ≤ classCount n E := by
  apply Finset.card_pos.mpr
  exact ⟨0, mem_leastSet.mpr ⟨hn, fun y hy => absurd hy (Nat.not_lt_zero y)⟩⟩

theorem reach_of_classCount_le_one {n : Nat} {E : List Edge} (h : classCount n E ≤ 1)
    (u v : Nat) (hu : u < n) (hv : v < n) : Reach E u v := by
  obtain ⟨ru, hru1, hru2, hru3⟩ := exists_least E u
  obtain ⟨rv, hrv1, hrv2, hrv3⟩ := exists_least E v
  have hmu := least_mem_leastSet hu hru1 hru2 hru3
  have hmv := least_mem_leastSet hv hrv1 hrv2 hrv3
  have := Finset.card_le_one.mp h ru hmu rv hmv
  exact hru1.trans (this ▸ hrv1.symm)

end Counting

/-! ## When a tree is a lightest one -/

theorem mem_lightEdges {t : Int} {E : List Edge} {e : Edge} :
    e ∈ lightEdges t E ↔ e ∈ E ∧ e.2.2 ≤ t := by
  simp [lightEdges]

theorem isForest_filter (p : Edge → Bool) {E : List Edge} (h : IsForest E) :
    IsForest (E.filter p) := by
  induction E with
  | nil => exact trivial
  | cons e E ih =>
    rw [List.filter_cons]
    split
    · refine ⟨fun hr => h.1 (reach_mono (fun x hx => (List.mem_filter.mp hx).1) hr), ih h.2⟩
    · exact ih h.2

theorem length_lightEdges_cons (t : Int) (e : Edge) (E : List Edge) :
    ((lightEdges t (e :: E)).length : Int)
      = (if e.2.2 ≤ t then 1 else 0) + ((lightEdges t E).length : Int) := by
  unfold lightEdges
  rw [List.filter_cons]
  by_cases h : e.2.2 ≤ t
  · simp [h]; omega
  · simp [h]

theorem sum_thresholds (m M : Int) (X : List Edge) (h : ∀ e ∈ X, m ≤ e.2.2 ∧ e.2.2 ≤ M) :
    totalWeight X + ∑ t in Finset.Ico m M, ((lightEdges t X).length : Int)
      = (X.length : Int) * M := by
  induction X with
  | nil => simp [totalWeight, lightEdges]
  | cons e X ih =>
    have h1 := h e (List.mem_cons_self _ _)
    have h2 := ih fun x hx => h x (List.mem_cons_of_mem _ hx)
    have h3 : ∑ t in Finset.Ico m M, (if e.2.2 ≤ t then (1 : Int) else 0) = M - e.2.2 := by
      rw [Finset.sum_boole]
      have : (Finset.Ico m M).filter (fun t => e.2.2 ≤ t) = Finset.Ico e.2.2 M := by
        ext t
        simp only [Finset.mem_filter, Finset.mem_Ico]
        omega
      rw [this, Int.card_Ico]
      have := h1.2
      omega
    simp only [length_lightEdges_cons, Finset.sum_add_distrib, h3]
    have h4 : totalWeight (e :: X) = e.2.2 + totalWeight X := by simp [totalWeight]
    rw [h4]
    simp only [List.length_cons, Nat.cast_add, Nat.cast_one]
    linarith

theorem exists_bounds (X : List Edge) : ∃ m M : Int, ∀ e ∈ X, m ≤ e.2.2 ∧ e.2.2 ≤ M := by
  induction X with
  | nil => exact ⟨0, 0, fun e he => by simp at he⟩
  | cons x X ih =>
    obtain ⟨m, M, h⟩ := ih
    refine ⟨min m x.2.2, max M x.2.2, fun e he => ?_⟩
    rcases List.mem_cons.mp he with h1 | h1
    · rw [h1]
      exact ⟨min_le_right _ _, le_max_right _ _⟩
    · exact ⟨le_trans (min_le_left _ _) (h e h1).1, le_trans (h e h1).2 (le_max_left _ _)⟩

open Classical in
/-- A list `A` of as many edges as the forest `T` weighs no more than `T` when
the ends of every edge of `T` are joined by edges of `A` that are no heavier. -/
theorem light_of_joined (n : Nat) (A T : List Edge) (hT : ∀ e ∈ T, e.1 < n ∧ e.2.1 < n)
    (hlen : A.length = T.length) (hf : IsForest T)
    (hstar : ∀ e ∈ T, Reach (lightEdges e.2.2 A) e.1 e.2.1) :
    totalWeight A ≤ totalWeight T := by
  obtain ⟨m, M, hb⟩ := exists_bounds (A ++ T)
  have hA := sum_thresholds m M A fun e he => hb e (List.mem_append_left _ he)
  have hT' := sum_thresholds m M T fun e he => hb e (List.mem_append_right _ he)
  have hcount : ∀ t : Int, (lightEdges t T).length ≤ (lightEdges t A).length := by
    intro t
    have h1 : classCount n (lightEdges t T) + (lightEdges t T).length = n :=
      classCount_forest (fun e he => hT e (mem_lightEdges.mp he).1) (isForest_filter _ hf)
    have h2 := le_classCount_add_length n (lightEdges t A)
    have h3 : classCount n (lightEdges t A) ≤ classCount n (lightEdges t T) := by
      apply classCount_mono
      intro a b _ hab
      refine reach_of_edges (fun u v w he => ?_) hab
      have he' := mem_lightEdges.mp he
      exact reach_mono (fun x hx => mem_lightEdges.mpr
        ⟨(mem_lightEdges.mp hx).1, le_trans (mem_lightEdges.mp hx).2 he'.2⟩) (hstar _ he'.1)
    omega
  have hsum : ∑ t in Finset.Ico m M, ((lightEdges t T).length : Int)
      ≤ ∑ t in Finset.Ico m M, ((lightEdges t A).length : Int) :=
    Finset.sum_le_sum fun t _ => by exact_mod_cast hcount t
  have hl : (A.length : Int) = T.length := by exact_mod_cast hlen
  rw [hl] at hA
  linarith

/-! ## UnionFind: find and unionSets -/

namespace UnionFind

theorem getD_le_foldr_max (l : List Nat) (i : Nat) : l.getD i 0 ≤ l.foldr max 0 := by
  induction l generalizing i with
  | nil => simp
  | cons a l ih =>
    cases i with
    | zero => simp
    | succ i =>
      simp only [List.getD_cons_succ, List.foldr_cons]
      exact le_trans (ih i) (le_max_right _ _)

theorem inv_new (n : Nat) : Inv n (UnionFind.new n) id := by
  refine ⟨by simp [UnionFind.new], by simp [UnionFind.new], fun u hu => ?_⟩
  have h : (UnionFind.new n).parent[u]? = some u := by
    simp [UnionFind.new, List.getElem?_range hu]
  exact ⟨hu, h, u, h, hu, rfl, fun _ => rfl, fun h => absurd rfl h⟩

theorem Inv.idem {n : Nat} {uf : UnionFind} {f : Nat → Nat} (h : Inv n uf f) {x : Nat}
    (hx : x < n) : f (f x) = f x := by
  obtain ⟨hfx, hroot, -⟩ := h.2.2 x hx
  obtain ⟨-, -, p, hp, -, -, hpx, -⟩ := h.2.2 (f x) hfx
  rw [hroot] at hp
  exact hpx (Option.some.inj hp).symm

theorem findAux_spec (n : Nat) (f : Nat → Nat) :
    ∀ (fuel : Nat) (uf : UnionFind) (u : Nat), Inv n uf f → u < n →
      uf.rank.foldr max 0 < fuel + uf.rank.getD u 0 →
      ∃ uf', findAux fuel uf u = some (f u, uf') ∧ Inv n uf' f ∧ uf'.rank = uf.rank
        ∧ uf.rank.getD u 0 ≤ uf.rank.getD (f u) 0 := by
  intro fuel
  induction fuel with
  | zero =>
    intro uf u _ _ hfuel
    have := getD_le_foldr_max uf.rank u
    omega
  | succ fuel ih =>
    intro uf u hinv hu hfuel
    obtain ⟨hfu, hroot, p, hp, hpn, hfp, hpu, hrk⟩ := hinv.2.2 u hu
    unfold findAux
    simp only [hp]
    by_cases hup : u = p
    · have hfu' : f u = u := hpu hup.symm
      refine ⟨uf, ?_, hinv, rfl, by rw [hfu']⟩
      simp [hup, ← hfu', hup.symm ▸ hfu']
    · have hrk' := hrk (fun h => hup h.symm)
      obtain ⟨uf1, hf1, hinv1, hrank1, hle1⟩ := ih uf p hinv hpn (by omega)
      rw [if_pos hup, hf1]
      refine ⟨{ uf1 with parent := uf1.parent.set u (f p) }, by rw [hfp], ?_, hrank1, ?_⟩
      · refine ⟨by simp [hinv1.1], hinv1.2.1, fun x hx => ?_⟩
        obtain ⟨hfx, hrootx, q, hq, hqn, hfq, hqx, hrkx⟩ := hinv1.2.2 x hx
        refine ⟨hfx, ?_, ?_⟩
        · show (uf1.parent.set u (f p))[f x]? = some (f x)
          by_cases hux : u = f x
          · rw [hux, List.getElem?_set_self (by rw [hinv1.1]; exact hfx), hfp, hux,
              hinv1.idem hx]
          · rw [List.getElem?_set_ne hux]; exact hrootx
        · by_cases hxu : x = u
          · subst hxu
            refine ⟨f p, ?_, hfp ▸ hfx, ?_, ?_, ?_⟩
            · show (uf1.parent.set x (f p))[x]? = some (f p)
              rw [List.getElem?_set_self (by rw [hinv1.1]; exact hx)]
            · rw [hfp]; exact hinv1.idem hx
            · intro h; rw [← hfp]; exact h
            · intro _
              show uf1.rank.getD x 0 < uf1.rank.getD (f p) 0
              rw [hrank1]
              omega
          · refine ⟨q, ?_, hqn, hfq, hqx, hrkx⟩
            show (uf1.parent.set u (f p))[x]? = some q
            rw [List.getElem?_set_ne (fun h => hxu h.symm)]; exact hq
      · rw [← hfp]; omega

theorem find_spec {n : Nat} {f : Nat → Nat} {uf : UnionFind} (hinv : Inv n uf f) {u : Nat}
    (hu : u < n) :
    ∃ uf', uf.find u = some (f u, uf') ∧ Inv n uf' f ∧ uf'.rank = uf.rank := by
  obtain ⟨uf', h1, h2, h3, -⟩ := findAux_spec n f (uf.rank.foldr max 0 + 1) uf u hinv hu
    (by omega)
  exact ⟨uf', h1, h2, h3⟩

theorem inv_link {n : Nat} {f : Nat → Nat} {uf : UnionFind} (hinv : Inv n uf f) {a b : Nat}
    (ha : a < n) (hb : b < n) (hfa : f a = a) (hfb : f b = b) (hab : a ≠ b)
    (rank' : List Nat) (hlen : rank'.length = n)
    (hle : ∀ x, uf.rank.getD x 0 ≤ rank'.getD x 0)
    (hsame : ∀ x, x ≠ b → rank'.getD x 0 = uf.rank.getD x 0)
    (hlt : uf.rank.getD a 0 < rank'.getD b 0) :
    Inv n { parent := uf.parent.set a b, rank := rank' }
      (fun x => if f x = a then b else f x) := by
  have hrootb : uf.parent[b]? = some b := by
    have := (hinv.2.2 b hb).2.1
    rw [hfb] at this
    exact this
  refine ⟨by simp [hinv.1], hlen, fun x hx => ?_⟩
  obtain ⟨hfx, hrootx, q, hq, hqn, hfq, hqx, hrkx⟩ := hinv.2.2 x hx
  refine ⟨?_, ?_, ?_⟩
  · show (if f x = a then b else f x) < n
    split_ifs
    · exact hb
    · exact hfx
  · show (uf.parent.set a b)[if f x = a then b else f x]? = some (if f x = a then b else f x)
    split_ifs with h
    · rw [List.getElem?_set_ne hab]; exact hrootb
    · rw [List.getElem?_set_ne (fun h' => h h'.symm)]; exact hrootx
  · by_cases hxa : x = a
    · subst hxa
      refine ⟨b, ?_, hb, ?_, fun h => absurd h.symm hab, fun _ => ?_⟩
      · show (uf.parent.set x b)[x]? = some b
        rw [List.getElem?_set_self (by rw [hinv.1]; exact hx)]
      · show (if f b = x then b else f b) = (if f x = x then b else f x)
        rw [hfb, hfa, if_neg (fun h => hab h.symm), if_pos rfl]
      · show rank'.getD x 0 < rank'.getD b 0
        rw [hsame x hab]; exact hlt
    · refine ⟨q, ?_, hqn, ?_, ?_, ?_⟩
      · show (uf.parent.set a b)[x]? = some q
        rw [List.getElem?_set_ne (fun h => hxa h.symm)]; exact hq
      · show (if f q = a then b else f q) = (if f x = a then b else f x)
        rw [hfq]
      · intro hqx'
        have h1 := hqx hqx'
        show (if f x = a then b else f x) = x
        rw [h1, if_neg hxa]
      · intro hqx'
        show rank'.getD x 0 < rank'.getD q 0
        have hxb : x ≠ b := by
          intro h
          rw [h, hrootb] at hq
          exact hqx' (h ▸ (Option.some.inj hq).symm)
        rw [hsame x hxb]
        exact lt_of_lt_of_le (hrkx hqx') (hle q)

theorem getD_of_getElem? {l : List Nat} {i r : Nat} (h : l[i]? = some r) : l.getD i 0 = r := by
  rw [List.getD_eq_getElem?_getD, h]; rfl

theorem unionSets_same {n : Nat} {f : Nat → Nat} {uf : UnionFind} (hinv : Inv n uf f)
    {u v : Nat} (hu : u < n) (hv : v < n) (h : f u = f v) :
    ∃ uf', uf.unionSets u v = some (false, uf') ∧ Inv n uf' f := by
  obtain ⟨uf1, h1, hinv1, -⟩ := find_spec hinv hu
  obtain ⟨uf2, h2, hinv2, -⟩ := find_spec hinv1 hv
  refine ⟨uf2, ?_, hinv2⟩
  unfold unionSets
  simp only [h1, h2, h, ne_eq, not_true_eq_false, if_false]

theorem unionSets_join {n : Nat} {f : Nat → Nat} {uf : UnionFind} (hinv : Inv n uf f)
    {u v : Nat} (hu : u < n) (hv : v < n) (h : f u ≠ f v) :
    ∃ uf' f', uf.unionSets u v = some (true, uf') ∧ Inv n uf' f' ∧
      ∀ x y, f' x = f' y ↔
        (f x = f y ∨ (f x = f u ∧ f y = f v) ∨ (f x = f v ∧ f y = f u)) := by
  obtain ⟨uf1, h1, hinv1, -⟩ := find_spec hinv hu
  obtain ⟨uf2, h2, hinv2, -⟩ := find_spec hinv1 hv
  have hfu := (hinv2.2.2 u hu).1
  have hfv := (hinv2.2.2 v hv).1
  have hiu := hinv2.idem hu
  have hiv := hinv2.idem hv
  obtain ⟨ru, hru⟩ : ∃ ru, uf2.rank[f u]? = some ru :=
    ⟨_, List.getElem?_eq_getElem (by rw [hinv2.2.1]; exact hfu)⟩
  obtain ⟨rv, hrv⟩ : ∃ rv, uf2.rank[f v]? = some rv :=
    ⟨_, List.getElem?_eq_getElem (by rw [hinv2.2.1]; exact hfv)⟩
  have gu := getD_of_getElem? hru
  have gv := getD_of_getElem? hrv
  unfold unionSets
  simp only [h1, h2, ne_eq, h, not_false_eq_true, if_true, hru, hrv]
  by_cases c1 : ru > rv
  · refine ⟨_, fun x => if f x = f v then f u else f x, by rw [if_pos c1], ?_, ?_⟩
    · exact inv_link hinv2 hfv hfu hiv hiu (fun e => h e.symm) uf2.rank hinv2.2.1
        (fun _ => Nat.le_refl _) (fun _ _ => rfl) (by omega)
    · intro x y
      simp only
      split_ifs <;> omega
  · by_cases c2 : ru < rv
    · refine ⟨_, fun x => if f x = f u then f v else f x, by rw [if_neg c1, if_pos c2], ?_, ?_⟩
      · exact inv_link hinv2 hfu hfv hiu hiv h uf2.rank hinv2.2.1
          (fun _ => Nat.le_refl _) (fun _ _ => rfl) (by omega)
      · intro x y
        simp only
        split_ifs <;> omega
    · refine ⟨_, fun x => if f x = f v then f u else f x, by rw [if_neg c1, if_neg c2], ?_, ?_⟩
      · refine inv_link hinv2 hfv hfu hiv hiu (fun e => h e.symm) _ (by simp [hinv2.2.1])
          (fun x => ?_) (fun x hx => ?_) ?_
        · rw [List.getD_eq_getElem?_getD, List.getD_eq_getElem?_getD, List.getElem?_set]
          split_ifs with h3 h4
          · rw [← h3, hru]; simp
          · exact absurd (by rw [hinv2.2.1]; exact hfu) h4
          · exact Nat.le_refl _
        · rw [List.getD_eq_getElem?_getD, List.getD_eq_getElem?_getD,
            List.getElem?_set_ne (fun h' => hx h'.symm)]
        · rw [List.getD_eq_getElem?_getD (uf2.rank.set (f u) (ru + 1)),
            List.getElem?_set_self (by rw [hinv2.2.1]; exact hfu)]
          simp only [Option.getD_some]
          omega
      · intro x y
        simp only
        split_ifs <;> omega

end UnionFind

/-! ## The graph that a solver builds -/

namespace Graph

theorem eraseFirst_eq_self (v : Int) (l : List (Int × Int)) (h : ∀ e ∈ l, e.1 ≠ v) :
    eraseFirst v l = l := by
  induction l with
  | nil => rfl
  | cons e l ih =>
    rw [eraseFirst, if_neg (h e (List.mem_cons_self _ _)),
      ih fun x hx => h x (List.mem_cons_of_mem _ hx)]

theorem list_modify_eq_self {α : Type} (f : α → α) (i : Nat) (l : List α)
    (h : ∀ x, l[i]? = some x → f x = x) : l.modify f i = l := by
  apply List.ext_getElem?
  intro m
  rw [List.getElem?_modify]
  cases hm : l[m]? with
  | none => rfl
  | some x =>
    simp only [Option.map_eq_map, Option.map_some']
    split_ifs with h1
    · rw [h x (h1 ▸ hm)]
    · rfl

theorem getD_modify (f : List (Int × Int) → List (Int × Int)) (i x : Nat)
    (l : List (List (Int × Int))) (hi : i < l.length) :
    (l.modify f i).getD x [] = if i = x then f (l.getD x []) else l.getD x [] := by
  rw [List.getD_eq_getElem?_getD, List.getD_eq_getElem?_getD, List.getElem?_modify]
  cases hm : l[x]? with
  | none =>
    have : l.length ≤ x := List.getElem?_eq_none_iff.mp hm
    rw [if_neg (by omega)]
    rfl
  | some y =>
    simp only [Option.map_eq_map, Option.map_some', Option.getD_some]

theorem sum_map_modify {α : Type} [AddCommMonoid α] (g : List (Int × Int) → α)
    (f : List (Int × Int) → List (Int × Int)) (c : α) (hf : ∀ x, g (f x) = g x + c) :
    ∀ (l : List (List (Int × Int))) (i : Nat), i < l.length →
      ((l.modify f i).map g).sum = (l.map g).sum + c := by
  intro l
  induction l with
  | nil => intro i hi; simp at hi
  | cons a l ih =>
    intro i hi
    cases i with
    | zero =>
      simp only [List.modify_zero_cons, List.map_cons, List.sum_cons, hf]
      abel
    | succ i =>
      simp only [List.modify_succ_cons, List.map_cons, List.sum_cons]
      rw [ih i (by simpa using hi)]
      abel

theorem getD_new (n u : Nat) : (Graph.new n).adjList.getD u [] = [] := by
  rw [List.getD_eq_getElem?_getD]
  cases h : (Graph.new n).adjList[u]? with
  | none => rfl
  | some x =>
    have := List.getElem?_mem h
    simp only [Graph.new] at this
    rw [List.eq_of_mem_replicate this]
    rfl

theorem isGraphOf_new (n : Nat) : (Graph.new n).IsGraphOf n [] := by
  refine ⟨by simp [Graph.new], ?_, ?_, ?_, ?_⟩
  · simp [weightSum, Graph.new, totalWeight]
  · simp [Graph.new]
  · intro u e he
    rw [getD_new] at he
    simp at he
  · intro e he
    simp at he

theorem hasEdge_lt {g : Graph} {u v : Nat} {w : Int} (h : g.HasEdge u v w) :
    u < g.adjList.length := by
  unfold HasEdge at h
  by_contra hu
  rw [List.getD_eq_getElem?_getD, List.getElem?_eq_none_iff.mpr (by omega)] at h
  simp at h

/-- The effect of `add_edge(u, v, w)` when no entry joins `u` and `v` yet. -/
theorem add_edge_fresh (g : Graph) (u v : Nat) (w : Int) (hu : u < g.adjList.length)
    (hv : v < g.adjList.length) (h1 : ∀ e ∈ g.adjList.getD u [], e.1 ≠ (v : Int))
    (h2 : ∀ e ∈ g.adjList.getD v [], e.1 ≠ (u : Int)) :
    g.add_edge u v w
      = ⟨(g.adjList.modify (fun l => l ++ [((v : Int), w)]) u).modify
          (fun l => l ++ [((u : Int), w)]) v⟩ := by
  have hvalid : (g.isValidVertex u && g.isValidVertex v) = true := by
    simp [isValidVertex, hu, hv]
  unfold add_edge
  rw [if_pos hvalid]
  simp only [Int.toNat_ofNat]
  have e1 : g.adjList.modify (eraseFirst (v : Int)) u = g.adjList := by
    apply list_modify_eq_self
    intro x hx
    apply eraseFirst_eq_self
    intro e he
    apply h1
    rw [List.getD_eq_getElem?_getD, hx]
    exact he
  have e2 : g.adjList.modify (eraseFirst (u : Int)) v = g.adjList := by
    apply list_modify_eq_self
    intro x hx
    apply eraseFirst_eq_self
    intro e he
    apply h2
    rw [List.getD_eq_getElem?_getD, hx]
    exact he
  rw [e1, e2]

theorem isGraphOf_add_edge {n : Nat} {mst : Graph} {A : List Edge} (h : mst.IsGraphOf n A)
    {u v : Nat} (w : Int) (hu : u < n) (hv : v < n) (hr : ¬ Reach A u v) :
    (mst.add_edge u v w).IsGraphOf n ((u, v, w) :: A) := by
  obtain ⟨hlen, hsum, hcnt, hsub, hsup⟩ := h
  have hne : u ≠ v := fun e => hr (e ▸ Reach.refl _ _)
  have h1 : ∀ e ∈ mst.adjList.getD u [], e.1 ≠ (v : Int) := by
    intro e he hev
    obtain ⟨v', hv', hA⟩ := hsub u e he
    have : v' = v := by omega
    subst this
    rcases hA with hA | hA
    · exact hr (reach_edge hA)
    · exact hr (reach_edge hA).symm
  have h2 : ∀ e ∈ mst.adjList.getD v [], e.1 ≠ (u : Int) := by
    intro e he heu
    obtain ⟨u', hu', hA⟩ := hsub v e he
    have : u' = u := by omega
    subst this
    rcases hA with hA | hA
    · exact hr (reach_edge hA).symm
    · exact hr (reach_edge hA)
  rw [add_edge_fresh mst u v w (hlen ▸ hu) (hlen ▸ hv) h1 h2]
  have hu' : u < mst.adjList.length := hlen ▸ hu
  have hv' : v < (mst.adjList.modify (fun l => l ++ [((v : Int), w)]) u).length := by
    rw [List.length_modify]; exact hlen ▸ hv
  have hget : ∀ x, ((mst.adjList.modify (fun l => l ++ [((v : Int), w)]) u).modify
      (fun l => l ++ [((u : Int), w)]) v).getD x []
      = if v = x then mst.adjList.getD x [] ++ [((u : Int), w)]
        else if u = x then mst.adjList.getD x [] ++ [((v : Int), w)]
        else mst.adjList.getD x [] := by
    intro x
    rw [getD_modify _ _ _ _ hv', getD_modify _ _ _ _ hu']
    split_ifs with c1 c2
    · exact absurd (c2.trans c1.symm) hne
    · rfl
    · rfl
    · rfl
  refine ⟨by simp [hlen], ?_, ?_, ?_, ?_⟩
  · unfold weightSum at hsum ⊢
    simp only
    rw [sum_map_modify (fun l : List (Int × Int) => (l.map Prod.snd).sum) _ w
        (by intro x; simp) _ v hv',
      sum_map_modify (fun l : List (Int × Int) => (l.map Prod.snd).sum) _ w
        (by intro x; simp) _ u hu']
    have : totalWeight ((u, v, w) :: A) = w + totalWeight A := by simp [totalWeight]
    rw [this, hsum]
    ring
  · show (List.map List.length _).sum = _
    rw [sum_map_modify List.length _ 1 (by intro x; simp) _ v hv',
      sum_map_modify List.length _ 1 (by intro x; simp) _ u hu', hcnt]
    simp only [List.length_cons]
    ring
  · intro x e he
    simp only at he
    rw [hget x] at he
    split_ifs at he with c1 c2
    · rcases List.mem_append.mp he with he | he
      · obtain ⟨v', hv', hA⟩ := hsub x e he
        exact ⟨v', hv', hA.imp (List.mem_cons_of_mem _) (List.mem_cons_of_mem _)⟩
      · rw [List.mem_singleton] at he
        subst he; subst c1
        exact ⟨u, rfl, Or.inr (List.mem_cons_self _ _)⟩
    · rcases List.mem_append.mp he with he | he
      · obtain ⟨v', hv', hA⟩ := hsub x e he
        exact ⟨v', hv', hA.imp (List.mem_cons_of_mem _) (List.mem_cons_of_mem _)⟩
      · rw [List.mem_singleton] at he
        subst he; subst c2
        exact ⟨v, rfl, Or.inl (List.mem_cons_self _ _)⟩
    · obtain ⟨v', hv', hA⟩ := hsub x e he
      exact ⟨v', hv', hA.imp (List.mem_cons_of_mem _) (List.mem_cons_of_mem _)⟩
  · intro e he
    unfold HasEdge
    simp only
    rw [hget, hget]
    rcases List.mem_cons.mp he with he | he
    · subst he
      constructor <;> simp [Ne.symm hne]
    · have := hsup e he
      unfold HasEdge at this
      constructor
      · split_ifs
        · exact List.mem_append_left _ this.1
        · exact List.mem_append_left _ this.1
        · exact this.1
      · split_ifs
        · exact List.mem_append_left _ this.2
        · exact List.mem_append_left _ this.2
        · exact this.2

end Graph

/-! ## From the edges a solver has chosen to the claims -/

namespace Graph

theorem hasEdge_lt_right {g : Graph} (hg : g.Undirected) {u v : Nat} {w : Int}
    (h : g.HasEdge u v w) : v < g.adjList.length := by
  have h1 := (hg u (hasEdge_lt h) _ h).2
  simp only [Int.toNat_ofNat] at h1
  exact hasEdge_lt (u := v) (v := u) (w := w) h1

theorem hasEdge_symm {g : Graph} (hg : g.Undirected) {u v : Nat} {w : Int}
    (h : g.HasEdge u v w) : g.HasEdge v u w := by
  have h1 := (hg u (hasEdge_lt h) _ h).2
  simp only [Int.toNat_ofNat] at h1
  exact h1

theorem IsGraphOf.undirected {n : Nat} {mst : Graph} {A : List Edge} (h : mst.IsGraphOf n A) :
    mst.Undirected := by
  intro u _ e he
  obtain ⟨v, hv, hA⟩ := h.2.2.2.1 u e he
  rw [hv]
  refine ⟨Int.natCast_nonneg v, ?_⟩
  simp only [Int.toNat_ofNat]
  rcases hA with hA | hA
  · exact (h.2.2.2.2 _ hA).2
  · exact (h.2.2.2.2 _ hA).1

theorem IsGraphOf.edgeWeight_eq {n : Nat} {mst : Graph} {A : List Edge}
    (h : mst.IsGraphOf n A) : mst.edgeWeight = (totalWeight A : ℚ) := by
  unfold edgeWeight
  rw [h.2.1]
  push_cast
  ring

theorem IsGraphOf.numEdges_eq {n : Nat} {mst : Graph} {A : List Edge}
    (h : mst.IsGraphOf n A) : mst.numEdges = A.length := by
  unfold numEdges
  rw [h.2.2.1]
  omega

theorem IsGraphOf.joined {n : Nat} {mst : Graph} {A : List Edge} (h : mst.IsGraphOf n A)
    {u v : Nat} (hr : Reach A u v) : mst.Joined u v :=
  eqvGen_of_rel (fun _ _ ⟨w, hw⟩ => Relation.EqvGen.rel _ _ ⟨w, (h.2.2.2.2 _ hw).1⟩) hr

theorem IsGraphOf.hasEdge_sub {n : Nat} {mst g : Graph} {A : List Edge}
    (h : mst.IsGraphOf n A) (hg : g.Undirected)
    (hA : ∀ e ∈ A, g.HasEdge e.1 e.2.1 e.2.2) {u v : Nat} {w : Int}
    (he : mst.HasEdge u v w) : g.HasEdge u v w := by
  obtain ⟨v', hv', hA'⟩ := h.2.2.2.1 u _ he
  simp only at hv' hA'
  have : v' = v := by omega
  subst this
  rcases hA' with hA' | hA'
  · exact hA _ hA'
  · exact hasEdge_symm hg (hA _ hA')

open Classical in
/-- A spanning tree has no cycle. -/
theorem IsSpanningTree.isForest {g : Graph} (hg : g.Undirected) {T : List Edge}
    (hT : g.IsSpanningTree T) :
    IsForest T ∧ ∀ e ∈ T, e.1 < g.adjList.length ∧ e.2.1 < g.adjList.length := by
  obtain ⟨hlen, hsub, hconn⟩ := hT
  refine ⟨?_, fun e he => ⟨hasEdge_lt (hsub e he), hasEdge_lt_right hg (hsub e he)⟩⟩
  by_contra hf
  have h1 := classCount_not_forest (n := g.adjList.length) hf
  have h2 := classCount_le_one hconn
  omega

open Classical in
/-- The chosen edges `A` make a lightest spanning tree of the connected graph
`g` when they are edges of `g` without a cycle and the ends of every edge of
`g` are joined by edges of `A` that are no heavier. -/
theorem isMinSpanningTreeOf {g mst : Graph} {A : List Edge} (hg : g.Undirected)
    (hc : g.Connected) (hn : 0 < g.adjList.length)
    (hmst : mst.IsGraphOf g.adjList.length A) (hf : IsForest A)
    (hA : ∀ e ∈ A, e.1 < g.adjList.length ∧ e.2.1 < g.adjList.length
      ∧ g.HasEdge e.1 e.2.1 e.2.2)
    (hstar : ∀ u v w, g.HasEdge u v w → Reach (lightEdges w A) u v) :
    A.length + 1 = g.adjList.length ∧ mst.IsMinSpanningTreeOf g := by
  have hreach : ∀ u v, u < g.adjList.length → v < g.adjList.length → Reach A u v := by
    intro u v hu hv
    refine eqvGen_of_rel (fun a b ⟨w, hw⟩ => ?_) (hc u v hu hv)
    exact reach_mono (fun e he => (mem_lightEdges.mp he).1) (hstar a b w hw)
  have h1 := classCount_le_one hreach
  have h2 := classCount_pos A hn
  have h3 := classCount_forest (fun e he => ⟨(hA e he).1, (hA e he).2.1⟩) hf
  have hlen : A.length + 1 = g.adjList.length := by omega
  refine ⟨hlen, hmst.1, hmst.undirected, ?_, ?_, ?_, ?_, ?_,
    A, ⟨hlen, fun e he => (hA e he).2.2, hreach⟩, hmst⟩
  · rw [hmst.2.2.1]; omega
  · rw [hmst.numEdges_eq]; omega
  · intro u v w he
    exact hmst.hasEdge_sub hg (fun e he => (hA e he).2.2) he
  · intro u v hu hv
    rw [hmst.1] at hu hv
    exact hmst.joined (hreach u v hu hv)
  · intro T hT
    rw [hmst.edgeWeight_eq]
    have hTf := hT.isForest hg
    have := light_of_joined g.adjList.length A T hTf.2 (by have := hT.1; omega) hTf.1
      (fun e he => hstar _ _ _ (hT.2.1 e he))
    exact_mod_cast this

/-- Two lightest spanning trees of a graph weigh the same. -/
theorem IsMinSpanningTreeOf.weight_eq {g m1 m2 : Graph} (h1 : m1.IsMinSpanningTreeOf g)
    (h2 : m2.IsMinSpanningTreeOf g) : m1.edgeWeight = m2.edgeWeight := by
  obtain ⟨T1, hT1, hg1⟩ := h1.2.2.2.2.2.2.2
  obtain ⟨T2, hT2, hg2⟩ := h2.2.2.2.2.2.2.2
  apply le_antisymm
  · rw [hg2.edgeWeight_eq]
    exact h1.2.2.2.2.2.2.1 T2 hT2
  · rw [hg1.edgeWeight_eq]
    exact h2.2.2.2.2.2.2.1 T1 hT1

end Graph

/-! ## Kruskal -/

theorem mem_collectEdges (t : Int × Int × Int) :
    ∀ (ls : List (List (Int × Int))) (k : Nat),
      t ∈ collectEdges k ls ↔
        ∃ (i : Nat) (e : Int × Int), e ∈ ls.getD i [] ∧ ((k + i : Nat) : Int) < e.1
          ∧ t = (e.2, ((k + i : Nat) : Int), e.1) := by
  intro ls
  induction ls with
  | nil =>
    intro k
    simp [collectEdges]
  | cons l ls ih =>
    intro k
    rw [collectEdges, List.mem_append, ih (k + 1)]
    constructor
    · rintro (h | ⟨i, e, he, hlt, ht⟩)
      · obtain ⟨e, he, ht⟩ := List.mem_map.mp h
        have he' := List.mem_filter.mp he
        refine ⟨0, e, by simpa using he'.1, by simpa using he'.2, ht.symm⟩
      · refine ⟨i + 1, e, by simpa using he, ?_, ?_⟩
        · rw [show k + (i + 1) = k + 1 + i by omega]; exact hlt
        · rw [show k + (i + 1) = k + 1 + i by omega]; exact ht
    · rintro ⟨i, e, he, hlt, ht⟩
      cases i with
      | zero =>
        left
        refine List.mem_map.mpr ⟨e, List.mem_filter.mpr ⟨by simpa using he, ?_⟩, ?_⟩
        · simpa using hlt
        · simpa using ht.symm
      | succ i =>
        right
        refine ⟨i, e, by simpa using he, ?_, ?_⟩
        · rw [show k + 1 + i = k + (i + 1) by omega]; exact hlt
        · rw [show k + 1 + i = k + (i + 1) by omega]; exact ht

theorem collectEdges_sound {g : Graph} (hg : g.Undirected) {t : Int × Int × Int}
    (ht : t ∈ collectEdges 0 g.adjList) :
    ∃ u v : Nat, t.2.1 = (u : Int) ∧ t.2.2 = (v : Int) ∧ u < g.adjList.length
      ∧ v < g.adjList.length ∧ u ≠ v ∧ g.HasEdge u v t.1 := by
  obtain ⟨i, e, he, hlt, rfl⟩ := (mem_collectEdges t g.adjList 0).mp ht
  simp only [Nat.zero_add] at hlt ⊢
  have hi : i < g.adjList.length := by
    by_contra hi
    rw [List.getD_eq_getElem?_getD, List.getElem?_eq_none_iff.mpr (by omega)] at he
    simp at he
  have h0 := (hg i hi e he).1
  have hE : g.HasEdge i e.1.toNat e.2 := by
    unfold Graph.HasEdge
    rw [Int.toNat_of_nonneg h0]
    exact he
  exact ⟨i, e.1.toNat, rfl, (Int.toNat_of_nonneg h0).symm, hi, Graph.hasEdge_lt_right hg hE,
    by omega, hE⟩

theorem collectEdges_complete {g : Graph} {u v : Nat} {w : Int} (h : g.HasEdge u v w)
    (huv : u < v) : (w, (u : Int), (v : Int)) ∈ collectEdges 0 g.adjList := by
  rw [mem_collectEdges]
  refine ⟨u, ((v : Int), w), h, ?_, ?_⟩
  · simp only [Nat.zero_add]; omega
  · simp

/-- The loop of Kruskal: from a state that stands for the chosen edges `A`,
over the rest `es` of the sorted edges. -/
theorem kruskalLoop_spec (g : Graph) (n : Nat) :
    ∀ (es : List (Int × Int × Int)) (uf : UnionFind) (mst : Graph) (A : List Edge)
      (f : Nat → Nat),
      es.Sorted tripleLe →
      (∀ t ∈ es, ∃ u v : Nat, t.2.1 = (u : Int) ∧ t.2.2 = (v : Int) ∧ u < n ∧ v < n ∧ u ≠ v
        ∧ g.HasEdge u v t.1) →
      UnionFind.Inv n uf f →
      (∀ x y, x < n → y < n → (f x = f y ↔ Reach A x y)) →
      mst.IsGraphOf n A → IsForest A →
      (∀ e ∈ A, e.1 < n ∧ e.2.1 < n ∧ g.HasEdge e.1 e.2.1 e.2.2) →
      (∀ e ∈ A, ∀ t ∈ es, e.2.2 ≤ t.1) →
      ∃ (mst' : Graph) (A' : List Edge),
        kruskalLoop es uf mst (A.length : Int) = some (mst', (A'.length : Int))
        ∧ mst'.IsGraphOf n A' ∧ IsForest A'
        ∧ (∀ e ∈ A', e.1 < n ∧ e.2.1 < n ∧ g.HasEdge e.1 e.2.1 e.2.2)
        ∧ (∀ e ∈ A, e ∈ A')
        ∧ ∀ t ∈ es, Reach (lightEdges t.1 A') t.2.1.toNat t.2.2.toNat := by
  intro es
  induction es with
  | nil =>
    intro uf mst A f _ _ _ _ hmst hf hA _
    exact ⟨mst, A, rfl, hmst, hf, hA, fun e he => he, fun t ht => by simp at ht⟩
  | cons t es ih =>
    intro uf mst A f hsorted hes hinv hcls hmst hf hA hw
    obtain ⟨w, a, b⟩ := t
    obtain ⟨u, v, hu', hv', hu, hv, hne, hE⟩ := hes _ (List.mem_cons_self _ _)
    simp only at hu' hv' hE
    subst hu'; subst hv'
    have hsorted' := List.pairwise_cons.mp hsorted
    have hes' : ∀ t ∈ es, ∃ u v : Nat, t.2.1 = (u : Int) ∧ t.2.2 = (v : Int) ∧ u < n ∧ v < n
        ∧ u ≠ v ∧ g.HasEdge u v t.1 := fun t ht => hes t (List.mem_cons_of_mem _ ht)
    have hle : ∀ t ∈ es, w ≤ t.1 := by
      intro t ht
      have := hsorted'.1 t ht
      unfold tripleLe at this
      simp only at this
      omega
    unfold kruskalLoop
    simp only [Int.toNat_ofNat]
    by_cases hsame : f u = f v
    · obtain ⟨uf', hun, hinv'⟩ := UnionFind.unionSets_same hinv hu hv hsame
      rw [hun]
      obtain ⟨mst', A', h1, h2, h3, h4, h5, h6⟩ := ih uf' mst A f hsorted'.2 hes' hinv' hcls
        hmst hf hA (fun e he t ht => hw e he t (List.mem_cons_of_mem _ ht))
      refine ⟨mst', A', h1, h2, h3, h4, h5, fun t ht => ?_⟩
      rcases List.mem_cons.mp ht with ht | ht
      · subst ht
        simp only [Int.toNat_ofNat]
        have hr : Reach A u v := (hcls u v hu hv).mp hsame
        refine reach_mono (fun e he => mem_lightEdges.mpr ⟨h5 e he, ?_⟩) hr
        exact hw e he _ (List.mem_cons_self _ _)
      · exact h6 t ht
    · obtain ⟨uf', f', hun, hinv', hcls'⟩ := UnionFind.unionSets_join hinv hu hv hsame
      rw [hun]
      have hr : ¬ Reach A u v := fun h => hsame ((hcls u v hu hv).mpr h)
      have hlen : (A.length : Int) + 1 = (((u, v, w) :: A).length : Int) := by
        simp only [List.length_cons]; push_cast; rfl
      simp only [hlen]
      obtain ⟨mst', A', h1, h2, h3, h4, h5, h6⟩ := ih uf' (mst.add_edge u v w)
        ((u, v, w) :: A) f' hsorted'.2 hes' hinv'
        (by
          intro x y hx hy
          rw [hcls' x y, reach_cons, ← hcls x y hx hy, ← hcls x u hx hu, ← hcls v y hv hy,
            ← hcls x v hx hv, ← hcls u y hu hy]
          omega)
        (Graph.isGraphOf_add_edge hmst w hu hv hr) ⟨hr, hf⟩
        (by
          intro e he
          rcases List.mem_cons.mp he with he | he
          · subst he; exact ⟨hu, hv, hE⟩
          · exact hA e he)
        (by
          intro e he t ht
          rcases List.mem_cons.mp he with he | he
          · subst he; exact hle t ht
          · exact hw e he t (List.mem_cons_of_mem _ ht))
      refine ⟨mst', A', h1, h2, h3, h4, fun e he => h5 e (List.mem_cons_of_mem _ he),
        fun t ht => ?_⟩
      rcases List.mem_cons.mp ht with ht | ht
      · subst ht
        simp only [Int.toNat_ofNat]
        exact reach_edge (mem_lightEdges.mpr ⟨h5 _ (List.mem_cons_self _ _), le_refl _⟩)
      · exact h6 t ht

theorem kruskal_run {g : Graph} (hg : g.Undirected) :
    ∃ (mst : Graph) (A : List Edge),
      kruskalLoop ((collectEdges 0 g.adjList).insertionSort tripleLe)
        (UnionFind.new g.adjList.length) (Graph.new g.adjList.length) 0
        = some (mst, (A.length : Int))
      ∧ mst.IsGraphOf g.adjList.length A ∧ IsForest A
      ∧ (∀ e ∈ A, e.1 < g.adjList.length ∧ e.2.1 < g.adjList.length
          ∧ g.HasEdge e.1 e.2.1 e.2.2)
      ∧ ∀ u v w, g.HasEdge u v w → Reach (lightEdges w A) u v := by
  have hperm := List.perm_insertionSort tripleLe (collectEdges 0 g.adjList)
  obtain ⟨mst, A, h1, h2, h3, h4, -, h6⟩ := kruskalLoop_spec g g.adjList.length
    ((collectEdges 0 g.adjList).insertionSort tripleLe) (UnionFind.new g.adjList.length)
    (Graph.new g.adjList.length) [] id
    (List.sorted_insertionSort tripleLe _)
    (fun t ht => collectEdges_sound hg (hperm.mem_iff.mp ht))
    (UnionFind.inv_new _)
    (fun x y _ _ => by rw [reach_nil]; rfl)
    (Graph.isGraphOf_new _) trivial (fun e he => by simp at he) (fun e he => by simp at he)
  refine ⟨mst, A, h1, h2, h3, h4, ?_⟩
  have key : ∀ u v w, g.HasEdge u v w → u < v → Reach (lightEdges w A) u v := by
    intro u v w h hlt
    have := h6 _ (hperm.mem_iff.mpr (collectEdges_complete h hlt))
    simpa using this
  intro u v w h
  rcases Nat.lt_trichotomy u v with hlt | heq | hgt
  · exact key u v w h hlt
  · rw [heq]; exact Reach.refl _ _
  · exact (key v u w (Graph.hasEdge_symm hg h) hgt).symm

open Classical in
/-- In a graph that is not connected a forest of its edges has fewer edges
than a spanning tree. -/
theorem forest_of_disconnected {g : Graph} (hc : ¬ g.Connected) {A : List Edge}
    (hf : IsForest A)
    (hA : ∀ e ∈ A, e.1 < g.adjList.length ∧ e.2.1 < g.adjList.length
      ∧ g.HasEdge e.1 e.2.1 e.2.2) :
    A.length + 1 < g.adjList.length := by
  by_contra hlen
  apply hc
  have h1 := classCount_forest (fun e he => ⟨(hA e he).1, (hA e he).2.1⟩) hf
  intro u v hu hv
  have h2 := reach_of_classCount_le_one (n := g.adjList.length) (E := A) (by omega) u v hu hv
  exact eqvGen_of_rel (fun _ _ ⟨w, hw⟩ => Relation.EqvGen.rel _ _ ⟨w, (hA _ hw).2.2⟩) h2

theorem kruskal_connected {g : Graph} (hg : g.Undirected) (hc : g.Connected)
    (hn : 1 ≤ g.adjList.length) :
    ∃ mst, KruskalSolver.solveMST g = some mst ∧ mst.IsMinSpanningTreeOf g := by
  obtain ⟨mst, A, h1, h2, h3, h4, h5⟩ := kruskal_run hg
  obtain ⟨hlen, hmin⟩ := Graph.isMinSpanningTreeOf hg hc hn h2 h3 h4 h5
  refine ⟨mst, ?_, hmin⟩
  unfold KruskalSolver.solveMST
  rw [h1]
  simp only [Graph.getNumVertices]
  rw [if_neg (by omega)]

theorem kruskal_disconnected {g : Graph} (hg : g.Undirected) (hc : ¬ g.Connected) :
    KruskalSolver.solveMST g = some (Graph.new 0) := by
  obtain ⟨mst, A, h1, h2, h3, h4, h5⟩ := kruskal_run hg
  have hlen := forest_of_disconnected hc h3 h4
  unfold KruskalSolver.solveMST
  rw [h1]
  simp only [Graph.getNumVertices]
  rw [if_pos (by omega)]

theorem connected_of_joined_zero {g : Graph}
    (h : ∀ v, v < g.adjList.length → g.Joined 0 v) : g.Connected :=
  fun u v hu hv => Relation.EqvGen.trans _ _ _ (Relation.EqvGen.symm _ _ (h u hu)) (h v hv)

theorem test3_connected : test3.Connected := by
  apply connected_of_joined_zero
  intro v hv
  have hv' : v < 3 := hv
  interval_cases v
  · exact Relation.EqvGen.refl _
  · exact Relation.EqvGen.rel _ _ ⟨2, by decide⟩
  · exact Relation.EqvGen.rel _ _ ⟨10, by decide⟩

set_option maxRecDepth 100000 in
/-- C15 (Kruskal): for every connected undirected graph `g` on at least one
vertex, with arbitrary integer weights, `KruskalSolver::solveMST` returns a
graph on the same vertices with one edge less than vertices, each entry an
entry of `g` with its weight, that joins all the vertices and whose total
weight is at most that of every spanning tree of `g`; for the 3-, 5- and
6-vertex graphs of the tests it returns graphs that `compareGraphs` finds
equal to the expected trees. -/
theorem C15_kruskal (g : Graph) (hg : g.Undirected) (hc : g.Connected)
    (hn : 1 ≤ g.adjList.length) :
    (∃ mst, KruskalSolver.solveMST g = some mst ∧ mst.IsMinSpanningTreeOf g)
    ∧ (∃ r, KruskalSolver.solveMST test3 = some r ∧ r.compareGraphs expected3 = true)
    ∧ (∃ r, KruskalSolver.solveMST test5 = some r ∧ r.compareGraphs expected5 = true)
    ∧ (∃ r, KruskalSolver.solveMST test6 = some r ∧ r.compareGraphs expected6 = true) := by
  refine ⟨kruskal_connected hg hc hn, ?_, ?_, ?_⟩
  · exact ⟨⟨[[(1, 2)], [(0, 2), (2, 3)], [(1, 3)]]⟩, by decide,
      by rw [Graph.compareGraphs_iff]; decide⟩
  · exact ⟨⟨[[(1, 2), (3, 6)], [(0, 2), (2, 3), (4, 5)], [(1, 3)], [(0, 6)], [(1, 5)]]⟩,
      by decide, by rw [Graph.compareGraphs_iff]; decide⟩
  · exact ⟨⟨[[(2, 3)], [(3, 2)], [(3, 2), (0, 3)], [(1, 2), (2, 2), (5, 8)], [(5, 8)],
      [(3, 8), (4, 8)]]⟩, by decide, by rw [Graph.compareGraphs_iff]; decide⟩

/-- Witness of C15: the 3-vertex graph of the tests. -/
theorem C15_kruskal_witness :
    ∃ mst, KruskalSolver.solveMST test3 = some mst ∧ mst.IsMinSpanningTreeOf test3 :=
  (C15_kruskal test3 (by decide) test3_connected (by decide)).1

/-! ## Edges chosen as lightest edges leaving a set -/

theorem isForest_suffix (X Y : List Edge) (h : IsForest (X ++ Y)) : IsForest Y := by
  induction X with
  | nil => exact h
  | cons e X ih => exact ih h.2

open Classical in
theorem isForest_perm {n : Nat} {A B : List Edge} (hA : ∀ e ∈ A, e.1 < n ∧ e.2.1 < n)
    (h : A.Perm B) (hf : IsForest A) : IsForest B := by
  by_contra hB
  have h1 := classCount_forest hA hf
  have h2 := classCount_not_forest (n := n) hB
  have h3 : classCount n A ≤ classCount n B :=
    classCount_mono fun a b _ hab => reach_mono (fun e he => h.mem_iff.mpr he) hab
  have h4 : classCount n B ≤ classCount n A :=
    classCount_mono fun a b _ hab => reach_mono (fun e he => h.mem_iff.mp he) hab
  have h5 := h.length_eq
  omega

theorem lightEdges_cons (w : Int) (e : Edge) (A : List Edge) :
    lightEdges w (e :: A) = if e.2.2 ≤ w then e :: lightEdges w A else lightEdges w A := by
  unfold lightEdges
  rw [List.filter_cons]
  by_cases h : e.2.2 ≤ w <;> simp [h]

theorem cutGreedy_step {g : Graph} (hg : g.Undirected) {A : List Edge}
    (hA : ∀ e ∈ A, g.HasEdge e.1 e.2.1 e.2.2) (hc : CutGreedy g A) :
    ∀ (B : List Edge) (w : Int), (∀ e ∈ B, g.HasEdge e.1 e.2.1 e.2.2) →
      (∀ e ∈ B, e.2.2 ≤ w) → ∀ x y w', g.HasEdge x y w' → w' ≤ w →
      Reach (B ++ A) x y → Reach (B ++ lightEdges w A) x y := by
  induction A with
  | nil =>
    intro B w _ _ x y w' _ _ h
    exact h
  | cons e A ih =>
    intro B w hB hBw x y w' hxy hw' h
    obtain ⟨u, v, k⟩ := e
    obtain ⟨hcA, S, hSu, hSv, hSA, hmin⟩ := hc
    simp only at hSu hSv hmin
    have hA' : ∀ e ∈ A, g.HasEdge e.1 e.2.1 e.2.2 := fun e he => hA e (List.mem_cons_of_mem _ he)
    rw [lightEdges_cons]
    by_cases hk : k ≤ w
    · rw [if_pos hk]
      have h1 := ih hA' hcA (B ++ [(u, v, k)]) w
        (by
          intro e he
          rcases List.mem_append.mp he with he | he
          · exact hB e he
          · rw [List.mem_singleton] at he
            rw [he]
            exact hA _ (List.mem_cons_self _ _))
        (by
          intro e he
          rcases List.mem_append.mp he with he | he
          · exact hBw e he
          · rw [List.mem_singleton] at he
            rw [he]
            exact hk)
        x y w' hxy hw' (by rw [List.append_assoc]; exact h)
      rw [List.append_assoc] at h1
      exact h1
    · rw [if_neg hk]
      apply ih hA' hcA B w hB hBw x y w' hxy hw'
      have h2 : Reach ((u, v, k) :: (B ++ A)) x y :=
        reach_mono (fun e he => by
          rcases List.mem_append.mp he with he | he
          · exact List.mem_cons_of_mem _ (List.mem_append_left _ he)
          · rcases List.mem_cons.mp he with he | he
            · rw [he]; exact List.mem_cons_self _ _
            · exact List.mem_cons_of_mem _ (List.mem_append_right _ he)) h
      have hside : ∀ a b wb, (a, b, wb) ∈ B ++ A → (S a ↔ S b) := by
        intro a b wb he
        rcases List.mem_append.mp he with he | he
        · have hE := hB _ he
          have hwb := hBw _ he
          simp only at hE hwb
          constructor
          · intro ha
            by_contra hb
            have := hmin a b wb hE ha hb
            omega
          · intro hb
            by_contra ha
            have := hmin b a wb (Graph.hasEdge_symm hg hE) hb ha
            omega
        · exact hSA _ he
      rcases reach_cons.mp h2 with h3 | ⟨h3, h4⟩ | ⟨h3, h4⟩
      · exact h3
      · exfalso
        have sx : S x := (reach_side S hside h3).mpr hSu
        have sy : ¬ S y := fun s => hSv ((reach_side S hside h4).mpr s)
        have := hmin x y w' hxy sx sy
        omega
      · exfalso
        have sx : ¬ S x := fun s => hSv ((reach_side S hside h3).mp s)
        have sy : S y := (reach_side S hside h4).mp hSu
        have := hmin y x w' (Graph.hasEdge_symm hg hxy) sy sx
        omega

/-- Edges chosen as lightest edges leaving a set, once they join all the
vertices, join the ends of every edge of `g` by edges that are no heavier. -/
theorem cutGreedy_light {g : Graph} (hg : g.Undirected) {A : List Edge}
    (hA : ∀ e ∈ A, g.HasEdge e.1 e.2.1 e.2.2) (hc : CutGreedy g A)
    (hreach : ∀ u v, u < g.adjList.length → v < g.adjList.length → Reach A u v)
    (u v : Nat) (w : Int) (h : g.HasEdge u v w) : Reach (lightEdges w A) u v := by
  have := cutGreedy_step hg hA hc [] w (fun e he => by simp at he) (fun e he => by simp at he)
    u v w h (le_refl _)
    (by simpa using hreach u v (Graph.hasEdge_lt h) (Graph.hasEdge_lt_right hg h))
  simpa using this

/-! ## Prim: the scan of one adjacency list -/

theorem list_getD_set_self {α : Type} (l : List α) (i : Nat) (x d : α) (h : i < l.length) :
    (l.set i x).getD i d = x := by
  rw [List.getD_eq_getElem?_getD, List.getElem?_set_self h]; rfl

theorem list_getD_set_ne {α : Type} (l : List α) {i j : Nat} (x d : α) (h : i ≠ j) :
    (l.set i x).getD j d = l.getD j d := by
  rw [List.getD_eq_getElem?_getD, List.getD_eq_getElem?_getD, List.getElem?_set_ne h]

theorem PrimState.inTree_lt {st : PrimState} {v : Nat} (h : st.inTree v) :
    v < st.inMST.length := (List.getElem?_eq_some_iff.mp h).1

theorem PrimState.keyOf_eq {st : PrimState} {v : Nat} {k : Int} (h : st.key[v]? = some k) :
    st.keyOf v = k := by
  unfold PrimState.keyOf
  rw [List.getD_eq_getElem?_getD, h]; rfl

theorem primInv_update {g : Graph} {st : PrimState} {A : List Edge} {u v : Nat} {w : Int}
    {proc : List (Int × Int)} (h : PrimInv g st A (fun a e => a = u → e ∈ proc))
    (hu : st.inTree u) (hE : g.HasEdge u v w) (hvn : v < g.adjList.length)
    (hv : ¬ st.inTree v) (hlt : w < st.keyOf v) :
    PrimInv g { st with key := st.key.set v w, pq := st.pq.orderedInsert pqLe (w, v),
                        parent := st.parent.set v (u : Int) } A
      (fun a e => a = u → e ∈ proc ++ [((v : Int), w)]) := by
  have hv0 : v ≠ 0 := fun e => hv (e ▸ h.root)
  have hkey : ∀ x, PrimState.keyOf ⟨st.inMST, st.key.set v w, st.parent.set v (u : Int),
      st.pq.orderedInsert pqLe (w, v)⟩ x = if x = v then w else st.keyOf x := by
    intro x
    unfold PrimState.keyOf
    simp only
    split_ifs with hx
    · rw [hx, list_getD_set_self _ _ _ _ (by rw [h.len_key]; exact hvn)]
    · rw [list_getD_set_ne _ _ _ (fun e => hx e.symm)]
  have hwmax : w < INT_MAX := lt_of_lt_of_le hlt (h.key_le v)
  have hpar : ∀ x, x ≠ v → (st.parent.set v (u : Int))[x]? = st.parent[x]? :=
    fun x hx => List.getElem?_set_ne (fun e => hx e.symm)
  refine
    { len_inMST := h.len_inMST
      len_key := by simp [h.len_key]
      len_parent := by simp [h.len_parent]
      sorted := h.sorted.orderedInsert _ _
      root := h.root
      root_parent := by
        show (st.parent.set v (u : Int))[0]? = some (-1)
        rw [hpar 0 (fun e => hv0 e.symm)]; exact h.root_parent
      key_le := ?_
      queue := ?_
      seen := ?_
      outside := ?_
      inside := ?_
      edges := ?_
      forest := h.forest
      joined := h.joined
      greedy := h.greedy }
  · intro x
    rw [hkey]
    split_ifs
    · exact le_of_lt hwmax
    · exact h.key_le x
  · intro e he
    rw [hkey]
    rcases (List.mem_orderedInsert pqLe).mp he with he | he
    · rw [he]
      exact ⟨hvn, fun _ => by simp only [if_true]; exact ⟨le_refl _, hwmax⟩⟩
    · refine ⟨(h.queue e he).1, fun hx => ?_⟩
      have := (h.queue e he).2 hx
      split_ifs with hev
      · rw [hev] at this
        exact ⟨by omega, hwmax⟩
      · exact this
  · intro a b w' ha hab hdone hb
    rw [hkey]
    split_ifs with hbv
    · subst hbv
      by_cases hnew : a = u ∧ w' = w
      · omega
      · have := h.seen a b w' ha hab (fun hau => by
          rcases List.mem_append.mp (hdone hau) with h1 | h1
          · exact h1
          · rw [List.mem_singleton] at h1
            exact absurd ⟨hau, (Prod.mk.inj h1).2⟩ hnew) hb
        omega
    · exact h.seen a b w' ha hab (fun hau => by
        rcases List.mem_append.mp (hdone hau) with h1 | h1
        · exact h1
        · rw [List.mem_singleton] at h1
          have := (Prod.mk.inj h1).1
          exact absurd (by omega) hbv) hb
  · intro x hx hxt
    rw [hkey]
    by_cases hxv : x = v
    · right
      subst hxv
      refine ⟨u, ?_, hu, by rw [if_pos rfl]; exact hE, ?_⟩
      · show (st.parent.set x (u : Int))[x]? = some (u : Int)
        rw [List.getElem?_set_self (by rw [h.len_parent]; exact hvn)]
      · rw [if_pos rfl]
        exact (List.mem_orderedInsert pqLe).mpr (Or.inl rfl)
    · rw [if_neg hxv]
      rcases h.outside x hx hxt with ⟨h1, h2⟩ | ⟨p, h1, h2, h3, h4⟩
      · exact Or.inl ⟨h1, (hpar x hxv).trans h2⟩
      · exact Or.inr ⟨p, (hpar x hxv).trans h1, h2, h3,
          (List.mem_orderedInsert pqLe).mpr (Or.inr h4)⟩
  · intro x hx hx0
    have hxv : x ≠ v := fun e => hv (e ▸ hx)
    obtain ⟨p, h1, h2⟩ := h.inside x hx hx0
    rw [hkey, if_neg hxv]
    exact ⟨p, (hpar x hxv).trans h1, h2⟩
  · intro e he
    obtain ⟨h1, h2, h3, h4, h5, h6⟩ := h.edges e he
    have hxv : e.2.1 ≠ v := fun e' => hv (e' ▸ h2)
    rw [hkey, if_neg hxv]
    exact ⟨h1, h2, h3, (hpar _ hxv).trans h4, h5, h6⟩

theorem primInv_skip {g : Graph} {st : PrimState} {A : List Edge} {u v : Nat} {w : Int}
    {proc : List (Int × Int)} (h : PrimInv g st A (fun a e => a = u → e ∈ proc))
    (hskip : st.inTree v ∨ st.keyOf v ≤ w) :
    PrimInv g st A (fun a e => a = u → e ∈ proc ++ [((v : Int), w)]) := by
  refine { h with seen := ?_ }
  intro a b w' ha hab hdone hb
  by_cases hnew : b = v ∧ w' = w
  · rcases hskip with h1 | h1
    · exact absurd (hnew.1 ▸ h1) hb
    · rw [hnew.1, hnew.2]; exact h1
  · exact h.seen a b w' ha hab (fun hau => by
      rcases List.mem_append.mp (hdone hau) with h1 | h1
      · exact h1
      · rw [List.mem_singleton] at h1
        have h2 := Prod.mk.inj h1
        exact absurd ⟨by omega, h2.2⟩ hnew) hb

theorem primScan_spec {g : Graph} {u : Nat} :
    ∀ (rest proc : List (Int × Int)) (st : PrimState) (A : List Edge),
      (∀ e ∈ rest, 0 ≤ e.1 ∧ e.1.toNat < g.adjList.length ∧ g.HasEdge u e.1.toNat e.2) →
      PrimInv g st A (fun a e => a = u → e ∈ proc) → st.inTree u →
      ∃ st', primScan u rest st = some st'
        ∧ PrimInv g st' A (fun a e => a = u → e ∈ proc ++ rest)
        ∧ st'.inMST = st.inMST ∧ st'.pq.length ≤ st.pq.length + rest.length := by
  intro rest
  induction rest with
  | nil =>
    intro proc st A _ h _
    exact ⟨st, rfl, by simpa using h, rfl, Nat.le_refl _⟩
  | cons e l ih =>
    intro proc st A hrest h hu
    obtain ⟨v, w⟩ := e
    obtain ⟨hv0, hvn, hE⟩ := hrest _ (List.mem_cons_self _ _)
    simp only at hv0 hvn hE
    have hrest' : ∀ e ∈ l, 0 ≤ e.1 ∧ e.1.toNat < g.adjList.length
        ∧ g.HasEdge u e.1.toNat e.2 := fun e he => hrest e (List.mem_cons_of_mem _ he)
    have hcast : ((v.toNat : Nat) : Int) = v := Int.toNat_of_nonneg hv0
    obtain ⟨b, hb⟩ : ∃ b, st.inMST[v.toNat]? = some b :=
      ⟨_, List.getElem?_eq_getElem (by rw [h.len_inMST]; exact hvn)⟩
    obtain ⟨k, hk⟩ : ∃ k, st.key[v.toNat]? = some k :=
      ⟨_, List.getElem?_eq_getElem (by rw [h.len_key]; exact hvn)⟩
    have hkey := PrimState.keyOf_eq hk
    unfold primScan
    rw [if_neg (by omega)]
    simp only [hb, hk]
    by_cases hc : b = false ∧ w < k
    · rw [if_pos hc]
      have hnt : ¬ st.inTree v.toNat := by
        unfold PrimState.inTree
        rw [hb, hc.1]
        simp
      have h1 := primInv_update h hu hE hvn hnt (by rw [hkey]; exact hc.2)
      rw [hcast] at h1
      obtain ⟨st', h2, h3, h4, h5⟩ := ih (proc ++ [(v, w)]) _ A hrest' h1 hu
      refine ⟨st', h2, ?_, h4, ?_⟩
      · simpa using h3
      · simp only [List.orderedInsert_length, List.length_cons] at h5 ⊢
        omega
    · rw [if_neg hc]
      have hskip : st.inTree v.toNat ∨ st.keyOf v.toNat ≤ w := by
        by_cases hb' : b = true
        · left
          unfold PrimState.inTree
          rw [hb, hb']
        · right
          rw [hkey]
          have hbf : b = false := by simpa using hb'
          have hnlt : ¬ w < k := fun h' => hc ⟨hbf, h'⟩
          omega
      have h1 : PrimInv g st A
          (fun a e => a = u → e ∈ proc ++ [(((v.toNat : Nat) : Int), w)]) :=
        primInv_skip h hskip
      rw [hcast] at h1
      obtain ⟨st', h2, h3, h4, h5⟩ := ih (proc ++ [(v, w)]) _ A hrest' h1 hu
      refine ⟨st', h2, ?_, h4, ?_⟩
      · simpa using h3
      · simp only [List.length_cons] at h5 ⊢
        omega

/-! ## Prim: the loop -/

theorem primPending_set (adj : List (List (Int × Int))) :
    ∀ (inMST : List Bool) (u : Nat) (l : List (Int × Int)), adj[u]? = some l →
      inMST[u]? = some false →
      primPending adj (inMST.set u true) + l.length = primPending adj inMST := by
  induction adj with
  | nil => intro inMST u l h; simp at h
  | cons a adj ih =>
    intro inMST u l h hb
    cases inMST with
    | nil => simp at hb
    | cons b bs =>
      cases u with
      | zero =>
        simp only [List.getElem?_cons_zero, Option.some.injEq] at h hb
        subst h; subst hb
        simp [primPending]
        omega
      | succ u =>
        simp only [List.getElem?_cons_succ] at h hb
        have := ih bs u l h hb
        simp only [List.set_cons_succ, primPending]
        omega

theorem primPending_replicate (adj : List (List (Int × Int))) :
    primPending adj (List.replicate adj.length false) = (adj.map List.length).sum := by
  induction adj with
  | nil => rfl
  | cons a adj ih => simp [primPending, List.replicate_succ, ih]

theorem primInv_full {g : Graph} {st : PrimState} {A : List Edge}
    {done : Nat → Int × Int → Prop} (h : PrimInv g st A done)
    (hd : ∀ a b w, st.inTree a → g.HasEdge a b w → done a ((b : Int), w)) :
    PrimInv g st A (fun _ _ => True) :=
  { h with seen := fun a b w ha hab _ hb => h.seen a b w ha hab (hd a b w ha hab) hb }

theorem primInv_pop_in {g : Graph} {st : PrimState} {A : List Edge}
    (h : PrimInv g st A (fun _ _ => True)) {k : Int} {u : Nat} {rest : List (Int × Nat)}
    (hpq : st.pq = (k, u) :: rest) (hu : st.inTree u) :
    PrimInv g { st with pq := rest } A (fun _ _ => True) := by
  have hsorted := h.sorted
  rw [hpq] at hsorted
  refine { h with sorted := (List.pairwise_cons.mp hsorted).2, queue := ?_, outside := ?_ }
  · intro e he
    exact h.queue e (by rw [hpq]; exact List.mem_cons_of_mem _ he)
  · intro v hv hvt
    rcases h.outside v hv hvt with h1 | ⟨p, h1, h2, h3, h4⟩
    · exact Or.inl h1
    · refine Or.inr ⟨p, h1, h2, h3, ?_⟩
      rw [hpq] at h4
      rcases List.mem_cons.mp h4 with h5 | h5
      · exact absurd ((Prod.mk.inj h5).2 ▸ hu) hvt
      · exact h5

theorem primInv_pop_out {g : Graph} {st : PrimState} {A : List Edge}
    (h : PrimInv g st A (fun _ _ => True)) {k : Int} {u : Nat} {rest : List (Int × Nat)}
    (hpq : st.pq = (k, u) :: rest) (hu : ¬ st.inTree u) :
    ∃ p : Nat, PrimInv g { st with pq := rest, inMST := st.inMST.set u true }
        ((p, u, st.keyOf u) :: A) (fun a e => a = u → e ∈ ([] : List (Int × Int)))
      ∧ PrimState.inTree { st with pq := rest, inMST := st.inMST.set u true } u := by
  have hsorted := h.sorted
  rw [hpq] at hsorted
  have hhead := h.queue (k, u) (by rw [hpq]; exact List.mem_cons_self _ _)
  have hun : u < g.adjList.length := hhead.1
  have hku := hhead.2 hu
  simp only at hku
  obtain ⟨p, hp1, hp2, hp3, hp4⟩ : ∃ p : Nat, st.parent[u]? = some (p : Int) ∧ st.inTree p
      ∧ g.HasEdge p u (st.keyOf u) ∧ (st.keyOf u, u) ∈ st.pq := by
    rcases h.outside u hun hu with h1 | h1
    · have := h1.1
      omega
    · exact h1
  have hin : ∀ x, PrimState.inTree ⟨st.inMST.set u true, st.key, st.parent, rest⟩ x
      ↔ (x = u ∨ st.inTree x) := by
    intro x
    unfold PrimState.inTree
    simp only
    by_cases hx : x = u
    · subst hx
      rw [List.getElem?_set_self (by rw [h.len_inMST]; exact hun)]
      simp
    · rw [List.getElem?_set_ne (fun e => hx e.symm)]
      simp [hx]
  have hside : ∀ a b w, (a, b, w) ∈ A → (st.inTree a ↔ st.inTree b) := by
    intro a b w he
    have := h.edges _ he
    exact ⟨fun _ => this.2.1, fun _ => this.1⟩
  have hu0 : u ≠ 0 := fun e => hu (e ▸ h.root)
  refine ⟨p, ?_, (hin u).mpr (Or.inl rfl)⟩
  refine
    { len_inMST := by simp [h.len_inMST]
      len_key := h.len_key
      len_parent := h.len_parent
      sorted := (List.pairwise_cons.mp hsorted).2
      root := (hin 0).mpr (Or.inr h.root)
      root_parent := h.root_parent
      key_le := h.key_le
      queue := ?_
      seen := ?_
      outside := ?_
      inside := ?_
      edges := ?_
      forest := ?_
      joined := ?_
      greedy := ?_ }
  · intro e he
    have := h.queue e (by rw [hpq]; exact List.mem_cons_of_mem _ he)
    exact ⟨this.1, fun hx => this.2 (fun hx' => hx ((hin _).mpr (Or.inr hx')))⟩
  · intro a b w ha hab hdone hb
    rcases (hin a).mp ha with ha' | ha'
    · exact absurd (hdone ha') (by simp)
    · exact h.seen a b w ha' hab trivial (fun hb' => hb ((hin b).mpr (Or.inr hb')))
  · intro v hv hvt
    have hvu : v ≠ u := fun e => hvt ((hin v).mpr (Or.inl e))
    have hvt' : ¬ st.inTree v := fun e => hvt ((hin v).mpr (Or.inr e))
    rcases h.outside v hv hvt' with h1 | ⟨q, h1, h2, h3, h4⟩
    · exact Or.inl h1
    · refine Or.inr ⟨q, h1, (hin q).mpr (Or.inr h2), h3, ?_⟩
      rw [hpq] at h4
      rcases List.mem_cons.mp h4 with h5 | h5
      · exact absurd (Prod.mk.inj h5).2 hvu
      · exact h5
  · intro v hv hv0
    rcases (hin v).mp hv with hv' | hv'
    · subst hv'
      exact ⟨p, hp1, List.mem_cons_self _ _⟩
    · obtain ⟨q, h1, h2⟩ := h.inside v hv' hv0
      exact ⟨q, h1, List.mem_cons_of_mem _ h2⟩
  · intro e he
    rcases List.mem_cons.mp he with he | he
    · subst he
      exact ⟨(hin p).mpr (Or.inr hp2), (hin u).mpr (Or.inl rfl), hu0, hp1, rfl, hp3⟩
    · obtain ⟨h1, h2, h3, h4, h5, h6⟩ := h.edges e he
      exact ⟨(hin _).mpr (Or.inr h1), (hin _).mpr (Or.inr h2), h3, h4, h5, h6⟩
  · exact ⟨fun hr => hu ((reach_side st.inTree hside hr).mp hp2), h.forest⟩
  · have hnew : Reach ((p, u, st.keyOf u) :: A) p u := reach_edge (List.mem_cons_self _ _)
    have hold : ∀ {a b : Nat}, st.inTree a → st.inTree b →
        Reach ((p, u, st.keyOf u) :: A) a b :=
      fun ha hb => reach_mono (fun e he => List.mem_cons_of_mem _ he) (h.joined _ _ ha hb)
    intro a b ha hb
    rcases (hin a).mp ha with ha' | ha' <;> rcases (hin b).mp hb with hb' | hb'
    · rw [ha', hb']; exact Reach.refl _ _
    · rw [ha']; exact hnew.symm.trans (hold hp2 hb')
    · rw [hb']; exact (hold ha' hp2).trans hnew
    · exact hold ha' hb'
  · intro hw
    refine ⟨h.greedy hw, st.inTree, hp2, hu, fun e he => ?_, ?_⟩
    · have := h.edges _ he
      exact ⟨fun _ => this.2.1, fun _ => this.1⟩
    · intro a b w hab ha hb
      have h1 := h.seen a b w ha hab trivial hb
      have h2 := hw a b w hab
      have hbn : b < g.adjList.length := by
        by_contra hbn
        have : st.keyOf b = INT_MAX := by
          unfold PrimState.keyOf
          rw [List.getD_eq_getElem?_getD, List.getElem?_eq_none_iff.mpr
            (by rw [h.len_key]; omega)]
          rfl
        omega
      rcases h.outside b hbn hb with h3 | ⟨q, _, _, _, h4⟩
      · have := h3.1
        omega
      · rw [hpq] at h4
        have h5 : k ≤ st.keyOf b := by
          rcases List.mem_cons.mp h4 with h5 | h5
          · exact le_of_eq (Prod.mk.inj h5).1.symm
          · have := (List.pairwise_cons.mp hsorted).1 _ h5
            unfold pqLe at this
            simp only at this
            omega
        show st.keyOf u ≤ w
        omega

theorem Graph.undirected_entries {g : Graph} (hg : g.Undirected) {u : Nat}
    {l : List (Int × Int)} (hl : g.adjList[u]? = some l) :
    ∀ e ∈ l, 0 ≤ e.1 ∧ e.1.toNat < g.adjList.length ∧ g.HasEdge u e.1.toNat e.2 := by
  intro e he
  have hu : u < g.adjList.length := (List.getElem?_eq_some_iff.mp hl).1
  have hget : g.adjList.getD u [] = l := by
    rw [List.getD_eq_getElem?_getD, hl]; rfl
  have h1 := hg u hu e (hget ▸ he)
  have hE : g.HasEdge u e.1.toNat e.2 := by
    unfold Graph.HasEdge
    rw [Int.toNat_of_nonneg h1.1, hget]
    exact he
  exact ⟨h1.1, Graph.hasEdge_lt_right hg hE, hE⟩

theorem primLoop_spec {g : Graph} (hg : g.Undirected) :
    ∀ (fuel : Nat) (st : PrimState) (A : List Edge), PrimInv g st A (fun _ _ => True) →
      st.pq.length + primPending g.adjList st.inMST < fuel →
      ∃ st' A', primLoop g.adjList fuel st = some st' ∧ PrimInv g st' A' (fun _ _ => True)
        ∧ st'.pq = [] := by
  intro fuel
  induction fuel with
  | zero => intro st A _ h; omega
  | succ fuel ih =>
    intro st A h hfuel
    unfold primLoop
    cases hpq : st.pq with
    | nil => exact ⟨st, A, rfl, h, hpq⟩
    | cons e rest =>
      obtain ⟨k, u⟩ := e
      simp only
      have hun : u < g.adjList.length := (h.queue (k, u) (by rw [hpq]; simp)).1
      obtain ⟨b, hb⟩ : ∃ b, st.inMST[u]? = some b :=
        ⟨_, List.getElem?_eq_getElem (by rw [h.len_inMST]; exact hun)⟩
      rw [hpq] at hfuel
      simp only [List.length_cons] at hfuel
      cases b with
      | true =>
        simp only [hb]
        exact ih _ A (primInv_pop_in h hpq hb) (by simp only; omega)
      | false =>
        simp only [hb]
        obtain ⟨l, hl⟩ : ∃ l, g.adjList[u]? = some l := ⟨_, List.getElem?_eq_getElem hun⟩
        simp only [hl]
        have hnt : ¬ st.inTree u := by
          unfold PrimState.inTree
          rw [hb]
          simp
        obtain ⟨p, h1, h2⟩ := primInv_pop_out h hpq hnt
        obtain ⟨st1, h3, h4, h5, h6⟩ := primScan_spec l [] _ _
          (Graph.undirected_entries hg hl) h1 h2
        rw [h3]
        simp only
        have h7 : PrimInv g st1 ((p, u, st.keyOf u) :: A) (fun _ _ => True) := by
          apply primInv_full h4
          intro a b w _ hab hau
          subst hau
          unfold Graph.HasEdge at hab
          rw [List.getD_eq_getElem?_getD, hl] at hab
          simpa using hab
        have h8 := primPending_set g.adjList st.inMST u l hl hb
        apply ih st1 _ h7
        rw [h5]
        simp only at h6 ⊢
        omega

theorem primInv_init {g : Graph} (hn : 0 < g.adjList.length) :
    PrimInv g
      { inMST := (List.replicate g.adjList.length false).set 0 true,
        key := (List.replicate g.adjList.length INT_MAX).set 0 0,
        parent := List.replicate g.adjList.length (-1), pq := [] }
      [] (fun a e => a = 0 → e ∈ ([] : List (Int × Int))) := by
  have hin : ∀ x, PrimState.inTree ⟨(List.replicate g.adjList.length false).set 0 true,
      (List.replicate g.adjList.length INT_MAX).set 0 0,
      List.replicate g.adjList.length (-1), []⟩ x ↔ x = 0 := by
    intro x
    unfold PrimState.inTree
    simp only
    by_cases hx : x = 0
    · subst hx
      rw [List.getElem?_set_self (by simpa using hn)]
      simp
    · rw [List.getElem?_set_ne (fun e => hx e.symm)]
      simp only [hx, iff_false]
      intro h
      have := List.getElem?_mem h
      simp at this
  have hkey : ∀ x, x ≠ 0 → PrimState.keyOf ⟨(List.replicate g.adjList.length false).set 0 true,
      (List.replicate g.adjList.length INT_MAX).set 0 0,
      List.replicate g.adjList.length (-1), []⟩ x = INT_MAX := by
    intro x hx
    unfold PrimState.keyOf
    simp only
    rw [list_getD_set_ne _ _ _ (fun e => hx e.symm), List.getD_eq_getElem?_getD]
    cases h : (List.replicate g.adjList.length INT_MAX)[x]? with
    | none => rfl
    | some y =>
      have := List.getElem?_mem h
      rw [List.eq_of_mem_replicate this]
      rfl
  refine
    { len_inMST := by simp
      len_key := by simp
      len_parent := by simp
      sorted := List.sorted_nil
      root := (hin 0).mpr rfl
      root_parent := by
        show (List.replicate g.adjList.length (-1 : Int))[0]? = some (-1)
        rw [List.getElem?_replicate]
        simp [hn]
      key_le := ?_
      queue := fun e he => by simp at he
      seen := ?_
      outside := ?_
      inside := fun v hv hv0 => absurd ((hin v).mp hv) hv0
      edges := fun e he => by simp at he
      forest := trivial
      joined := ?_
      greedy := fun _ => trivial }
  · intro v
    by_cases hv : v = 0
    · subst hv
      unfold PrimState.keyOf
      simp only
      rw [list_getD_set_self _ _ _ _ (by simpa using hn)]
      decide
    · rw [hkey v hv]
  · intro a b w ha _ hdone _
    exact absurd (hdone ((hin a).mp ha)) (by simp)
  · intro v hv hvt
    have hv0 : v ≠ 0 := fun e => hvt ((hin v).mpr e)
    refine Or.inl ⟨hkey v hv0, ?_⟩
    show (List.replicate g.adjList.length (-1 : Int))[v]? = some (-1)
    rw [List.getElem?_replicate]
    simp [hv]
  · intro a b ha hb
    rw [(hin a).mp ha, (hin b).mp hb]
    exact Reach.refl _ _

/-- The `while` loop of Prim ends, in a state with an empty queue that stands
for a list `A` of chosen edges. -/
theorem prim_run {g : Graph} (hg : g.Undirected) (hn : 0 < g.adjList.length) :
    ∃ st A, primLoop g.adjList (primFuel g)
        { inMST := List.replicate g.adjList.length false,
          key := (List.replicate g.adjList.length INT_MAX).set 0 0,
          parent := List.replicate g.adjList.length (-1), pq := [(0, 0)] } = some st
      ∧ PrimInv g st A (fun _ _ => True) ∧ st.pq = [] := by
  obtain ⟨l, hl⟩ : ∃ l, g.adjList[0]? = some l := ⟨_, List.getElem?_eq_getElem hn⟩
  have hb : (List.replicate g.adjList.length false)[0]? = some false := by
    rw [List.getElem?_replicate]
    simp [hn]
  have h1 := primInv_init hn
  obtain ⟨st1, h3, h4, h5, h6⟩ := primScan_spec l [] _ _
    (Graph.undirected_entries hg hl) h1
    (by
      unfold PrimState.inTree
      simp only
      rw [List.getElem?_set_self (by simpa using hn)])
  have h7 : PrimInv g st1 [] (fun _ _ => True) := by
    apply primInv_full h4
    intro a b w _ hab hau
    subst hau
    unfold Graph.HasEdge at hab
    rw [List.getD_eq_getElem?_getD, hl] at hab
    simpa using hab
  have h8 := primPending_set g.adjList (List.replicate g.adjList.length false) 0 l hl hb
  rw [primPending_replicate] at h8
  obtain ⟨st', A', h9, h10, h11⟩ := primLoop_spec hg ((g.adjList.map List.length).sum + 1)
    st1 [] h7 (by
      rw [h5]
      simp only [List.length_nil] at h6 ⊢
      omega)
  refine ⟨st', A', ?_, h10, h11⟩
  unfold primFuel primLoop
  simp only [hb, hl, h3]
  exact h9

/-! ## Prim: the tree built from `parent` and `key` -/

theorem mem_primEdges (parent key : List Int) (e : Edge) :
    ∀ (vs : List Nat) (acc : List Edge),
      e ∈ primEdges parent key vs acc ↔
        e ∈ acc ∨ ∃ v ∈ vs, ∃ p k, parent[v]? = some p ∧ key[v]? = some k ∧ p ≠ -1
          ∧ e = (p.toNat, v, k) := by
  intro vs
  induction vs with
  | nil => intro acc; simp [primEdges]
  | cons v vs ih =>
    intro acc
    unfold primEdges
    cases hp : parent[v]? with
    | none =>
      simp only [ih]
      constructor
      · rintro (h | ⟨x, hx, h⟩)
        · exact Or.inl h
        · exact Or.inr ⟨x, List.mem_cons_of_mem _ hx, h⟩
      · rintro (h | ⟨x, hx, p, k, h1, h2⟩)
        · exact Or.inl h
        · rcases List.mem_cons.mp hx with hx | hx
          · subst hx; rw [hp] at h1; cases h1
          · exact Or.inr ⟨x, hx, p, k, h1, h2⟩
    | some p =>
      cases hk : key[v]? with
      | none =>
        simp only [ih]
        constructor
        · rintro (h | ⟨x, hx, h⟩)
          · exact Or.inl h
          · exact Or.inr ⟨x, List.mem_cons_of_mem _ hx, h⟩
        · rintro (h | ⟨x, hx, p', k, h1, h2, h3⟩)
          · exact Or.inl h
          · rcases List.mem_cons.mp hx with hx | hx
            · subst hx; rw [hk] at h2; cases h2
            · exact Or.inr ⟨x, hx, p', k, h1, h2, h3⟩
      | some k =>
        simp only
        by_cases hp1 : p = -1
        · rw [if_neg (by simpa using hp1), ih]
          constructor
          · rintro (h | ⟨x, hx, h⟩)
            · exact Or.inl h
            · exact Or.inr ⟨x, List.mem_cons_of_mem _ hx, h⟩
          · rintro (h | ⟨x, hx, p', k', h1, h2, h3, h4⟩)
            · exact Or.inl h
            · rcases List.mem_cons.mp hx with hx | hx
              · subst hx
                rw [hp] at h1
                exact absurd ((Option.some.inj h1).symm ▸ hp1) h3
              · exact Or.inr ⟨x, hx, p', k', h1, h2, h3, h4⟩
        · rw [if_pos hp1, ih]
          constructor
          · rintro (h | ⟨x, hx, h⟩)
            · rcases List.mem_cons.mp h with h | h
              · exact Or.inr ⟨v, List.mem_cons_self _ _, p, k, hp, hk, hp1, h⟩
              · exact Or.inl h
            · exact Or.inr ⟨x, List.mem_cons_of_mem _ hx, h⟩
          · rintro (h | ⟨x, hx, p', k', h1, h2, h3, h4⟩)
            · exact Or.inl (List.mem_cons_of_mem _ h)
            · rcases List.mem_cons.mp hx with hx | hx
              · subst hx
                rw [hp] at h1
                rw [hk] at h2
                rw [← Option.some.inj h1, ← Option.some.inj h2] at h4
                exact Or.inl (h4 ▸ List.mem_cons_self _ _)
              · exact Or.inr ⟨x, hx, p', k', h1, h2, h3, h4⟩

theorem primEdges_suffix (parent key : List Int) :
    ∀ (vs : List Nat) (acc : List Edge), ∃ X, primEdges parent key vs acc = X ++ acc := by
  intro vs
  induction vs with
  | nil => intro acc; exact ⟨[], rfl⟩
  | cons v vs ih =>
    intro acc
    unfold primEdges
    cases parent[v]? with
    | none => exact ih acc
    | some p =>
      cases key[v]? with
      | none => exact ih acc
      | some k =>
        simp only
        split_ifs
        · obtain ⟨X, hX⟩ := ih ((p.toNat, v, k) :: acc)
          exact ⟨X ++ [(p.toNat, v, k)], by rw [hX]; simp⟩
        · exact ih acc

theorem primEdges_nodup (parent key : List Int) :
    ∀ (vs : List Nat) (acc : List Edge), vs.Nodup → acc.Nodup → (∀ e ∈ acc, e.2.1 ∉ vs) →
      (primEdges parent key vs acc).Nodup := by
  intro vs
  induction vs with
  | nil => intro acc _ h _; exact h
  | cons v vs ih =>
    intro acc hvs hacc hdis
    have hvs' := List.nodup_cons.mp hvs
    have hdis' : ∀ e ∈ acc, e.2.1 ∉ vs :=
      fun e he h => hdis e he (List.mem_cons_of_mem _ h)
    unfold primEdges
    cases parent[v]? with
    | none => exact ih acc hvs'.2 hacc hdis'
    | some p =>
      cases key[v]? with
      | none => exact ih acc hvs'.2 hacc hdis'
      | some k =>
        simp only
        split_ifs
        · apply ih _ hvs'.2
          · apply List.nodup_cons.mpr
            refine ⟨fun h => hdis _ h (List.mem_cons_self _ _), hacc⟩
          · intro e he
            rcases List.mem_cons.mp he with he | he
            · rw [he]; exact hvs'.1
            · exact hdis' e he
        · exact ih acc hvs'.2 hacc hdis'

theorem isForest_nodup {A : List Edge} (h : IsForest A) : A.Nodup := by
  induction A with
  | nil => exact List.nodup_nil
  | cons e A ih =>
    obtain ⟨u, v, w⟩ := e
    exact List.nodup_cons.mpr ⟨fun he => h.1 (reach_edge he), ih h.2⟩

theorem primCollect_spec (n : Nat) (parent key : List Int) (hp : parent.length = n)
    (hk : key.length = n) :
    ∀ (vs : List Nat) (acc : List Edge) (mst : Graph), (∀ v ∈ vs, v < n) →
      (∀ v ∈ vs, ∀ p, parent[v]? = some p → p ≠ -1 → 0 ≤ p ∧ p.toNat < n) →
      mst.IsGraphOf n acc → IsForest (primEdges parent key vs acc) →
      ∃ mst', primCollect parent key vs mst (acc.length : Int)
          = some (mst', ((primEdges parent key vs acc).length : Int))
        ∧ mst'.IsGraphOf n (primEdges parent key vs acc) := by
  intro vs
  induction vs with
  | nil => intro acc mst _ _ h _; exact ⟨mst, rfl, h⟩
  | cons v vs ih =>
    intro acc mst hvs hpar hmst hf
    have hv := hvs v (List.mem_cons_self _ _)
    obtain ⟨p, hpv⟩ : ∃ p, parent[v]? = some p :=
      ⟨_, List.getElem?_eq_getElem (by rw [hp]; exact hv)⟩
    obtain ⟨k, hkv⟩ : ∃ k, key[v]? = some k :=
      ⟨_, List.getElem?_eq_getElem (by rw [hk]; exact hv)⟩
    have hvs' : ∀ v ∈ vs, v < n := fun x hx => hvs x (List.mem_cons_of_mem _ hx)
    have hpar' : ∀ v ∈ vs, ∀ p, parent[v]? = some p → p ≠ -1 → 0 ≤ p ∧ p.toNat < n :=
      fun x hx => hpar x (List.mem_cons_of_mem _ hx)
    unfold primCollect
    unfold primEdges at hf ⊢
    simp only [hpv, hkv] at hf ⊢
    by_cases hp1 : p = -1
    · simp only [hp1, ne_eq, not_true_eq_false, if_false] at hf ⊢
      exact ih acc mst hvs' hpar' hmst hf
    · simp only [ne_eq, hp1, not_false_eq_true, if_true] at hf ⊢
      obtain ⟨hp0, hpn⟩ := hpar v (List.mem_cons_self _ _) p hpv hp1
      obtain ⟨X, hX⟩ := primEdges_suffix parent key vs ((p.toNat, v, k) :: acc)
      have hf' : IsForest ((p.toNat, v, k) :: acc) := isForest_suffix X _ (hX ▸ hf)
      have h1 := Graph.isGraphOf_add_edge hmst k hpn hv hf'.1
      rw [Int.toNat_of_nonneg hp0] at h1
      have hlen : (acc.length : Int) + 1 = (((p.toNat, v, k) :: acc).length : Int) := by
        simp only [List.length_cons]; push_cast; rfl
      rw [hlen]
      exact ih _ _ hvs' hpar' h1 hf

/-- The result of the loops of Prim: a graph that holds a list `L` of edges of
`g` without a cycle; when `g` is connected, with weights below `INT_MAX`, the
ends of every edge of `g` are joined by edges of `L` that are no heavier. -/
theorem prim_result {g : Graph} (hg : g.Undirected) (hn : 0 < g.adjList.length) :
    ∃ (st : PrimState) (mst : Graph) (L : List Edge),
      primLoop g.adjList (primFuel g)
        { inMST := List.replicate g.adjList.length false,
          key := (List.replicate g.adjList.length INT_MAX).set 0 0,
          parent := List.replicate g.adjList.length (-1), pq := [(0, 0)] } = some st
      ∧ primCollect st.parent st.key (List.range' 1 (g.adjList.length - 1))
          (Graph.new g.adjList.length) 0 = some (mst, (L.length : Int))
      ∧ mst.IsGraphOf g.adjList.length L ∧ IsForest L
      ∧ (∀ e ∈ L, e.1 < g.adjList.length ∧ e.2.1 < g.adjList.length
          ∧ g.HasEdge e.1 e.2.1 e.2.2)
      ∧ ((∀ a b w, g.HasEdge a b w → w < INT_MAX) → g.Connected →
          ∀ u v w, g.HasEdge u v w → Reach (lightEdges w L) u v) := by
  obtain ⟨st, A, hrun, hinv, hpq⟩ := prim_run hg hn
  have hout : ∀ v, v < g.adjList.length → ¬ st.inTree v →
      st.keyOf v = INT_MAX ∧ st.parent[v]? = some (-1) := by
    intro v hv hvt
    rcases hinv.outside v hv hvt with h1 | ⟨_, _, _, _, h4⟩
    · exact h1
    · rw [hpq] at h4
      simp at h4
  have hkeyv : ∀ v, v < g.adjList.length → st.key[v]? = some (st.keyOf v) := by
    intro v hv
    unfold PrimState.keyOf
    rw [List.getD_eq_getElem?_getD, List.getElem?_eq_getElem (by rw [hinv.len_key]; exact hv)]
    rfl
  have hmem : ∀ e, e ∈ primEdges st.parent st.key (List.range' 1 (g.adjList.length - 1)) []
      ↔ e ∈ A := by
    intro e
    rw [mem_primEdges]
    constructor
    · rintro (h | ⟨v, hv, p, k, h1, h2, h3, h4⟩)
      · simp at h
      · rw [List.mem_range'_1] at hv
        have hvn : v < g.adjList.length := by omega
        have hvt : st.inTree v := by
          by_contra hvt
          have := (hout v hvn hvt).2
          rw [h1] at this
          exact h3 (Option.some.inj this)
        obtain ⟨q, h5, h6⟩ := hinv.inside v hvt (by omega)
        rw [h1] at h5
        rw [hkeyv v hvn] at h2
        rw [h4, Option.some.inj h5, ← Option.some.inj h2]
        simpa using h6
    · intro he
      obtain ⟨h1, h2, h3, h4, h5, h6⟩ := hinv.edges e he
      have hvn : e.2.1 < g.adjList.length := hinv.len_inMST ▸ PrimState.inTree_lt h2
      refine Or.inr ⟨e.2.1, ?_, (e.1 : Int), e.2.2, h4, ?_, by omega, ?_⟩
      · rw [List.mem_range'_1]
        omega
      · rw [hkeyv _ hvn, h5]
      · simp
  have hperm : (primEdges st.parent st.key (List.range' 1 (g.adjList.length - 1)) []).Perm A :=
    (List.perm_ext_iff_of_nodup
      (primEdges_nodup _ _ _ _ (List.nodup_range' _ _) List.nodup_nil (fun e he => by simp at he))
      (isForest_nodup hinv.forest)).mpr hmem
  have hA : ∀ e ∈ A, e.1 < g.adjList.length ∧ e.2.1 < g.adjList.length
      ∧ g.HasEdge e.1 e.2.1 e.2.2 := by
    intro e he
    obtain ⟨h1, h2, -, -, -, h6⟩ := hinv.edges e he
    exact ⟨hinv.len_inMST ▸ PrimState.inTree_lt h1, hinv.len_inMST ▸ PrimState.inTree_lt h2, h6⟩
  have hfL := isForest_perm (fun e he => ⟨(hA e he).1, (hA e he).2.1⟩) hperm.symm hinv.forest
  obtain ⟨mst, h1, h2⟩ := primCollect_spec g.adjList.length st.parent st.key hinv.len_parent
    hinv.len_key (List.range' 1 (g.adjList.length - 1)) [] (Graph.new g.adjList.length)
    (by
      intro v hv
      rw [List.mem_range'_1] at hv
      omega)
    (by
      intro v hv p hp hp1
      rw [List.mem_range'_1] at hv
      have hvn : v < g.adjList.length := by omega
      have hvt : st.inTree v := by
        by_contra hvt
        have := (hout v hvn hvt).2
        rw [hp] at this
        exact hp1 (Option.some.inj this)
      obtain ⟨q, h5, h6⟩ := hinv.inside v hvt (by omega)
      rw [hp] at h5
      rw [Option.some.inj h5]
      exact ⟨Int.natCast_nonneg q, by simpa using (hA _ h6).1⟩)
    (Graph.isGraphOf_new _) hfL
  refine ⟨st, mst, _, hrun, h1, h2, hfL, fun e he => hA e (hmem e |>.mp he), ?_⟩
  intro hw hc u v w huv
  have hall : ∀ v, v < g.adjList.length → st.inTree v := by
    intro v hv
    have hside : ∀ a b, (∃ w, g.HasEdge a b w) → (st.inTree a ↔ st.inTree b) := by
      have key : ∀ a b w, g.HasEdge a b w → st.inTree a → st.inTree b := by
        intro a b w hab ha
        by_contra hb
        have h3 := hinv.seen a b w ha hab trivial hb
        have h4 := (hout b (Graph.hasEdge_lt_right hg hab) hb).1
        have h5 := hw a b w hab
        omega
      rintro a b ⟨w, hab⟩
      exact ⟨key a b w hab, key b a w (Graph.hasEdge_symm hg hab)⟩
    exact (eqvGen_side st.inTree hside (hc 0 v hn hv)).mp hinv.root
  have h3 := cutGreedy_light hg (fun e he => (hA e he).2.2) (hinv.greedy hw)
    (fun a b ha hb => hinv.joined a b (hall a ha) (hall b hb)) u v w huv
  exact reach_mono (fun e he => mem_lightEdges.mpr
    ⟨(hmem e).mpr (mem_lightEdges.mp he).1, (mem_lightEdges.mp he).2⟩) h3

theorem prim_connected {g : Graph} (hg : g.Undirected) (hc : g.Connected)
    (hn : 1 ≤ g.adjList.length) (hw : ∀ a b w, g.HasEdge a b w → w < INT_MAX) :
    ∃ mst, PrimSolver.solveMST g = some mst ∧ mst.IsMinSpanningTreeOf g := by
  obtain ⟨st, mst, L, h1, h2, h3, h4, h5, h6⟩ := prim_result hg hn
  obtain ⟨hlen, hmin⟩ := Graph.isMinSpanningTreeOf hg hc hn h3 h4 h5 (h6 hw hc)
  refine ⟨mst, ?_, hmin⟩
  unfold PrimSolver.solveMST
  simp only
  rw [if_neg (by omega), h1]
  simp only [h2]
  rw [if_neg (by omega)]

theorem prim_disconnected {g : Graph} (hg : g.Undirected) (hc : ¬ g.Connected)
    (hn : 1 ≤ g.adjList.length) : PrimSolver.solveMST g = some (Graph.new 0) := by
  obtain ⟨st, mst, L, h1, h2, h3, h4, h5, -⟩ := prim_result hg hn
  have hlen := forest_of_disconnected hc h4 h5
  unfold PrimSolver.solveMST
  simp only
  rw [if_neg (by omega), h1]
  simp only [h2]
  rw [if_pos (by omega)]

theorem Graph.hasEdge_mem {g : Graph} {u v : Nat} {w : Int} (h : g.HasEdge u v w) :
    ∃ l ∈ g.adjList, ((v : Int), w) ∈ l := by
  have hu := Graph.hasEdge_lt h
  unfold Graph.HasEdge at h
  rw [List.getD_eq_getElem?_getD, List.getElem?_eq_getElem hu] at h
  exact ⟨_, List.getElem_mem hu, h⟩

theorem prim_connected_lists (g : Graph) (hg : g.Undirected) (hc : g.Connected)
    (hn : 1 ≤ g.adjList.length) (hw : ∀ l ∈ g.adjList, ∀ e ∈ l, e.2 < INT_MAX) :
    ∃ mst, PrimSolver.solveMST g = some mst ∧ mst.IsMinSpanningTreeOf g :=
  prim_connected hg hc hn fun _ _ _ h =>
    let ⟨l, hl, he⟩ := Graph.hasEdge_mem h
    hw l hl _ he

/-- C16 (Prim): for every connected undirected graph `g` on at least one
vertex whose weights are all below `INT_MAX`, `PrimSolver::solveMST` returns a
graph on the same vertices with one edge less than vertices, each entry an
entry of `g` with its weight, that joins all the vertices and whose total
weight is at most that of every spanning tree of `g`. -/
theorem C16_prim (g : Graph) (hg : g.Undirected) (hc : g.Connected)
    (hn : 1 ≤ g.adjList.length) (hw : ∀ l ∈ g.adjList, ∀ e ∈ l, e.2 < INT_MAX) :
    ∃ mst, PrimSolver.solveMST g = some mst ∧ mst.IsMinSpanningTreeOf g :=
  prim_connected hg hc hn fun _ _ _ h =>
    let ⟨l, hl, he⟩ := Graph.hasEdge_mem h
    hw l hl _ he

/-- Witness of C16: the 3-vertex graph of the tests. -/
theorem C16_prim_witness :
    ∃ mst, PrimSolver.solveMST test3 = some mst ∧ mst.IsMinSpanningTreeOf test3 :=
  C16_prim test3 (by decide) test3_connected (by decide) (by decide)

theorem minusOneGraph_connected : minusOneGraph.Connected := by
  apply connected_of_joined_zero
  intro v hv
  have hv' : v < 2 := hv
  interval_cases v
  · exact Relation.EqvGen.refl _
  · exact Relation.EqvGen.rel _ _ ⟨-1, by decide⟩

theorem intMaxGraph_connected : intMaxGraph.Connected := by
  apply connected_of_joined_zero
  intro v hv
  have hv' : v < 2 := hv
  interval_cases v
  · exact Relation.EqvGen.refl _
  · exact Relation.EqvGen.rel _ _ ⟨2147483647, by decide⟩

theorem getTotalWeight_pair (w : Int) (h : 2 * w.natAbs ≤ 2 ^ 53) :
    Graph.getTotalWeight ⟨[[(1, w)], [(0, w)]]⟩ = (w : ℚ) := by
  rw [Graph.getTotalWeight_exact _ (by simp [Graph.absWeightSum]; omega)]
  simp [Graph.edgeWeight, Graph.weightSum]

theorem getTotalWeight_new_zero : (Graph.new 0).getTotalWeight = 0 := by
  simp [Graph.getTotalWeight, Graph.sumWeights, Graph.new]

/-! ## Boruvka: the search of the cheapest edges -/

theorem scanInv_extend {g : Graph} {f : Nat → Nat} {cheapest : List (Int × Int × Int)}
    {done : Nat → Int × Int → Prop} (h : ScanInv g f cheapest done)
    (done' : Nat → Int × Int → Prop)
    (hnew : (∀ a b w, g.HasEdge a b w → 0 ≤ w) → ∀ u v w, g.HasEdge u v w →
      done' u ((v : Int), w) → ¬ done u ((v : Int), w) → f u ≠ f v →
      ∀ r, r = f u ∨ r = f v → ∃ c, cheapest[r]? = some c ∧ c.1 ≠ -1 ∧ c.1 ≤ w) :
    ScanInv g f cheapest done' := by
  classical
  refine { h with least := ?_ }
  intro hw u v w huv hd hne r hr
  by_cases hold : done u ((v : Int), w)
  · exact h.least hw u v w huv hold hne r hr
  · exact hnew hw u v w huv hd hold hne r hr

theorem scanInv_update {g : Graph} {f : Nat → Nat} {cheapest : List (Int × Int × Int)}
    {done : Nat → Int × Int → Prop} (h : ScanInv g f cheapest done) {r : Nat}
    {cu c0 : Int × Int × Int} (hcu : cheapest[r]? = some cu) (hok : SlotOk g f r c0)
    (hc0 : (∀ a b w, g.HasEdge a b w → 0 ≤ w) → 0 ≤ c0.1) :
    ScanInv g f (if cu.1 = -1 ∨ cu.1 > c0.1 then cheapest.set r c0 else cheapest) done
    ∧ ((∀ a b w, g.HasEdge a b w → 0 ≤ w) →
        ∃ c, (if cu.1 = -1 ∨ cu.1 > c0.1 then cheapest.set r c0 else cheapest)[r]? = some c
          ∧ c.1 ≠ -1 ∧ c.1 ≤ c0.1) := by
  have hr : r < cheapest.length := (List.getElem?_eq_some_iff.mp hcu).1
  by_cases hc : cu.1 = -1 ∨ cu.1 > c0.1
  · rw [if_pos hc]
    refine ⟨⟨by simp [h.len], ?_, ?_⟩, ?_⟩
    · intro r' c hc'
      rw [List.getElem?_set] at hc'
      split_ifs at hc' with h1
      · rw [← h1, ← Option.some.inj hc']; exact hok
      · exact h.sound r' c hc'
    · intro hw u v w huv hd hne r' hr'
      obtain ⟨c, h1, h2, h3⟩ := h.least hw u v w huv hd hne r' hr'
      by_cases hrr : r = r'
      · subst hrr
        rw [hcu] at h1
        have := Option.some.inj h1
        subst this
        refine ⟨c0, by rw [List.getElem?_set_self hr], ?_, ?_⟩
        · have := hc0 hw
          omega
        · omega
      · exact ⟨c, by rw [List.getElem?_set_ne hrr]; exact h1, h2, h3⟩
    · intro hw
      refine ⟨c0, by rw [List.getElem?_set_self hr], ?_, le_refl _⟩
      have := hc0 hw
      omega
  · rw [if_neg hc]
    exact ⟨h, fun _ => ⟨cu, hcu, by omega, by omega⟩⟩

theorem boruvkaEntry_spec {g : Graph} (hg : g.Undirected) {f : Nat → Nat} {uf : UnionFind}
    (hinv : UnionFind.Inv g.adjList.length uf f) {u : Nat} (hu : u < g.adjList.length)
    {e : Int × Int}
    (he : 0 ≤ e.1 ∧ e.1.toNat < g.adjList.length ∧ g.HasEdge u e.1.toNat e.2)
    {cheapest : List (Int × Int × Int)} {done : Nat → Int × Int → Prop}
    (h : ScanInv g f cheapest done) :
    ∃ uf' cheapest', boruvkaEntry u e uf cheapest = some (uf', cheapest')
      ∧ UnionFind.Inv g.adjList.length uf' f
      ∧ ScanInv g f cheapest' (fun a x => done a x ∨ (a = u ∧ x = e)) := by
  obtain ⟨v, w⟩ := e
  obtain ⟨hv0, hvn, hE⟩ := he
  simp only at hv0 hvn hE
  have hcast : ((v.toNat : Nat) : Int) = v := Int.toNat_of_nonneg hv0
  obtain ⟨uf1, h1, hinv1, -⟩ := UnionFind.find_spec hinv hu
  obtain ⟨uf2, h2, hinv2, -⟩ := UnionFind.find_spec hinv1 hvn
  unfold boruvkaEntry
  simp only [h1, h2]
  rw [if_neg (by omega)]
  by_cases hne : f u = f v.toNat
  · rw [if_neg (by simpa using hne)]
    refine ⟨uf2, cheapest, rfl, hinv2, scanInv_extend h _ ?_⟩
    intro _ a b w' _ hd hnd hab
    rcases hd with hd | ⟨hd1, hd2⟩
    · exact absurd hd hnd
    · have hb : b = v.toNat := by
        have := (Prod.mk.inj hd2).1
        omega
      rw [hd1, hb] at hab
      exact absurd hne hab
  · rw [if_pos (by simpa using hne)]
    have hfu := (hinv2.2.2 u hu).1
    have hfv := (hinv2.2.2 v.toNat hvn).1
    obtain ⟨cu, hcu⟩ : ∃ cu, cheapest[f u]? = some cu :=
      ⟨_, List.getElem?_eq_getElem (by rw [h.len]; exact hfu)⟩
    simp only [hcu]
    have hok1 : SlotOk g f (f u) (w, (u : Int), v) :=
      Or.inr ⟨u, v.toNat, rfl, hcast.symm, hE, rfl, fun h' => hne h'.symm⟩
    have hok2 : SlotOk g f (f v.toNat) (w, v, (u : Int)) :=
      Or.inr ⟨v.toNat, u, hcast.symm, rfl, Graph.hasEdge_symm hg hE, rfl, hne⟩
    obtain ⟨hs1, hl1⟩ := scanInv_update h hcu hok1 (fun hw => hw _ _ _ hE)
    simp only at hs1 hl1
    obtain ⟨cv, hcv⟩ : ∃ cv,
        (if cu.1 = -1 ∨ cu.1 > w then cheapest.set (f u) (w, (u : Int), v)
          else cheapest)[f v.toNat]? = some cv :=
      ⟨_, List.getElem?_eq_getElem (by rw [hs1.len]; exact hfv)⟩
    simp only [hcv]
    obtain ⟨hs2, hl2⟩ := scanInv_update hs1 hcv hok2 (fun hw => hw _ _ _ hE)
    simp only at hs2 hl2
    refine ⟨uf2, _, rfl, hinv2, scanInv_extend hs2 _ ?_⟩
    intro hw a b w' _ hd hnd hab r hr
    rcases hd with hd | ⟨hd1, hd2⟩
    · exact absurd hd hnd
    · have hb : b = v.toNat := by
        have := (Prod.mk.inj hd2).1
        omega
      have hw' : w' = w := (Prod.mk.inj hd2).2
      subst hd1; subst hb; subst hw'
      rcases hr with hr | hr
      · obtain ⟨c, hc1, hc2, hc3⟩ := hl1 hw
        refine ⟨c, ?_, hc2, hc3⟩
        rw [hr]
        by_cases hcv' : cv.1 = -1 ∨ cv.1 > w'
        · rw [if_pos hcv', List.getElem?_set_ne (fun h' => hne h'.symm)]; exact hc1
        · rw [if_neg hcv']; exact hc1
      · rw [hr]
        exact hl2 hw

theorem boruvkaRow_spec {g : Graph} (hg : g.Undirected) {f : Nat → Nat} {u : Nat}
    (hu : u < g.adjList.length) :
    ∀ (l : List (Int × Int)) (uf : UnionFind) (cheapest : List (Int × Int × Int))
      (done : Nat → Int × Int → Prop),
      (∀ e ∈ l, 0 ≤ e.1 ∧ e.1.toNat < g.adjList.length ∧ g.HasEdge u e.1.toNat e.2) →
      UnionFind.Inv g.adjList.length uf f → ScanInv g f cheapest done →
      ∃ uf' cheapest', boruvkaRow u l uf cheapest = some (uf', cheapest')
        ∧ UnionFind.Inv g.adjList.length uf' f
        ∧ ScanInv g f cheapest' (fun a x => done a x ∨ (a = u ∧ x ∈ l)) := by
  intro l
  induction l with
  | nil =>
    intro uf cheapest done _ hinv h
    exact ⟨uf, cheapest, rfl, hinv, scanInv_extend h _ (fun _ _ _ _ _ hd hnd => by
      rcases hd with hd | ⟨_, hd⟩
      · exact absurd hd hnd
      · simp at hd)⟩
  | cons e l ih =>
    intro uf cheapest done hl hinv h
    obtain ⟨uf1, ch1, h1, hinv1, hs1⟩ := boruvkaEntry_spec hg hinv hu
      (hl e (List.mem_cons_self _ _)) h
    obtain ⟨uf2, ch2, h2, hinv2, hs2⟩ := ih uf1 ch1 _
      (fun x hx => hl x (List.mem_cons_of_mem _ hx)) hinv1 hs1
    unfold boruvkaRow
    simp only [h1]
    refine ⟨uf2, ch2, h2, hinv2, ?_⟩
    refine { hs2 with least := ?_ }
    intro hw a b w' hab hd hne r hr
    apply hs2.least hw a b w' hab _ hne r hr
    rcases hd with hd | ⟨hd1, hd2⟩
    · exact Or.inl (Or.inl hd)
    · rcases List.mem_cons.mp hd2 with hd3 | hd3
      · exact Or.inl (Or.inr ⟨hd1, hd3⟩)
      · exact Or.inr ⟨hd1, hd3⟩

theorem boruvkaScan_spec {g : Graph} (hg : g.Undirected) {f : Nat → Nat} :
    ∀ (ls : List (List (Int × Int))) (k : Nat) (uf : UnionFind)
      (cheapest : List (Int × Int × Int)),
      (∀ i l, ls[i]? = some l → g.adjList[k + i]? = some l) →
      UnionFind.Inv g.adjList.length uf f → ScanInv g f cheapest (fun a _ => a < k) →
      ∃ uf' cheapest', boruvkaScan k ls uf cheapest = some (uf', cheapest')
        ∧ UnionFind.Inv g.adjList.length uf' f
        ∧ ScanInv g f cheapest' (fun a _ => a < k + ls.length) := by
  intro ls
  induction ls with
  | nil =>
    intro k uf cheapest _ hinv h
    exact ⟨uf, cheapest, rfl, hinv, by simpa using h⟩
  | cons l ls ih =>
    intro k uf cheapest hls hinv h
    have hl : g.adjList[k]? = some l := by simpa using hls 0 l (by simp)
    have hk : k < g.adjList.length := (List.getElem?_eq_some_iff.mp hl).1
    obtain ⟨uf1, ch1, h1, hinv1, hs1⟩ := boruvkaRow_spec hg hk l uf cheapest _
      (Graph.undirected_entries hg hl) hinv h
    have hs1' : ScanInv g f ch1 (fun a _ => a < k + 1) := by
      refine { hs1 with least := ?_ }
      intro hw a b w' hab hd hne r hr
      apply hs1.least hw a b w' hab _ hne r hr
      by_cases hak : a = k
      · right
        refine ⟨hak, ?_⟩
        subst hak
        unfold Graph.HasEdge at hab
        rw [List.getD_eq_getElem?_getD, hl] at hab
        simpa using hab
      · left
        omega
    obtain ⟨uf2, ch2, h2, hinv2, hs2⟩ := ih (k + 1) uf1 ch1
      (by
        intro i l' hi
        have := hls (i + 1) l' (by simpa using hi)
        rw [show k + 1 + i = k + (i + 1) by omega]
        exact this)
      hinv1 hs1'
    unfold boruvkaScan
    simp only [h1]
    refine ⟨uf2, ch2, h2, hinv2, ?_⟩
    rw [List.length_cons, show k + (ls.length + 1) = k + 1 + ls.length by omega]
    exact hs2

/-- The search of a round: every slot holds the initial triple or an edge that
leaves the class of its index; with weights that are not negative, the slot
of every class that an edge leaves holds a lightest such edge. -/
theorem boruvka_search {g : Graph} (hg : g.Undirected) {f : Nat → Nat} {uf : UnionFind}
    (hinv : UnionFind.Inv g.adjList.length uf f) :
    ∃ uf' cheapest,
      boruvkaScan 0 g.adjList uf (List.replicate g.adjList.length (-1, -1, -1))
        = some (uf', cheapest)
      ∧ UnionFind.Inv g.adjList.length uf' f ∧ ScanInv g f cheapest (fun _ _ => True) := by
  have h0 : ScanInv g f (List.replicate g.adjList.length (-1, -1, -1)) (fun a _ => a < 0) := by
    refine ⟨by simp, ?_, ?_⟩
    · intro r c hc
      have := List.getElem?_mem hc
      rw [List.eq_of_mem_replicate this]
      exact Or.inl rfl
    · intro _ u v w _ hd
      omega
  obtain ⟨uf', ch, h1, h2, h3⟩ := boruvkaScan_spec hg g.adjList 0 uf _
    (fun i l hi => by simpa using hi) hinv h0
  refine ⟨uf', ch, h1, h2, ?_⟩
  refine { h3 with least := ?_ }
  intro hw a b w' hab _ hne r hr
  exact h3.least hw a b w' hab (by simpa using Graph.hasEdge_lt hab) hne r hr

/-! ## Boruvka: adding the cheapest edges -/

theorem mergeInv_skip {g : Graph} {f : Nat → Nat} {A0 : List Edge}
    {cheapest : List (Int × Int × Int)} {i : Nat} {st : BoruvkaState} {merged : Bool}
    {A : List Edge} {f1 : Nat → Nat} (h : MergeInv g f A0 cheapest i st merged A f1)
    (hc : merged = false → ∀ c, cheapest[i]? = some c → c.1 = -1) :
    MergeInv g f A0 cheapest (i + 1) st merged A f1 := by
  refine { h with merged_false := ?_, single := ?_, light := ?_ }
  · intro hm
    obtain ⟨h1, h2, h3⟩ := h.merged_false hm
    refine ⟨h1, h2, fun r c hr hrc => ?_⟩
    by_cases hri : r = i
    · subst hri; exact hc hm c hrc
    · exact h3 r c (by omega) hrc
  · intro r1 r2 h1 h2
    exact h.single r1 r2 (by omega) (by omega)
  · intro hw r c hr
    exact h.light hw r c (by omega)

theorem mergeInv_uf {g : Graph} {f : Nat → Nat} {A0 : List Edge}
    {cheapest : List (Int × Int × Int)} {i : Nat} {st : BoruvkaState} {merged : Bool}
    {A : List Edge} {f1 : Nat → Nat} (h : MergeInv g f A0 cheapest i st merged A f1)
    {uf' : UnionFind} (huf : UnionFind.Inv g.adjList.length uf' f1) :
    MergeInv g f A0 cheapest i { st with uf := uf' } merged A f1 :=
  { h with inv := { h.inv with uf := huf } }

theorem slotOk_root {g : Graph} {f : Nat → Nat}
    (hidem : ∀ x, x < g.adjList.length → f (f x) = f x)
    (hfn : ∀ x, x < g.adjList.length → f x < g.adjList.length)
    {r : Nat} {c : Int × Int × Int} (h : SlotOk g f r c) (hc : c.1 ≠ -1) :
    r < g.adjList.length ∧ f r = r := by
  rcases h with h | ⟨a, b, _, _, h3, h4, _⟩
  · rw [h] at hc
    exact absurd rfl hc
  · have han := Graph.hasEdge_lt h3
    rw [← h4]
    exact ⟨hfn a han, hidem a han⟩

theorem mergeInv_join {g : Graph} (hg : g.Undirected) {f : Nat → Nat} {A0 : List Edge}
    {cheapest : List (Int × Int × Int)} {i : Nat} {st : BoruvkaState} {merged : Bool}
    {A : List Edge} {f1 : Nat → Nat} (h : MergeInv g f A0 cheapest i st merged A f1)
    (hidem : ∀ x, x < g.adjList.length → f (f x) = f x)
    (hfn : ∀ x, x < g.adjList.length → f x < g.adjList.length)
    (hsound : ∀ r c, cheapest[r]? = some c → SlotOk g f r c)
    {a b : Nat} {w : Int} (hc : cheapest[i]? = some (w, (a : Int), (b : Int)))
    (hw1 : w ≠ -1) (hE : g.HasEdge a b w) (hfa : f a = i) (hfb : f b ≠ i)
    (hne : f1 a ≠ f1 b) {uf' : UnionFind} {f2 : Nat → Nat}
    (huf : UnionFind.Inv g.adjList.length uf' f2)
    (hcls : ∀ x y, f2 x = f2 y ↔
      (f1 x = f1 y ∨ (f1 x = f1 a ∧ f1 y = f1 b) ∨ (f1 x = f1 b ∧ f1 y = f1 a))) :
    MergeInv g f A0 cheapest (i + 1)
      { uf := uf', mst := st.mst.add_edge a b w, numComponents := st.numComponents - 1,
        edgeCount := st.edgeCount + 1 } true ((a, b, w) :: A) f2 := by
  have han : a < g.adjList.length := Graph.hasEdge_lt hE
  have hbn : b < g.adjList.length := Graph.hasEdge_lt_right hg hE
  have hin : i < g.adjList.length := hfa ▸ hfn a han
  have hfi : f i = i := by rw [← hfa]; exact hidem a han
  have hai : f1 a = f1 i := h.coarser a i han hin (by rw [hfi, hfa])
  have hr : ¬ Reach A a b := fun hr => hne ((h.inv.classes a b han hbn).mpr hr)
  have hroot : ∀ r c, cheapest[r]? = some c → c.1 ≠ -1 → r < g.adjList.length ∧ f r = r :=
    fun r c hrc hc1 => slotOk_root hidem hfn (hsound r c hrc) hc1
  refine
    { inv :=
        { uf := huf
          classes := ?_
          graph := Graph.isGraphOf_add_edge h.inv.graph w han hbn hr
          forest := ⟨hr, h.inv.forest⟩
          edges := ?_
          count := ?_
          comps := ?_
          greedy := ?_ }
      coarser := fun x y hx hy hxy => (hcls x y).mpr (Or.inl (h.coarser x y hx hy hxy))
      grow := by simp only [List.length_cons]; have := h.grow; omega
      merged_true := fun _ => by simp only [List.length_cons]; have := h.grow; omega
      merged_false := fun hm => by cases hm
      single := ?_
      light := ?_ }
  · intro x y hx hy
    rw [hcls x y, reach_cons, ← h.inv.classes x y hx hy, ← h.inv.classes x a hx han,
      ← h.inv.classes b y hbn hy, ← h.inv.classes x b hx hbn, ← h.inv.classes a y han hy]
    omega
  · intro e he
    rcases List.mem_cons.mp he with he | he
    · subst he; exact ⟨han, hbn, hE⟩
    · exact h.inv.edges e he
  · show st.edgeCount + 1 = _
    rw [h.inv.count]
    simp only [List.length_cons]
    push_cast
    rfl
  · show st.numComponents - 1 = _
    rw [h.inv.comps]
    simp only [List.length_cons]
    push_cast
    ring
  · intro hw
    refine ⟨h.inv.greedy hw, fun x => x < g.adjList.length ∧ f1 x = f1 a, ⟨han, rfl⟩,
      fun hb => hne hb.2.symm, ?_, ?_⟩
    · intro e he
      obtain ⟨h1, h2, -⟩ := h.inv.edges e he
      have h3 : f1 e.1 = f1 e.2.1 := (h.inv.classes _ _ h1 h2).mpr (reach_edge he)
      exact ⟨fun hx => ⟨h2, h3 ▸ hx.2⟩, fun hy => ⟨h1, h3.symm ▸ hy.2⟩⟩
    · intro x y w' hxy hx hy
      have hyn := Graph.hasEdge_lt_right hg hxy
      have hfxy : f x ≠ f y := by
        intro hfxy
        exact hy ⟨hyn, (h.coarser x y hx.1 hyn hfxy) ▸ hx.2⟩
      exact h.light hw i _ (Nat.le_refl _) hin hc hw1 x y w' hxy (hx.2.trans hai) hfxy
  · intro r1 r2 h1 h2 hn1 hn2 hf1 hf2 h12
    rcases (hcls r1 r2).mp h12 with h3 | ⟨h3, h4⟩ | ⟨h3, h4⟩
    · exact h.single r1 r2 (by omega) (by omega) hn1 hn2 hf1 hf2 h3
    · have := h.single r1 i (by omega) (Nat.le_refl _) hn1 hin hf1 hfi (h3.trans hai)
      omega
    · have := h.single r2 i (by omega) (Nat.le_refl _) hn2 hin hf2 hfi (h4.trans hai)
      omega
  · intro hw r c hr hrn hrc hc1 x y w' hxy hxr hfxy
    rcases (hcls x r).mp hxr with h3 | ⟨h3, h4⟩ | ⟨h3, h4⟩
    · exact h.light hw r c (by omega) hrn hrc hc1 x y w' hxy h3 hfxy
    · have h5 := h.light hw i _ (Nat.le_refl _) hin hc hw1 x y w' hxy (h3.trans hai) hfxy
      have h6 := h.light hw r c (by omega) hrn hrc hc1 b a w (Graph.hasEdge_symm hg hE)
        h4.symm (fun e => hfb (e.trans hfa))
      simp only at h5
      omega
    · have := h.single r i (by omega) (Nat.le_refl _) hrn hin (hroot r c hrc hc1).2 hfi
        (h4.trans hai)
      omega

/-- The loop that adds the cheapest edges, from slot `i` on. -/
theorem boruvkaMerge_spec {g : Graph} (hg : g.Undirected) {f : Nat → Nat} {A0 : List Edge}
    {cheapest : List (Int × Int × Int)}
    (hidem : ∀ x, x < g.adjList.length → f (f x) = f x)
    (hfn : ∀ x, x < g.adjList.length → f x < g.adjList.length)
    (hsound : ∀ r c, cheapest[r]? = some c → SlotOk g f r c) :
    ∀ (rest : List (Int × Int × Int)) (i : Nat) (st : BoruvkaState) (merged : Bool)
      (A : List Edge) (f1 : Nat → Nat),
      (∀ j c, rest[j]? = some c → cheapest[i + j]? = some c) →
      MergeInv g f A0 cheapest i st merged A f1 →
      ∃ st' merged' A' f1', boruvkaMerge rest st merged = some (st', merged')
        ∧ MergeInv g f A0 cheapest (i + rest.length) st' merged' A' f1' := by
  intro rest
  induction rest with
  | nil =>
    intro i st merged A f1 _ h
    exact ⟨st, merged, A, f1, rfl, h⟩
  | cons c rest ih =>
    intro i st merged A f1 hrest h
    have hc : cheapest[i]? = some c := by simpa using hrest 0 c (by simp)
    have hrest' : ∀ j c', rest[j]? = some c' → cheapest[i + 1 + j]? = some c' := by
      intro j c' hj
      have := hrest (j + 1) c' (by simpa using hj)
      rw [show i + 1 + j = i + (j + 1) by omega]
      exact this
    rw [List.length_cons, show i + (rest.length + 1) = i + 1 + rest.length by omega]
    obtain ⟨w, u, v⟩ := c
    unfold boruvkaMerge
    by_cases hw1 : w = -1
    · rw [if_neg (by simpa using hw1)]
      exact ih (i + 1) st merged A f1 hrest'
        (mergeInv_skip h (fun _ c' hc' => by
          rw [hc] at hc'
          rw [← Option.some.inj hc']
          exact hw1))
    · rw [if_pos hw1]
      rcases hsound i _ hc with hs | ⟨a, b, h1, h2, hE, hfa, hfb⟩
      · exact absurd (Prod.mk.inj hs).1 hw1
      · simp only at h1 h2 hE
        subst h1; subst h2
        have han : a < g.adjList.length := Graph.hasEdge_lt hE
        have hbn : b < g.adjList.length := Graph.hasEdge_lt_right hg hE
        rw [if_neg (by omega)]
        simp only [Int.toNat_ofNat]
        by_cases hsame : f1 a = f1 b
        · obtain ⟨uf', hun, hinv'⟩ := UnionFind.unionSets_same h.inv.uf han hbn hsame
          rw [hun]
          simp only
          have hm : merged = true := by
            by_contra hm
            have hm' : merged = false := by simpa using hm
            have := (h.merged_false hm').2.1 a b han hbn hsame
            exact hfb (this ▸ hfa)
          exact ih (i + 1) _ merged A f1 hrest'
            (mergeInv_skip (mergeInv_uf h hinv') (fun hm' => by rw [hm] at hm'; cases hm'))
        · obtain ⟨uf', f2, hun, hinv', hcls⟩ :=
            UnionFind.unionSets_join h.inv.uf han hbn hsame
          rw [hun]
          simp only
          exact ih (i + 1) _ true _ f2 hrest'
            (mergeInv_join hg h hidem hfn hsound hc hw1 hE hfa hfb hsame hinv' hcls)

/-! ## Boruvka: the rounds -/

theorem boruvkaInv_init (g : Graph) :
    BoruvkaInv g
      { uf := UnionFind.new g.adjList.length, mst := Graph.new g.adjList.length,
        numComponents := g.adjList.length, edgeCount := 0 } [] id :=
  { uf := UnionFind.inv_new _
    classes := fun x y _ _ => by rw [reach_nil]; rfl
    graph := Graph.isGraphOf_new _
    forest := trivial
    edges := fun e he => by simp at he
    count := rfl
    comps := by simp
    greedy := fun _ => trivial }

/-- One round of Boruvka: the search, then the loop that adds the edges. -/
theorem boruvka_round {g : Graph} (hg : g.Undirected) {st : BoruvkaState} {A : List Edge}
    {f : Nat → Nat} (h : BoruvkaInv g st A f) :
    ∃ uf1 cheapest st1 merged A' f',
      boruvkaScan 0 g.adjList st.uf (List.replicate g.adjList.length (-1, -1, -1))
        = some (uf1, cheapest)
      ∧ boruvkaMerge cheapest { st with uf := uf1 } false = some (st1, merged)
      ∧ BoruvkaInv g st1 A' f'
      ∧ (merged = true → A.length < A'.length)
      ∧ (merged = false → A' = A
          ∧ ((∀ a b w, g.HasEdge a b w → 0 ≤ w) → ∀ p q w, g.HasEdge p q w → Reach A p q)) := by
  obtain ⟨uf1, cheapest, hscan, hinv1, hs⟩ := boruvka_search hg h.uf
  have hidem : ∀ x, x < g.adjList.length → f (f x) = f x := fun x hx => hinv1.idem hx
  have hfn : ∀ x, x < g.adjList.length → f x < g.adjList.length :=
    fun x hx => (hinv1.2.2 x hx).1
  have h0 : MergeInv g f A cheapest 0 { st with uf := uf1 } false A f :=
    { inv := { h with uf := hinv1 }
      coarser := fun _ _ _ _ hxy => hxy
      grow := Nat.le_refl _
      merged_true := fun hm => by cases hm
      merged_false := fun _ => ⟨rfl, fun _ _ _ _ hxy => hxy, fun r c hr => by omega⟩
      single := fun r1 r2 _ _ _ _ h1 h2 h12 => by rw [← h1, ← h2]; rw [h1, h2]; omega
      light := by
        intro hw r c _ _ hrc hc1 x y w' hxy hxr hfxy
        obtain ⟨c2, h1, h2, h3⟩ := hs.least hw x y w' hxy trivial hfxy (f x) (Or.inl rfl)
        have hroot := (slotOk_root hidem hfn (hs.sound r c hrc) hc1).2
        rw [hxr, hroot, hrc] at h1
        rw [Option.some.inj h1]
        exact h3 }
  obtain ⟨st1, merged, A', f', hm, hfin⟩ := boruvkaMerge_spec hg hidem hfn hs.sound cheapest 0
    _ false A f (fun j c hj => by simpa using hj) h0
  refine ⟨uf1, cheapest, st1, merged, A', f', hscan, hm, hfin.inv, hfin.merged_true, ?_⟩
  intro hmf
  obtain ⟨h1, -, h3⟩ := hfin.merged_false hmf
  refine ⟨h1, fun hw p q w hpq => ?_⟩
  have hpn := Graph.hasEdge_lt hpq
  have hqn := Graph.hasEdge_lt_right hg hpq
  apply (h.classes p q hpn hqn).mp
  by_contra hne
  obtain ⟨c, hc1, hc2, -⟩ := hs.least hw p q w hpq trivial hne (f p) (Or.inl rfl)
  exact hc2 (h3 (f p) c (by rw [Nat.zero_add, hs.len]; exact hfn p hpn) hc1)

open Classical in
theorem boruvkaInv_length {g : Graph} {st : BoruvkaState} {A : List Edge} {f : Nat → Nat}
    (h : BoruvkaInv g st A f) (hn : 0 < g.adjList.length) :
    A.length + 1 ≤ g.adjList.length := by
  have h1 := classCount_forest (fun e he => ⟨(h.edges e he).1, (h.edges e he).2.1⟩) h.forest
  have h2 := classCount_pos A hn
  omega

open Classical in
theorem boruvkaLoop_connected {g : Graph} (hg : g.Undirected) (hc : g.Connected)
    (hn : 0 < g.adjList.length) (hw : ∀ a b w, g.HasEdge a b w → 0 ≤ w) :
    ∀ (fuel : Nat) (st : BoruvkaState) (A : List Edge) (f : Nat → Nat),
      BoruvkaInv g st A f → g.adjList.length < fuel + A.length →
      ∃ st' A' f', boruvkaLoop g fuel st = some st'.mst ∧ BoruvkaInv g st' A' f'
        ∧ A'.length + 1 = g.adjList.length := by
  intro fuel
  induction fuel with
  | zero =>
    intro st A f h hfuel
    have := boruvkaInv_length h hn
    omega
  | succ fuel ih =>
    intro st A f h hfuel
    have hlen := boruvkaInv_length h hn
    unfold boruvkaLoop
    by_cases hcomp : st.numComponents > 1
    · rw [if_pos hcomp]
      obtain ⟨uf1, cheapest, st1, merged, A', f', h1, h2, h3, h4, h5⟩ := boruvka_round hg h
      simp only [h1, h2]
      have hm : merged = true := by
        by_contra hm
        have hm' : merged = false := by simpa using hm
        obtain ⟨-, h6⟩ := h5 hm'
        have hreach : ∀ u v, u < g.adjList.length → v < g.adjList.length → Reach A u v :=
          fun u v hu hv => eqvGen_of_rel (fun a b ⟨w, hab⟩ => h6 hw a b w hab) (hc u v hu hv)
        have h7 := classCount_le_one hreach
        have h8 := classCount_forest
          (fun e he => ⟨(h.edges e he).1, (h.edges e he).2.1⟩) h.forest
        have h9 := h.comps
        omega
      rw [if_neg (by rw [hm]; simp)]
      exact ih st1 A' f' h3 (by have := h4 hm; omega)
    · rw [if_neg hcomp]
      have h9 := h.comps
      have h10 := h.count
      rw [if_neg (by omega)]
      exact ⟨st, A, f, rfl, h, by omega⟩

theorem boruvkaLoop_disconnected {g : Graph} (hg : g.Undirected) (hc : ¬ g.Connected) :
    ∀ (fuel : Nat) (st : BoruvkaState) (A : List Edge) (f : Nat → Nat),
      BoruvkaInv g st A f → g.adjList.length < fuel + A.length →
      boruvkaLoop g fuel st = some (Graph.new 0) := by
  intro fuel
  induction fuel with
  | zero =>
    intro st A f h hfuel
    have := forest_of_disconnected hc h.forest h.edges
    omega
  | succ fuel ih =>
    intro st A f h hfuel
    have hlen := forest_of_disconnected hc h.forest h.edges
    have h9 := h.comps
    unfold boruvkaLoop
    rw [if_pos (by omega)]
    obtain ⟨uf1, cheapest, st1, merged, A', f', h1, h2, h3, h4, h5⟩ := boruvka_round hg h
    simp only [h1, h2]
    have hlen' := forest_of_disconnected hc h3.forest h3.edges
    have h9' := h3.comps
    cases merged with
    | false => rw [if_pos ⟨rfl, by omega⟩]
    | true =>
      rw [if_neg (by simp)]
      exact ih st1 A' f' h3 (by have := h4 rfl; omega)

open Classical in
theorem boruvka_connected {g : Graph} (hg : g.Undirected) (hc : g.Connected)
    (hn : 1 ≤ g.adjList.length) (hw : ∀ a b w, g.HasEdge a b w → 0 ≤ w) :
    ∃ mst, BoruvkaSolver.solveMST g = some mst ∧ mst.IsMinSpanningTreeOf g := by
  obtain ⟨st, A, f, h1, h2, h3⟩ := boruvkaLoop_connected hg hc hn hw (g.adjList.length + 1) _ []
    id (boruvkaInv_init g) (by simp)
  refine ⟨st.mst, h1, ?_⟩
  have h4 := classCount_forest (fun e he => ⟨(h2.edges e he).1, (h2.edges e he).2.1⟩) h2.forest
  have hreach := reach_of_classCount_le_one (n := g.adjList.length) (E := A) (by omega)
  exact (Graph.isMinSpanningTreeOf hg hc hn h2.graph h2.forest h2.edges
    (cutGreedy_light hg (fun e he => (h2.edges e he).2.2) (h2.greedy hw) hreach)).2

theorem boruvka_disconnected {g : Graph} (hg : g.Undirected) (hc : ¬ g.Connected) :
    BoruvkaSolver.solveMST g = some (Graph.new 0) :=
  boruvkaLoop_disconnected hg hc (g.adjList.length + 1) _ [] id (boruvkaInv_init g) (by simp)

theorem boruvka_connected_lists (g : Graph) (hg : g.Undirected) (hc : g.Connected)
    (hn : 1 ≤ g.adjList.length) (hw : ∀ l ∈ g.adjList, ∀ e ∈ l, 0 ≤ e.2) :
    ∃ mst, BoruvkaSolver.solveMST g = some mst ∧ mst.IsMinSpanningTreeOf g :=
  boruvka_connected hg hc hn fun _ _ _ h =>
    let ⟨l, hl, he⟩ := Graph.hasEdge_mem h
    hw l hl _ he

/-- C17 (Boruvka): for every connected undirected graph `g` on at least one
vertex whose weights are not negative, equal weights allowed,
`BoruvkaSolver::solveMST` terminates and returns a graph on the same vertices
with one edge less than vertices, each entry an entry of `g` with its weight,
that joins all the vertices and whose total weight is at most that of every
spanning tree of `g`. -/
theorem C17_boruvka (g : Graph) (hg : g.Undirected) (hc : g.Connected)
    (hn : 1 ≤ g.adjList.length) (hw : ∀ l ∈ g.adjList, ∀ e ∈ l, 0 ≤ e.2) :
    ∃ mst, BoruvkaSolver.solveMST g = some mst ∧ mst.IsMinSpanningTreeOf g :=
  boruvka_connected hg hc hn fun _ _ _ h =>
    let ⟨l, hl, he⟩ := Graph.hasEdge_mem h
    hw l hl _ he

/-- Witness of C17: the 3-vertex graph of the tests. -/
theorem C17_boruvka_witness :
    ∃ mst, BoruvkaSolver.solveMST test3 = some mst ∧ mst.IsMinSpanningTreeOf test3 :=
  C17_boruvka test3 (by decide) test3_connected (by decide) (by decide)

theorem testDisconnected_not_connected : ¬ testDisconnected.Connected := by
  intro h
  have hadj : testDisconnected.adjList
      = [[(1, 6)], [(0, 6)], [(3, 2)], [(2, 2)], [(5, 8)], [(4, 8)]] := by decide
  have hside : ∀ a b, (∃ w, testDisconnected.HasEdge a b w) → (a < 2 ↔ b < 2) := by
    rintro a b ⟨w, hab⟩
    have ha : a < 6 := by
      have := Graph.hasEdge_lt hab
      rw [hadj] at this
      exact this
    unfold Graph.HasEdge at hab
    rw [hadj] at hab
    interval_cases a <;> simp at hab <;> omega
  have := (eqvGen_side (fun x => x < 2) hside (h 0 2 (by decide) (by decide))).mp (by decide)
  omega

/-- C19 (no MST for a disconnected graph): for every undirected graph on at
least two vertices that is not connected, each of the five solvers returns
the graph without vertices, which `compareGraphs` finds equal to `Graph(0)`. -/
theorem C19_disconnected (g : Graph) (hg : g.Undirected) (hn : 2 ≤ g.adjList.length)
    (hc : ¬ g.Connected) :
    PrimSolver.solveMST g = some (Graph.new 0)
    ∧ KruskalSolver.solveMST g = some (Graph.new 0)
    ∧ BoruvkaSolver.solveMST g = some (Graph.new 0)
    ∧ TarjanSolver.solveMST g = some (Graph.new 0)
    ∧ IntegerMSTSolver.solveMST g = some (Graph.new 0)
    ∧ (Graph.new 0).adjList = []
    ∧ (Graph.new 0).compareGraphs (Graph.new 0) = true :=
  ⟨prim_disconnected hg hc (by omega), kruskal_disconnected hg hc,
    boruvka_disconnected hg hc, kruskal_disconnected hg hc,
    prim_disconnected hg hc (by omega), rfl,
    (Graph.compareGraphs_iff _ _).mpr ⟨rfl, List.Forall₂.nil⟩⟩

/-- Witness of C19: the disconnected 6-vertex graph of the tests. -/
theorem C19_disconnected_witness :
    PrimSolver.solveMST testDisconnected = some (Graph.new 0)
    ∧ KruskalSolver.solveMST testDisconnected = some (Graph.new 0)
    ∧ BoruvkaSolver.solveMST testDisconnected = some (Graph.new 0)
    ∧ TarjanSolver.solveMST testDisconnected = some (Graph.new 0)
    ∧ IntegerMSTSolver.solveMST testDisconnected = some (Graph.new 0)
    ∧ (Graph.new 0).adjList = []
    ∧ (Graph.new 0).compareGraphs (Graph.new 0) = true :=
  C19_disconnected testDisconnected (by decide) (by decide) testDisconnected_not_connected

theorem list_absSum_le (B : Nat) (rows : List (List (Int × Int)))
    (h : ∀ l ∈ rows, ∀ e ∈ l, e.2.natAbs ≤ B) :
    (rows.map fun l => (l.map fun e => e.2.natAbs).sum).sum
      ≤ (rows.map List.length).sum * B := by
  have row : ∀ l : List (Int × Int), (∀ e ∈ l, e.2.natAbs ≤ B) →
      (l.map fun e => e.2.natAbs).sum ≤ l.length * B := by
    intro l
    induction l with
    | nil => intro _; simp
    | cons e l ih =>
      intro hl
      simp only [List.map_cons, List.sum_cons, List.length_cons]
      have h1 := hl e (List.mem_cons_self _ _)
      have h2 := ih (fun e he => hl e (List.mem_cons_of_mem _ he))
      rw [Nat.add_mul]
      omega
  induction rows with
  | nil => simp
  | cons l ls ih =>
    simp only [List.map_cons, List.sum_cons]
    have h1 := row l (h l (List.mem_cons_self _ _))
    have h2 := ih (fun l hl => h l (List.mem_cons_of_mem _ hl))
    rw [Nat.add_mul]
    omega

theorem Graph.absWeightSum_le (g : Graph) (B : Nat)
    (h : ∀ l ∈ g.adjList, ∀ e ∈ l, e.2.natAbs ≤ B) :
    g.absWeightSum ≤ (g.adjList.map List.length).sum * B :=
  list_absSum_le B g.adjList h

/-- The `double` total of a lightest spanning tree of a graph of at most 2^21
vertices with weights from 0 to `INT_MAX` is its weight: no sum is rounded. -/
theorem Graph.IsMinSpanningTreeOf.getTotalWeight_eq {g mst : Graph}
    (h : mst.IsMinSpanningTreeOf g) (hn : g.adjList.length ≤ 2 ^ 21)
    (hw : ∀ l ∈ g.adjList, ∀ e ∈ l, 0 ≤ e.2 ∧ e.2 < INT_MAX) :
    mst.getTotalWeight = mst.edgeWeight := by
  apply Graph.getTotalWeight_exact
  have hb : ∀ l ∈ mst.adjList, ∀ e ∈ l, e.2.natAbs ≤ 2 ^ 31 := by
    intro l hl e he
    obtain ⟨u, hu, rfl⟩ := List.getElem_of_mem hl
    have hrow : mst.adjList.getD u [] = mst.adjList[u] := by
      rw [List.getD_eq_getElem?_getD, List.getElem?_eq_getElem hu]
      rfl
    rw [← hrow] at he
    have h0 := (h.2.1 u hu e he).1
    have he2 : mst.HasEdge u e.1.toNat e.2 := by
      show (((e.1.toNat : Nat) : Int), e.2) ∈ mst.adjList.getD u []
      rw [Int.toNat_of_nonneg h0]
      exact he
    have hg := h.2.2.2.2.1 _ _ _ he2
    have hug : u < g.adjList.length := h.1 ▸ hu
    have hrowg : g.adjList.getD u [] = g.adjList[u] := by
      rw [List.getD_eq_getElem?_getD, List.getElem?_eq_getElem hug]
      rfl
    have hmem : g.adjList.getD u [] ∈ g.adjList := by
      rw [hrowg]
      exact List.getElem_mem _
    have := hw _ hmem _ hg
    simp only [INT_MAX] at this
    omega
  have h1 := Graph.absWeightSum_le mst (2 ^ 31) hb
  rw [h.2.2.1] at h1
  have h2 : 2 * (g.adjList.length - 1) * 2 ^ 31 ≤ 2 ^ 53 := by omega
  omega

/-- Where the five solvers agree: on a connected undirected graph of at most
2^21 vertices whose weights are not negative and below `INT_MAX`, all five
return a graph, and the five graphs have the same `getTotalWeight()`. -/
theorem solvers_agree (g : Graph) (hg : g.Undirected) (hc : g.Connected)
    (hn : 1 ≤ g.adjList.length) (hb : g.adjList.length ≤ 2 ^ 21)
    (hw : ∀ l ∈ g.adjList, ∀ e ∈ l, 0 ≤ e.2 ∧ e.2 < INT_MAX) :
    ∃ t : ℚ, (PrimSolver.solveMST g).map Graph.getTotalWeight = some t
      ∧ (KruskalSolver.solveMST g).map Graph.getTotalWeight = some t
      ∧ (BoruvkaSolver.solveMST g).map Graph.getTotalWeight = some t
      ∧ (TarjanSolver.solveMST g).map Graph.getTotalWeight = some t
      ∧ (IntegerMSTSolver.solveMST g).map Graph.getTotalWeight = some t := by
  obtain ⟨mk, hk1, hk2⟩ := kruskal_connected hg hc hn
  obtain ⟨mp, hp1, hp2⟩ := prim_connected_lists g hg hc hn (fun l hl e he => (hw l hl e he).2)
  obtain ⟨mb, hb1, hb2⟩ := boruvka_connected_lists g hg hc hn (fun l hl e he => (hw l hl e he).1)
  have ht : TarjanSolver.solveMST g = some mk := hk1
  have hi : IntegerMSTSolver.solveMST g = some mp := hp1
  have ek := hk2.getTotalWeight_eq hb hw
  have ep := hp2.getTotalWeight_eq hb hw
  have eb := hb2.getTotalWeight_eq hb hw
  refine ⟨mk.edgeWeight, ?_, ?_, ?_, ?_, ?_⟩
  · rw [hp1, Option.map_some', ep, hp2.weight_eq hk2]
  · rw [hk1, Option.map_some', ek]
  · rw [hb1, Option.map_some', eb, hb2.weight_eq hk2]
  · rw [ht, Option.map_some', ek]
  · rw [hi, Option.map_some', ep, hp2.weight_eq hk2]

set_option maxRecDepth 100000 in
/-- C18 fails: on the connected graph with the single edge 0-1 of weight -1,
Boruvka returns the graph without vertices, of total weight 0, and the four
other solvers the edge, of total weight -1; on the connected graph with the
single edge 0-1 of weight `INT_MAX`, Prim and IntegerMST return the graph
without vertices and the three other solvers the edge.  On the graph of the
test all five return a graph of total weight 15, and on every connected
undirected graph of at most 2^21 vertices whose weights are not negative and
below `INT_MAX` the five solvers return graphs of the same total weight. -/
theorem C18_solvers_disagree :
    (minusOneGraph.Undirected ∧ minusOneGraph.Connected
      ∧ (BoruvkaSolver.solveMST minusOneGraph).map Graph.getTotalWeight = some 0
      ∧ (KruskalSolver.solveMST minusOneGraph).map Graph.getTotalWeight = some (-1)
      ∧ (PrimSolver.solveMST minusOneGraph).map Graph.getTotalWeight = some (-1)
      ∧ (TarjanSolver.solveMST minusOneGraph).map Graph.getTotalWeight = some (-1)
      ∧ (IntegerMSTSolver.solveMST minusOneGraph).map Graph.getTotalWeight = some (-1))
    ∧ (intMaxGraph.Undirected ∧ intMaxGraph.Connected
      ∧ (PrimSolver.solveMST intMaxGraph).map Graph.getTotalWeight = some 0
      ∧ (IntegerMSTSolver.solveMST intMaxGraph).map Graph.getTotalWeight = some 0
      ∧ (KruskalSolver.solveMST intMaxGraph).map Graph.getTotalWeight = some 2147483647
      ∧ (TarjanSolver.solveMST intMaxGraph).map Graph.getTotalWeight = some 2147483647
      ∧ (BoruvkaSolver.solveMST intMaxGraph).map Graph.getTotalWeight = some 2147483647)
    ∧ ((PrimSolver.solveMST testWeight).map Graph.getTotalWeight = some 15
      ∧ (KruskalSolver.solveMST testWeight).map Graph.getTotalWeight = some 15
      ∧ (BoruvkaSolver.solveMST testWeight).map Graph.getTotalWeight = some 15
      ∧ (TarjanSolver.solveMST testWeight).map Graph.getTotalWeight = some 15
      ∧ (IntegerMSTSolver.solveMST testWeight).map Graph.getTotalWeight = some 15)
    ∧ (∀ g : Graph, g.Undirected → g.Connected → 1 ≤ g.adjList.length →
        g.adjList.length ≤ 2 ^ 21 →
        (∀ l ∈ g.adjList, ∀ e ∈ l, 0 ≤ e.2 ∧ e.2 < INT_MAX) →
        ∃ t : ℚ, (PrimSolver.solveMST g).map Graph.getTotalWeight = some t
          ∧ (KruskalSolver.solveMST g).map Graph.getTotalWeight = some t
          ∧ (BoruvkaSolver.solveMST g).map Graph.getTotalWeight = some t
          ∧ (TarjanSolver.solveMST g).map Graph.getTotalWeight = some t
          ∧ (IntegerMSTSolver.solveMST g).map Graph.getTotalWeight = some t) := by
  have p3 : PrimSolver.solveMST testWeight
      = some ⟨[[(2, 5)], [(2, 7)], [(1, 7), (0, 5), (3, 3)], [(2, 3)]]⟩ := by decide
  have k3 : KruskalSolver.solveMST testWeight
      = some ⟨[[(2, 5)], [(2, 7)], [(3, 3), (0, 5), (1, 7)], [(2, 3)]]⟩ := by decide
  have b3 : BoruvkaSolver.solveMST testWeight
      = some ⟨[[(2, 5)], [(2, 7)], [(0, 5), (1, 7), (3, 3)], [(2, 3)]]⟩ := by decide
  have t3 : TarjanSolver.solveMST testWeight
      = some ⟨[[(2, 5)], [(2, 7)], [(3, 3), (0, 5), (1, 7)], [(2, 3)]]⟩ := by decide
  have i3 : IntegerMSTSolver.solveMST testWeight
      = some ⟨[[(2, 5)], [(2, 7)], [(1, 7), (0, 5), (3, 3)], [(2, 3)]]⟩ := by decide
  have b1 : BoruvkaSolver.solveMST minusOneGraph = some (Graph.new 0) := by decide
  have k1 : KruskalSolver.solveMST minusOneGraph = some ⟨[[(1, -1)], [(0, -1)]]⟩ := by decide
  have p1 : PrimSolver.solveMST minusOneGraph = some ⟨[[(1, -1)], [(0, -1)]]⟩ := by decide
  have t1 : TarjanSolver.solveMST minusOneGraph = some ⟨[[(1, -1)], [(0, -1)]]⟩ := by decide
  have i1 : IntegerMSTSolver.solveMST minusOneGraph = some ⟨[[(1, -1)], [(0, -1)]]⟩ := by
    decide
  have p2 : PrimSolver.solveMST intMaxGraph = some (Graph.new 0) := by decide
  have i2 : IntegerMSTSolver.solveMST intMaxGraph = some (Graph.new 0) := by decide
  have k2 : KruskalSolver.solveMST intMaxGraph
      = some ⟨[[(1, 2147483647)], [(0, 2147483647)]]⟩ := by decide
  have t2 : TarjanSolver.solveMST intMaxGraph
      = some ⟨[[(1, 2147483647)], [(0, 2147483647)]]⟩ := by decide
  have b2 : BoruvkaSolver.solveMST intMaxGraph
      = some ⟨[[(1, 2147483647)], [(0, 2147483647)]]⟩ := by decide
  refine ⟨⟨by decide, minusOneGraph_connected, ?_, ?_, ?_, ?_, ?_⟩,
    ⟨by decide, intMaxGraph_connected, ?_, ?_, ?_, ?_, ?_⟩, ⟨?_, ?_, ?_, ?_, ?_⟩,
    solvers_agree⟩
  · rw [b1, Option.map_some', getTotalWeight_new_zero]
  · rw [k1, Option.map_some', getTotalWeight_pair _ (by decide)]; norm_num
  · rw [p1, Option.map_some', getTotalWeight_pair _ (by decide)]; norm_num
  · rw [t1, Option.map_some', getTotalWeight_pair _ (by decide)]; norm_num
  · rw [i1, Option.map_some', getTotalWeight_pair _ (by decide)]; norm_num
  · rw [p2, Option.map_some', getTotalWeight_new_zero]
  · rw [i2, Option.map_some', getTotalWeight_new_zero]
  · rw [k2, Option.map_some', getTotalWeight_pair _ (by decide)]; norm_num
  · rw [t2, Option.map_some', getTotalWeight_pair _ (by decide)]; norm_num
  · rw [b2, Option.map_some', getTotalWeight_pair _ (by decide)]; norm_num
  · rw [p3, Option.map_some', Graph.getTotalWeight_exact _ (by decide)]
    norm_num [Graph.edgeWeight, Graph.weightSum]
  · rw [k3, Option.map_some', Graph.getTotalWeight_exact _ (by decide)]
    norm_num [Graph.edgeWeight, Graph.weightSum]
  · rw [b3, Option.map_some', Graph.getTotalWeight_exact _ (by decide)]
    norm_num [Graph.edgeWeight, Graph.weightSum]
  · rw [t3, Option.map_some', Graph.getTotalWeight_exact _ (by decide)]
    norm_num [Graph.edgeWeight, Graph.weightSum]
  · rw [i3, Option.map_some', Graph.getTotalWeight_exact _ (by decide)]
    norm_num [Graph.edgeWeight, Graph.weightSum]

/-! ## The operations on the adjacency lists -/

namespace Graph

theorem isValidVertex_iff (g : Graph) (x : Int) :
    g.isValidVertex x = true ↔ 0 ≤ x ∧ x < g.getNumVertices := by
  simp [isValidVertex, getNumVertices]

theorem isValidVertex_cast (g : Graph) (u : Nat) (hu : u < g.adjList.length) :
    g.isValidVertex (u : Int) = true := by
  rw [isValidVertex_iff]
  exact ⟨Int.ofNat_nonneg u, by simp [getNumVertices, hu]⟩

/-- The list of `x` after two changes in a row, of the list of `i` and of the
list of `j`. -/
theorem getD_modify_modify (f1 f2 : List (Int × Int) → List (Int × Int)) (i j x : Nat)
    (l : List (List (Int × Int))) (hi : i < l.length) (hj : j < l.length) :
    ((l.modify f1 i).modify f2 j).getD x [] =
      if j = x then f2 (if i = x then f1 (l.getD x []) else l.getD x [])
      else if i = x then f1 (l.getD x []) else l.getD x [] := by
  rw [getD_modify f2 j x _ (by rw [List.length_modify]; exact hj), getD_modify f1 i x l hi]

theorem row_add_edge (g : Graph) (u v : Nat) (w : Int) (hu : u < g.adjList.length)
    (hv : v < g.adjList.length) (huv : u ≠ v) (x : Nat) :
    (g.add_edge u v w).adjList.getD x [] =
      if x = u then eraseFirst v (g.adjList.getD u []) ++ [((v : Int), w)]
      else if x = v then eraseFirst u (g.adjList.getD v []) ++ [((u : Int), w)]
      else g.adjList.getD x [] := by
  unfold add_edge
  rw [isValidVertex_cast g u hu, isValidVertex_cast g v hv]
  simp only [Bool.and_self, if_true, Int.toNat_ofNat]
  rw [getD_modify_modify _ _ u v x _ (by simp [List.length_modify, hu])
    (by simp [List.length_modify, hv]), getD_modify_modify _ _ u v x _ hu hv]
  by_cases h1 : x = u
  · subst h1
    simp [huv, Ne.symm huv]
  · by_cases h2 : x = v
    · subst h2
      simp [huv, Ne.symm huv]
    · simp [h1, h2, Ne.symm h1, Ne.symm h2]

theorem row_add_edge_self (g : Graph) (u : Nat) (w : Int) (hu : u < g.adjList.length)
    (x : Nat) :
    (g.add_edge u u w).adjList.getD x [] =
      if x = u then
        eraseFirst u (eraseFirst u (g.adjList.getD u [])) ++ [((u : Int), w)] ++ [((u : Int), w)]
      else g.adjList.getD x [] := by
  unfold add_edge
  rw [isValidVertex_cast g u hu]
  simp only [Bool.and_self, if_true, Int.toNat_ofNat]
  rw [getD_modify_modify _ _ u u x _ (by simp [List.length_modify, hu])
    (by simp [List.length_modify, hu]), getD_modify_modify _ _ u u x _ hu hu]
  by_cases h1 : x = u
  · subst h1
    simp
  · simp [h1, Ne.symm h1]

theorem row_remove_edge (g : Graph) (u v : Nat) (hu : u < g.adjList.length)
    (hv : v < g.adjList.length) (x : Nat) :
    (g.remove_edge u v).adjList.getD x [] =
      if v = x then eraseFirst u (if u = x then eraseFirst v (g.adjList.getD x [])
        else g.adjList.getD x [])
      else if u = x then eraseFirst v (g.adjList.getD x []) else g.adjList.getD x [] := by
  unfold remove_edge
  rw [isValidVertex_cast g u hu, isValidVertex_cast g v hv]
  simp only [Bool.and_self, if_true, Int.toNat_ofNat]
  rw [getD_modify_modify _ _ u v x _ hu hv]

theorem row_changeEdgeWeight (g : Graph) (u v : Nat) (w : Int) (hu : u < g.adjList.length)
    (hv : v < g.adjList.length) (x : Nat) :
    (g.changeEdgeWeight u v w).adjList.getD x [] =
      if v = x then setWeight u w (if u = x then setWeight v w (g.adjList.getD x [])
        else g.adjList.getD x [])
      else if u = x then setWeight v w (g.adjList.getD x []) else g.adjList.getD x [] := by
  unfold changeEdgeWeight
  rw [isValidVertex_cast g u hu, isValidVertex_cast g v hv]
  simp only [Bool.and_self, if_true, Int.toNat_ofNat]
  rw [getD_modify_modify _ _ u v x _ hu hv]

theorem length_add_edge (g : Graph) (u v w : Int) :
    (g.add_edge u v w).adjList.length = g.adjList.length := by
  unfold add_edge
  split_ifs <;> simp [List.length_modify]

theorem length_remove_edge (g : Graph) (u v : Int) :
    (g.remove_edge u v).adjList.length = g.adjList.length := by
  unfold remove_edge
  split_ifs <;> simp [List.length_modify]

theorem length_changeEdgeWeight (g : Graph) (u v w : Int) :
    (g.changeEdgeWeight u v w).adjList.length = g.adjList.length := by
  unfold changeEdgeWeight
  split_ifs <;> simp [List.length_modify]

theorem length_runOps (n : Nat) (ops : List Op) : (runOps n ops).adjList.length = n := by
  unfold runOps
  induction ops using List.reverseRecOn with
  | nil => simp [Graph.new]
  | append_singleton ops op ih =>
    rw [List.foldl_append, List.foldl_cons, List.foldl_nil]
    cases op with
    | add_edge u v w => simpa [applyOp, length_add_edge] using ih
    | remove_edge u v => simpa [applyOp, length_remove_edge] using ih
    | changeEdgeWeight u v w => simpa [applyOp, length_changeEdgeWeight] using ih

/-- Two graphs with the same lists are the same graph. -/
theorem ext_getD {g h : Graph} (hl : g.adjList.length = h.adjList.length)
    (hx : ∀ x, g.adjList.getD x [] = h.adjList.getD x []) : g = h := by
  cases g with
  | mk a =>
    cases h with
    | mk b =>
      congr 1
      apply List.ext_getElem hl
      intro i h1 h2
      have := hx i
      simp only [List.getD_eq_getElem?_getD, List.getElem?_eq_getElem h1,
        List.getElem?_eq_getElem h2, Option.getD_some] at this
      exact this

end Graph

namespace Graph

/-! ## The entries of one list that name a given vertex -/

theorem filter_eraseFirst (v x : Int) (l : List (Int × Int)) :
    (eraseFirst v l).filter (fun e => decide (e.1 = x)) =
      if x = v then (l.filter fun e => decide (e.1 = v)).tail
      else l.filter fun e => decide (e.1 = x) := by
  induction l with
  | nil => simp [eraseFirst]
  | cons e l ih =>
    unfold eraseFirst
    by_cases hev : e.1 = v
    · rw [if_pos hev]
      by_cases hx : x = v
      · subst hx
        simp [hev]
      · have : ¬ e.1 = x := fun h => hx (h ▸ hev)
        simp [hx, this]
    · rw [if_neg hev]
      by_cases hx : x = v
      · subst hx
        simp [hev] at ih ⊢
        exact ih
      · simp only [hx, if_false] at ih ⊢
        by_cases hex : e.1 = x
        · simp [hex, ih]
        · simp [hex, ih]

theorem filter_ne_eraseFirst (v : Int) (l : List (Int × Int)) :
    (eraseFirst v l).filter (fun e => !decide (e.1 = v)) =
      l.filter fun e => !decide (e.1 = v) := by
  induction l with
  | nil => simp [eraseFirst]
  | cons e l ih =>
    unfold eraseFirst
    by_cases hev : e.1 = v
    · simp [hev]
    · simp [hev, ih]

theorem filter_ne_eq_self (v : Int) (l : List (Int × Int))
    (h : (l.filter fun e => decide (e.1 = v)) = []) :
    (l.filter fun e => !decide (e.1 = v)) = l := by
  rw [List.filter_eq_self]
  intro e he
  rw [List.filter_eq_nil_iff] at h
  simpa using h e he

theorem mem_eraseFirst {v : Int} {l : List (Int × Int)} {e : Int × Int}
    (h : e ∈ eraseFirst v l) : e ∈ l := by
  induction l with
  | nil => simp [eraseFirst] at h
  | cons a l ih =>
    unfold eraseFirst at h
    split_ifs at h with hav
    · exact List.mem_cons_of_mem _ h
    · rcases List.mem_cons.mp h with h1 | h1
      · exact h1 ▸ List.mem_cons_self _ _
      · exact List.mem_cons_of_mem _ (ih h1)

/-- Erasing the first entry that names `v` leaves the entries that do not name
`v`, when at most one entry names `v`. -/
theorem eraseFirst_eq_filter (v : Int) (l : List (Int × Int))
    (h : (l.filter fun e => decide (e.1 = v)).length ≤ 1) :
    eraseFirst v l = l.filter fun e => !decide (e.1 = v) := by
  rw [← filter_ne_eraseFirst, filter_ne_eq_self]
  rw [filter_eraseFirst, if_pos rfl]
  cases hf : l.filter (fun e => decide (e.1 = v)) with
  | nil => rfl
  | cons a t =>
    rw [hf] at h
    simp only [List.length_cons] at h
    simp only [List.tail_cons]
    exact List.length_eq_zero.mp (by omega)

theorem eraseFirst_twice_eq_filter (v : Int) (l : List (Int × Int))
    (h : (l.filter fun e => decide (e.1 = v)).length ≤ 2) :
    eraseFirst v (eraseFirst v l) = l.filter fun e => !decide (e.1 = v) := by
  rw [eraseFirst_eq_filter, filter_ne_eraseFirst]
  rw [filter_eraseFirst, if_pos rfl, List.length_tail]
  omega

theorem sum_eraseFirst (v : Int) (l : List (Int × Int)) :
    ((eraseFirst v l).map Prod.snd).sum =
      (l.map Prod.snd).sum - (((l.filter fun e => decide (e.1 = v)).map Prod.snd).headD 0) := by
  induction l with
  | nil => simp [eraseFirst]
  | cons e l ih =>
    unfold eraseFirst
    by_cases hev : e.1 = v
    · simp [hev]
    · simp only [hev, if_false, List.map_cons, List.sum_cons, ih]
      simp only [List.filter_cons, hev, decide_False, Bool.false_eq_true, if_false]
      ring

theorem filter_setWeight (v w x : Int) (l : List (Int × Int)) :
    (setWeight v w l).filter (fun e => decide (e.1 = x)) =
      if x = v then (l.filter fun e => decide (e.1 = v)).map fun e => (e.1, w)
      else l.filter fun e => decide (e.1 = x) := by
  induction l with
  | nil => simp [setWeight]
  | cons e l ih =>
    unfold setWeight at ih ⊢
    by_cases hev : e.1 = v
    · by_cases hx : x = v
      · subst hx
        simp only [if_true] at ih
        simp [hev, ih]
      · simp only [hx, if_false] at ih
        have : ¬ e.1 = x := fun h => hx (h ▸ hev)
        have h2 : ¬ v = x := fun h => hx h.symm
        simp [hev, hx, ih, h2]
    · by_cases hx : x = v
      · subst hx
        simp only [if_true] at ih
        simp [hev, ih]
      · simp only [hx, if_false] at ih
        by_cases hex : e.1 = x
        · simp [hev, hx, ih, hex]
        · simp [hev, hx, ih, hex]

theorem map_fst_setWeight (v w : Int) (l : List (Int × Int)) :
    (setWeight v w l).map Prod.fst = l.map Prod.fst := by
  unfold setWeight
  rw [List.map_map]
  apply List.map_congr_left
  intro e _
  simp only [Function.comp]
  split_ifs <;> rfl

theorem getElem?_setWeight (v w : Int) (l : List (Int × Int)) (i : Nat) (e : Int × Int)
    (h : l[i]? = some e) :
    (setWeight v w l)[i]? = some (if e.1 = v then (e.1, w) else e) := by
  unfold setWeight
  rw [List.getElem?_map, h]
  rfl

theorem setWeight_eq_self (v w : Int) (l : List (Int × Int)) (h : ∀ e ∈ l, e.1 ≠ v) :
    setWeight v w l = l := by
  unfold setWeight
  conv_rhs => rw [← List.map_id l]
  apply List.map_congr_left
  intro e he
  simp [h e he]

theorem setWeight_setWeight (v w : Int) (l : List (Int × Int)) :
    setWeight v w (setWeight v w l) = setWeight v w l := by
  unfold setWeight
  rw [List.map_map]
  apply List.map_congr_left
  intro e _
  simp only [Function.comp]
  split_ifs <;> simp_all

end Graph

namespace Graph

/-! ## The well-formed graphs -/

theorem between_new (n u : Nat) (v : Int) : (Graph.new n).between u v = [] := by
  unfold between
  rw [getD_new]
  rfl

theorem wellFormed_new (n : Nat) : (Graph.new n).WellFormed := by
  refine ⟨?_, ?_, ?_, ?_⟩
  · intro u e he
    rw [getD_new] at he
    simp at he
  · intro u v _
    rw [between_new, between_new]
  · intro u v _
    rw [between_new]
    simp
  · intro u
    left
    rw [between_new]

theorem between_length_filter (g : Graph) (u : Nat) (v : Int) :
    ((g.adjList.getD u []).filter fun e => decide (e.1 = v)).length = (g.between u v).length := by
  unfold between
  rw [List.length_map]

theorem mem_between {g : Graph} {u : Nat} {v w : Int} :
    w ∈ g.between u v ↔ (v, w) ∈ g.adjList.getD u [] := by
  unfold between
  simp only [List.mem_map, List.mem_filter, decide_eq_true_eq]
  constructor
  · rintro ⟨e, ⟨he, hev⟩, hw⟩
    have : e = (v, w) := Prod.ext hev hw
    exact this ▸ he
  · intro h
    exact ⟨(v, w), ⟨h, rfl⟩, rfl⟩

/-- A graph whose lists differ from those of a well-formed graph only in the
entries between `u` and `v` is well-formed. -/
theorem wellFormed_update {g h : Graph} (hg : g.WellFormed) (u v : Nat) (U : List Int)
    (hu : u < g.adjList.length) (hv : v < g.adjList.length)
    (hlen : h.adjList.length = g.adjList.length)
    (hval : ∀ (x : Nat) (e : Int × Int), e ∈ h.adjList.getD x [] →
      e ∈ g.adjList.getD x [] ∨ e.1 = (u : Int) ∨ e.1 = (v : Int))
    (hB : ∀ a b : Nat, h.between a b =
      if (a = u ∧ b = v) ∨ (a = v ∧ b = u) then U else g.between a b)
    (hU1 : u ≠ v → U.length ≤ 1) (hU2 : u = v → U = [] ∨ ∃ w, U = [w, w]) :
    h.WellFormed := by
  refine ⟨?_, ?_, ?_, ?_⟩
  · intro x e he
    rw [hlen]
    rcases hval x e he with h1 | h1 | h1
    · exact hg.valid x e h1
    · rw [h1]; exact ⟨Int.ofNat_nonneg u, by exact_mod_cast hu⟩
    · rw [h1]; exact ⟨Int.ofNat_nonneg v, by exact_mod_cast hv⟩
  · intro a b hab
    rw [hB a b, hB b a]
    by_cases hc : (a = u ∧ b = v) ∨ (a = v ∧ b = u)
    · rw [if_pos hc, if_pos (by tauto)]
    · rw [if_neg hc, if_neg (by tauto)]
      exact hg.symm a b hab
  · intro a b hab
    rw [hB a b]
    by_cases hc : (a = u ∧ b = v) ∨ (a = v ∧ b = u)
    · rw [if_pos hc]
      apply hU1
      rcases hc with ⟨h1, h2⟩ | ⟨h1, h2⟩
      · rw [← h1, ← h2]; exact hab
      · rw [← h1, ← h2]; exact Ne.symm hab
    · rw [if_neg hc]
      exact hg.single a b hab
  · intro a
    rw [hB a a]
    by_cases hc : (a = u ∧ a = v) ∨ (a = v ∧ a = u)
    · rw [if_pos hc]
      apply hU2
      rcases hc with ⟨h1, h2⟩ | ⟨h1, h2⟩
      · rw [← h1, ← h2]
      · rw [← h1, ← h2]
    · rw [if_neg hc]
      exact hg.loops a

theorem between_add_edge {g : Graph} (hg : g.WellFormed) (u v : Nat) (w : Int)
    (hu : u < g.adjList.length) (hv : v < g.adjList.length) (a b : Nat) :
    (g.add_edge u v w).between a b =
      if (a = u ∧ b = v) ∨ (a = v ∧ b = u) then (if u = v then [w, w] else [w])
      else g.between a b := by
  by_cases huv : u = v
  · subst huv
    unfold between
    rw [row_add_edge_self g u w hu a]
    by_cases ha : a = u
    · subst ha
      by_cases hb : b = a
      · subst hb
        have h2 : ((g.adjList.getD b []).filter fun e => decide (e.1 = (b : Int))).length ≤ 2 := by
          rw [between_length_filter]
          rcases hg.loops b with h | ⟨w0, h⟩ <;> rw [h] <;> simp
        rw [eraseFirst_twice_eq_filter _ _ h2]
        simp [List.filter_filter]
      · have hb' : ¬ ((b : Int) = (a : Int)) := fun h => hb (by exact_mod_cast h)
        have hb2 : ¬ ((a : Int) = (b : Int)) := fun h => hb (by exact_mod_cast h.symm)
        simp [hb, hb', hb2, filter_eraseFirst]
    · simp [ha]
  · unfold between
    rw [row_add_edge g u v w hu hv huv a]
    have h1 : ((g.adjList.getD u []).filter fun e => decide (e.1 = (v : Int))).length ≤ 1 := by
      rw [between_length_filter]; exact hg.single u v huv
    have h2 : ((g.adjList.getD v []).filter fun e => decide (e.1 = (u : Int))).length ≤ 1 := by
      rw [between_length_filter]; exact hg.single v u (Ne.symm huv)
    by_cases ha : a = u
    · subst ha
      by_cases hb : b = v
      · subst hb
        rw [eraseFirst_eq_filter _ _ h1]
        simp [huv, List.filter_filter]
      · have hb' : ¬ ((b : Int) = (v : Int)) := fun h => hb (by exact_mod_cast h)
        have hb2 : ¬ ((v : Int) = (b : Int)) := fun h => hb (by exact_mod_cast h.symm)
        simp [hb, hb', hb2, huv, filter_eraseFirst]
    · by_cases hav : a = v
      · subst hav
        by_cases hb : b = u
        · subst hb
          rw [if_neg ha, eraseFirst_eq_filter _ _ h2]
          simp [huv, ha, List.filter_filter]
        · have hb' : ¬ ((b : Int) = (u : Int)) := fun h => hb (by exact_mod_cast h)
          have hb2 : ¬ ((u : Int) = (b : Int)) := fun h => hb (by exact_mod_cast h.symm)
          simp [hb, hb', hb2, huv, ha, filter_eraseFirst]
      · simp [ha, hav]

theorem wellFormed_add_edge {g : Graph} (hg : g.WellFormed) (u v w : Int) :
    (g.add_edge u v w).WellFormed := by
  by_cases hval : (g.isValidVertex u && g.isValidVertex v) = true
  · rw [Bool.and_eq_true, isValidVertex_iff, isValidVertex_iff] at hval
    obtain ⟨⟨hu0, hu1⟩, hv0, hv1⟩ := hval
    obtain ⟨u', rfl⟩ := Int.eq_ofNat_of_zero_le hu0
    obtain ⟨v', rfl⟩ := Int.eq_ofNat_of_zero_le hv0
    have hu : u' < g.adjList.length := by simpa [getNumVertices] using hu1
    have hv : v' < g.adjList.length := by simpa [getNumVertices] using hv1
    apply wellFormed_update hg u' v' (if u' = v' then [w, w] else [w]) hu hv
      (length_add_edge _ _ _ _)
    · intro x e he
      by_cases huv : u' = v'
      · subst huv
        rw [row_add_edge_self g u' w hu x] at he
        split_ifs at he with h1
        · simp only [List.append_assoc, List.mem_append, List.mem_singleton] at he
          rcases he with he | he | he
          · left; subst h1; exact mem_eraseFirst (mem_eraseFirst he)
          · right; left; rw [he]
          · right; left; rw [he]
        · left; exact he
      · rw [row_add_edge g u' v' w hu hv huv x] at he
        split_ifs at he with h1 h2
        · simp only [List.mem_append, List.mem_singleton] at he
          rcases he with he | he
          · left; subst h1; exact mem_eraseFirst he
          · right; right; rw [he]
        · simp only [List.mem_append, List.mem_singleton] at he
          rcases he with he | he
          · left; subst h2; exact mem_eraseFirst he
          · right; left; rw [he]
        · left; exact he
    · exact between_add_edge hg u' v' w hu hv
    · intro h; rw [if_neg h]; simp
    · intro h; rw [if_pos h]; exact Or.inr ⟨w, rfl⟩
  · unfold add_edge
    rw [if_neg hval]
    exact hg

end Graph

namespace Graph

/-- The lists after `remove_edge(u, v)` on a well-formed graph: the entries
between `u` and `v` are gone, the others stay in their order. -/
theorem row_remove_edge_filter {g : Graph} (hg : g.WellFormed) (u v : Nat)
    (hu : u < g.adjList.length) (hv : v < g.adjList.length) (x : Nat) :
    (g.remove_edge u v).adjList.getD x [] =
      if x = u then (g.adjList.getD u []).filter fun e => !decide (e.1 = (v : Int))
      else if x = v then (g.adjList.getD v []).filter fun e => !decide (e.1 = (u : Int))
      else g.adjList.getD x [] := by
  rw [row_remove_edge g u v hu hv x]
  by_cases huv : u = v
  · subst huv
    have h2 : ((g.adjList.getD u []).filter fun e => decide (e.1 = (u : Int))).length ≤ 2 := by
      rw [between_length_filter]
      rcases hg.loops u with h | ⟨w0, h⟩ <;> rw [h] <;> simp
    by_cases hx : x = u
    · subst hx
      rw [if_pos rfl, if_pos rfl, if_pos rfl, eraseFirst_twice_eq_filter _ _ h2]
    · rw [if_neg (Ne.symm hx), if_neg (Ne.symm hx), if_neg hx, if_neg hx]
  · have h1 : ((g.adjList.getD u []).filter fun e => decide (e.1 = (v : Int))).length ≤ 1 := by
      rw [between_length_filter]; exact hg.single u v huv
    have h2 : ((g.adjList.getD v []).filter fun e => decide (e.1 = (u : Int))).length ≤ 1 := by
      rw [between_length_filter]; exact hg.single v u (Ne.symm huv)
    by_cases hx : x = u
    · subst hx
      rw [if_neg (Ne.symm huv), if_pos rfl, if_pos rfl, eraseFirst_eq_filter _ _ h1]
    · by_cases hxv : x = v
      · subst hxv
        rw [if_pos rfl, if_neg huv, if_neg hx, if_pos rfl, eraseFirst_eq_filter _ _ h2]
      · rw [if_neg (Ne.symm hxv), if_neg (Ne.symm hx), if_neg hx, if_neg hxv]

theorem between_remove_edge {g : Graph} (hg : g.WellFormed) (u v : Nat)
    (hu : u < g.adjList.length) (hv : v < g.adjList.length) (a b : Nat) :
    (g.remove_edge u v).between a b =
      if (a = u ∧ b = v) ∨ (a = v ∧ b = u) then [] else g.between a b := by
  unfold between
  rw [row_remove_edge_filter hg u v hu hv a]
  by_cases ha : a = u
  · subst ha
    rw [if_pos rfl]
    by_cases hb : b = v
    · subst hb
      simp [List.filter_filter]
    · have hb' : ¬ ((b : Int) = (v : Int)) := fun h => hb (by exact_mod_cast h)
      by_cases hav : a = v
      · subst hav
        simp only [hb, and_false, or_false, and_self, if_false, List.filter_filter]
        congr 1
        apply List.filter_congr
        intro e _
        by_cases c : e.1 = (b : Int)
        · simp [c, hb']
        · simp [c]
      · simp only [hb, and_false, hav, false_and, or_false, if_false, List.filter_filter]
        congr 1
        apply List.filter_congr
        intro e _
        by_cases c : e.1 = (b : Int)
        · simp [c, hb']
        · simp [c]
  · rw [if_neg ha]
    by_cases hav : a = v
    · subst hav
      rw [if_pos rfl]
      by_cases hb : b = u
      · subst hb
        simp [List.filter_filter]
      · have hb' : ¬ ((b : Int) = (u : Int)) := fun h => hb (by exact_mod_cast h)
        simp only [ha, false_and, hb, and_false, or_false, if_false, List.filter_filter]
        congr 1
        apply List.filter_congr
        intro e _
        by_cases c : e.1 = (b : Int)
        · simp [c, hb']
        · simp [c]
    · simp [ha, hav]

theorem wellFormed_remove_edge {g : Graph} (hg : g.WellFormed) (u v : Int) :
    (g.remove_edge u v).WellFormed := by
  by_cases hval : (g.isValidVertex u && g.isValidVertex v) = true
  · rw [Bool.and_eq_true, isValidVertex_iff, isValidVertex_iff] at hval
    obtain ⟨⟨hu0, hu1⟩, hv0, hv1⟩ := hval
    obtain ⟨u', rfl⟩ := Int.eq_ofNat_of_zero_le hu0
    obtain ⟨v', rfl⟩ := Int.eq_ofNat_of_zero_le hv0
    have hu : u' < g.adjList.length := by simpa [getNumVertices] using hu1
    have hv : v' < g.adjList.length := by simpa [getNumVertices] using hv1
    apply wellFormed_update hg u' v' [] hu hv (length_remove_edge _ _ _)
    · intro x e he
      rw [row_remove_edge_filter hg u' v' hu hv x] at he
      split_ifs at he with h1 h2
      · left; subst h1; exact (List.mem_filter.mp he).1
      · left; subst h2; exact (List.mem_filter.mp he).1
      · left; exact he
    · exact between_remove_edge hg u' v' hu hv
    · intro _; simp
    · intro _; exact Or.inl rfl
  · unfold remove_edge
    rw [if_neg hval]
    exact hg

/-- The lists after `changeEdgeWeight(u, v, w)`, on every graph. -/
theorem row_changeEdgeWeight_eq (g : Graph) (u v : Nat) (w : Int)
    (hu : u < g.adjList.length) (hv : v < g.adjList.length) (x : Nat) :
    (g.changeEdgeWeight u v w).adjList.getD x [] =
      (g.adjList.getD x []).map fun e =>
        if (x = u ∧ e.1 = (v : Int)) ∨ (x = v ∧ e.1 = (u : Int)) then (e.1, w) else e := by
  rw [row_changeEdgeWeight g u v w hu hv x]
  unfold setWeight
  by_cases hxu : x = u
  · by_cases hxv : x = v
    · subst hxu
      subst hxv
      rw [if_pos rfl, if_pos rfl, List.map_map]
      apply List.map_congr_left
      intro e _
      simp only [Function.comp, true_and, or_self]
      split_ifs <;> simp_all
    · subst hxu
      rw [if_neg (Ne.symm hxv), if_pos rfl]
      apply List.map_congr_left
      intro e _
      simp [hxv]
  · by_cases hxv : x = v
    · subst hxv
      rw [if_pos rfl, if_neg (Ne.symm hxu)]
      apply List.map_congr_left
      intro e _
      simp [hxu]
    · rw [if_neg (Ne.symm hxv), if_neg (Ne.symm hxu)]
      conv_lhs => rw [← List.map_id (g.adjList.getD x [])]
      apply List.map_congr_left
      intro e _
      simp [hxu, hxv]

theorem between_changeEdgeWeight (g : Graph) (u v : Nat) (w : Int)
    (hu : u < g.adjList.length) (hv : v < g.adjList.length) (a b : Nat) :
    (g.changeEdgeWeight u v w).between a b =
      if (a = u ∧ b = v) ∨ (a = v ∧ b = u) then (g.between a b).map fun _ => w
      else g.between a b := by
  unfold between
  rw [row_changeEdgeWeight_eq g u v w hu hv a]
  generalize g.adjList.getD a [] = l
  induction l with
  | nil => simp
  | cons e l ih =>
    rw [List.map_cons]
    by_cases hc : (a = u ∧ b = v) ∨ (a = v ∧ b = u)
    · rw [if_pos hc] at ih ⊢
      by_cases he : e.1 = (b : Int)
      · have hc2 : (a = u ∧ e.1 = (v : Int)) ∨ (a = v ∧ e.1 = (u : Int)) := by
          rcases hc with ⟨h1, h2⟩ | ⟨h1, h2⟩
          · left; exact ⟨h1, by rw [he, h2]⟩
          · right; exact ⟨h1, by rw [he, h2]⟩
        rw [if_pos hc2]
        simp only [List.filter_cons, he, decide_True, if_true, List.map_cons, ih]
      · have h3 : ¬ (if (a = u ∧ e.1 = (v : Int)) ∨ (a = v ∧ e.1 = (u : Int)) then (e.1, w)
            else e).1 = (b : Int) := by
          split_ifs <;> exact he
        simp only [List.filter_cons, he, h3, decide_False, Bool.false_eq_true, if_false, ih]
    · rw [if_neg hc] at ih ⊢
      by_cases he : e.1 = (b : Int)
      · have hc2 : ¬ ((a = u ∧ e.1 = (v : Int)) ∨ (a = v ∧ e.1 = (u : Int))) := by
          intro h
          apply hc
          rcases h with ⟨h1, h2⟩ | ⟨h1, h2⟩
          · left; exact ⟨h1, by exact_mod_cast he.symm.trans h2⟩
          · right; exact ⟨h1, by exact_mod_cast he.symm.trans h2⟩
        rw [if_neg hc2]
        simp only [List.filter_cons, he, decide_True, if_true, List.map_cons, ih]
      · have h3 : ¬ (if (a = u ∧ e.1 = (v : Int)) ∨ (a = v ∧ e.1 = (u : Int)) then (e.1, w)
            else e).1 = (b : Int) := by
          split_ifs <;> exact he
        simp only [List.filter_cons, he, h3, decide_False, Bool.false_eq_true, if_false, ih]

theorem wellFormed_changeEdgeWeight {g : Graph} (hg : g.WellFormed) (u v w : Int) :
    (g.changeEdgeWeight u v w).WellFormed := by
  by_cases hval : (g.isValidVertex u && g.isValidVertex v) = true
  · rw [Bool.and_eq_true, isValidVertex_iff, isValidVertex_iff] at hval
    obtain ⟨⟨hu0, hu1⟩, hv0, hv1⟩ := hval
    obtain ⟨u', rfl⟩ := Int.eq_ofNat_of_zero_le hu0
    obtain ⟨v', rfl⟩ := Int.eq_ofNat_of_zero_le hv0
    have hu : u' < g.adjList.length := by simpa [getNumVertices] using hu1
    have hv : v' < g.adjList.length := by simpa [getNumVertices] using hv1
    apply wellFormed_update hg u' v' ((g.between u' v').map fun _ => w) hu hv
      (length_changeEdgeWeight _ _ _ _)
    · intro x e he
      rw [row_changeEdgeWeight_eq g u' v' w hu hv x] at he
      obtain ⟨e0, he0, rfl⟩ := List.mem_map.mp he
      split_ifs with hc
      · rcases hc with ⟨_, h2⟩ | ⟨_, h2⟩
        · right; right; exact h2
        · right; left; exact h2
      · left; exact he0
    · intro a b
      rw [between_changeEdgeWeight g u' v' w hu hv a b]
      by_cases hc : (a = u' ∧ b = v') ∨ (a = v' ∧ b = u')
      · rw [if_pos hc, if_pos hc]
        rcases hc with ⟨h1, h2⟩ | ⟨h1, h2⟩
        · rw [h1, h2]
        · rw [h1, h2]
          by_cases huv : u' = v'
          · rw [huv]
          · rw [hg.symm v' u' (Ne.symm huv)]
      · rw [if_neg hc, if_neg hc]
    · intro huv
      rw [List.length_map]
      exact hg.single u' v' huv
    · intro huv
      subst huv
      rcases hg.loops u' with h | ⟨w0, h⟩
      · left; rw [h]; rfl
      · right; exact ⟨w, by rw [h]; rfl⟩
  · unfold changeEdgeWeight
    rw [if_neg hval]
    exact hg

theorem wellFormed_runOps (n : Nat) (ops : List Op) : (runOps n ops).WellFormed := by
  unfold runOps
  induction ops using List.reverseRecOn with
  | nil => exact wellFormed_new n
  | append_singleton ops op ih =>
    rw [List.foldl_append, List.foldl_cons, List.foldl_nil]
    cases op with
    | add_edge u v w => exact wellFormed_add_edge ih u v w
    | remove_edge u v => exact wellFormed_remove_edge ih u v
    | changeEdgeWeight u v w => exact wellFormed_changeEdgeWeight ih u v w

end Graph

namespace Graph

/-! ## The sum of the weights, list by list -/

theorem list_sum_map_range {α : Type} (f : α → Int) (d : α) (l : List α) :
    (l.map f).sum = ∑ i in Finset.range l.length, f (l.getD i d) := by
  induction l with
  | nil => simp
  | cons a l ih =>
    rw [List.map_cons, List.sum_cons, List.length_cons, Finset.sum_range_succ', ih]
    simp only [List.getD_cons_succ, List.getD_cons_zero]
    ring

theorem weightSum_eq_sum (g : Graph) :
    g.weightSum = ∑ x in Finset.range g.adjList.length,
      ((g.adjList.getD x []).map Prod.snd).sum := by
  unfold weightSum
  rw [list_sum_map_range (fun l : List (Int × Int) => (l.map Prod.snd).sum) []]

/-- Two functions that differ at `u` and `v` only: their sums differ by the
differences at `u` and `v`. -/
theorem sum_update_two (n u v : Nat) (hu : u < n) (hv : v < n) (huv : u ≠ v)
    (F G : Nat → Int) (h : ∀ x, x ≠ u → x ≠ v → G x = F x) :
    ∑ x in Finset.range n, G x = ∑ x in Finset.range n, F x + (G u - F u) + (G v - F v) := by
  have h1 : ∀ x ∈ Finset.range n,
      G x = F x + ((if x = u then G u - F u else 0) + (if x = v then G v - F v else 0)) := by
    intro x _
    by_cases hxu : x = u
    · subst hxu
      rw [if_pos rfl, if_neg huv]
      ring
    · by_cases hxv : x = v
      · subst hxv
        rw [if_neg hxu, if_pos rfl]
        ring
      · rw [if_neg hxu, if_neg hxv, h x hxu hxv]
        ring
  rw [Finset.sum_congr rfl h1, Finset.sum_add_distrib, Finset.sum_add_distrib,
    Finset.sum_ite_eq', Finset.sum_ite_eq', if_pos (Finset.mem_range.mpr hu),
    if_pos (Finset.mem_range.mpr hv)]
  ring

theorem sum_update_one (n u : Nat) (hu : u < n) (F G : Nat → Int)
    (h : ∀ x, x ≠ u → G x = F x) :
    ∑ x in Finset.range n, G x = ∑ x in Finset.range n, F x + (G u - F u) := by
  have h1 : ∀ x ∈ Finset.range n, G x = F x + (if x = u then G u - F u else 0) := by
    intro x _
    by_cases hxu : x = u
    · subst hxu
      rw [if_pos rfl]
      ring
    · rw [if_neg hxu, h x hxu]
      ring
  rw [Finset.sum_congr rfl h1, Finset.sum_add_distrib, Finset.sum_ite_eq',
    if_pos (Finset.mem_range.mpr hu)]

theorem sum_filter_split (v : Int) (l : List (Int × Int)) :
    (l.map Prod.snd).sum =
      ((l.filter fun e => decide (e.1 = v)).map Prod.snd).sum
        + ((l.filter fun e => !decide (e.1 = v)).map Prod.snd).sum := by
  induction l with
  | nil => simp
  | cons e l ih =>
    by_cases hev : e.1 = v
    · simp only [List.map_cons, List.sum_cons, List.filter_cons, hev, decide_True, if_true,
        Bool.not_true, Bool.false_eq_true, if_false, ih]
      ring
    · simp only [List.map_cons, List.sum_cons, List.filter_cons, hev, decide_False,
        Bool.false_eq_true, if_false, Bool.not_false, if_true, ih]
      ring

theorem length_filter_split (v : Int) (l : List (Int × Int)) :
    l.length = (l.filter fun e => decide (e.1 = v)).length
      + (l.filter fun e => !decide (e.1 = v)).length := by
  induction l with
  | nil => simp
  | cons e l ih =>
    by_cases hev : e.1 = v
    · simp only [List.length_cons, List.filter_cons, hev, decide_True, if_true,
        Bool.not_true, Bool.false_eq_true, if_false, ih]
      ring
    · simp only [List.length_cons, List.filter_cons, hev, decide_False,
        Bool.false_eq_true, if_false, Bool.not_false, if_true, ih]
      ring

/-- The weights after `remove_edge(u, v)` on a well-formed graph. -/
theorem weightSum_remove_edge {g : Graph} (hg : g.WellFormed) (u v : Nat)
    (hu : u < g.adjList.length) (hv : v < g.adjList.length) :
    (g.remove_edge u v).weightSum =
      g.weightSum - (if u = v then (g.between u u).sum
        else (g.between u v).sum + (g.between v u).sum) := by
  rw [weightSum_eq_sum, weightSum_eq_sum, length_remove_edge]
  by_cases huv : u = v
  · subst huv
    rw [if_pos rfl, sum_update_one _ u hu
      (fun x => ((g.adjList.getD x []).map Prod.snd).sum)]
    · rw [row_remove_edge_filter hg u u hu hu u, if_pos rfl,
        sum_filter_split (u : Int) (g.adjList.getD u [])]
      unfold between
      ring
    · intro x hx
      rw [row_remove_edge_filter hg u u hu hu x, if_neg hx, if_neg hx]
  · rw [if_neg huv, sum_update_two _ u v hu hv huv
      (fun x => ((g.adjList.getD x []).map Prod.snd).sum)]
    · rw [row_remove_edge_filter hg u v hu hv u, if_pos rfl,
        row_remove_edge_filter hg u v hu hv v, if_neg (Ne.symm huv), if_pos rfl,
        sum_filter_split (v : Int) (g.adjList.getD u []),
        sum_filter_split (u : Int) (g.adjList.getD v [])]
      unfold between
      ring
    · intro x hxu hxv
      rw [row_remove_edge_filter hg u v hu hv x, if_neg hxu, if_neg hxv]

theorem between_of_hasEdge {g : Graph} (hg : g.WellFormed) {u v : Nat} {w : Int}
    (h : g.HasEdge u v w) :
    (u ≠ v → g.between u v = [w] ∧ g.between v u = [w])
    ∧ (u = v → g.between u u = [w, w]) := by
  have hm : w ∈ g.between u v := mem_between.mpr h
  constructor
  · intro huv
    have h1 : g.between u v = [w] := by
      have hs := hg.single u v huv
      cases hb : g.between u v with
      | nil => rw [hb] at hm; simp at hm
      | cons a t =>
        rw [hb] at hm hs
        simp only [List.length_cons] at hs
        have ht : t = [] := List.length_eq_zero.mp (by omega)
        subst ht
        simp only [List.mem_singleton] at hm
        rw [hm]
    exact ⟨h1, by rw [← hg.symm u v huv]; exact h1⟩
  · intro huv
    subst huv
    rcases hg.loops u with hl | ⟨w0, hl⟩
    · rw [hl] at hm; simp at hm
    · rw [hl] at hm ⊢
      simp only [List.mem_cons, List.mem_singleton, or_self, List.not_mem_nil, or_false] at hm
      rw [hm]

end Graph

/-! ## The sum of the absolute values of the weights -/

namespace Graph

theorem absWeightSum_eq_sum (g : Graph) :
    (g.absWeightSum : Int) = ∑ x in Finset.range g.adjList.length,
      ((g.adjList.getD x []).map fun e => (e.2.natAbs : Int)).sum := by
  have h1 : ∀ l : List (Int × Int),
      (((l.map fun e => e.2.natAbs).sum : Nat) : Int)
        = (l.map fun e => (e.2.natAbs : Int)).sum := by
    intro l
    rw [Nat.cast_list_sum, List.map_map]
    rfl
  unfold absWeightSum
  rw [Nat.cast_list_sum, List.map_map,
    ← list_sum_map_range (fun l : List (Int × Int) => (l.map fun e => (e.2.natAbs : Int)).sum) []]
  congr 1
  apply List.map_congr_left
  intro l _
  exact h1 l

theorem row_abs_filter_le (p : Int × Int → Bool) (l : List (Int × Int)) :
    ((l.filter p).map fun e => (e.2.natAbs : Int)).sum
      ≤ (l.map fun e => (e.2.natAbs : Int)).sum := by
  induction l with
  | nil => simp
  | cons e l ih =>
    by_cases hp : p e = true
    · rw [List.filter_cons_of_pos hp]
      simp only [List.map_cons, List.sum_cons]
      omega
    · rw [List.filter_cons_of_neg hp]
      simp only [List.map_cons, List.sum_cons]
      omega

/-- A graph whose lists are, in absolute weight, at most those of another. -/
theorem absWeightSum_le_of_rows (g h : Graph) (hl : h.adjList.length = g.adjList.length)
    (hr : ∀ x, ((h.adjList.getD x []).map fun e => (e.2.natAbs : Int)).sum
      ≤ ((g.adjList.getD x []).map fun e => (e.2.natAbs : Int)).sum) :
    h.absWeightSum ≤ g.absWeightSum := by
  have h1 := absWeightSum_eq_sum g
  have h2 := absWeightSum_eq_sum h
  rw [hl] at h2
  have h3 : (h.absWeightSum : Int) ≤ (g.absWeightSum : Int) := by
    rw [h1, h2]
    exact Finset.sum_le_sum fun x _ => hr x
  exact_mod_cast h3

end Graph

namespace Graph

/-! ## The total weight of a well-formed graph -/

theorem totalWeight_append (A B : List Edge) :
    totalWeight (A ++ B) = totalWeight A + totalWeight B := by
  unfold totalWeight
  rw [List.map_append, List.sum_append]

theorem totalWeight_flatMap_range (n : Nat) (f : Nat → List Edge) :
    totalWeight ((List.range n).flatMap f) = ∑ u in Finset.range n, totalWeight (f u) := by
  induction n with
  | zero => simp [totalWeight]
  | succ n ih =>
    rw [List.range_succ, List.flatMap_append, totalWeight_append, ih, Finset.sum_range_succ]
    simp

/-- The weights of the entries of a list whose neighbour satisfies `p`, by
neighbour. -/
theorem sum_filter_by_neighbour (n : Nat) (p : Int → Bool) (l : List (Int × Int))
    (hl : ∀ e ∈ l, 0 ≤ e.1 ∧ e.1 < (n : Int)) :
    ((l.filter fun e => p e.1).map Prod.snd).sum =
      ∑ v in Finset.range n, if p (v : Int) = true then
        ((l.filter fun e => decide (e.1 = (v : Int))).map Prod.snd).sum else 0 := by
  induction l with
  | nil => simp
  | cons e l ih =>
    have ih' := ih fun x hx => hl x (List.mem_cons_of_mem _ hx)
    obtain ⟨h0, h1⟩ := hl e (List.mem_cons_self _ _)
    obtain ⟨k, hk⟩ := Int.eq_ofNat_of_zero_le h0
    have hkn : k < n := by rw [hk] at h1; exact_mod_cast h1
    have key : ∀ v ∈ Finset.range n,
        (if p (v : Int) = true then
          (((e :: l).filter fun x => decide (x.1 = (v : Int))).map Prod.snd).sum else 0)
        = (if v = k then (if p (k : Int) = true then e.2 else 0) else 0)
          + (if p (v : Int) = true then
            ((l.filter fun x => decide (x.1 = (v : Int))).map Prod.snd).sum else 0) := by
      intro v _
      by_cases hvk : v = k
      · subst hvk
        rw [if_pos rfl]
        by_cases hp : p (v : Int) = true
        · simp [hp, hk]
        · simp [hp]
      · have hne : ¬ e.1 = (v : Int) := by
          rw [hk]
          intro h
          exact hvk (by exact_mod_cast h.symm)
        rw [if_neg hvk]
        simp [hne]
    rw [Finset.sum_congr rfl key, Finset.sum_add_distrib, Finset.sum_ite_eq',
      if_pos (Finset.mem_range.mpr hkn), ← ih']
    by_cases hp : p e.1 = true
    · have hp' : p (k : Int) = true := by rw [← hk]; exact hp
      simp [hp, hp']
    · have hp' : ¬ p (k : Int) = true := by rw [← hk]; exact hp
      simp [hp, hp']

/-- The entries of a list, divided by their neighbour: larger than `u`,
smaller than `u`, or `u` itself. -/
theorem sum_row_split (u : Int) (l : List (Int × Int)) :
    (l.map Prod.snd).sum =
      ((l.filter fun e => decide (u < e.1)).map Prod.snd).sum
      + ((l.filter fun e => decide (e.1 < u)).map Prod.snd).sum
      + ((l.filter fun e => decide (e.1 = u)).map Prod.snd).sum := by
  induction l with
  | nil => simp
  | cons e l ih =>
    rcases lt_trichotomy u e.1 with h | h | h
    · have h2 : ¬ e.1 < u := by omega
      have h3 : ¬ e.1 = u := by omega
      simp only [List.map_cons, List.sum_cons, List.filter_cons, h, h2, h3, decide_True,
        decide_False, if_true, Bool.false_eq_true, if_false, ih]
      ring
    · have h2 : ¬ e.1 < u := by omega
      have h3 : ¬ u < e.1 := by omega
      simp only [List.map_cons, List.sum_cons, List.filter_cons, h.symm, lt_self_iff_false,
        decide_True, decide_False, if_true, Bool.false_eq_true, if_false, ih]
      ring
    · have h2 : ¬ u < e.1 := by omega
      have h3 : ¬ e.1 = u := by omega
      simp only [List.map_cons, List.sum_cons, List.filter_cons, h, h2, h3, decide_True,
        decide_False, if_true, Bool.false_eq_true, if_false, ih]
      ring

theorem totalWeight_rowEdges (u : Nat) (l : List (Int × Int)) :
    totalWeight (rowEdges u l) =
      ((l.filter fun e => decide ((u : Int) < e.1)).map Prod.snd).sum
      + (((l.filter fun e => decide (e.1 = (u : Int))).tail).map Prod.snd).sum := by
  unfold rowEdges
  rw [totalWeight_append]
  unfold totalWeight
  rw [List.map_map, List.map_map]
  rfl

/-- The two sums over the pairs `u < v` and `v < u` of a symmetric table. -/
theorem sum_lt_symm (n : Nat) (M : Nat → Nat → Int) (hM : ∀ u v, u ≠ v → M u v = M v u) :
    ∑ u in Finset.range n, ∑ v in Finset.range n, (if v < u then M u v else 0)
      = ∑ u in Finset.range n, ∑ v in Finset.range n, (if u < v then M u v else 0) := by
  rw [Finset.sum_comm]
  apply Finset.sum_congr rfl
  intro u _
  apply Finset.sum_congr rfl
  intro v _
  by_cases h : u < v
  · rw [if_pos h, if_pos h, hM v u (by omega)]
  · rw [if_neg h, if_neg h]

/-- The sum of all the entries of a well-formed graph is twice the weight of
its edges. -/
theorem weightSum_eq_edges {g : Graph} (hg : g.WellFormed) :
    g.weightSum = 2 * totalWeight g.edges := by
  unfold edges
  rw [totalWeight_flatMap_range, weightSum_eq_sum]
  have hrow : ∀ u ∈ Finset.range g.adjList.length,
      ((g.adjList.getD u []).map Prod.snd).sum =
        (∑ v in Finset.range g.adjList.length,
          if u < v then (g.between u v).sum else 0)
        + (∑ v in Finset.range g.adjList.length,
          if v < u then (g.between u v).sum else 0)
        + 2 * ((((g.adjList.getD u []).filter fun e => decide (e.1 = (u : Int))).tail).map
            Prod.snd).sum := by
    intro u _
    rw [sum_row_split (u : Int) (g.adjList.getD u []),
      sum_filter_by_neighbour g.adjList.length (fun x => decide ((u : Int) < x)) _
        (hg.valid u),
      sum_filter_by_neighbour g.adjList.length (fun x => decide (x < (u : Int))) _
        (hg.valid u)]
    have hl : (((g.adjList.getD u []).filter fun e => decide (e.1 = (u : Int))).map
        Prod.snd).sum = 2 * ((((g.adjList.getD u []).filter fun e =>
          decide (e.1 = (u : Int))).tail).map Prod.snd).sum := by
      have h1 := hg.loops u
      unfold between at h1
      rw [List.map_tail]
      rcases h1 with h | ⟨w, h⟩
      · rw [h]; simp
      · rw [h]; simp; ring
    rw [hl]
    congr 1
    congr 1
    · apply Finset.sum_congr rfl
      intro v _
      simp only [decide_eq_true_eq, Nat.cast_lt]
      rfl
    · apply Finset.sum_congr rfl
      intro v _
      simp only [decide_eq_true_eq, Nat.cast_lt]
      rfl
  have hrow2 : ∀ u ∈ Finset.range g.adjList.length,
      totalWeight (rowEdges u (g.adjList.getD u [])) =
        (∑ v in Finset.range g.adjList.length,
          if u < v then (g.between u v).sum else 0)
        + ((((g.adjList.getD u []).filter fun e => decide (e.1 = (u : Int))).tail).map
            Prod.snd).sum := by
    intro u _
    rw [totalWeight_rowEdges,
      sum_filter_by_neighbour g.adjList.length (fun x => decide ((u : Int) < x)) _
        (hg.valid u)]
    congr 1
    apply Finset.sum_congr rfl
    intro v _
    simp only [decide_eq_true_eq, Nat.cast_lt]
    rfl
  rw [Finset.sum_congr rfl hrow, Finset.sum_congr rfl hrow2, Finset.sum_add_distrib,
    Finset.sum_add_distrib, Finset.sum_add_distrib,
    sum_lt_symm g.adjList.length (fun u v => (g.between u v).sum)
      (fun u v huv => by simp only; rw [hg.symm u v huv]),
    ← Finset.mul_sum]
  ring

end Graph

namespace Graph

/-! ## The list of the edges of a well-formed graph -/

theorem WellFormed.hasEdge_mirror {g : Graph} (hg : g.WellFormed) {a b : Nat} {w : Int}
    (h : g.HasEdge a b w) : g.HasEdge b a w := by
  by_cases hab : a = b
  · subst hab; exact h
  · have h1 : w ∈ g.between a b := mem_between.mpr h
    rw [hg.symm a b hab] at h1
    exact mem_between.mp h1

theorem mem_rowEdges {u : Nat} {l : List (Int × Int)} {a b : Nat} {w : Int} :
    (a, b, w) ∈ rowEdges u l ↔
      a = u ∧ ((u < b ∧ ((b : Int), w) ∈ l)
        ∨ (b = u ∧ ((u : Int), w) ∈ (l.filter fun e => decide (e.1 = (u : Int))).tail)) := by
  unfold rowEdges
  simp only [List.mem_append, List.mem_map, List.mem_filter, decide_eq_true_eq, Prod.mk.injEq]
  constructor
  · rintro (⟨e, ⟨he, hlt⟩, h1, h2, h3⟩ | ⟨e, he, h1, h2, h3⟩)
    · refine ⟨h1.symm, Or.inl ⟨?_, ?_⟩⟩
      · omega
      · have : e = ((b : Int), w) := Prod.ext (by simp only; omega) h3
        exact this ▸ he
    · refine ⟨h1.symm, Or.inr ⟨h2.symm, ?_⟩⟩
      have h4 : e ∈ l.filter fun e => decide (e.1 = (u : Int)) := List.mem_of_mem_tail he
      have h5 : e.1 = (u : Int) := by simpa using (List.mem_filter.mp h4).2
      have : e = ((u : Int), w) := Prod.ext h5 h3
      exact this ▸ he
  · rintro ⟨rfl, (⟨hlt, hm⟩ | ⟨rfl, hm⟩)⟩
    · left
      exact ⟨((b : Int), w), ⟨hm, by simp only; omega⟩, rfl, by simp, rfl⟩
    · right
      exact ⟨_, hm, rfl, rfl, rfl⟩

theorem mem_edges {g : Graph} (hg : g.WellFormed) (a b : Nat) (w : Int) :
    (a, b, w) ∈ g.edges ↔ a ≤ b ∧ g.HasEdge a b w := by
  unfold edges
  rw [List.mem_flatMap]
  constructor
  · rintro ⟨u, _, h⟩
    obtain ⟨rfl, h1⟩ := mem_rowEdges.mp h
    rcases h1 with ⟨hlt, hm⟩ | ⟨rfl, hm⟩
    · exact ⟨by omega, hm⟩
    · exact ⟨le_refl _, (List.mem_filter.mp (List.mem_of_mem_tail hm)).1⟩
  · rintro ⟨hab, h⟩
    refine ⟨a, List.mem_range.mpr (hasEdge_lt h), mem_rowEdges.mpr ⟨rfl, ?_⟩⟩
    rcases Nat.lt_or_ge a b with hlt | hge
    · exact Or.inl ⟨hlt, h⟩
    · have hba : b = a := by omega
      subst hba
      refine Or.inr ⟨rfl, ?_⟩
      have h2 := (between_of_hasEdge hg h).2 rfl
      unfold between at h2
      have hall : ∀ e ∈ (g.adjList.getD b []).filter fun e => decide (e.1 = (b : Int)),
          e.1 = (b : Int) := by
        intro e he
        simpa using (List.mem_filter.mp he).2
      cases hf : (g.adjList.getD b []).filter fun e => decide (e.1 = (b : Int)) with
      | nil => rw [hf] at h2; simp at h2
      | cons x t =>
        cases t with
        | nil => rw [hf] at h2; simp at h2
        | cons y t =>
          rw [hf] at h2 hall
          simp only [List.map_cons, List.cons.injEq] at h2
          have hy : y = ((b : Int), w) :=
            Prod.ext (hall y (by simp)) h2.2.1
          simp [hy]

/-- The neighbours named by the entries of a list are all different, when no
neighbour is named twice. -/
theorem nodup_names (p : Int → Bool) (l : List (Int × Int))
    (h : ∀ v, p v = true → (l.filter fun e => decide (e.1 = v)).length ≤ 1) :
    ((l.filter fun e => p e.1).map Prod.fst).Nodup := by
  induction l with
  | nil => simp
  | cons e l ih =>
    have ih' := ih (by
      intro v hv
      have := h v hv
      rw [List.filter_cons] at this
      split_ifs at this
      · simp only [List.length_cons] at this; omega
      · exact this)
    by_cases hp : p e.1 = true
    · rw [List.filter_cons, if_pos hp, List.map_cons, List.nodup_cons]
      refine ⟨?_, ih'⟩
      intro hmem
      obtain ⟨x, hx, hxe⟩ := List.mem_map.mp hmem
      have hx' := (List.mem_filter.mp hx).1
      have := h e.1 hp
      rw [List.filter_cons, if_pos (by simp), List.length_cons] at this
      have h0 : (l.filter fun a => decide (a.1 = e.1)).length = 0 := by omega
      have h1 : x ∈ l.filter fun a => decide (a.1 = e.1) :=
        List.mem_filter.mpr ⟨hx', by simpa using hxe⟩
      rw [List.length_eq_zero.mp h0] at h1
      simp at h1
    · rw [List.filter_cons, if_neg hp]
      exact ih'

theorem nodup_rowEdges {g : Graph} (hg : g.WellFormed) (u : Nat) :
    ((rowEdges u (g.adjList.getD u [])).map fun e => (e.1, e.2.1)).Nodup := by
  unfold rowEdges
  rw [List.map_append, List.map_map, List.map_map]
  apply List.Nodup.append
  · have h1 := nodup_names (fun x => decide ((u : Int) < x)) (g.adjList.getD u []) (by
      intro v hv
      have hv' : (u : Int) < v := by simpa using hv
      obtain ⟨k, rfl⟩ := Int.eq_ofNat_of_zero_le (by omega : (0 : Int) ≤ v)
      rw [between_length_filter]
      exact hg.single u k (by omega))
    have h2 := List.Nodup.map_on (f := fun x : Int => (u, x.toNat)) (by
      intro x hx y hy hxy
      obtain ⟨ex, hex, rfl⟩ := List.mem_map.mp hx
      obtain ⟨ey, hey, rfl⟩ := List.mem_map.mp hy
      have hx1 : (u : Int) < ex.1 := by simpa using (List.mem_filter.mp hex).2
      have hy1 : (u : Int) < ey.1 := by simpa using (List.mem_filter.mp hey).2
      simp only [Prod.mk.injEq, true_and] at hxy
      omega) h1
    rw [List.map_map] at h2
    exact h2
  · have hlen : (((g.adjList.getD u []).filter fun e => decide (e.1 = (u : Int))).tail).length
        ≤ 1 := by
      rw [List.length_tail, between_length_filter]
      rcases hg.loops u with h | ⟨w, h⟩ <;> rw [h] <;> simp
    cases ht : ((g.adjList.getD u []).filter fun e => decide (e.1 = (u : Int))).tail with
    | nil => simp
    | cons x t =>
      rw [ht] at hlen
      simp only [List.length_cons] at hlen
      have : t = [] := List.length_eq_zero.mp (by omega)
      subst this
      simp
  · intro x hx1 hx2
    obtain ⟨e1, he1, rfl⟩ := List.mem_map.mp hx1
    obtain ⟨e2, _, h2⟩ := List.mem_map.mp hx2
    have hlt : (u : Int) < e1.1 := by simpa using (List.mem_filter.mp he1).2
    simp only [Function.comp, Prod.mk.injEq, true_and] at h2
    omega

theorem nodup_edges {g : Graph} (hg : g.WellFormed) :
    (g.edges.map fun e => (e.1, e.2.1)).Nodup := by
  unfold edges
  rw [List.map_flatMap, List.nodup_flatMap]
  refine ⟨fun u _ => nodup_rowEdges hg u, ?_⟩
  apply List.Pairwise.imp_of_mem ?_ (List.nodup_range _)
  intro a b _ _ hab
  simp only [Function.onFun]
  intro x hx1 hx2
  obtain ⟨e1, he1, rfl⟩ := List.mem_map.mp hx1
  obtain ⟨e2, he2, h2⟩ := List.mem_map.mp hx2
  obtain ⟨a1, b1, w1⟩ := e1
  obtain ⟨a2, b2, w2⟩ := e2
  have h3 := (mem_rowEdges.mp he1).1
  have h4 := (mem_rowEdges.mp he2).1
  simp only [Prod.mk.injEq] at h2
  exact hab (by omega)

end Graph

/-- C21 (total weight): for every graph obtained from `Graph(n)` by a sequence
of `add_edge`, `remove_edge` and `changeEdgeWeight` calls in which the
absolute values of the weights of all entries sum to at most 2^53,
`getTotalWeight()` is the sum of the weights of the undirected edges of the
graph, each counted once.  Without the bound the sum of all entries is still
twice the sum over the edges, so that its half is no fraction, but the
`double` of `getTotalWeight` no longer holds it.  The edges are listed from
their smaller end: `(a, b, w)` is listed exactly when `a ≤ b` and the list of
`a` has the entry `(b, w)`, no pair of ends is listed twice, and every entry
has its mirror entry.  The totals of the tests "Graph: Adding Edges" and
"Graph: Recalculate Total Weight" are 22, and 10, 14, 8. -/
theorem C21_total_weight (n : Nat) (ops : List Graph.Op) :
    ((Graph.runOps n ops).absWeightSum ≤ 2 ^ 53 →
      (Graph.runOps n ops).getTotalWeight = (totalWeight (Graph.runOps n ops).edges : ℚ))
    ∧ (Graph.runOps n ops).weightSum = 2 * totalWeight (Graph.runOps n ops).edges
    ∧ (∀ (a b : Nat) (w : Int),
        (a, b, w) ∈ (Graph.runOps n ops).edges ↔ a ≤ b ∧ (Graph.runOps n ops).HasEdge a b w)
    ∧ (∀ (a b : Nat) (w : Int),
        (Graph.runOps n ops).HasEdge a b w → (Graph.runOps n ops).HasEdge b a w)
    ∧ ((Graph.runOps n ops).edges.map fun e => (e.1, e.2.1)).Nodup
    ∧ (Graph.runOps 4 testAddOps).getTotalWeight = 22
    ∧ (Graph.runOps 3 (testRecalculateOps.take 2)).getTotalWeight = 10
    ∧ (Graph.runOps 3 (testRecalculateOps.take 3)).getTotalWeight = 14
    ∧ (Graph.runOps 3 testRecalculateOps).getTotalWeight = 8 := by
  have hg := Graph.wellFormed_runOps n ops
  have hs := Graph.weightSum_eq_edges hg
  refine ⟨?_, hs, Graph.mem_edges hg, fun a b w h => hg.hasEdge_mirror h,
    Graph.nodup_edges hg, ?_, ?_, ?_, ?_⟩
  · intro hb
    rw [Graph.getTotalWeight_exact _ hb]
    unfold Graph.edgeWeight
    rw [hs]
    push_cast
    ring
  · have h : (Graph.runOps 4 testAddOps).adjList
        = [[(1, 10), (2, 5)], [(0, 10), (2, 7)], [(0, 5), (1, 7)], []] := by decide
    rw [Graph.getTotalWeight_exact _ (by decide)]
    norm_num [Graph.edgeWeight, Graph.weightSum, h]
  · have h : (Graph.runOps 3 (testRecalculateOps.take 2)).adjList
        = [[(1, 4)], [(0, 4), (2, 6)], [(1, 6)]] := by decide
    rw [Graph.getTotalWeight_exact _ (by decide)]
    norm_num [Graph.edgeWeight, Graph.weightSum, h]
  · have h : (Graph.runOps 3 (testRecalculateOps.take 3)).adjList
        = [[(1, 8)], [(0, 8), (2, 6)], [(1, 6)]] := by decide
    rw [Graph.getTotalWeight_exact _ (by decide)]
    norm_num [Graph.edgeWeight, Graph.weightSum, h]
  · have h : (Graph.runOps 3 testRecalculateOps).adjList
        = [[(1, 8)], [(0, 8)], []] := by decide
    rw [Graph.getTotalWeight_exact _ (by decide)]
    norm_num [Graph.edgeWeight, Graph.weightSum, h]

/-- Witness of C21: the graph of the test "Graph: Adding Edges". -/
theorem C21_total_weight_witness :
    (Graph.runOps 4 testAddOps).absWeightSum ≤ 2 ^ 53
    ∧ (Graph.runOps 4 testAddOps).getTotalWeight
        = (totalWeight (Graph.runOps 4 testAddOps).edges : ℚ) :=
  ⟨by decide, (C21_total_weight 4 testAddOps).1 (by decide)⟩

/-! ## The operations of Graph: claims C22 to C27 -/

/-- C22 (add_edge of a new edge): for every graph, valid vertices `u ≠ v` and
weight `w`, when the list of `u` has no entry for `v` and the list of `v` none
for `u`, `add_edge(u, v, w)` appends `(v, w)` at the back of the list of `u`
and `(u, w)` at the back of the list of `v`, leaves every other list as it was
and the number of lists unchanged; it raises `getTotalWeight()` by exactly
`w` when the absolute values of the weights of all entries, those of the two
new entries included, sum to at most 2^53, so that no `double` sum is
rounded. -/
theorem C22_add_new_edge (g : Graph) (u v : Nat) (w : Int) (hu : u < g.adjList.length)
    (hv : v < g.adjList.length) (huv : u ≠ v)
    (h1 : ∀ e ∈ g.adjList.getD u [], e.1 ≠ (v : Int))
    (h2 : ∀ e ∈ g.adjList.getD v [], e.1 ≠ (u : Int)) :
    (g.add_edge u v w).adjList.length = g.adjList.length
    ∧ (g.add_edge u v w).adjList.getD u [] = g.adjList.getD u [] ++ [((v : Int), w)]
    ∧ (g.add_edge u v w).adjList.getD v [] = g.adjList.getD v [] ++ [((u : Int), w)]
    ∧ (∀ x, x ≠ u → x ≠ v → (g.add_edge u v w).adjList.getD x [] = g.adjList.getD x [])
    ∧ (g.absWeightSum + 2 * w.natAbs ≤ 2 ^ 53 →
        (g.add_edge u v w).getTotalWeight = g.getTotalWeight + w) := by
  have hr := Graph.row_add_edge g u v w hu hv huv
  have hru : (g.add_edge u v w).adjList.getD u [] = g.adjList.getD u [] ++ [((v : Int), w)] := by
    rw [hr u, if_pos rfl, Graph.eraseFirst_eq_self _ _ h1]
  have hrv : (g.add_edge u v w).adjList.getD v [] = g.adjList.getD v [] ++ [((u : Int), w)] := by
    rw [hr v, if_neg (Ne.symm huv), if_pos rfl, Graph.eraseFirst_eq_self _ _ h2]
  have hrx : ∀ x, x ≠ u → x ≠ v →
      (g.add_edge u v w).adjList.getD x [] = g.adjList.getD x [] := by
    intro x hxu hxv
    rw [hr x, if_neg hxu, if_neg hxv]
  refine ⟨Graph.length_add_edge _ _ _ _, hru, hrv, hrx, ?_⟩
  have hs : (g.add_edge u v w).weightSum = g.weightSum + 2 * w := by
    rw [Graph.weightSum_eq_sum, Graph.weightSum_eq_sum, Graph.length_add_edge,
      Graph.sum_update_two _ u v hu hv huv
        (fun x => ((g.adjList.getD x []).map Prod.snd).sum)
        (fun x => (((g.add_edge u v w).adjList.getD x []).map Prod.snd).sum)
        (by intro x hxu hxv; simp only; rw [hrx x hxu hxv])]
    simp only [hru, hrv, List.map_append, List.sum_append, List.map_cons, List.map_nil,
      List.sum_cons, List.sum_nil]
    ring
  intro hb
  have ha : ((g.add_edge u v w).absWeightSum : Int) = g.absWeightSum + 2 * w.natAbs := by
    rw [Graph.absWeightSum_eq_sum, Graph.absWeightSum_eq_sum, Graph.length_add_edge,
      Graph.sum_update_two _ u v hu hv huv
        (fun x => ((g.adjList.getD x []).map fun e => (e.2.natAbs : Int)).sum)
        (fun x => (((g.add_edge u v w).adjList.getD x []).map
          fun e => (e.2.natAbs : Int)).sum)
        (by intro x hxu hxv; simp only; rw [hrx x hxu hxv])]
    simp only [hru, hrv, List.map_append, List.sum_append, List.map_cons, List.map_nil,
      List.sum_cons, List.sum_nil]
    ring
  have ha2 : (g.add_edge u v w).absWeightSum = g.absWeightSum + 2 * w.natAbs := by
    exact_mod_cast ha
  rw [Graph.getTotalWeight_exact _ (by omega), Graph.getTotalWeight_exact g (by omega)]
  unfold Graph.edgeWeight
  rw [hs]
  push_cast
  ring

/-- Witness of C22: the first call of the test "Graph: Adding Edges". -/
theorem C22_add_new_edge_witness :
    ((Graph.new 4).add_edge (0 : Nat) (1 : Nat) 10).adjList.length = (Graph.new 4).adjList.length
    ∧ ((Graph.new 4).add_edge (0 : Nat) (1 : Nat) 10).adjList.getD 0 []
        = (Graph.new 4).adjList.getD 0 [] ++ [(((1 : Nat) : Int), 10)]
    ∧ ((Graph.new 4).add_edge (0 : Nat) (1 : Nat) 10).adjList.getD 1 []
        = (Graph.new 4).adjList.getD 1 [] ++ [(((0 : Nat) : Int), 10)]
    ∧ (∀ x, x ≠ 0 → x ≠ 1 →
        ((Graph.new 4).add_edge (0 : Nat) (1 : Nat) 10).adjList.getD x []
          = (Graph.new 4).adjList.getD x [])
    ∧ ((Graph.new 4).add_edge (0 : Nat) (1 : Nat) 10).getTotalWeight
        = (Graph.new 4).getTotalWeight + (10 : Int) :=
  have h := C22_add_new_edge (Graph.new 4) 0 1 10 (by decide) (by decide) (by decide)
    (by decide) (by decide)
  ⟨h.1, h.2.1, h.2.2.1, h.2.2.2.1, h.2.2.2.2 (by decide)⟩

/-- C23 (add_edge of an existing edge): for every graph obtained from
`Graph(n)` by graph operations and valid vertices `u ≠ v` between which an
edge exists, after `add_edge(u, v, w)` the list of `u` is its former list
without the entry for `v`, followed by `(v, w)`, and the list of `v` its
former list without the entry for `u`, followed by `(u, w)`: each holds
exactly one entry for the other end, of weight `w`; every other list is
unchanged, and no list changes its length. -/
theorem C23_add_existing_edge (n : Nat) (ops : List Graph.Op) (u v : Nat) (w : Int)
    (hu : u < n) (hv : v < n) (huv : u ≠ v) (he : ∃ w0, (Graph.runOps n ops).HasEdge u v w0) :
    let g := Graph.runOps n ops
    (g.add_edge u v w).adjList.length = n
    ∧ (g.add_edge u v w).adjList.getD u []
        = ((g.adjList.getD u []).filter fun e => !decide (e.1 = (v : Int))) ++ [((v : Int), w)]
    ∧ (g.add_edge u v w).adjList.getD v []
        = ((g.adjList.getD v []).filter fun e => !decide (e.1 = (u : Int))) ++ [((u : Int), w)]
    ∧ (∀ x, x ≠ u → x ≠ v → (g.add_edge u v w).adjList.getD x [] = g.adjList.getD x [])
    ∧ ((g.add_edge u v w).adjList.getD u []).filter (fun e => decide (e.1 = (v : Int)))
        = [((v : Int), w)]
    ∧ ((g.add_edge u v w).adjList.getD v []).filter (fun e => decide (e.1 = (u : Int)))
        = [((u : Int), w)]
    ∧ ((g.add_edge u v w).adjList.getD u []).length = (g.adjList.getD u []).length
    ∧ ((g.add_edge u v w).adjList.getD v []).length = (g.adjList.getD v []).length := by
  intro g
  have hg : g.WellFormed := Graph.wellFormed_runOps n ops
  have hlen : g.adjList.length = n := Graph.length_runOps n ops
  have hu' : u < g.adjList.length := hlen ▸ hu
  have hv' : v < g.adjList.length := hlen ▸ hv
  have hr := Graph.row_add_edge g u v w hu' hv' huv
  have c1 : ((g.adjList.getD u []).filter fun e => decide (e.1 = (v : Int))).length ≤ 1 := by
    rw [Graph.between_length_filter]; exact hg.single u v huv
  have c2 : ((g.adjList.getD v []).filter fun e => decide (e.1 = (u : Int))).length ≤ 1 := by
    rw [Graph.between_length_filter]; exact hg.single v u (Ne.symm huv)
  have hru : (g.add_edge u v w).adjList.getD u []
      = ((g.adjList.getD u []).filter fun e => !decide (e.1 = (v : Int)))
        ++ [((v : Int), w)] := by
    rw [hr u, if_pos rfl, Graph.eraseFirst_eq_filter _ _ c1]
  have hrv : (g.add_edge u v w).adjList.getD v []
      = ((g.adjList.getD v []).filter fun e => !decide (e.1 = (u : Int)))
        ++ [((u : Int), w)] := by
    rw [hr v, if_neg (Ne.symm huv), if_pos rfl, Graph.eraseFirst_eq_filter _ _ c2]
  obtain ⟨w0, hw0⟩ := he
  have hb := (Graph.between_of_hasEdge hg hw0).1 huv
  have d1 : ((g.adjList.getD u []).filter fun e => decide (e.1 = (v : Int))).length = 1 := by
    rw [Graph.between_length_filter, hb.1]; rfl
  have d2 : ((g.adjList.getD v []).filter fun e => decide (e.1 = (u : Int))).length = 1 := by
    rw [Graph.between_length_filter, hb.2]; rfl
  refine ⟨by rw [Graph.length_add_edge]; exact hlen, hru, hrv, ?_, ?_, ?_, ?_, ?_⟩
  · intro x hxu hxv
    rw [hr x, if_neg hxu, if_neg hxv]
  · rw [hru]
    simp [List.filter_filter]
  · rw [hrv]
    simp [List.filter_filter]
  · rw [hru, List.length_append, List.length_singleton,
      Graph.length_filter_split (v : Int) (g.adjList.getD u []), d1]
    ring
  · rw [hrv, List.length_append, List.length_singleton,
      Graph.length_filter_split (u : Int) (g.adjList.getD v []), d2]
    ring

/-- Witness of C23: `add_edge(0, 1, 3)` after the calls of the test "Graph:
Adding Edges". -/
theorem C23_add_existing_edge_witness :
    let g := Graph.runOps 4 testAddOps
    (g.add_edge (0 : Nat) (1 : Nat) 3).adjList.length = 4
    ∧ (g.add_edge (0 : Nat) (1 : Nat) 3).adjList.getD 0 []
        = ((g.adjList.getD 0 []).filter fun e => !decide (e.1 = ((1 : Nat) : Int)))
          ++ [(((1 : Nat) : Int), 3)]
    ∧ (g.add_edge (0 : Nat) (1 : Nat) 3).adjList.getD 1 []
        = ((g.adjList.getD 1 []).filter fun e => !decide (e.1 = ((0 : Nat) : Int)))
          ++ [(((0 : Nat) : Int), 3)]
    ∧ (∀ x, x ≠ 0 → x ≠ 1 →
        (g.add_edge (0 : Nat) (1 : Nat) 3).adjList.getD x [] = g.adjList.getD x [])
    ∧ ((g.add_edge (0 : Nat) (1 : Nat) 3).adjList.getD 0 []).filter
        (fun e => decide (e.1 = ((1 : Nat) : Int))) = [(((1 : Nat) : Int), 3)]
    ∧ ((g.add_edge (0 : Nat) (1 : Nat) 3).adjList.getD 1 []).filter
        (fun e => decide (e.1 = ((0 : Nat) : Int))) = [(((0 : Nat) : Int), 3)]
    ∧ ((g.add_edge (0 : Nat) (1 : Nat) 3).adjList.getD 0 []).length = (g.adjList.getD 0 []).length
    ∧ ((g.add_edge (0 : Nat) (1 : Nat) 3).adjList.getD 1 []).length
        = (g.adjList.getD 1 []).length :=
  C23_add_existing_edge 4 testAddOps 0 1 3 (by decide) (by decide) (by decide)
    ⟨10, by decide⟩

/-- C24 (remove_edge): for every graph obtained from `Graph(n)` by graph
operations and valid vertices `u`, `v`, after `remove_edge(u, v)` the list of
`u` is its former list without the entries for `v` and the list of `v` its
former list without the entries for `u`, the other entries in their order;
every other list is unchanged; `getTotalWeight()` is lower by exactly the
weight of the removed edge when the absolute values of the weights of all
entries of the graph sum to at most 2^53, so that no `double` sum is rounded;
and the graph is unchanged when there was no edge. -/
theorem C24_remove_edge (n : Nat) (ops : List Graph.Op) (u v : Nat) (hu : u < n) (hv : v < n) :
    let g := Graph.runOps n ops
    (g.remove_edge u v).adjList.length = n
    ∧ (g.remove_edge u v).adjList.getD u []
        = ((g.adjList.getD u []).filter fun e => !decide (e.1 = (v : Int)))
    ∧ (g.remove_edge u v).adjList.getD v []
        = ((g.adjList.getD v []).filter fun e => !decide (e.1 = (u : Int)))
    ∧ (∀ x, x ≠ u → x ≠ v → (g.remove_edge u v).adjList.getD x [] = g.adjList.getD x [])
    ∧ (∀ e ∈ (g.remove_edge u v).adjList.getD u [], e.1 ≠ (v : Int))
    ∧ (∀ e ∈ (g.remove_edge u v).adjList.getD v [], e.1 ≠ (u : Int))
    ∧ (∀ w, g.HasEdge u v w → g.absWeightSum ≤ 2 ^ 53 →
        (g.remove_edge u v).getTotalWeight = g.getTotalWeight - w)
    ∧ ((∀ w, ¬ g.HasEdge u v w) → g.remove_edge u v = g) := by
  intro g
  have hg : g.WellFormed := Graph.wellFormed_runOps n ops
  have hlen : g.adjList.length = n := Graph.length_runOps n ops
  have hu' : u < g.adjList.length := hlen ▸ hu
  have hv' : v < g.adjList.length := hlen ▸ hv
  have hr := Graph.row_remove_edge_filter hg u v hu' hv'
  have hru : (g.remove_edge u v).adjList.getD u []
      = ((g.adjList.getD u []).filter fun e => !decide (e.1 = (v : Int))) := by
    rw [hr u, if_pos rfl]
  have hrv : (g.remove_edge u v).adjList.getD v []
      = ((g.adjList.getD v []).filter fun e => !decide (e.1 = (u : Int))) := by
    rw [hr v]
    by_cases huv : u = v
    · subst huv
      rw [if_pos rfl]
    · rw [if_neg (Ne.symm huv), if_pos rfl]
  refine ⟨by rw [Graph.length_remove_edge]; exact hlen, hru, hrv, ?_, ?_, ?_, ?_, ?_⟩
  · intro x hxu hxv
    rw [hr x, if_neg hxu, if_neg hxv]
  · intro e he
    rw [hru] at he
    simpa using (List.mem_filter.mp he).2
  · intro e he
    rw [hrv] at he
    simpa using (List.mem_filter.mp he).2
  · intro w hw hbound
    have hb := Graph.between_of_hasEdge hg hw
    have hs : (g.remove_edge u v).weightSum = g.weightSum - 2 * w := by
      rw [Graph.weightSum_remove_edge hg u v hu' hv']
      by_cases huv : u = v
      · rw [if_pos huv, hb.2 huv]
        simp only [List.sum_cons, List.sum_nil]
        ring
      · rw [if_neg huv, (hb.1 huv).1, (hb.1 huv).2]
        simp only [List.sum_cons, List.sum_nil]
        ring
    have hle : (g.remove_edge u v).absWeightSum ≤ g.absWeightSum := by
      apply Graph.absWeightSum_le_of_rows _ _ (Graph.length_remove_edge _ _ _)
      intro x
      rw [hr x]
      split_ifs with c1 c2
      · rw [c1]; exact Graph.row_abs_filter_le _ _
      · rw [c2]; exact Graph.row_abs_filter_le _ _
      · exact le_refl _
    rw [Graph.getTotalWeight_exact _ (by omega), Graph.getTotalWeight_exact g hbound]
    unfold Graph.edgeWeight
    rw [hs]
    push_cast
    ring
  · intro hno
    apply Graph.ext_getD (Graph.length_remove_edge _ _ _)
    intro x
    have e1 : ((g.adjList.getD u []).filter fun e => !decide (e.1 = (v : Int)))
        = g.adjList.getD u [] := by
      rw [List.filter_eq_self]
      intro e he
      have : e.1 ≠ (v : Int) := by
        intro hev
        apply hno e.2
        show ((v : Int), e.2) ∈ g.adjList.getD u []
        rw [← hev]
        exact he
      simpa using this
    have e2 : ((g.adjList.getD v []).filter fun e => !decide (e.1 = (u : Int)))
        = g.adjList.getD v [] := by
      rw [List.filter_eq_self]
      intro e he
      have : e.1 ≠ (u : Int) := by
        intro hev
        have h3 : ((u : Int), e.2) ∈ g.adjList.getD v [] := by
          rw [← hev]
          exact he
        by_cases huv : u = v
        · subst huv
          exact hno e.2 h3
        · have h4 : e.2 ∈ g.between v u := Graph.mem_between.mpr h3
          rw [← hg.symm u v huv] at h4
          exact hno e.2 (Graph.mem_between.mp h4)
      simpa using this
    rw [hr x]
    split_ifs with c1 c2
    · rw [c1]; exact e1
    · rw [c2]; exact e2
    · rfl

/-- Witness of C24: `remove_edge(0, 1)` of the test "Graph: Removing Edges". -/
theorem C24_remove_edge_witness :
    let g := Graph.runOps 4 testAddOps
    (g.remove_edge (0 : Nat) (1 : Nat)).adjList.length = 4
    ∧ (g.remove_edge (0 : Nat) (1 : Nat)).adjList.getD 0 []
        = ((g.adjList.getD 0 []).filter fun e => !decide (e.1 = ((1 : Nat) : Int)))
    ∧ (g.remove_edge (0 : Nat) (1 : Nat)).adjList.getD 1 []
        = ((g.adjList.getD 1 []).filter fun e => !decide (e.1 = ((0 : Nat) : Int)))
    ∧ (∀ x, x ≠ 0 → x ≠ 1 →
        (g.remove_edge (0 : Nat) (1 : Nat)).adjList.getD x [] = g.adjList.getD x [])
    ∧ (∀ e ∈ (g.remove_edge (0 : Nat) (1 : Nat)).adjList.getD 0 [], e.1 ≠ ((1 : Nat) : Int))
    ∧ (∀ e ∈ (g.remove_edge (0 : Nat) (1 : Nat)).adjList.getD 1 [], e.1 ≠ ((0 : Nat) : Int))
    ∧ (∀ w, g.HasEdge 0 1 w →
        (g.remove_edge (0 : Nat) (1 : Nat)).getTotalWeight = g.getTotalWeight - w)
    ∧ ((∀ w, ¬ g.HasEdge 0 1 w) → g.remove_edge (0 : Nat) (1 : Nat) = g) :=
  have h := C24_remove_edge 4 testAddOps 0 1 (by decide) (by decide)
  ⟨h.1, h.2.1, h.2.2.1, h.2.2.2.1, h.2.2.2.2.1, h.2.2.2.2.2.1,
    fun w hw => h.2.2.2.2.2.2.1 w hw (by decide), h.2.2.2.2.2.2.2⟩

/-- C25 (changeEdgeWeight): for every graph, valid vertices `u`, `v` and
weight `w`, `changeEdgeWeight(u, v, w)` keeps the number of lists, the length
of every list and the neighbour at every position; the entry at a position
gets the weight `w` when it is an entry for `v` in the list of `u` or an entry
for `u` in the list of `v`, and keeps its weight otherwise; when neither list
has an entry for the other vertex the graph is unchanged. -/
theorem C25_changeEdgeWeight (g : Graph) (u v : Nat) (w : Int) (hu : u < g.adjList.length)
    (hv : v < g.adjList.length) :
    (g.changeEdgeWeight u v w).adjList.length = g.adjList.length
    ∧ (∀ x : Nat, ((g.changeEdgeWeight u v w).adjList.getD x []).map Prod.fst
        = (g.adjList.getD x []).map Prod.fst)
    ∧ (∀ (x i : Nat) (e : Int × Int), (g.adjList.getD x [])[i]? = some e →
        ((g.changeEdgeWeight u v w).adjList.getD x [])[i]?
          = some (if (x = u ∧ e.1 = (v : Int)) ∨ (x = v ∧ e.1 = (u : Int)) then (e.1, w)
              else e))
    ∧ ((∀ e ∈ g.adjList.getD u [], e.1 ≠ (v : Int)) →
        (∀ e ∈ g.adjList.getD v [], e.1 ≠ (u : Int)) → g.changeEdgeWeight u v w = g) := by
  have hr := Graph.row_changeEdgeWeight_eq g u v w hu hv
  refine ⟨Graph.length_changeEdgeWeight _ _ _ _, ?_, ?_, ?_⟩
  · intro x
    rw [hr x, List.map_map]
    apply List.map_congr_left
    intro e _
    simp only [Function.comp]
    split_ifs <;> rfl
  · intro x i e he
    rw [hr x, List.getElem?_map, he]
    rfl
  · intro h1 h2
    apply Graph.ext_getD (Graph.length_changeEdgeWeight _ _ _ _)
    intro x
    rw [hr x]
    conv_rhs => rw [← List.map_id (g.adjList.getD x [])]
    apply List.map_congr_left
    intro e he
    have hc : ¬ ((x = u ∧ e.1 = (v : Int)) ∨ (x = v ∧ e.1 = (u : Int))) := by
      rintro (⟨c1, c2⟩ | ⟨c1, c2⟩)
      · subst c1; exact h1 e he c2
      · subst c1; exact h2 e he c2
    rw [if_neg hc]
    rfl

/-- Witness of C25: `changeEdgeWeight(0, 2, 15)` of the test "Graph: Changing
Edge Weights". -/
theorem C25_changeEdgeWeight_witness :
    ((Graph.runOps 4 testAddOps).changeEdgeWeight (0 : Nat) (2 : Nat) 15).adjList
      = [[(1, 10), (2, 15)], [(0, 10), (2, 7)], [(0, 15), (1, 7)], []]
    ∧ ((Graph.runOps 4 testAddOps).changeEdgeWeight (0 : Nat) (2 : Nat) 15).adjList.length
      = (Graph.runOps 4 testAddOps).adjList.length :=
  ⟨by decide,
    (C25_changeEdgeWeight (Graph.runOps 4 testAddOps) 0 2 15 (by decide) (by decide)).1⟩

/-- C26 (invalid vertices): `isValidVertex(v)` holds exactly when
`0 ≤ v < n`, `n` the number of vertices; when `u` or `v` is not valid (as are
all vertices when `n = 0`), `add_edge`, `remove_edge` and `changeEdgeWeight`
leave the graph entirely unchanged. -/
theorem C26_invalid_vertex (g : Graph) (u v w : Int) :
    (∀ x : Int, g.isValidVertex x = true ↔ 0 ≤ x ∧ x < g.getNumVertices)
    ∧ ((g.isValidVertex u = false ∨ g.isValidVertex v = false) →
        g.add_edge u v w = g ∧ g.remove_edge u v = g ∧ g.changeEdgeWeight u v w = g)
    ∧ (g.getNumVertices = 0 →
        g.add_edge u v w = g ∧ g.remove_edge u v = g ∧ g.changeEdgeWeight u v w = g) := by
  have key : (g.isValidVertex u = false ∨ g.isValidVertex v = false) →
      g.add_edge u v w = g ∧ g.remove_edge u v = g ∧ g.changeEdgeWeight u v w = g := by
    intro h
    have hc : ¬ ((g.isValidVertex u && g.isValidVertex v) = true) := by
      rcases h with h | h <;> simp [h]
    refine ⟨?_, ?_, ?_⟩
    · unfold Graph.add_edge; rw [if_neg hc]
    · unfold Graph.remove_edge; rw [if_neg hc]
    · unfold Graph.changeEdgeWeight; rw [if_neg hc]
  refine ⟨Graph.isValidVertex_iff g, key, ?_⟩
  intro h0
  apply key
  left
  cases hval : g.isValidVertex u with
  | false => rfl
  | true =>
    rw [Graph.isValidVertex_iff] at hval
    omega

/-- C27 (constructor): for every `n`, `Graph(n)` has `n` vertices, `n`
adjacency lists, all of them empty, and total weight 0. -/
theorem C27_constructor (n : Nat) :
    (Graph.new n).getNumVertices = n
    ∧ (Graph.new n).adjList.length = n
    ∧ (∀ l ∈ (Graph.new n).adjList, l = [])
    ∧ (Graph.new n).getTotalWeight = 0 := by
  refine ⟨by simp [Graph.new, Graph.getNumVertices], by simp [Graph.new], ?_, ?_⟩
  · intro l hl
    exact List.eq_of_mem_replicate hl
  · have h : (Graph.new n).weightSum = 0 := by
      rw [Graph.weightSum_eq_sum]
      apply Finset.sum_eq_zero
      intro x _
      rw [Graph.getD_new]
      rfl
    rw [Graph.getTotalWeight_exact _ (by simp [Graph.absWeightSum, Graph.new])]
    unfold Graph.edgeWeight
    rw [h]
    simp

/-! ## The heaviest edge -/

theorem maxEdgeRow_spec (i : Int) (l : List (Int × Int)) :
    ∀ acc : Int × Int × Int,
      acc.1 ≤ (maxEdgeRow i l acc).1
      ∧ (∀ e ∈ l, e.2 ≤ (maxEdgeRow i l acc).1)
      ∧ (maxEdgeRow i l acc = acc
        ∨ (acc.1 < (maxEdgeRow i l acc).1 ∧ (maxEdgeRow i l acc).2.1 = i
          ∧ ((maxEdgeRow i l acc).2.2, (maxEdgeRow i l acc).1) ∈ l)) := by
  induction l with
  | nil =>
    intro acc
    exact ⟨le_refl _, by simp, Or.inl rfl⟩
  | cons edge rest ih =>
    rintro ⟨m, u, v⟩
    unfold maxEdgeRow
    by_cases h : edge.2 > m
    · rw [if_pos h]
      obtain ⟨h1, h2, h3⟩ := ih (edge.2, i, edge.1)
      simp only at h1 h3
      refine ⟨by simp only; omega, ?_, Or.inr ?_⟩
      · intro e he
        rcases List.mem_cons.mp he with rfl | he
        · exact h1
        · exact h2 e he
      · rcases h3 with h3 | ⟨h4, h5, h6⟩
        · rw [h3]
          exact ⟨h, rfl, List.mem_cons_self _ _⟩
        · exact ⟨by simp only; omega, h5, List.mem_cons_of_mem _ h6⟩
    · rw [if_neg h]
      obtain ⟨h1, h2, h3⟩ := ih (m, u, v)
      simp only at h1 h3
      refine ⟨h1, ?_, ?_⟩
      · intro e he
        rcases List.mem_cons.mp he with rfl | he
        · omega
        · exact h2 e he
      · rcases h3 with h3 | ⟨h4, h5, h6⟩
        · exact Or.inl h3
        · exact Or.inr ⟨h4, h5, List.mem_cons_of_mem _ h6⟩

theorem maxEdgeRows_spec (ls : List (List (Int × Int))) :
    ∀ (k : Nat) (acc : Int × Int × Int),
      acc.1 ≤ (maxEdgeRows k ls acc).1
      ∧ (∀ l ∈ ls, ∀ e ∈ l, e.2 ≤ (maxEdgeRows k ls acc).1)
      ∧ (maxEdgeRows k ls acc = acc
        ∨ (acc.1 < (maxEdgeRows k ls acc).1 ∧ ∃ j : Nat,
            (maxEdgeRows k ls acc).2.1 = ((k + j : Nat) : Int)
            ∧ ((maxEdgeRows k ls acc).2.2, (maxEdgeRows k ls acc).1) ∈ ls.getD j [])) := by
  induction ls with
  | nil =>
    intro k acc
    exact ⟨le_refl _, by simp, Or.inl rfl⟩
  | cons l ls ih =>
    intro k acc
    unfold maxEdgeRows
    obtain ⟨r1, r2, r3⟩ := maxEdgeRow_spec (k : Int) l acc
    obtain ⟨h1, h2, h3⟩ := ih (k + 1) (maxEdgeRow (k : Int) l acc)
    refine ⟨le_trans r1 h1, ?_, ?_⟩
    · intro l' hl' e he
      rcases List.mem_cons.mp hl' with rfl | hl'
      · exact le_trans (r2 e he) h1
      · exact h2 l' hl' e he
    · rcases h3 with h3 | ⟨h4, j, h5, h6⟩
      · rw [h3]
        rcases r3 with r3 | ⟨r4, r5, r6⟩
        · exact Or.inl r3
        · exact Or.inr ⟨r4, 0, by simpa using r5, by simpa using r6⟩
      · refine Or.inr ⟨lt_of_le_of_lt r1 h4, j + 1, ?_, ?_⟩
        · rw [h5]
          congr 1
          omega
        · simpa using h6

/-- What `getMaxWeightEdge_MST` finds: a weight that no entry exceeds; with an
entry of positive weight, the vertex of a list and an entry of that list with
this weight; with none, the initial values 0, -1, -1. -/
theorem maxWeightEdge_spec (t : Graph) :
    (∀ l ∈ t.adjList, ∀ e ∈ l, e.2 ≤ (maxWeightEdge t).1)
    ∧ ((∃ l ∈ t.adjList, ∃ e ∈ l, 0 < e.2) →
        ∃ u : Nat, (maxWeightEdge t).2.1 = (u : Int)
          ∧ ((maxWeightEdge t).2.2, (maxWeightEdge t).1) ∈ t.adjList.getD u [])
    ∧ ((∀ l ∈ t.adjList, ∀ e ∈ l, e.2 ≤ 0) → maxWeightEdge t = (0, -1, -1)) := by
  unfold maxWeightEdge
  obtain ⟨h1, h2, h3⟩ := maxEdgeRows_spec t.adjList 0 (0, -1, -1)
  refine ⟨h2, ?_, ?_⟩
  · rintro ⟨l, hl, e, he, hpos⟩
    rcases h3 with h3 | ⟨_, j, h5, h6⟩
    · have := h2 l hl e he
      rw [h3] at this
      simp only at this
      omega
    · exact ⟨0 + j, h5, by simpa using h6⟩
  · intro hall
    rcases h3 with h3 | ⟨h4, j, _, h6⟩
    · exact h3
    · exfalso
      have hj : j < t.adjList.length := by
        by_contra hj
        rw [List.getD_eq_getElem?_getD, List.getElem?_eq_none_iff.mpr (by omega)] at h6
        simp at h6
      have hm : t.adjList.getD j [] ∈ t.adjList := by
        rw [List.getD_eq_getElem?_getD, List.getElem?_eq_getElem hj]
        exact List.getElem_mem hj
      have := hall _ hm _ h6
      simp only at this h4
      omega

/-! ## The trees of the examples -/

theorem isTree_of_root {t : Graph} {A : List Edge} (h : t.IsGraphOf t.adjList.length A)
    (hlen : A.length + 1 = t.adjList.length) (hr : ∀ v, v < t.adjList.length → Reach A 0 v) :
    t.IsTree :=
  ⟨A, h, hlen, fun u v hu hv => (hr u hu).symm.trans (hr v hv)⟩

theorem minusOneGraph_isTree : minusOneGraph.IsTree := by
  have h1 : minusOneGraph.IsGraphOf 2 [(0, 1, -1)] :=
    Graph.isGraphOf_add_edge (u := 0) (v := 1) (Graph.isGraphOf_new 2) (-1) (by decide)
      (by decide) (by rw [reach_nil]; decide)
  apply isTree_of_root (A := [(0, 1, -1)]) h1 (by decide)
  intro v hv
  have hv' : v < 2 := hv
  interval_cases v
  · exact Reach.refl _ _
  · exact reach_edge (List.mem_cons_self _ _)

theorem starTree_isTree : starTree.IsTree := by
  have h1 : ((Graph.new 3).add_edge ((0 : Nat) : Int) ((1 : Nat) : Int) 1).IsGraphOf 3
      [(0, 1, 1)] :=
    Graph.isGraphOf_add_edge (u := 0) (v := 1) (Graph.isGraphOf_new 3) 1 (by decide)
      (by decide) (by rw [reach_nil]; decide)
  have h2 : starTree.IsGraphOf 3 [(0, 2, 1), (0, 1, 1)] :=
    Graph.isGraphOf_add_edge (u := 0) (v := 2) h1 1 (by decide) (by decide)
      (by rw [reach_cons]; simp [reach_nil])
  apply isTree_of_root (A := [(0, 2, 1), (0, 1, 1)]) h2 (by decide)
  intro v hv
  have hv' : v < 3 := hv
  interval_cases v
  · exact Reach.refl _ _
  · exact reach_edge (List.mem_cons_of_mem _ (List.mem_cons_self _ _))
  · exact reach_edge (List.mem_cons_self _ _)

theorem overflowTree_isTree : overflowTree.IsTree := by
  have h1 : ((Graph.new 3).add_edge ((0 : Nat) : Int) ((1 : Nat) : Int) 1073741824).IsGraphOf 3
      [(0, 1, 1073741824)] :=
    Graph.isGraphOf_add_edge (u := 0) (v := 1) (Graph.isGraphOf_new 3) 1073741824 (by decide)
      (by decide) (by rw [reach_nil]; decide)
  have h2 : overflowTree.IsGraphOf 3 [(1, 2, 1073741824), (0, 1, 1073741824)] :=
    Graph.isGraphOf_add_edge (u := 1) (v := 2) h1 1073741824 (by decide) (by decide)
      (by rw [reach_cons]; simp [reach_nil])
  apply isTree_of_root (A := [(1, 2, 1073741824), (0, 1, 1073741824)]) h2 (by decide)
  intro v hv
  have hv' : v < 3 := hv
  interval_cases v
  · exact Reach.refl _ _
  · exact reach_edge (List.mem_cons_of_mem _ (List.mem_cons_self _ _))
  · exact (reach_edge (List.mem_cons_of_mem _ (List.mem_cons_self _ _))).trans
      (reach_edge (List.mem_cons_self _ _))

theorem expected3_isTree : expected3.IsTree := by
  have h1 : ((Graph.new 3).add_edge ((0 : Nat) : Int) ((1 : Nat) : Int) 2).IsGraphOf 3
      [(0, 1, 2)] :=
    Graph.isGraphOf_add_edge (u := 0) (v := 1) (Graph.isGraphOf_new 3) 2 (by decide)
      (by decide) (by rw [reach_nil]; decide)
  have h2 : expected3.IsGraphOf 3 [(1, 2, 3), (0, 1, 2)] :=
    Graph.isGraphOf_add_edge (u := 1) (v := 2) h1 3 (by decide) (by decide)
      (by rw [reach_cons]; simp [reach_nil])
  apply isTree_of_root (A := [(1, 2, 3), (0, 1, 2)]) h2 (by decide)
  intro v hv
  have hv' : v < 3 := hv
  interval_cases v
  · exact Reach.refl _ _
  · exact reach_edge (List.mem_cons_of_mem _ (List.mem_cons_self _ _))
  · exact (reach_edge (List.mem_cons_of_mem _ (List.mem_cons_self _ _))).trans
      (reach_edge (List.mem_cons_self _ _))

/-- C30 (heaviest edge), as the code has it: `getMaxWeightEdge_MST` starts from
the weight 0 and the vertices -1, -1 and takes an entry only when its weight
is larger.  No entry is heavier than the reported weight; when the tree has an
edge of positive weight the report is an entry of the tree of the largest
weight; when no weight is positive the report is "Vertex -1 <----(0)---->
Vertex -1", which names no edge: so it is for the tree of two vertices joined
by an edge of weight -1. -/
theorem C30_heaviest_edge :
    (∀ t : Graph,
      (∀ l ∈ t.adjList, ∀ e ∈ l, e.2 ≤ (maxWeightEdge t).1)
      ∧ ((∃ l ∈ t.adjList, ∃ e ∈ l, 0 < e.2) →
          ∃ u : Nat, (maxWeightEdge t).2.1 = (u : Int)
            ∧ ((maxWeightEdge t).2.2, (maxWeightEdge t).1) ∈ t.adjList.getD u [])
      ∧ ((∀ l ∈ t.adjList, ∀ e ∈ l, e.2 ≤ 0) → maxWeightEdge t = (0, -1, -1)))
    ∧ minusOneGraph.IsTree
    ∧ minusOneGraph.adjList = [[(1, -1)], [(0, -1)]]
    ∧ maxWeightEdge minusOneGraph = (0, -1, -1)
    ∧ getMaxWeightEdge_MST (some minusOneGraph) = some "Vertex -1 <----(0)----> Vertex -1"
    ∧ ¬ (∃ l ∈ minusOneGraph.adjList, ∃ e ∈ l, e.2 = (maxWeightEdge minusOneGraph).1) :=
  ⟨maxWeightEdge_spec, minusOneGraph_isTree, by decide, by decide, by decide, by decide⟩

/-! ## Distances in a tree built leaf by leaf -/

theorem treeDist_self (len : Int → Int) (B : List Edge) (x : Nat) : treeDist len B x x = 0 := by
  induction B with
  | nil => rfl
  | cons e B ih =>
    obtain ⟨p, c, w⟩ := e
    unfold treeDist
    by_cases hx : x = c
    · rw [if_pos hx, if_pos hx]
    · rw [if_neg hx, if_neg hx, ih]

theorem treeDist_comm (len : Int → Int) (B : List Edge) :
    ∀ x y, treeDist len B x y = treeDist len B y x := by
  induction B with
  | nil => intro x y; rfl
  | cons e B ih =>
    obtain ⟨p, c, w⟩ := e
    intro x y
    unfold treeDist
    by_cases hx : x = c
    · by_cases hy : y = c
      · rw [if_pos hx, if_pos hy, if_pos hy, if_pos hx]
      · rw [if_pos hx, if_neg hy, if_neg hy, if_pos hx, ih]
    · by_cases hy : y = c
      · rw [if_neg hx, if_pos hy, if_pos hy, if_neg hx, ih]
      · rw [if_neg hx, if_neg hy, if_neg hy, if_neg hx, ih]

theorem treeDist_nonneg (len : Int → Int) (B : List Edge) (hw : ∀ e ∈ B, 0 ≤ len e.2.2) :
    ∀ x y, 0 ≤ treeDist len B x y := by
  induction B with
  | nil => intro x y; exact le_refl _
  | cons e B ih =>
    obtain ⟨p, c, w⟩ := e
    have ih' := ih fun e he => hw e (List.mem_cons_of_mem _ he)
    have hw0 : 0 ≤ len w := hw (p, c, w) (List.mem_cons_self _ _)
    intro x y
    unfold treeDist
    split_ifs
    · exact le_refl _
    · have := ih' p y; omega
    · have := ih' x p; omega
    · exact ih' x y

theorem treeDist_cons (len : Int → Int) (p c : Nat) (w : Int) (B : List Edge) (x y : Nat) :
    treeDist len ((p, c, w) :: B) x y =
      if x = c then (if y = c then 0 else len w + treeDist len B p y)
      else if y = c then len w + treeDist len B x p
      else treeDist len B x y := rfl

theorem treeDist_cons_old (len : Int → Int) (e : Edge) (B : List Edge) {x y : Nat}
    (hx : x ≠ e.2.1) (hy : y ≠ e.2.1) : treeDist len (e :: B) x y = treeDist len B x y := by
  obtain ⟨p, c, w⟩ := e
  rw [treeDist_cons, if_neg hx, if_neg hy]

theorem treeDist_cons_new (len : Int → Int) (p c : Nat) (w : Int) (B : List Edge) {x : Nat}
    (hx : x ≠ c) : treeDist len ((p, c, w) :: B) x c = len w + treeDist len B x p := by
  rw [treeDist_cons, if_neg hx, if_pos rfl]

/-- The four-point condition of the distances of a tree. -/
theorem treeDist_four_point (len : Int → Int) (B : List Edge) (hw : ∀ e ∈ B, 0 ≤ len e.2.2) :
    ∀ x y z t,
      treeDist len B x y + treeDist len B z t ≤ treeDist len B x z + treeDist len B y t
      ∨ treeDist len B x y + treeDist len B z t ≤ treeDist len B x t + treeDist len B y z := by
  induction B with
  | nil => intro x y z t; left; simp [treeDist]
  | cons e B ih =>
    obtain ⟨p, c, w⟩ := e
    have ih' := ih fun e he => hw e (List.mem_cons_of_mem _ he)
    have hw0 : 0 ≤ len w := hw (p, c, w) (List.mem_cons_self _ _)
    have hs := treeDist_comm len B
    have h0 := treeDist_self len B
    intro x y z t
    have A := ih' (if x = c then p else x) (if y = c then p else y) (if z = c then p else z)
      (if t = c then p else t)
    have T1 := ih' z t p p
    have T2 := ih' x y p p
    have c1 := h0 p
    have b1 := hs p x
    have b2 := hs p y
    have b3 := hs p z
    have b4 := hs p t
    simp only [treeDist_cons]
    by_cases hx : x = c <;> by_cases hy : y = c <;> by_cases hz : z = c <;> by_cases ht : t = c
    all_goals simp only [hx, hy, hz, ht, if_true, if_false] at A ⊢
    all_goals omega

/-- The two ends found by two searches are as far apart as any two
vertices. -/
theorem treeDist_double_sweep (len : Int → Int) (B : List Edge)
    (hw : ∀ e ∈ B, 0 ≤ len e.2.2) (V : Nat → Prop) (r a b : Nat)
    (ha : ∀ x, V x → treeDist len B r x ≤ treeDist len B r a)
    (hb : ∀ x, V x → treeDist len B a x ≤ treeDist len B a b) :
    ∀ x y, V x → V y → treeDist len B x y ≤ treeDist len B a b := by
  intro x y hx hy
  have h1 := ha x hx
  have h2 := ha y hy
  have h3 := hb x hx
  have h4 := hb y hy
  have s1 := treeDist_comm len B x r
  have s2 := treeDist_comm len B y r
  have s3 := treeDist_comm len B x a
  have s4 := treeDist_comm len B y a
  rcases treeDist_four_point len B hw x y r a with h | h <;> omega

/-! ## The vertices of the tree -/

theorem treeVerts_cons (r : Nat) (e : Edge) (B : List Edge) (x : Nat) :
    x ∈ treeVerts r (e :: B) ↔ x = e.2.1 ∨ x ∈ treeVerts r B := by
  unfold treeVerts
  simp only [List.map_cons, List.mem_cons]
  tauto

theorem root_mem_treeVerts (r : Nat) (B : List Edge) : r ∈ treeVerts r B :=
  List.mem_cons_self _ _

theorem treeVerts_append (r : Nat) (N B : List Edge) {x : Nat} (h : x ∈ treeVerts r B) :
    x ∈ treeVerts r (N ++ B) := by
  unfold treeVerts at h ⊢
  simp only [List.map_append, List.mem_cons, List.mem_append] at h ⊢
  tauto

theorem LeafOrder.suffix {r : Nat} (N : List Edge) {B : List Edge} (h : LeafOrder r (N ++ B)) :
    LeafOrder r B := by
  induction N with
  | nil => exact h
  | cons e N ih => exact ih h.2.2

/-- The distances of the vertices that are in the tree do not change when the
tree grows. -/
theorem treeDist_append (len : Int → Int) (r : Nat) (N : List Edge) {B : List Edge}
    (h : LeafOrder r (N ++ B)) {x y : Nat} (hx : x ∈ treeVerts r B) (hy : y ∈ treeVerts r B) :
    treeDist len (N ++ B) x y = treeDist len B x y := by
  induction N with
  | nil => rfl
  | cons e N ih =>
    have h1 : e.2.1 ∉ treeVerts r (N ++ B) := h.2.1
    rw [List.cons_append, treeDist_cons_old len e (N ++ B)
      (fun hxe => h1 (hxe ▸ treeVerts_append r N B hx))
      (fun hye => h1 (hye ▸ treeVerts_append r N B hy))]
    exact ih h.2.2

/-- No edge of the tree touches a vertex that is not in the tree. -/
theorem LeafOrder.fresh {r : Nat} {B : List Edge} (h : LeafOrder r B) {c : Nat}
    (hc : c ∉ treeVerts r B) : ∀ e ∈ B, e.1 ≠ c ∧ e.2.1 ≠ c := by
  induction B with
  | nil => intro e he; simp at he
  | cons a B ih =>
    intro e he
    have hc' : c ∉ treeVerts r B := fun h' => hc ((treeVerts_cons r a B c).mpr (Or.inr h'))
    rcases List.mem_cons.mp he with rfl | he
    · constructor
      · intro h1
        exact hc' (h1 ▸ h.1)
      · intro h1
        exact hc ((treeVerts_cons r e B c).mpr (Or.inl h1.symm))
    · exact ih h.2.2 hc' e he

/-! ## Paths in a tree -/

theorem pathE_cons_iff (E : List Edge) (u v : Nat) (vs : List Nat) (w : Int) (ws : List Int) :
    PathE E (u :: v :: vs) (w :: ws) ↔
      ((u, v, w) ∈ E ∨ (v, u, w) ∈ E) ∧ PathE E (v :: vs) ws := by
  rw [PathE]

theorem pathE_single (E : List Edge) (v : Nat) : PathE E [v] [] := by
  rw [PathE]
  trivial

/-- A path is one vertex, or an edge followed by a path. -/
theorem pathE_cases {E : List Edge} {vs : List Nat} {ws : List Int} (h : PathE E vs ws) :
    (∃ v, vs = [v] ∧ ws = [])
    ∨ ∃ u v rest w ws', vs = u :: v :: rest ∧ ws = w :: ws'
        ∧ ((u, v, w) ∈ E ∨ (v, u, w) ∈ E) ∧ PathE E (v :: rest) ws' := by
  match vs, ws, h with
  | [v], [], _ => exact Or.inl ⟨v, rfl, rfl⟩
  | u :: v :: rest, w :: ws', h =>
    rw [pathE_cons_iff] at h
    exact Or.inr ⟨u, v, rest, w, ws', rfl, rfl, h.1, h.2⟩
  | [], ws, h => simp [PathE] at h
  | [_], _ :: _, h => simp [PathE] at h
  | _ :: _ :: _, [], h => simp [PathE] at h

theorem pathE_mono {E E' : List Edge} (h : ∀ e ∈ E, e ∈ E') :
    ∀ (vs : List Nat) (ws : List Int), PathE E vs ws → PathE E' vs ws := by
  intro vs
  induction vs with
  | nil => intro ws hp; simp [PathE] at hp
  | cons u vs ih =>
    intro ws hp
    rcases pathE_cases hp with ⟨v, hv, hw⟩ | ⟨u', v, rest, w, ws', hv, hw, he, hr⟩
    · rw [hv, hw]; exact pathE_single _ _
    · obtain ⟨rfl, rfl⟩ := List.cons.inj hv
      subst hw
      rw [pathE_cons_iff]
      exact ⟨he.imp (h _) (h _), ih ws' hr⟩

theorem pathE_length {E : List Edge} :
    ∀ (vs : List Nat) (ws : List Int), PathE E vs ws → vs.length = ws.length + 1 := by
  intro vs
  induction vs with
  | nil => intro ws hp; simp [PathE] at hp
  | cons u vs ih =>
    intro ws hp
    rcases pathE_cases hp with ⟨v, hv, hw⟩ | ⟨u', v, rest, w, ws', hv, hw, _, hr⟩
    · rw [hv, hw]; rfl
    · obtain ⟨rfl, rfl⟩ := List.cons.inj hv
      subst hw
      simp only [List.length_cons]
      have := ih ws' hr
      simp only [List.length_cons] at this
      omega

theorem pathE_snoc {E : List Edge} {p c : Nat} {w : Int}
    (he : (p, c, w) ∈ E ∨ (c, p, w) ∈ E) :
    ∀ (vs : List Nat) (ws : List Int), PathE E vs ws → vs.getLast? = some p →
      PathE E (vs ++ [c]) (ws ++ [w]) := by
  intro vs
  induction vs with
  | nil => intro ws hp; simp [PathE] at hp
  | cons u vs ih =>
    intro ws hp hl
    rcases pathE_cases hp with ⟨v, hv, hw⟩ | ⟨u', v, rest, w', ws', hv, hw, he', hr⟩
    · obtain ⟨rfl, rfl⟩ := List.cons.inj hv
      subst hw
      simp only [List.getLast?_singleton, Option.some.injEq] at hl
      subst hl
      simp only [List.singleton_append, List.nil_append]
      rw [pathE_cons_iff]
      exact ⟨he, pathE_single _ _⟩
    · obtain ⟨rfl, rfl⟩ := List.cons.inj hv
      subst hw
      have hl' : (v :: rest).getLast? = some p := by
        rw [List.getLast?_cons_cons] at hl
        exact hl
      have := ih ws' hr hl'
      simp only [List.cons_append] at this ⊢
      rw [pathE_cons_iff]
      exact ⟨he', this⟩

/-- A simple path that does not start at the leaf `c` avoids `c`, or ends with
the edge from its parent `p` to `c`. -/
theorem pathE_leaf {B : List Edge} {p c : Nat} {w : Int}
    (hfresh : ∀ e ∈ B, e.1 ≠ c ∧ e.2.1 ≠ c) (hpc : p ≠ c) :
    ∀ (vs : List Nat) (ws : List Int) (x : Nat), PathE ((p, c, w) :: B) vs ws → vs.Nodup →
      vs.head? = some x → x ≠ c →
      (c ∉ vs ∧ PathE B vs ws)
      ∨ ∃ vs' ws', vs = vs' ++ [c] ∧ ws = ws' ++ [w] ∧ PathE B vs' ws' ∧ c ∉ vs'
          ∧ vs'.getLast? = some p ∧ vs'.head? = some x := by
  intro vs
  induction vs with
  | nil => intro ws x hp; simp [PathE] at hp
  | cons u vs ih =>
    intro ws x hp hnd hh hxc
    simp only [List.head?_cons, Option.some.injEq] at hh
    subst hh
    rcases pathE_cases hp with ⟨v, hv, hw⟩ | ⟨u', v, rest, w', ws', hv, hw, he, hr⟩
    · obtain ⟨rfl, rfl⟩ := List.cons.inj hv
      subst hw
      left
      exact ⟨by simpa using Ne.symm hxc, pathE_single _ _⟩
    · obtain ⟨rfl, rfl⟩ := List.cons.inj hv
      subst hw
      have hnd' : (v :: rest).Nodup := (List.nodup_cons.mp hnd).2
      by_cases hvc : v = c
      · subst hvc
        -- the edge into the leaf is the edge from its parent
        have hedge : u = p ∧ w' = w := by
          rcases he with he | he
          · rcases List.mem_cons.mp he with h1 | h1
            · simp only [Prod.mk.injEq] at h1
              exact ⟨h1.1, h1.2.2⟩
            · exact absurd rfl (hfresh _ h1).2
          · rcases List.mem_cons.mp he with h1 | h1
            · simp only [Prod.mk.injEq] at h1
              exact absurd h1.1.symm hpc
            · exact absurd rfl (hfresh _ h1).1
        obtain ⟨rfl, rfl⟩ := hedge
        -- and the path stops there
        have hrest : rest = [] := by
          rcases pathE_cases hr with ⟨v', hv', _⟩ | ⟨a, b, rest', w2, ws2, hv', _, he2, _⟩
          · exact (List.cons.inj hv').2
          · obtain ⟨rfl, rfl⟩ := List.cons.inj hv'
            exfalso
            have hb : b = u := by
              rcases he2 with he2 | he2
              · rcases List.mem_cons.mp he2 with h1 | h1
                · simp only [Prod.mk.injEq] at h1
                  exact absurd h1.1.symm hpc
                · exact absurd rfl (hfresh _ h1).1
              · rcases List.mem_cons.mp he2 with h1 | h1
                · simp only [Prod.mk.injEq] at h1
                  exact h1.1
                · exact absurd rfl (hfresh _ h1).2
            subst hb
            simp at hnd
        subst hrest
        have hws : ws' = [] := by
          rcases pathE_cases hr with ⟨_, _, hw2⟩ | ⟨a, b, rest', w2, ws2, hv', _, _, _⟩
          · exact hw2
          · simp at hv'
        subst hws
        right
        exact ⟨[u], [], rfl, rfl, pathE_single _ _, by simpa using Ne.symm hxc, rfl, rfl⟩
      · have heB : (u, v, w') ∈ B ∨ (v, u, w') ∈ B := by
          rcases he with he | he
          · rcases List.mem_cons.mp he with h1 | h1
            · simp only [Prod.mk.injEq] at h1
              exact absurd h1.2.1 hvc
            · exact Or.inl h1
          · rcases List.mem_cons.mp he with h1 | h1
            · simp only [Prod.mk.injEq] at h1
              exact absurd h1.2.1 hxc
            · exact Or.inr h1
        rcases ih ws' v hr hnd' rfl hvc with ⟨h1, h2⟩ | ⟨vs', ws2, h1, h2, h3, h4, h5, h6⟩
        · left
          refine ⟨?_, ?_⟩
          · simp only [List.mem_cons, not_or]
            exact ⟨Ne.symm hxc, by simpa using h1⟩
          · rw [pathE_cons_iff]
            exact ⟨heB, h2⟩
        · right
          obtain ⟨v', rest', rfl⟩ : ∃ v' rest', vs' = v' :: rest' := by
            cases vs' with
            | nil => simp at h5
            | cons a l => exact ⟨a, l, rfl⟩
          simp only [List.head?_cons, Option.some.injEq] at h6
          subst h6
          refine ⟨u :: v' :: rest', w' :: ws2, ?_, ?_, ?_, ?_, ?_, rfl⟩
          · rw [h1]; rfl
          · rw [h2]; rfl
          · rw [pathE_cons_iff]
            exact ⟨heB, h3⟩
          · simp only [List.mem_cons, not_or] at h4 ⊢
            exact ⟨Ne.symm hxc, h4⟩
          · rw [List.getLast?_cons_cons]
            exact h5

/-- The weight of a simple path of a tree is the distance of its ends. -/
theorem pathE_weight (len : Int → Int) (r : Nat) :
    ∀ B : List Edge, LeafOrder r B → ∀ (vs : List Nat) (ws : List Int) (x y : Nat),
      PathE B vs ws → vs.Nodup → vs.head? = some x → vs.getLast? = some y →
      (ws.map len).sum = treeDist len B x y := by
  intro B
  induction B with
  | nil =>
    intro _ vs ws x y hp _ _ _
    rcases pathE_cases hp with ⟨v, _, hw⟩ | ⟨u, v, rest, w, ws', _, _, he, _⟩
    · rw [hw]; rfl
    · simp at he
  | cons e B ih =>
    obtain ⟨p, c, w⟩ := e
    intro hB vs ws x y hp hnd hx hy
    have hfresh := hB.2.2.fresh hB.2.1
    have hpc : p ≠ c := fun h => hB.2.1 (h ▸ hB.1)
    by_cases hxc : x = c
    · subst hxc
      rcases pathE_cases hp with ⟨v, hv, hw⟩ | ⟨u, v, rest, w', ws', hv, hw, he, hr⟩
      · subst hv
        subst hw
        simp only [List.head?_cons, Option.some.injEq, List.getLast?_singleton] at hx hy
        subst hx
        subst hy
        rw [treeDist_self]
        rfl
      · subst hv
        subst hw
        simp only [List.head?_cons, Option.some.injEq] at hx
        subst hx
        have hedge : v = p ∧ w' = w := by
          rcases he with he | he
          · rcases List.mem_cons.mp he with h1 | h1
            · simp only [Prod.mk.injEq] at h1
              exact absurd h1.1.symm hpc
            · exact absurd rfl (hfresh _ h1).1
          · rcases List.mem_cons.mp he with h1 | h1
            · simp only [Prod.mk.injEq] at h1
              exact ⟨h1.1, h1.2.2⟩
            · exact absurd rfl (hfresh _ h1).2
        obtain ⟨rfl, rfl⟩ := hedge
        have hnd' : (v :: rest).Nodup := (List.nodup_cons.mp hnd).2
        have hu : u ∉ v :: rest := (List.nodup_cons.mp hnd).1
        have hy' : (v :: rest).getLast? = some y := by
          rw [List.getLast?_cons_cons] at hy
          exact hy
        have hyu : y ≠ u := by
          intro h
          apply hu
          rw [← h]
          exact List.mem_of_getLast?_eq_some hy'
        rcases pathE_leaf hfresh hpc _ _ v hr hnd' rfl hpc with ⟨_, h2⟩ | ⟨vs', _, h1, _⟩
        · rw [treeDist_cons, if_pos rfl, if_neg hyu, List.map_cons, List.sum_cons,
            ih hB.2.2 _ _ v y h2 hnd' rfl hy']
        · exfalso
          apply hu
          rw [h1]
          simp
    · rcases pathE_leaf hfresh hpc vs ws x hp hnd hx hxc with ⟨h1, h2⟩
        | ⟨vs', ws', h1, h2, h3, h4, h5, h6⟩
      · have hyc : y ≠ c := by
          intro h
          apply h1
          rw [← h]
          exact List.mem_of_getLast?_eq_some hy
        rw [treeDist_cons, if_neg hxc, if_neg hyc]
        exact ih hB.2.2 vs ws x y h2 hnd hx hy
      · have hyc : y = c := by
          rw [h1, List.getLast?_append_of_ne_nil _ (by simp)] at hy
          simpa using hy.symm
        have hnd' : vs'.Nodup := by
          rw [h1] at hnd
          exact (List.nodup_append.mp hnd).1
        rw [hyc, treeDist_cons_new len p c w B hxc, h2, List.map_append, List.sum_append,
          ih hB.2.2 vs' ws' x p h3 hnd' h6 h5]
        simp only [List.map_cons, List.map_nil, List.sum_cons, List.sum_nil]
        ring

/-! ## The way from the root to a vertex -/

theorem chainPairs_cons (p c : Nat) (w : Int) (B : List Edge) (x : Nat) :
    chainPairs ((p, c, w) :: B) x =
      if x = c then chainPairs B p ++ [((p : Int), w)] else chainPairs B x := rfl

/-- The way from the root `r` to the vertex `x` of the tree is a simple path
within the tree, whose weight is the distance from `r` to `x`. -/
theorem chain_spec (len : Int → Int) (r : Nat) :
    ∀ B : List Edge, LeafOrder r B → ∀ x ∈ treeVerts r B,
      PathE B ((chainPairs B x).map (fun q => q.1.toNat) ++ [x]) ((chainPairs B x).map Prod.snd)
      ∧ ((chainPairs B x).map (fun q => q.1.toNat) ++ [x]).Nodup
      ∧ ((chainPairs B x).map (fun q => q.1.toNat) ++ [x]).head? = some r
      ∧ (∀ v ∈ (chainPairs B x).map (fun q => q.1.toNat) ++ [x], v ∈ treeVerts r B)
      ∧ (∀ q ∈ chainPairs B x, 0 ≤ q.1)
      ∧ (((chainPairs B x).map Prod.snd).map len).sum = treeDist len B r x := by
  intro B
  induction B with
  | nil =>
    intro _ x hx
    have hxr : x = r := by simpa [treeVerts] using hx
    subst hxr
    refine ⟨pathE_single _ _, by simp [chainPairs], rfl, ?_, by simp [chainPairs], rfl⟩
    intro v hv
    simpa [chainPairs, treeVerts] using hv
  | cons e B ih =>
    obtain ⟨p, c, w⟩ := e
    intro hB x hx
    have hrc : r ≠ c := fun h => hB.2.1 (h ▸ root_mem_treeVerts r B)
    by_cases hxc : x = c
    · subst hxc
      obtain ⟨h1, h2, h3, h4, h5, h6⟩ := ih hB.2.2 p hB.1
      rw [chainPairs_cons, if_pos rfl]
      have hvs : (chainPairs B p ++ [((p : Int), w)]).map (fun q => q.1.toNat) ++ [x]
          = ((chainPairs B p).map (fun q => q.1.toNat) ++ [p]) ++ [x] := by
        simp
      have hws : (chainPairs B p ++ [((p : Int), w)]).map Prod.snd
          = (chainPairs B p).map Prod.snd ++ [w] := by
        simp
      rw [hvs, hws]
      refine ⟨?_, ?_, ?_, ?_, ?_, ?_⟩
      · apply pathE_snoc (Or.inl (List.mem_cons_self _ _)) _ _
          (pathE_mono (fun e he => List.mem_cons_of_mem _ he) _ _ h1)
        simp
      · apply List.Nodup.append h2 (List.nodup_singleton _)
        intro v hv1 hv2
        simp only [List.mem_singleton] at hv2
        subst hv2
        exact hB.2.1 (h4 v hv1)
      · rw [List.head?_append_of_ne_nil _ (by simp)]
        exact h3
      · intro v hv
        rcases List.mem_append.mp hv with hv | hv
        · exact (treeVerts_cons r _ B v).mpr (Or.inr (h4 v hv))
        · simp only [List.mem_singleton] at hv
          exact (treeVerts_cons r _ B v).mpr (Or.inl hv)
      · intro q hq
        rcases List.mem_append.mp hq with hq | hq
        · exact h5 q hq
        · simp only [List.mem_singleton] at hq
          rw [hq]
          exact Int.ofNat_nonneg p
      · rw [List.map_append, List.sum_append, h6, treeDist_cons_new len p x w B hrc]
        simp only [List.map_cons, List.map_nil, List.sum_cons, List.sum_nil]
        ring
    · have hx' : x ∈ treeVerts r B := by
        rcases (treeVerts_cons r _ B x).mp hx with h | h
        · exact absurd h hxc
        · exact h
      obtain ⟨h1, h2, h3, h4, h5, h6⟩ := ih hB.2.2 x hx'
      rw [chainPairs_cons, if_neg hxc]
      refine ⟨pathE_mono (fun e he => List.mem_cons_of_mem _ he) _ _ h1, h2, h3, ?_, h5, ?_⟩
      · intro v hv
        exact (treeVerts_cons r _ B v).mpr (Or.inr (h4 v hv))
      · rw [h6, treeDist_cons_old len (p, c, w) B hrc hxc]

/-! ## The paths of a graph that holds a tree -/

namespace Graph

theorem isPath_cons_iff (t : Graph) (u v : Nat) (vs : List Nat) (w : Int) (ws : List Int) :
    t.IsPath (u :: v :: vs) (w :: ws) ↔ t.HasEdge u v w ∧ t.IsPath (v :: vs) ws := by
  rw [IsPath]

theorem isPath_single_iff (t : Graph) (v : Nat) : t.IsPath [v] [] ↔ v < t.adjList.length := by
  rw [IsPath]

theorem isPath_cases {t : Graph} {vs : List Nat} {ws : List Int} (h : t.IsPath vs ws) :
    (∃ v, vs = [v] ∧ ws = [] ∧ v < t.adjList.length)
    ∨ ∃ u v rest w ws', vs = u :: v :: rest ∧ ws = w :: ws'
        ∧ t.HasEdge u v w ∧ t.IsPath (v :: rest) ws' := by
  match vs, ws, h with
  | [v], [], h => exact Or.inl ⟨v, rfl, rfl, (isPath_single_iff t v).mp h⟩
  | u :: v :: rest, w :: ws', h =>
    rw [isPath_cons_iff] at h
    exact Or.inr ⟨u, v, rest, w, ws', rfl, rfl, h.1, h.2⟩
  | [], ws, h => simp [IsPath] at h
  | [_], _ :: _, h => simp [IsPath] at h
  | _ :: _ :: _, [], h => simp [IsPath] at h

/-- The vertices of a path are vertices of the graph, and its weights are
weights of entries. -/
theorem isPath_bounds {t : Graph} :
    ∀ (vs : List Nat) (ws : List Int), t.IsPath vs ws →
      vs.length = ws.length + 1 ∧ (∀ v ∈ vs, v < t.adjList.length)
      ∧ ∀ w ∈ ws, ∃ l ∈ t.adjList, ∃ e ∈ l, e.2 = w := by
  intro vs
  induction vs with
  | nil => intro ws h; simp [IsPath] at h
  | cons u vs ih =>
    intro ws h
    rcases isPath_cases h with ⟨v, hv, hw, hlt⟩ | ⟨u', v, rest, w, ws', hv, hw, he, hr⟩
    · obtain ⟨rfl, rfl⟩ := List.cons.inj hv
      subst hw
      exact ⟨rfl, by simpa using hlt, by simp⟩
    · obtain ⟨rfl, rfl⟩ := List.cons.inj hv
      subst hw
      obtain ⟨h1, h2, h3⟩ := ih ws' hr
      refine ⟨by simp only [List.length_cons] at h1 ⊢; omega, ?_, ?_⟩
      · intro x hx
        rcases List.mem_cons.mp hx with rfl | hx
        · exact hasEdge_lt he
        · exact h2 x hx
      · intro x hx
        rcases List.mem_cons.mp hx with rfl | hx
        · obtain ⟨l, hl, hm⟩ := Graph.hasEdge_mem he
          exact ⟨l, hl, _, hm, rfl⟩
        · exact h3 x hx

/-- A simple path has fewer edges than the graph has vertices. -/
theorem isPath_length_le {t : Graph} {vs : List Nat} {ws : List Int} (h : t.IsPath vs ws)
    (hnd : vs.Nodup) : ws.length + 1 ≤ t.adjList.length := by
  obtain ⟨h1, h2, _⟩ := isPath_bounds vs ws h
  have h3 : vs.toFinset ⊆ Finset.range t.adjList.length := by
    intro x hx
    exact Finset.mem_range.mpr (h2 x (List.mem_toFinset.mp hx))
  have h4 := Finset.card_le_card h3
  rw [List.toFinset_card_of_nodup hnd, Finset.card_range] at h4
  omega

/-- The weight of a simple path, when no entry weighs more than `M`. -/
theorem isPath_sum_le {t : Graph} (M : Int) (hM0 : 0 ≤ M)
    (hM : ∀ l ∈ t.adjList, ∀ e ∈ l, e.2 ≤ M) {vs : List Nat} {ws : List Int}
    (h : t.IsPath vs ws) (hnd : vs.Nodup) :
    ws.sum ≤ ((t.adjList.length : Int) - 1) * M := by
  obtain ⟨_, _, h3⟩ := isPath_bounds vs ws h
  have h4 := isPath_length_le h hnd
  have h5 : ws.sum ≤ ws.length • M := by
    apply List.sum_le_card_nsmul
    intro w hw
    obtain ⟨l, hl, e, he, rfl⟩ := h3 w hw
    exact hM l hl e he
  rw [nsmul_eq_mul] at h5
  have h6 : (ws.length : Int) ≤ (t.adjList.length : Int) - 1 := by omega
  calc ws.sum ≤ (ws.length : Int) * M := h5
    _ ≤ ((t.adjList.length : Int) - 1) * M := mul_le_mul_of_nonneg_right h6 hM0

end Graph

/-! ## The edges of a tree and the edges that a search follows -/

theorem forest_bridge {n : Nat} {A : List Edge} (hA : ∀ e ∈ A, e.1 < n ∧ e.2.1 < n)
    (hf : IsForest A) {e : Edge} {X Y : List Edge} (he : A = X ++ e :: Y) :
    ¬ Reach (X ++ Y) e.1 e.2.1 := by
  have h1 : IsForest (e :: (X ++ Y)) := isForest_perm hA (he ▸ List.perm_middle) hf
  exact h1.1

theorem leafOrder_reach {r : Nat} :
    ∀ B : List Edge, LeafOrder r B → ∀ x ∈ treeVerts r B, Reach B r x := by
  intro B
  induction B with
  | nil =>
    intro _ x hx
    have : x = r := by simpa [treeVerts] using hx
    rw [this]
    exact Reach.refl _ _
  | cons e B ih =>
    obtain ⟨p, c, w⟩ := e
    intro hB x hx
    rcases (treeVerts_cons r _ B x).mp hx with h | h
    · simp only at h
      rw [h]
      exact (reach_mono (fun e he => List.mem_cons_of_mem _ he) (ih hB.2.2 p hB.1)).trans
        (reach_edge (List.mem_cons_self _ _))
    · exact reach_mono (fun e he => List.mem_cons_of_mem _ he) (ih hB.2.2 x h)

theorem Graph.IsTree.facts {t : Graph} (ht : t.IsTree) : TreeFacts t := by
  obtain ⟨A, hA, hlen, hreach⟩ := ht
  have hund : t.Undirected := hA.undirected
  obtain ⟨_, _, _, hsub, hsup⟩ := hA
  have hsymm : ∀ u v w, t.HasEdge u v w → t.HasEdge v u w := by
    intro u v w h
    obtain ⟨v', hv', hm⟩ := hsub u _ h
    simp only at hv' hm
    have : v' = v := by omega
    subst this
    rcases hm with hm | hm
    · exact (hsup _ hm).2
    · exact (hsup _ hm).1
  have hforest := Graph.IsSpanningTree.isForest hund (T := A)
    ⟨hlen, fun e he => (hsup e he).1, hreach⟩
  refine ⟨?_, hsymm, ?_, ?_⟩
  · intro u e he
    obtain ⟨v, hv, hm⟩ := hsub u e he
    rw [hv]
    refine ⟨Int.ofNat_nonneg v, ?_⟩
    simp only [Int.toNat_ofNat]
    have h1 : t.HasEdge u v e.2 := by
      show ((v : Int), e.2) ∈ t.adjList.getD u []
      rw [← hv]
      exact he
    exact Graph.hasEdge_lt (hsymm u v e.2 h1)
  · intro S hS r x hr hx hSr
    have key := reach_side S (E := A) (by
      intro u v w he
      exact ⟨hS u v w (hsup _ he).1, hS v u w (hsup _ he).2⟩) (hreach r x hr hx)
    exact key.mp hSr
  · intro r B hB hall hedge u v w huv
    by_contra hno
    rw [not_or] at hno
    obtain ⟨v', hv', hm⟩ := hsub u _ huv
    simp only at hv' hm
    have : v' = v := by omega
    subst this
    have hu : u < t.adjList.length := Graph.hasEdge_lt huv
    have hv : v' < t.adjList.length := Graph.hasEdge_lt (hsymm _ _ _ huv)
    -- the edge of `A` that the entry stands for
    obtain ⟨e0, he0, hends⟩ : ∃ e0 ∈ A, (e0 = (u, v', w) ∨ e0 = (v', u, w)) := by
      rcases hm with hm | hm
      · exact ⟨_, hm, Or.inl rfl⟩
      · exact ⟨_, hm, Or.inr rfl⟩
    obtain ⟨X, Y, hXY⟩ := List.append_of_mem he0
    have hmem : ∀ e ∈ A, e ≠ e0 → e ∈ X ++ Y := by
      intro e he hne
      rw [hXY] at he
      simp only [List.mem_append, List.mem_cons] at he ⊢
      tauto
    have hB' : ∀ p c w', (p, c, w') ∈ B → Reach (X ++ Y) p c := by
      intro p c w' he
      have h1 := hedge _ he
      simp only at h1
      obtain ⟨c', hc', hm'⟩ := hsub p _ h1
      simp only at hc' hm'
      have : c' = c := by omega
      subst this
      rcases hm' with hm' | hm'
      · have hne : (p, c', w') ≠ e0 := by
          intro h
          rcases hends with h2 | h2
          · rw [h2] at h
            simp only [Prod.mk.injEq] at h
            obtain ⟨rfl, rfl, rfl⟩ := h
            exact hno.1 he
          · rw [h2] at h
            simp only [Prod.mk.injEq] at h
            obtain ⟨rfl, rfl, rfl⟩ := h
            exact hno.2 he
        exact reach_edge (hmem _ hm' hne)
      · have hne : (c', p, w') ≠ e0 := by
          intro h
          rcases hends with h2 | h2
          · rw [h2] at h
            simp only [Prod.mk.injEq] at h
            obtain ⟨rfl, rfl, rfl⟩ := h
            exact hno.2 he
          · rw [h2] at h
            simp only [Prod.mk.injEq] at h
            obtain ⟨rfl, rfl, rfl⟩ := h
            exact hno.1 he
        exact (reach_edge (hmem _ hm' hne)).symm
    have hr1 : Reach B u v' :=
      (leafOrder_reach B hB u (hall u hu)).symm.trans (leafOrder_reach B hB v' (hall v' hv))
    have hr2 : Reach (X ++ Y) u v' := reach_of_edges hB' hr1
    have hbr := forest_bridge hforest.2 hforest.1 hXY
    rcases hends with h2 | h2
    · subst h2
      exact hbr hr2
    · subst h2
      exact hbr hr2.symm

/-- A path of the graph is a path in the edges that a search has followed. -/
theorem pathE_of_isPath {t : Graph} {B : List Edge}
    (hcov : ∀ u v w, t.HasEdge u v w → (u, v, w) ∈ B ∨ (v, u, w) ∈ B) :
    ∀ (vs : List Nat) (ws : List Int), t.IsPath vs ws → PathE B vs ws := by
  intro vs
  induction vs with
  | nil => intro ws h; simp [Graph.IsPath] at h
  | cons u vs ih =>
    intro ws h
    rcases Graph.isPath_cases h with ⟨v, hv, hw, _⟩ | ⟨u', v, rest, w, ws', hv, hw, he, hr⟩
    · rw [hv, hw]
      exact pathE_single _ _
    · obtain ⟨rfl, rfl⟩ := List.cons.inj hv
      subst hw
      rw [pathE_cons_iff]
      exact ⟨hcov _ _ _ he, ih ws' hr⟩

theorem isPath_of_pathE {t : Graph} {B : List Edge}
    (hsymm : ∀ u v w, t.HasEdge u v w → t.HasEdge v u w)
    (hedge : ∀ e ∈ B, t.HasEdge e.1 e.2.1 e.2.2) :
    ∀ (vs : List Nat) (ws : List Int), PathE B vs ws → (∀ v ∈ vs, v < t.adjList.length) →
      t.IsPath vs ws := by
  intro vs
  induction vs with
  | nil => intro ws h; simp [PathE] at h
  | cons u vs ih =>
    intro ws h hb
    rcases pathE_cases h with ⟨v, hv, hw⟩ | ⟨u', v, rest, w, ws', hv, hw, he, hr⟩
    · rw [hv, hw, Graph.isPath_single_iff]
      exact hb v (by rw [hv]; exact List.mem_cons_self _ _)
    · obtain ⟨rfl, rfl⟩ := List.cons.inj hv
      subst hw
      rw [Graph.isPath_cons_iff]
      refine ⟨?_, ih ws' hr fun x hx => hb x (List.mem_cons_of_mem _ hx)⟩
      rcases he with he | he
      · exact hedge _ he
      · exact hsymm _ _ _ (hedge _ he)

/-! ## The search `dfs` -/

theorem addInt_eq (a b : Int) (h1 : -2147483648 ≤ a + b) (h2 : a + b ≤ 2147483647) :
    addInt a b = a + b := by
  unfold addInt
  omega

theorem dfsLoop_nil (adj : List (List (Int × Int))) (len : Int → Int) (fuel node : Nat)
    (st : DfsState) : dfsLoop adj len fuel node [] st = some st := by
  cases fuel <;> rfl

theorem dfsLoop_cons (adj : List (List (Int × Int))) (len : Int → Int) (fuel node : Nat)
    (v weight : Int) (rest : List (Int × Int)) (st : DfsState) :
    dfsLoop adj len (fuel + 1) node ((v, weight) :: rest) st =
      if v < 0 then none
      else
        match st.visited[v.toNat]? with
        | none => none
        | some true => dfsLoop adj len fuel node rest st
        | some false =>
          match st.distance[node]?, adj[v.toNat]? with
          | some d, some l =>
            match dfsLoop adj len fuel v.toNat l
                { st with parents := st.parents.set v.toNat (node : Int)
                          distance := st.distance.set v.toNat (addInt d (len weight))
                          visited := st.visited.set v.toNat true } with
            | none => none
            | some st1 =>
              match st1.distance[v.toNat]? with
              | none => none
              | some dv =>
                if dv > st1.maxDistance then
                  dfsLoop adj len fuel node rest
                    { st1 with maxDistance := dv, farthestNode := v.toNat }
                else dfsLoop adj len fuel node rest st1
          | _, _ => none := by
  rw [dfsLoop]

/-! ### The steps that are left -/

theorem unvisitedCost_set (adj : List (List (Int × Int))) (visited : List Bool) (v : Nat)
    (hlen : visited.length = adj.length) (hv : v < adj.length)
    (hf : visited[v]? = some false) :
    unvisitedCost adj (visited.set v true) + ((adj.getD v []).length + 1)
      = unvisitedCost adj visited := by
  unfold unvisitedCost
  rw [← Finset.add_sum_erase _ _ (Finset.mem_range.mpr hv),
    ← Finset.add_sum_erase (Finset.range adj.length)
      (fun x => if visited.getD x true = true then 0 else (adj.getD x []).length + 1)
      (Finset.mem_range.mpr hv)]
  have h1 : (visited.set v true).getD v true = true := by
    rw [List.getD_eq_getElem?_getD, List.getElem?_set_self (by omega)]
    rfl
  have h2 : visited.getD v true = false := by
    rw [List.getD_eq_getElem?_getD, hf]
    rfl
  have h3 : ∀ x ∈ (Finset.range adj.length).erase v,
      (if (visited.set v true).getD x true = true then 0 else (adj.getD x []).length + 1)
        = (if visited.getD x true = true then 0 else (adj.getD x []).length + 1) := by
    intro x hx
    have hxv : v ≠ x := fun h => (Finset.mem_erase.mp hx).1 h.symm
    rw [List.getD_eq_getElem?_getD, List.getElem?_set_ne hxv, ← List.getD_eq_getElem?_getD]
  rw [Finset.sum_congr rfl h3]
  simp only [h1, h2, if_true, Bool.false_eq_true, if_false]
  omega

theorem unvisitedCost_replicate (adj : List (List (Int × Int))) :
    unvisitedCost adj (List.replicate adj.length false) = dfsFuel adj := by
  unfold unvisitedCost dfsFuel
  have h : ∀ x ∈ Finset.range adj.length,
      (if (List.replicate adj.length false).getD x true = true then 0
        else (adj.getD x []).length + 1) = (adj.getD x []).length + 1 := by
    intro x hx
    have hx' : x < adj.length := Finset.mem_range.mp hx
    rw [List.getD_eq_getElem?_getD, List.getElem?_replicate, if_pos hx']
    rfl
  rw [Finset.sum_congr rfl h]
  generalize adj = l
  induction l with
  | nil => rfl
  | cons a l ih =>
    rw [List.length_cons, Finset.sum_range_succ', List.map_cons, List.sum_cons, ← ih]
    simp only [List.getD_cons_succ, List.getD_cons_zero]
    omega

/-! ### The invariant -/

theorem dfsInv_visit {adj : List (List (Int × Int))} {len : Int → Int} {r : Nat}
    {st : DfsState} {B : List Edge} (h : DfsInv adj len r st B) {node v : Nat} {w d : Int}
    (hnode : node ∈ treeVerts r B) (hv : v < adj.length) (hf : st.visited[v]? = some false)
    (he : ((v : Int), w) ∈ adj.getD node [])
    (hd : d = treeDist len ((node, v, w) :: B) r v) :
    DfsInv adj len r
      { st with parents := st.parents.set v (node : Int)
                distance := st.distance.set v d
                visited := st.visited.set v true } ((node, v, w) :: B) := by
  have hnew : v ∉ treeVerts r B := by
    intro hin
    have := (h.vis v).mpr hin
    rw [hf] at this
    simp at this
  have hrv : r ≠ v := fun e => hnew (e ▸ root_mem_treeVerts r B)
  refine ⟨by simp [h.hv], by simp [h.hd], by simp [h.hp], ⟨hnode, hnew, h.order⟩, ?_, ?_, ?_,
    ?_, ?_, ?_⟩
  · intro x hx
    rcases (treeVerts_cons r _ B x).mp hx with hx | hx
    · simp only at hx; omega
    · exact h.bound x hx
  · intro x
    rw [treeVerts_cons]
    simp only
    by_cases hxv : x = v
    · subst hxv
      rw [List.getElem?_set_self (by rw [h.hv]; exact hv)]
      simp
    · rw [List.getElem?_set_ne (Ne.symm hxv), h.vis x]
      simp [hxv]
  · intro e he'
    rcases List.mem_cons.mp he' with rfl | he'
    · exact he
    · exact h.edge e he'
  · intro x hx
    simp only
    rcases (treeVerts_cons r _ B x).mp hx with hx | hx
    · simp only at hx
      subst hx
      rw [List.getElem?_set_self (by rw [h.hd]; exact hv), hd]
    · have hxv : x ≠ v := fun e => hnew (e ▸ hx)
      rw [List.getElem?_set_ne (Ne.symm hxv), h.dist x hx,
        treeDist_cons_old len (node, v, w) B hrv hxv]
  · simp only
    refine ⟨?_, ?_⟩
    · rw [List.getElem?_set_ne (Ne.symm hrv)]
      exact h.par.1
    · intro e he'
      rcases List.mem_cons.mp he' with rfl | he'
      · simp only
        rw [List.getElem?_set_self (by rw [h.hp]; exact hv)]
      · have hc : e.2.1 ∈ treeVerts r B :=
          List.mem_cons_of_mem _ (List.mem_map_of_mem _ he')
        have hcv : e.2.1 ≠ v := fun e' => hnew (e' ▸ hc)
        rw [List.getElem?_set_ne (Ne.symm hcv)]
        exact h.par.2 e he'
  · simp only
    have hfv : st.farthestNode ≠ v := fun e => hnew (e ▸ h.far.1)
    refine ⟨(treeVerts_cons r _ B _).mpr (Or.inr h.far.1), ?_⟩
    rw [treeDist_cons_old len (node, v, w) B hrv hfv]
    exact h.far.2

theorem dfsInv_far {adj : List (List (Int × Int))} {len : Int → Int} {r : Nat}
    {st : DfsState} {B : List Edge} (h : DfsInv adj len r st B) {v : Nat}
    (hv : v ∈ treeVerts r B) :
    DfsInv adj len r { st with maxDistance := treeDist len B r v, farthestNode := v } B :=
  ⟨h.hv, h.hd, h.hp, h.order, h.bound, h.vis, h.edge, h.dist, h.par, hv, rfl⟩

/-- The loop of `dfs(node)` returns, when its fuel covers the steps that are
left.  It visits the vertices named by the entries that were left and
completes every vertex that it visits: all the entries of such a vertex name
visited vertices, and its distance is at most `maxDistance`. -/
theorem dfsLoop_spec (adj : List (List (Int × Int))) (len : Int → Int) (r : Nat)
    (hnames : ∀ (u : Nat) (e : Int × Int), e ∈ adj.getD u [] →
      0 ≤ e.1 ∧ e.1.toNat < adj.length)
    (hfit : ∀ (B : List Edge) (x : Nat), LeafOrder r B →
      (∀ e ∈ B, ((e.2.1 : Int), e.2.2) ∈ adj.getD e.1 []) →
      (∀ y ∈ treeVerts r B, y < adj.length) → x ∈ treeVerts r B →
      -2147483648 ≤ treeDist len B r x ∧ treeDist len B r x ≤ 2147483647) :
    ∀ (fuel node : Nat) (rest : List (Int × Int)) (st : DfsState) (B : List Edge),
      DfsInv adj len r st B → node ∈ treeVerts r B → (∀ e ∈ rest, e ∈ adj.getD node []) →
      rest.length + unvisitedCost adj st.visited ≤ fuel →
      ∃ st' B', dfsLoop adj len fuel node rest st = some st' ∧ DfsInv adj len r st' B'
        ∧ (∃ N, B' = N ++ B)
        ∧ (∀ e ∈ rest, e.1.toNat ∈ treeVerts r B')
        ∧ (∀ x ∈ treeVerts r B', x ∉ treeVerts r B →
            (∀ e ∈ adj.getD x [], e.1.toNat ∈ treeVerts r B')
            ∧ treeDist len B' r x ≤ st'.maxDistance)
        ∧ st.maxDistance ≤ st'.maxDistance
        ∧ unvisitedCost adj st'.visited ≤ unvisitedCost adj st.visited := by
  intro fuel
  induction fuel with
  | zero =>
    intro node rest st B hinv _ _ hfuel
    have hrest : rest = [] := List.length_eq_zero.mp (by omega)
    subst hrest
    exact ⟨st, B, dfsLoop_nil _ _ _ _ _, hinv, ⟨[], rfl⟩, by simp,
      fun x hx hnx => absurd hx hnx, le_refl _, le_refl _⟩
  | succ fuel ih =>
    intro node rest st B hinv hnode hrest hfuel
    cases rest with
    | nil =>
      exact ⟨st, B, dfsLoop_nil _ _ _ _ _, hinv, ⟨[], rfl⟩, by simp,
        fun x hx hnx => absurd hx hnx, le_refl _, le_refl _⟩
    | cons e rest =>
      obtain ⟨v, w⟩ := e
      have hmem : (v, w) ∈ adj.getD node [] := hrest _ (List.mem_cons_self _ _)
      obtain ⟨hv0, hvn⟩ := hnames node _ hmem
      simp only at hv0 hvn
      obtain ⟨k, rfl⟩ := Int.eq_ofNat_of_zero_le hv0
      simp only [Int.toNat_ofNat] at hvn
      have hrest' : ∀ e ∈ rest, e ∈ adj.getD node [] :=
        fun e he => hrest e (List.mem_cons_of_mem _ he)
      simp only [List.length_cons] at hfuel
      rw [dfsLoop_cons, if_neg (by omega)]
      simp only [Int.toNat_ofNat]
      obtain ⟨b, hb⟩ : ∃ b, st.visited[k]? = some b :=
        ⟨_, List.getElem?_eq_getElem (by rw [hinv.hv]; exact hvn)⟩
      cases b with
      | true =>
        simp only [hb]
        obtain ⟨st', B', h1, h2, h3, h4, h5, h6, h7⟩ :=
          ih node rest st B hinv hnode hrest' (by omega)
        refine ⟨st', B', h1, h2, h3, ?_, h5, h6, h7⟩
        intro e he
        rcases List.mem_cons.mp he with rfl | he
        · simp only [Int.toNat_ofNat]
          obtain ⟨N, rfl⟩ := h3
          exact treeVerts_append r N B ((hinv.vis k).mp hb)
        · exact h4 e he
      | false =>
        simp only [hb]
        have hdn := hinv.dist node hnode
        obtain ⟨l, hl⟩ : ∃ l, adj[k]? = some l := ⟨_, List.getElem?_eq_getElem hvn⟩
        have hlD : adj.getD k [] = l := by
          rw [List.getD_eq_getElem?_getD, hl]
          rfl
        simp only [hdn, hl]
        -- the state in which `dfs(k)` starts
        have hnew : k ∉ treeVerts r B := by
          intro hin
          have := (hinv.vis k).mpr hin
          rw [hb] at this
          simp at this
        have hrk : r ≠ k := fun e => hnew (e ▸ root_mem_treeVerts r B)
        have hB1 : LeafOrder r ((node, k, w) :: B) := ⟨hnode, hnew, hinv.order⟩
        have hbound1 : ∀ y ∈ treeVerts r ((node, k, w) :: B), y < adj.length := by
          intro y hy
          rcases (treeVerts_cons r _ B y).mp hy with hy | hy
          · simp only at hy; omega
          · exact hinv.bound y hy
        have hedge1 : ∀ e ∈ (node, k, w) :: B, ((e.2.1 : Int), e.2.2) ∈ adj.getD e.1 [] := by
          intro e he
          rcases List.mem_cons.mp he with rfl | he
          · exact hmem
          · exact hinv.edge e he
        have hk1 : k ∈ treeVerts r ((node, k, w) :: B) :=
          (treeVerts_cons r _ B k).mpr (Or.inl rfl)
        have hfit1 := hfit _ k hB1 hedge1 hbound1 hk1
        have hdist1 : treeDist len ((node, k, w) :: B) r k
            = treeDist len B r node + len w := by
          rw [treeDist_cons_new len node k w B hrk]
          ring
        have hadd : addInt (treeDist len B r node) (len w)
            = treeDist len ((node, k, w) :: B) r k := by
          rw [hdist1]
          apply addInt_eq <;> rw [← hdist1]
          · exact hfit1.1
          · exact hfit1.2
        have hinv1 := dfsInv_visit hinv hnode hvn hb hmem hadd
        rw [hadd] at hinv1 ⊢
        have hcost1 := unvisitedCost_set adj st.visited k hinv.hv hvn hb
        obtain ⟨st2, B2, e2, hinv2, ⟨N2, hN2⟩, p2, q2, m2, c2⟩ :=
          ih k l _ _ hinv1 hk1 (by intro e he; rw [hlD]; exact he) (by
            simp only
            rw [← hlD]
            omega)
        simp only at m2 c2
        rw [e2]
        simp only
        have hk2 : k ∈ treeVerts r B2 := by
          rw [hN2]; exact treeVerts_append r N2 _ hk1
        have hd2 := hinv2.dist k hk2
        rw [hd2]
        simp only
        have hnode2 : node ∈ treeVerts r B2 := by
          rw [hN2]
          exact treeVerts_append r N2 _ ((treeVerts_cons r _ B node).mpr (Or.inr hnode))
        -- the state after the test of `distance[v] > maxDistance`
        obtain ⟨st3, e3, hinv3, m3, m3', c3⟩ : ∃ st3 : DfsState,
            (if treeDist len B2 r k > st2.maxDistance then
              dfsLoop adj len fuel node rest
                { st2 with maxDistance := treeDist len B2 r k, farthestNode := k }
              else dfsLoop adj len fuel node rest st2)
              = dfsLoop adj len fuel node rest st3
            ∧ DfsInv adj len r st3 B2 ∧ st2.maxDistance ≤ st3.maxDistance
            ∧ treeDist len B2 r k ≤ st3.maxDistance ∧ st3.visited = st2.visited := by
          by_cases hgt : treeDist len B2 r k > st2.maxDistance
          · exact ⟨_, by rw [if_pos hgt], dfsInv_far hinv2 hk2, by simp only; omega,
              le_refl _, rfl⟩
          · exact ⟨st2, by rw [if_neg hgt], hinv2, le_refl _, by omega, rfl⟩
        rw [e3]
        obtain ⟨st', B', e4, hinv4, ⟨N4, hN4⟩, p4, q4, m4, c4⟩ :=
          ih node rest st3 B2 hinv3 hnode2 hrest' (by rw [c3]; omega)
        have hmono2 : ∀ x, x ∈ treeVerts r B2 → x ∈ treeVerts r B' := by
          intro x hx
          rw [hN4]
          exact treeVerts_append r N4 _ hx
        refine ⟨st', B', e4, hinv4, ⟨N4 ++ N2 ++ [(node, k, w)], by rw [hN4, hN2]; simp⟩,
          ?_, ?_, by omega, by rw [c3] at c4; omega⟩
        · intro e he
          rcases List.mem_cons.mp he with rfl | he
          · simp only [Int.toNat_ofNat]
            exact hmono2 k hk2
          · exact p4 e he
        · intro x hx hnx
          by_cases hx2 : x ∈ treeVerts r B2
          · have hstable : treeDist len B' r x = treeDist len B2 r x := by
              rw [hN4]
              exact treeDist_append len r N4 (hN4 ▸ hinv4.order)
                (root_mem_treeVerts r B2) hx2
            by_cases hx1 : x ∈ treeVerts r ((node, k, w) :: B)
            · have hxk : x = k := by
                rcases (treeVerts_cons r _ B x).mp hx1 with h | h
                · exact h
                · exact absurd h hnx
              subst hxk
              refine ⟨?_, by rw [hstable]; omega⟩
              intro e he
              rw [hlD] at he
              exact hmono2 _ (p2 e he)
            · obtain ⟨a1, a2⟩ := q2 x hx2 hx1
              refine ⟨fun e he => hmono2 _ (a1 e he), by rw [hstable]; omega⟩
          · exact q4 x hx hx2

/-! ## The search from a vertex of a tree -/

theorem mem_adjList_of_mem_getD {adj : List (List (Int × Int))} {u : Nat} {e : Int × Int}
    (h : e ∈ adj.getD u []) : ∃ l ∈ adj, e ∈ l := by
  have hu : u < adj.length := by
    by_contra hu
    rw [List.getD_eq_getElem?_getD, List.getElem?_eq_none_iff.mpr (by omega)] at h
    simp at h
  rw [List.getD_eq_getElem?_getD, List.getElem?_eq_getElem hu] at h
  exact ⟨_, List.getElem_mem hu, h⟩

/-- The distances of a search in a tree do not overflow, when the paths of the
tree do not. -/
theorem search_fits {t : Graph} (hT : TreeFacts t) (len : Int → Int)
    (hlen : ∀ l ∈ t.adjList, ∀ e ∈ l, 0 ≤ len e.2)
    (hfit : ∀ vs ws, t.IsPath vs ws → vs.Nodup → (ws.map len).sum ≤ 2147483647)
    (r : Nat) (B : List Edge) (x : Nat) (hB : LeafOrder r B)
    (hedge : ∀ e ∈ B, ((e.2.1 : Int), e.2.2) ∈ t.adjList.getD e.1 [])
    (hbound : ∀ y ∈ treeVerts r B, y < t.adjList.length) (hx : x ∈ treeVerts r B) :
    -2147483648 ≤ treeDist len B r x ∧ treeDist len B r x ≤ 2147483647 := by
  have hnn : 0 ≤ treeDist len B r x := by
    apply treeDist_nonneg
    intro e he
    obtain ⟨l, hl, hm⟩ := mem_adjList_of_mem_getD (hedge e he)
    exact hlen l hl _ hm
  obtain ⟨h1, h2, _, h4, _, h6⟩ := chain_spec len r B hB x hx
  have hp := isPath_of_pathE hT.symm hedge _ _ h1 (fun v hv => hbound v (h4 v hv))
  have := hfit _ _ hp h2
  rw [h6] at this
  exact ⟨by omega, this⟩

/-- The search `farthestFrom(r)` in a tree returns; it follows the edges of a
tree `B` that holds all the vertices, and `farthestNode` is a vertex at the
largest distance from `r`. -/
theorem farthestFrom_spec {t : Graph} (hT : TreeFacts t) (len : Int → Int)
    (hlen : ∀ l ∈ t.adjList, ∀ e ∈ l, 0 ≤ len e.2)
    (hfit : ∀ vs ws, t.IsPath vs ws → vs.Nodup → (ws.map len).sum ≤ 2147483647)
    (r : Nat) (hr : r < t.adjList.length) :
    ∃ st B, farthestFrom t.adjList len (List.replicate t.adjList.length (-1)) r = some st
      ∧ DfsInv t.adjList len r st B
      ∧ (∀ x, x < t.adjList.length → x ∈ treeVerts r B)
      ∧ (∀ x, x < t.adjList.length →
          treeDist len B r x ≤ treeDist len B r st.farthestNode) := by
  obtain ⟨l, hl⟩ : ∃ l, t.adjList[r]? = some l := ⟨_, List.getElem?_eq_getElem hr⟩
  have hlD : t.adjList.getD r [] = l := by
    rw [List.getD_eq_getElem?_getD, hl]
    rfl
  have hinv0 : DfsInv t.adjList len r
      { visited := (List.replicate t.adjList.length false).set r true
        distance := List.replicate t.adjList.length 0
        parents := List.replicate t.adjList.length (-1)
        maxDistance := 0
        farthestNode := r } [] := by
    refine ⟨by simp, by simp, by simp, trivial, ?_, ?_, by simp, ?_, ?_, ?_⟩
    · intro x hx
      have : x = r := by simpa [treeVerts] using hx
      omega
    · intro x
      simp only [treeVerts, List.map_nil, List.mem_singleton]
      by_cases hxr : x = r
      · subst hxr
        rw [List.getElem?_set_self (by simpa using hr)]
        simp
      · rw [List.getElem?_set_ne (Ne.symm hxr), List.getElem?_replicate]
        split_ifs <;> simp [hxr]
    · intro x hx
      have : x = r := by simpa [treeVerts] using hx
      subst this
      simp only
      rw [List.getElem?_replicate, if_pos hr]
      rfl
    · refine ⟨?_, by simp⟩
      simp only
      rw [List.getElem?_replicate, if_pos hr]
    · exact ⟨root_mem_treeVerts r [], rfl⟩
  have hcost := unvisitedCost_set t.adjList (List.replicate t.adjList.length false) r
    (by simp) hr (by rw [List.getElem?_replicate, if_pos hr])
  rw [unvisitedCost_replicate, hlD] at hcost
  obtain ⟨st, B, e1, hinv, _, p1, q1, m1, _⟩ :=
    dfsLoop_spec t.adjList len r hT.names (search_fits hT len hlen hfit r)
      (dfsFuel t.adjList) r l _ [] hinv0 (root_mem_treeVerts r [])
      (by intro e he; rw [hlD]; exact he) (by simp only; omega)
  simp only at m1
  have hclosed : ∀ u v w, t.HasEdge u v w → u ∈ treeVerts r B → v ∈ treeVerts r B := by
    intro u v w huv hu
    by_cases hur : u = r
    · subst hur
      have := p1 ((v : Int), w) (by rw [← hlD]; exact huv)
      simpa using this
    · have := (q1 u hu (by simpa [treeVerts] using hur)).1 ((v : Int), w) huv
      simpa using this
  have hall : ∀ x, x < t.adjList.length → x ∈ treeVerts r B := by
    intro x hx
    exact hT.joined (fun y => y ∈ treeVerts r B) hclosed r x hr hx (root_mem_treeVerts r B)
  refine ⟨st, B, ?_, hinv, hall, ?_⟩
  · unfold farthestFrom
    rw [hl]
    exact e1
  · intro x hx
    rw [← hinv.far.2]
    by_cases hxr : x = r
    · subst hxr
      rw [treeDist_self]
      exact m1
    · exact (q1 x (hall x hx) (by simpa [treeVerts] using hxr)).2

/-! ## The way back along `parents` -/

/-- An edge of the tree is there once, and not in the other direction. -/
theorem leafOrder_unique {r : Nat} :
    ∀ B : List Edge, LeafOrder r B → ∀ p c w w', (p, c, w) ∈ B →
      ((p, c, w') ∈ B → w' = w) ∧ (c, p, w') ∉ B := by
  intro B
  induction B with
  | nil => intro _ p c w w' h; simp at h
  | cons e B ih =>
    intro hB p c w w' h
    have hfresh := hB.2.2.fresh hB.2.1
    have hchild : ∀ a ∈ B, a.2.1 ∈ treeVerts r B :=
      fun a ha => List.mem_cons_of_mem _ (List.mem_map_of_mem _ ha)
    rcases List.mem_cons.mp h with h1 | h1
    · subst h1
      simp only at hB hfresh
      constructor
      · intro h2
        rcases List.mem_cons.mp h2 with h2 | h2
        · simp only [Prod.mk.injEq] at h2
          exact h2.2.2
        · exact absurd rfl (hfresh _ h2).2
      · intro h2
        rcases List.mem_cons.mp h2 with h2 | h2
        · simp only [Prod.mk.injEq] at h2
          exact hB.2.1 (h2.1 ▸ hB.1)
        · exact absurd rfl (hfresh _ h2).1
    · have hp1 : p ∈ treeVerts r B := by
        by_contra hp
        exact (hB.2.2.fresh hp _ h1).1 rfl
      have hc1 : c ∈ treeVerts r B := hchild _ h1
      constructor
      · intro h2
        rcases List.mem_cons.mp h2 with h2 | h2
        · subst h2
          exact absurd hc1 hB.2.1
        · exact (ih hB.2.2 p c w w' h1).1 h2
      · intro h2
        rcases List.mem_cons.mp h2 with h2 | h2
        · subst h2
          exact absurd hp1 hB.2.1
        · exact (ih hB.2.2 p c w w' h1).2 h2

theorem climb_neg_one (parents : List Int) (fuel : Nat) : climb parents fuel (-1) = some [] := by
  cases fuel <;> simp [climb]

theorem climb_succ (parents : List Int) (fuel : Nat) (v : Nat) (p : Int)
    (h : parents[v]? = some p) :
    climb parents (fuel + 1) (v : Int) =
      match climb parents fuel p with
      | none => none
      | some path => some ((v : Int) :: path) := by
  rw [climb, if_neg (by omega), if_neg (by omega)]
  simp only [Int.toNat_ofNat, h]

/-- The loop of `getTreeDepthPath_MST` over `parents` climbs from `x` to the
root. -/
theorem climb_spec {parents : List Int} {r : Nat} (hroot : parents[r]? = some (-1)) :
    ∀ B : List Edge, LeafOrder r B → (∀ e ∈ B, parents[e.2.1]? = some (e.1 : Int)) →
      ∀ x ∈ treeVerts r B, ∀ fuel, B.length + 1 ≤ fuel →
      climb parents fuel (x : Int)
        = some (((chainPairs B x).map Prod.fst ++ [(x : Int)]).reverse) := by
  intro B
  induction B with
  | nil =>
    intro _ _ x hx fuel hfuel
    have hxr : x = r := by simpa [treeVerts] using hx
    subst hxr
    obtain ⟨f, rfl⟩ : ∃ f, fuel = f + 1 := ⟨fuel - 1, by omega⟩
    rw [climb_succ _ _ _ _ hroot, climb_neg_one]
    simp [chainPairs]
  | cons e B ih =>
    obtain ⟨p, c, w⟩ := e
    intro hB hpar x hx fuel hfuel
    obtain ⟨f, rfl⟩ : ∃ f, fuel = f + 1 := ⟨fuel - 1, by omega⟩
    simp only [List.length_cons] at hfuel
    have hpar' : ∀ e ∈ B, parents[e.2.1]? = some (e.1 : Int) :=
      fun e he => hpar e (List.mem_cons_of_mem _ he)
    by_cases hxc : x = c
    · subst hxc
      rw [climb_succ _ _ _ _ (hpar _ (List.mem_cons_self _ _)),
        ih hB.2.2 hpar' p hB.1 f (by omega), chainPairs_cons, if_pos rfl]
      simp
    · have hx' : x ∈ treeVerts r B := by
        rcases (treeVerts_cons r _ B x).mp hx with h | h
        · exact absurd h hxc
        · exact h
      rw [chainPairs_cons, if_neg hxc]
      exact ih hB.2.2 hpar' x hx' (f + 1) (by omega)

theorem rebuild_neg_one (adj : List (List (Int × Int))) (parents : List Int) (fuel : Nat) :
    rebuild adj parents fuel (-1) = some [] := by
  cases fuel <;> simp [rebuild]

/-- The loop of `getMaxWeightPath_MST` over `parents` collects the way from
the root to `x`, the last edge first. -/
theorem rebuild_spec {adj : List (List (Int × Int))} {parents : List Int} {r : Nat}
    (hroot : parents[r]? = some (-1)) :
    ∀ B : List Edge, LeafOrder r B → (∀ e ∈ B, parents[e.2.1]? = some (e.1 : Int)) →
      (∀ e ∈ B, ∃ l, adj[e.1]? = some l ∧ ∃ edge,
        l.find? (fun a => decide (a.1 = (e.2.1 : Int))) = some edge ∧ edge.2 = e.2.2) →
      ∀ x ∈ treeVerts r B, ∀ fuel, B.length + 1 ≤ fuel →
      rebuild adj parents fuel (x : Int) = some (chainPairs B x).reverse := by
  intro B
  induction B with
  | nil =>
    intro _ _ _ x hx fuel hfuel
    have hxr : x = r := by simpa [treeVerts] using hx
    subst hxr
    obtain ⟨f, rfl⟩ : ∃ f, fuel = f + 1 := ⟨fuel - 1, by omega⟩
    rw [rebuild, if_neg (by omega), if_neg (by omega)]
    simp only [Int.toNat_ofNat, hroot, rebuild_neg_one]
    simp [chainPairs]
  | cons e B ih =>
    obtain ⟨p, c, w⟩ := e
    intro hB hpar hfind x hx fuel hfuel
    obtain ⟨f, rfl⟩ : ∃ f, fuel = f + 1 := ⟨fuel - 1, by omega⟩
    simp only [List.length_cons] at hfuel
    have hpar' : ∀ e ∈ B, parents[e.2.1]? = some (e.1 : Int) :=
      fun e he => hpar e (List.mem_cons_of_mem _ he)
    have hfind' : ∀ e ∈ B, ∃ l, adj[e.1]? = some l ∧ ∃ edge,
        l.find? (fun a => decide (a.1 = (e.2.1 : Int))) = some edge ∧ edge.2 = e.2.2 :=
      fun e he => hfind e (List.mem_cons_of_mem _ he)
    by_cases hxc : x = c
    · subst hxc
      obtain ⟨l, hl, edge, hedge, hw⟩ := hfind _ (List.mem_cons_self _ _)
      simp only at hl hedge hw
      rw [rebuild, if_neg (by omega), if_neg (by omega)]
      simp only [Int.toNat_ofNat, hpar _ (List.mem_cons_self _ _),
        ih hB.2.2 hpar' hfind' p hB.1 f (by omega)]
      rw [if_pos (by omega), if_neg (by omega)]
      simp only [Int.toNat_ofNat, hl, hedge, hw]
      rw [chainPairs_cons, if_pos rfl]
      simp
    · have hx' : x ∈ treeVerts r B := by
        rcases (treeVerts_cons r _ B x).mp hx with h | h
        · exact absurd h hxc
        · exact h
      rw [chainPairs_cons, if_neg hxc]
      exact ih hB.2.2 hpar' hfind' x hx' (f + 1) (by omega)

/-- The first entry for `c` in the list of `p` has the weight of the edge
between `p` and `c`, when the tree `B` holds all the edges of the graph. -/
theorem firstEntry_spec {t : Graph} (hT : TreeFacts t) {r : Nat} {B : List Edge}
    (hB : LeafOrder r B) (hall : ∀ x, x < t.adjList.length → x ∈ treeVerts r B)
    (hedge : ∀ e ∈ B, t.HasEdge e.1 e.2.1 e.2.2) :
    ∀ e ∈ B, ∃ l, t.adjList[e.1]? = some l ∧ ∃ edge,
      l.find? (fun a => decide (a.1 = (e.2.1 : Int))) = some edge ∧ edge.2 = e.2.2 := by
  rintro ⟨p, c, w⟩ he
  have hpc := hedge _ he
  simp only at hpc ⊢
  have hp : p < t.adjList.length := Graph.hasEdge_lt hpc
  have hlD : t.adjList.getD p [] = t.adjList[p] := by
    rw [List.getD_eq_getElem?_getD, List.getElem?_eq_getElem hp]
    rfl
  refine ⟨_, List.getElem?_eq_getElem hp, ?_⟩
  cases hf : (t.adjList[p]).find? (fun a => decide (a.1 = (c : Int))) with
  | none =>
    exfalso
    rw [List.find?_eq_none] at hf
    have hm : ((c : Int), w) ∈ t.adjList[p] := by
      rw [← hlD]
      exact hpc
    simpa using hf _ hm
  | some edge =>
    refine ⟨edge, rfl, ?_⟩
    have h1 : edge.1 = (c : Int) := by simpa using List.find?_some hf
    have h2 : edge ∈ t.adjList[p] := List.mem_of_find?_eq_some hf
    have h3 : t.HasEdge p c edge.2 := by
      show ((c : Int), edge.2) ∈ t.adjList.getD p []
      rw [hlD, ← h1]
      exact h2
    rcases hT.covers r B hB hall hedge p c edge.2 h3 with h4 | h4
    · exact (leafOrder_unique B hB p c w edge.2 he).1 h4
    · exact absurd h4 (leafOrder_unique B hB p c w edge.2 he).2

/-! ## The deepest path and the heaviest path -/

theorem leafOrder_nodup {r : Nat} : ∀ B : List Edge, LeafOrder r B → (treeVerts r B).Nodup := by
  intro B
  induction B with
  | nil => intro _; simp [treeVerts]
  | cons e B ih =>
    intro hB
    have h1 := ih hB.2.2
    have h2 := hB.2.1
    unfold treeVerts at h1 h2 ⊢
    simp only [List.map_cons, List.nodup_cons, List.mem_cons, not_or] at h1 h2 ⊢
    refine ⟨⟨fun h => h2.1 h.symm, h1.1⟩, h2.2, h1.2⟩

theorem leafOrder_length {r n : Nat} {B : List Edge} (hB : LeafOrder r B)
    (hb : ∀ x ∈ treeVerts r B, x < n) : B.length + 1 ≤ n := by
  have h3 : (treeVerts r B).toFinset ⊆ Finset.range n := by
    intro x hx
    exact Finset.mem_range.mpr (hb x (List.mem_toFinset.mp hx))
  have h4 := Finset.card_le_card h3
  rw [List.toFinset_card_of_nodup (leafOrder_nodup B hB), Finset.card_range] at h4
  simpa [treeVerts] using h4

theorem sum_map_one (ws : List Int) : (ws.map fun _ => (1 : Int)).sum = ws.length := by
  induction ws with
  | nil => rfl
  | cons w ws ih =>
    rw [List.map_cons, List.sum_cons, ih, List.length_cons]
    push_cast
    ring

theorem isPath_ends {t : Graph} {vs : List Nat} {ws : List Int} (h : t.IsPath vs ws) :
    ∃ x y, vs.head? = some x ∧ vs.getLast? = some y ∧ x < t.adjList.length
      ∧ y < t.adjList.length := by
  obtain ⟨h1, h2, _⟩ := Graph.isPath_bounds vs ws h
  cases vs with
  | nil => simp at h1
  | cons x rest =>
    obtain ⟨y, hy⟩ : ∃ y, (x :: rest).getLast? = some y := by
      cases hl : (x :: rest).getLast? with
      | none => simp at hl
      | some y => exact ⟨y, rfl⟩
    exact ⟨x, y, rfl, hy, h2 x (List.mem_cons_self _ _),
      h2 y (List.mem_of_getLast?_eq_some hy)⟩

/-- The weight of a simple path of a tree is the distance of its ends in the
tree of a search. -/
theorem isPath_weight {t : Graph} (hT : TreeFacts t) (len : Int → Int) {r : Nat}
    {st : DfsState} {B : List Edge} (hinv : DfsInv t.adjList len r st B)
    (hall : ∀ x, x < t.adjList.length → x ∈ treeVerts r B)
    {vs : List Nat} {ws : List Int} (h : t.IsPath vs ws) (hnd : vs.Nodup) {x y : Nat}
    (hx : vs.head? = some x) (hy : vs.getLast? = some y) :
    (ws.map len).sum = treeDist len B x y :=
  pathE_weight len r B hinv.order vs ws x y
    (pathE_of_isPath (hT.covers r B hinv.order hall hinv.edge) vs ws h) hnd hx hy

/-- The way of a search from its root to a vertex is a simple path of the
graph. -/
theorem chain_isPath {t : Graph} (hT : TreeFacts t) (len : Int → Int) {r : Nat}
    {st : DfsState} {B : List Edge} (hinv : DfsInv t.adjList len r st B) {x : Nat}
    (hx : x ∈ treeVerts r B) :
    t.IsPath ((chainPairs B x).map (fun q => q.1.toNat) ++ [x]) ((chainPairs B x).map Prod.snd)
    ∧ ((chainPairs B x).map (fun q => q.1.toNat) ++ [x]).Nodup
    ∧ ((chainPairs B x).map (fun q => q.1.toNat) ++ [x]).head? = some r
    ∧ (∀ q ∈ chainPairs B x, 0 ≤ q.1)
    ∧ (((chainPairs B x).map Prod.snd).map len).sum = treeDist len B r x := by
  obtain ⟨h1, h2, h3, h4, h5, h6⟩ := chain_spec len r B hinv.order x hx
  exact ⟨isPath_of_pathE hT.symm hinv.edge _ _ h1 (fun v hv => hinv.bound v (h4 v hv)),
    h2, h3, h5, h6⟩

/-- What `getMaxWeightPath_MST` computes on a tree with non-negative weights
whose paths all weigh at most `INT_MAX`. -/
theorem maxWeightPath_spec (t : Graph) (ht : t.IsTree)
    (hw : ∀ l ∈ t.adjList, ∀ e ∈ l, 0 ≤ e.2)
    (hfit : ∀ vs ws, t.IsPath vs ws → vs.Nodup → ws.sum ≤ INT_MAX) :
    ∃ maxPath endVertex, maxWeightPath t = some (maxPath, endVertex)
      ∧ getMaxWeightPath_MST (some t) = some (showMaxPath maxPath endVertex)
      ∧ (∀ q ∈ maxPath, 0 ≤ q.1) ∧ 0 ≤ endVertex
      ∧ t.IsPath (maxPath.map (fun q => q.1.toNat) ++ [endVertex.toNat]) (maxPath.map Prod.snd)
      ∧ (maxPath.map (fun q => q.1.toNat) ++ [endVertex.toNat]).Nodup
      ∧ ∀ vs ws, t.IsPath vs ws → vs.Nodup → ws.sum ≤ (maxPath.map Prod.snd).sum := by
  have hT := ht.facts
  have hn : 0 < t.adjList.length := by
    obtain ⟨A, _, hlen, _⟩ := ht
    omega
  have hfit' : ∀ vs ws, t.IsPath vs ws → vs.Nodup →
      (ws.map fun weight : Int => weight).sum ≤ 2147483647 := by
    intro vs ws h hnd
    rw [List.map_id']
    exact hfit vs ws h hnd
  obtain ⟨st1, B1, e1, inv1, all1, max1⟩ :=
    farthestFrom_spec hT (fun weight => weight) hw hfit' 0 hn
  have ha : st1.farthestNode < t.adjList.length := inv1.bound _ inv1.far.1
  obtain ⟨st2, B2, e2, inv2, all2, max2⟩ :=
    farthestFrom_spec hT (fun weight => weight) hw hfit' st1.farthestNode ha
  have hb : st2.farthestNode < t.adjList.length := inv2.bound _ inv2.far.1
  have e3 := rebuild_spec inv2.par.1 B2 inv2.order inv2.par.2
    (firstEntry_spec hT inv2.order all2 inv2.edge) st2.farthestNode inv2.far.1
    (t.adjList.length + 1) (by have := leafOrder_length inv2.order inv2.bound; omega)
  have hres : maxWeightPath t = some (chainPairs B2 st2.farthestNode, (st2.farthestNode : Int)) := by
    unfold maxWeightPath
    rw [e1]
    simp only
    rw [e2]
    simp only
    rw [e3]
    simp only [List.reverse_reverse]
  obtain ⟨c1, c2, c3, c4, c5⟩ := chain_isPath hT (fun weight => weight) inv2 inv2.far.1
  -- the distances of the second search are those of the first tree
  have htransfer : ∀ x, x < t.adjList.length →
      treeDist (fun weight => weight) B2 st1.farthestNode x
        = treeDist (fun weight => weight) B1 st1.farthestNode x := by
    intro x hx
    obtain ⟨d1, d2, d3, _, d5⟩ := chain_isPath hT (fun weight => weight) inv2 (all2 x hx)
    rw [← d5]
    exact isPath_weight hT _ inv1 all1 d1 d2 d3 (by simp)
  have hB1 : ∀ e ∈ B1, 0 ≤ (fun weight : Int => weight) e.2.2 := by
    intro e he
    obtain ⟨l, hl, hm⟩ := mem_adjList_of_mem_getD (inv1.edge e he)
    exact hw l hl _ hm
  have hsweep := treeDist_double_sweep (fun weight => weight) B1 hB1
    (fun x => x < t.adjList.length) 0 st1.farthestNode st2.farthestNode max1 (by
      intro x hx
      rw [← htransfer x hx, ← htransfer _ hb]
      exact max2 x hx)
  refine ⟨chainPairs B2 st2.farthestNode, (st2.farthestNode : Int), hres, ?_, c4,
    Int.ofNat_nonneg _, ?_, ?_, ?_⟩
  · unfold getMaxWeightPath_MST
    have h0 : ¬ t.getNumVertices = 0 := by
      unfold Graph.getNumVertices
      omega
    simp only [h0, if_false, hres]
  · simpa using c1
  · simpa using c2
  · intro vs ws h hnd
    obtain ⟨x, y, hx, hy, hxn, hyn⟩ := isPath_ends h
    have h1 := isPath_weight hT (fun weight => weight) inv1 all1 h hnd hx hy
    rw [List.map_id'] at h1
    rw [List.map_id'] at c5
    rw [h1, c5, htransfer _ hb]
    exact hsweep x y hxn hyn

/-- What `getTreeDepthPath_MST` computes on a tree. -/
theorem treeDepthPath_spec (t : Graph) (ht : t.IsTree)
    (hn : (t.adjList.length : Int) ≤ INT_MAX) :
    ∃ path, treeDepthPath t = some path
      ∧ getTreeDepthPath_MST (some t) = some (showPath path)
      ∧ (∀ v ∈ path, 0 ≤ v) ∧ (path.map Int.toNat).head? = some 0
      ∧ (path.map Int.toNat).Nodup
      ∧ (∃ ws, t.IsPath (path.map Int.toNat) ws)
      ∧ ∀ vs ws, t.IsPath vs ws → vs.Nodup → vs.head? = some 0 →
          vs.length ≤ path.length := by
  have hT := ht.facts
  have hn0 : 0 < t.adjList.length := by
    obtain ⟨A, _, hlen, _⟩ := ht
    omega
  have hfit' : ∀ vs ws, t.IsPath vs ws → vs.Nodup →
      (ws.map fun _ : Int => (1 : Int)).sum ≤ 2147483647 := by
    intro vs ws h hnd
    rw [sum_map_one]
    have := Graph.isPath_length_le h hnd
    unfold INT_MAX at hn
    omega
  have hlen : ∀ l ∈ t.adjList, ∀ e ∈ l, 0 ≤ (fun _ : Int => (1 : Int)) e.2 :=
    fun _ _ _ _ => Int.one_nonneg
  obtain ⟨st, B, e1, inv, all, max⟩ := farthestFrom_spec hT (fun _ => 1) hlen hfit' 0 hn0
  have e2 := climb_spec inv.par.1 B inv.order inv.par.2 st.farthestNode inv.far.1
    (t.adjList.length + 1) (by have := leafOrder_length inv.order inv.bound; omega)
  have hres : treeDepthPath t
      = some ((chainPairs B st.farthestNode).map Prod.fst ++ [(st.farthestNode : Int)]) := by
    unfold treeDepthPath
    rw [e1]
    simp only
    rw [e2]
    simp only [List.reverse_reverse]
  obtain ⟨c1, c2, c3, c4, c5⟩ := chain_isPath hT (fun _ => 1) inv inv.far.1
  have hmap : ((chainPairs B st.farthestNode).map Prod.fst ++ [(st.farthestNode : Int)]).map
      Int.toNat = (chainPairs B st.farthestNode).map (fun q => q.1.toNat) ++ [st.farthestNode] := by
    simp [List.map_map, Function.comp]
  refine ⟨_, hres, ?_, ?_, ?_, ?_, ⟨_, by rw [hmap]; exact c1⟩, ?_⟩
  · unfold getTreeDepthPath_MST
    have h0 : ¬ t.getNumVertices = 0 := by
      unfold Graph.getNumVertices
      omega
    simp only [h0, if_false, hres]
  · intro v hv
    rcases List.mem_append.mp hv with hv | hv
    · obtain ⟨q, hq, rfl⟩ := List.mem_map.mp hv
      exact c4 q hq
    · simp only [List.mem_singleton] at hv
      rw [hv]
      exact Int.ofNat_nonneg _
  · rw [hmap]; exact c3
  · rw [hmap]; exact c2
  · intro vs ws h hnd hx
    obtain ⟨x, y, hx', hy, _, hyn⟩ := isPath_ends h
    rw [hx] at hx'
    have h1 := isPath_weight hT (fun _ => 1) inv all h hnd hx hy
    rw [sum_map_one] at h1 c5
    have h2 := max y hyn
    have h3 := (Graph.isPath_bounds vs ws h).1
    simp only [List.length_append, List.length_map, List.length_singleton]
    simp only [List.length_map] at c5
    omega

/-! ## Claims C28 and C29 -/

/-- C28 (heaviest path), with the bound that the `int` distances need: for
every graph `t` that holds a tree, with non-negative weights, in which no
simple path weighs more than `INT_MAX`, `getMaxWeightPath_MST` returns; the
pairs `(vertex, weight)` that it prints, followed by the last vertex, are a
simple path of the tree with the weight of each of its edges, and no simple
path of the tree weighs more. -/
theorem C28_heaviest_path (t : Graph) (ht : t.IsTree)
    (hw : ∀ l ∈ t.adjList, ∀ e ∈ l, 0 ≤ e.2)
    (hfit : ∀ vs ws, t.IsPath vs ws → vs.Nodup → ws.sum ≤ INT_MAX) :
    ∃ maxPath endVertex, maxWeightPath t = some (maxPath, endVertex)
      ∧ getMaxWeightPath_MST (some t) = some (showMaxPath maxPath endVertex)
      ∧ (∀ q ∈ maxPath, 0 ≤ q.1) ∧ 0 ≤ endVertex
      ∧ t.IsPath (maxPath.map (fun q => q.1.toNat) ++ [endVertex.toNat]) (maxPath.map Prod.snd)
      ∧ (maxPath.map (fun q => q.1.toNat) ++ [endVertex.toNat]).Nodup
      ∧ ∀ vs ws, t.IsPath vs ws → vs.Nodup → ws.sum ≤ (maxPath.map Prod.snd).sum :=
  maxWeightPath_spec t ht hw hfit

set_option maxRecDepth 100000 in
/-- Witness of C28: the tree 0-1:2, 1-2:3 of the tests, for which the report
is "2 --(3)--> 1 --(2)--> 0". -/
theorem C28_heaviest_path_witness :
    getMaxWeightPath_MST (some expected3) = some "Heaviest path: 2 --(3)--> 1 --(2)--> 0"
    ∧ ∃ maxPath endVertex, maxWeightPath expected3 = some (maxPath, endVertex)
      ∧ getMaxWeightPath_MST (some expected3) = some (showMaxPath maxPath endVertex)
      ∧ (∀ q ∈ maxPath, 0 ≤ q.1) ∧ 0 ≤ endVertex
      ∧ expected3.IsPath (maxPath.map (fun q => q.1.toNat) ++ [endVertex.toNat])
          (maxPath.map Prod.snd)
      ∧ (maxPath.map (fun q => q.1.toNat) ++ [endVertex.toNat]).Nodup
      ∧ ∀ vs ws, expected3.IsPath vs ws → vs.Nodup → ws.sum ≤ (maxPath.map Prod.snd).sum :=
  ⟨by decide,
    C28_heaviest_path expected3 expected3_isTree (by decide) fun _ _ h hnd =>
      le_trans (Graph.isPath_sum_le 3 (by decide) (by decide) h hnd) (by decide)⟩

set_option maxRecDepth 100000 in
/-- C28 as the claim has it fails: in the tree 0-1, 1-2 with both weights
2^30 the distance of vertex 2 from vertex 0 wraps around; the report is the
path "1 --(1073741824)--> 0" of weight 2^30, and the simple path 0, 1, 2
weighs 2^31. -/
theorem C28_heaviest_path_counterexample :
    overflowTree.IsTree
    ∧ (∀ l ∈ overflowTree.adjList, ∀ e ∈ l, 0 ≤ e.2)
    ∧ maxWeightPath overflowTree = some ([(1, 1073741824)], 0)
    ∧ getMaxWeightPath_MST (some overflowTree) = some "Heaviest path: 1 --(1073741824)--> 0"
    ∧ overflowTree.IsPath [0, 1, 2] [1073741824, 1073741824]
    ∧ ([0, 1, 2] : List Nat).Nodup
    ∧ (([(1, 1073741824)] : List (Int × Int)).map Prod.snd).sum
        < ([1073741824, 1073741824] : List Int).sum := by
  refine ⟨overflowTree_isTree, by decide, by decide, by decide, ?_, by decide, by decide⟩
  rw [Graph.isPath_cons_iff, Graph.isPath_cons_iff, Graph.isPath_single_iff]
  exact ⟨by decide, by decide, by decide⟩

set_option maxRecDepth 100000 in
/-- C29 fails: in the tree 0-1, 0-2 the path that `getTreeDepthPath_MST`
returns is "0->1", of one edge, and the simple path 1, 0, 2 of the tree has
two edges.  The function makes one search only, from vertex 0: for every
graph `t` that holds a tree, on at most `INT_MAX` vertices, it returns a
simple path of the tree that starts at vertex 0, and no simple path of the
tree that starts at vertex 0 has more vertices, that is, more edges. -/
theorem C29_longest_path :
    (starTree.IsTree
      ∧ treeDepthPath starTree = some [0, 1]
      ∧ getTreeDepthPath_MST (some starTree) = some "0->1"
      ∧ starTree.IsPath [1, 0, 2] [1, 1]
      ∧ ([1, 0, 2] : List Nat).Nodup
      ∧ ([0, 1] : List Int).length < ([1, 0, 2] : List Nat).length)
    ∧ ∀ t : Graph, t.IsTree → (t.adjList.length : Int) ≤ INT_MAX →
        ∃ path, treeDepthPath t = some path
          ∧ getTreeDepthPath_MST (some t) = some (showPath path)
          ∧ (∀ v ∈ path, 0 ≤ v) ∧ (path.map Int.toNat).head? = some 0
          ∧ (path.map Int.toNat).Nodup
          ∧ (∃ ws, t.IsPath (path.map Int.toNat) ws)
          ∧ ∀ vs ws, t.IsPath vs ws → vs.Nodup → vs.head? = some 0 →
              vs.length ≤ path.length := by
  refine ⟨⟨starTree_isTree, by decide, by decide, ?_, by decide, by decide⟩,
    treeDepthPath_spec⟩
  rw [Graph.isPath_cons_iff, Graph.isPath_cons_iff, Graph.isPath_single_iff]
  exact ⟨by decide, by decide, by decide⟩

/-! ## The leader flag of a pool -/

/-- C32 (leader flag invariant): in every state `p` reached by any schedule of
a pool, (1) `_leader_active` is false whenever no thread holds the queue
mutex; (2) a worker that passes the exit check goes on to the election;
(3) a worker at the election holds the mutex and finds the flag false, so
`exchange(true)` returns false and its step takes it into the leader block
with the flag set; (4) a worker at the dequeue finds the queue non-empty and
takes its head; (5) a worker at `_leader_active = false` still holds the
mutex, and its step clears the flag without releasing the mutex; (6) a worker
at the end of the scope of the lock finds the flag false, and its step frees
the mutex. -/
theorem C32_leader_flag (n : Int) (acts : List LeaderFollowers.Action) (p : LeaderFollowers)
    (hp : p = LeaderFollowers.run (LeaderFollowers.new n) acts) :
    (p.queue_mutex = none → p.leader_active = false)
    ∧ (∀ k, p.threads[k]? = some (some .exitCheck) → p.terminated = false →
        ¬ (p.running = false ∧ p.task_queue = []) →
        (LeaderFollowers.step p (.worker k)).threads[k]? = some (some .election))
    ∧ (∀ k, p.threads[k]? = some (some .election) →
        p.queue_mutex = some k ∧ p.leader_active = false ∧ p.task_queue ≠ []
        ∧ (p.terminated = false →
          (LeaderFollowers.step p (.worker k)).threads[k]? = some (some .leader)
          ∧ (LeaderFollowers.step p (.worker k)).leader_active = true
          ∧ (LeaderFollowers.step p (.worker k)).queue_mutex = some k
          ∧ (LeaderFollowers.step p (.worker k)).task_queue = p.task_queue))
    ∧ (∀ k, p.threads[k]? = some (some .leader) →
        ∃ t q, p.task_queue = t :: q ∧ p.queue_mutex = some k ∧ p.leader_active = true
          ∧ (p.terminated = false →
            (LeaderFollowers.step p (.worker k)).threads[k]? = some (some (.release t))
            ∧ (LeaderFollowers.step p (.worker k)).task_queue = q
            ∧ (LeaderFollowers.step p (.worker k)).dequeued = p.dequeued ++ [t]))
    ∧ (∀ k t, p.threads[k]? = some (some (.release t)) →
        p.queue_mutex = some k ∧ p.leader_active = true
        ∧ (p.terminated = false →
          (LeaderFollowers.step p (.worker k)).threads[k]? = some (some (.unlock t))
          ∧ (LeaderFollowers.step p (.worker k)).leader_active = false
          ∧ (LeaderFollowers.step p (.worker k)).queue_mutex = some k))
    ∧ (∀ k t, p.threads[k]? = some (some (.unlock t)) →
        p.queue_mutex = some k ∧ p.leader_active = false
        ∧ (p.terminated = false →
          (LeaderFollowers.step p (.worker k)).queue_mutex = none
          ∧ (LeaderFollowers.step p (.worker k)).leader_active = false)) := by
  have hinv : LeaderFollowers.Inv p := by
    rw [hp]
    exact LeaderFollowers.lf_inv_run acts _ (LeaderFollowers.lf_inv_new n)
  clear hp
  obtain ⟨hm, hf, hq, -⟩ := hinv
  -- the flag, seen by a thread that holds the mutex outside the leader block
  have hflag : ∀ (k : Nat) (pc : LeaderFollowers.Pc), p.threads[k]? = some (some pc) → pc.inCritical = true →
      pc.inLeaderBlock = false → p.leader_active = false := by
    intro k pc hat hc hb
    by_contra hcon
    simp only [Bool.not_eq_false] at hcon
    obtain ⟨j, pcj, hj, hbj⟩ := hf.mp hcon
    have e1 := (hm.1 j pcj hj).mp (LeaderFollowers.lf_leaderBlock_critical _ hbj)
    have e2 := (hm.1 k pc hat).mp hc
    rw [e1] at e2
    simp only [Option.some.injEq] at e2
    subst e2
    rw [hat] at hj
    cases hj
    rw [hb] at hbj
    cases hbj
  refine ⟨?_, ?_, ?_, ?_, ?_, ?_⟩
  · intro hmx
    by_contra hcon
    simp only [Bool.not_eq_false] at hcon
    obtain ⟨i, pci, hi, hbi⟩ := hf.mp hcon
    have e1 := (hm.1 i pci hi).mp (LeaderFollowers.lf_leaderBlock_critical _ hbi)
    rw [hmx] at e1
    cases e1
  · intro k hat hlive hpass
    have hk : k < p.threads.length := (List.getElem?_eq_some_iff.mp hat).1
    have hc : ¬ ((!p.running && p.task_queue.isEmpty) = true) := by
      intro hc
      simp only [Bool.and_eq_true, Bool.not_eq_true', List.isEmpty_iff] at hc
      exact hpass hc
    simp [LeaderFollowers.step, hlive, LeaderFollowers.worker_loop, hat, hc,
      LeaderFollowers.goto, hk]
  · intro k hat
    have hk : k < p.threads.length := (List.getElem?_eq_some_iff.mp hat).1
    have hfl := hflag k _ hat rfl rfl
    refine ⟨(hm.1 k _ hat).mp rfl, hfl, hq k _ hat, fun hlive => ?_⟩
    have hmx := (hm.1 k _ hat).mp rfl
    simp [LeaderFollowers.step, hlive, LeaderFollowers.worker_loop, hat, hfl,
      LeaderFollowers.goto, hk, hmx]
  · intro k hat
    have hk : k < p.threads.length := (List.getElem?_eq_some_iff.mp hat).1
    have hne := hq k _ hat
    simp only [LeaderFollowers.Pc.queueOk] at hne
    cases hqq : p.task_queue with
    | nil => exact absurd hqq hne
    | cons t q =>
      refine ⟨t, q, rfl, (hm.1 k _ hat).mp rfl, hf.mpr ⟨k, _, hat, rfl⟩, fun hlive => ?_⟩
      simp [LeaderFollowers.step, hlive, LeaderFollowers.worker_loop, hat, hqq,
        LeaderFollowers.goto, hk]
  · intro k t hat
    have hk : k < p.threads.length := (List.getElem?_eq_some_iff.mp hat).1
    have hmx := (hm.1 k _ hat).mp rfl
    refine ⟨hmx, hf.mpr ⟨k, _, hat, rfl⟩, fun hlive => ?_⟩
    simp [LeaderFollowers.step, hlive, LeaderFollowers.worker_loop, hat,
      LeaderFollowers.goto, hk, hmx]
  · intro k t hat
    have hk : k < p.threads.length := (List.getElem?_eq_some_iff.mp hat).1
    have hfl := hflag k _ hat rfl rfl
    refine ⟨(hm.1 k _ hat).mp rfl, hfl, fun hlive => ?_⟩
    simp [LeaderFollowers.step, hlive, LeaderFollowers.worker_loop, hat, hfl,
      LeaderFollowers.goto, hk]

set_option maxRecDepth 100000 in
/-- Witness of C32: a pool of two threads with one task submitted; thread 1
stands at the election while thread 0 waits for the mutex. -/
theorem C32_leader_flag_witness :
    (LeaderFollowers.run (LeaderFollowers.new 2)
        [.add_task (.fn 0 .ret), .worker 1, .worker 0, .worker 1, .worker 1,
          .worker 1]).threads[1]? = some (some .election)
    ∧ (LeaderFollowers.run (LeaderFollowers.new 2)
        [.add_task (.fn 0 .ret), .worker 1, .worker 0, .worker 1, .worker 1,
          .worker 1]).leader_active = false :=
  ⟨by decide, ((C32_leader_flag 2 _ _ rfl).2.2.1 1 (by decide)).2.1⟩

/-! ## `Pipeline::execute` -/

theorem list_modify_last {α : Type} (f : α → α) (l : List α) (x : α) :
    List.modify f l.length (l ++ [x]) = l ++ [f x] := by
  induction l with
  | nil => rfl
  | cons a l ih => simpa using ih

/-- C34 (`Pipeline::execute`): for every pipeline, whatever its stages hold,
`execute()` returns the empty string and does not terminate the process; with
no stage it changes nothing; with one stage it appends two pass-through tasks
to the queue of that stage; with two stages or more it appends one
pass-through task to the queue of the first stage and one to the queue of the
last stage, and leaves every stage in between and every other field alone. -/
theorem C34_execute_empty_string (s : Sys) :
    (Pipeline.execute s).1 = ""
    ∧ (Pipeline.execute s).2.terminated = s.terminated
    ∧ (s.heap = [] → (Pipeline.execute s).2 = s)
    ∧ (∀ o, s.heap = [o] →
        (Pipeline.execute s).2.heap
          = [{ o with tasks := o.tasks ++ [.passThrough, .passThrough],
                      enqueued := o.enqueued ++ [.passThrough, .passThrough] }])
    ∧ (∀ a mid b, s.heap = a :: (mid ++ [b]) →
        (Pipeline.execute s).2.heap
          = { a with tasks := a.tasks ++ [.passThrough],
                     enqueued := a.enqueued ++ [.passThrough] }
            :: (mid ++ [{ b with tasks := b.tasks ++ [.passThrough],
                                 enqueued := b.enqueued ++ [.passThrough] }])) := by
  refine ⟨rfl, ?_, ?_, ?_, ?_⟩
  · simp only [Pipeline.execute, Pipeline.executeBack, Pipeline.executeFront,
      ActiveObject.enqueue, Sys.modify]
    split_ifs <;> rfl
  · intro h
    simp [Pipeline.execute, Pipeline.executeBack, Pipeline.executeFront, h]
  · intro o h
    simp [Pipeline.execute, Pipeline.executeBack, Pipeline.executeFront,
      ActiveObject.enqueue, Sys.modify, h, List.modify]
  · intro a mid b h
    simp only [Pipeline.execute, Pipeline.executeBack, Pipeline.executeFront,
      ActiveObject.enqueue, Sys.modify, h]
    simp only [List.length_cons, List.length_append, List.length_singleton,
      Nat.add_one_ne_zero, if_false, List.length_modify, List.length_nil, Nat.zero_add,
      Nat.add_sub_cancel, List.modify_zero_cons, List.modify_succ_cons, list_modify_last]

/-- Witness of C34: a pipeline of three stages, the first holding a task that
would throw; `execute()` returns the empty string and appends to the first
and to the last queue. -/
theorem C34_execute_empty_string_witness :
    (Pipeline.execute (Pipeline.build [.user .throwOther, .user (.ret "a"),
        .user (.ret "b")])).1 = ""
    ∧ ((Pipeline.execute (Pipeline.build [.user .throwOther, .user (.ret "a"),
        .user (.ret "b")])).2.heap.map fun o => o.tasks)
      = [[.user .throwOther, .passThrough], [.user (.ret "a")],
          [.user (.ret "b"), .passThrough]] :=
  ⟨(C34_execute_empty_string _).1, by decide⟩

/-! ## The graphs that the operations build are undirected -/

theorem Graph.WellFormed.toUndirected {g : Graph} (hg : g.WellFormed) : g.Undirected := by
  intro u _ e he
  obtain ⟨h0, -⟩ := hg.valid u e he
  refine ⟨h0, ?_⟩
  have hcast : ((e.1.toNat : Nat) : Int) = e.1 := Int.toNat_of_nonneg h0
  have h1 : g.HasEdge u e.1.toNat e.2 := by
    unfold Graph.HasEdge
    rw [hcast]
    exact he
  exact hg.hasEdge_mirror h1

theorem Graph.undirected_runOps (n : Nat) (ops : List Graph.Op) :
    (Graph.runOps n ops).Undirected :=
  (Graph.wellFormed_runOps n ops).toUndirected

/-- C36 (undirected-graph invariant): in every graph obtained from `Graph(n)`
by any sequence of `add_edge`, `remove_edge` and `changeEdgeWeight` calls, for
all vertices `u ≠ v` the list of `u` has at most one entry for `v`, and it has
the entry `(v, w)` if and only if the list of `v` has the entry `(u, w)`. -/
theorem C36_undirected_invariant (n : Nat) (ops : List Graph.Op) (u v : Nat) (huv : u ≠ v) :
    ((((Graph.runOps n ops).adjList.getD u []).filter
        fun e => decide (e.1 = (v : Int))).length ≤ 1)
    ∧ ∀ w : Int, ((v : Int), w) ∈ (Graph.runOps n ops).adjList.getD u []
        ↔ ((u : Int), w) ∈ (Graph.runOps n ops).adjList.getD v [] := by
  have hg := Graph.wellFormed_runOps n ops
  constructor
  · have h := hg.single u v huv
    unfold Graph.between at h
    rw [List.length_map] at h
    exact h
  · intro w
    exact ⟨fun h => hg.hasEdge_mirror (a := u) (b := v) h,
      fun h => hg.hasEdge_mirror (a := v) (b := u) h⟩

/-- Witness of C36: the graph of the test of five vertices after an edge was
removed and a weight changed; vertices 1 and 3. -/
theorem C36_undirected_invariant_witness :
    (1 : Nat) ≠ 3
    ∧ ((((Graph.runOps 5 [.add_edge 0 1 2, .add_edge 1 2 3, .add_edge 3 1 8, .add_edge 1 3 6,
          .remove_edge 1 2, .changeEdgeWeight 3 1 7]).adjList.getD 1 []).filter
        fun e => decide (e.1 = ((3 : Nat) : Int))).length ≤ 1) :=
  ⟨by decide, (C36_undirected_invariant 5 _ 1 3 (by decide)).1⟩

/-! ## Every solver returns -/

theorem kruskal_total {g : Graph} (hg : g.Undirected) :
    ∃ mst, KruskalSolver.solveMST g = some mst := by
  obtain ⟨mst, A, h1, -⟩ := kruskal_run hg
  unfold KruskalSolver.solveMST
  rw [h1]
  simp only
  split_ifs
  · exact ⟨_, rfl⟩
  · exact ⟨_, rfl⟩

theorem prim_total {g : Graph} (hg : g.Undirected) (hn : 1 ≤ g.adjList.length) :
    ∃ mst, PrimSolver.solveMST g = some mst := by
  obtain ⟨st, mst, L, h1, h2, -⟩ := prim_result hg hn
  unfold PrimSolver.solveMST
  simp only
  rw [if_neg (by omega), h1]
  simp only [h2]
  split_ifs
  · exact ⟨_, rfl⟩
  · exact ⟨_, rfl⟩

theorem boruvkaLoop_total {g : Graph} (hg : g.Undirected) :
    ∀ (fuel : Nat) (st : BoruvkaState) (A : List Edge) (f : Nat → Nat),
      BoruvkaInv g st A f → g.adjList.length < fuel + A.length →
      ∃ mst, boruvkaLoop g fuel st = some mst := by
  intro fuel
  induction fuel with
  | zero =>
    intro st A f h hfuel
    rcases Nat.eq_zero_or_pos g.adjList.length with h0 | hn
    · exfalso
      have hA : A = [] := by
        cases A with
        | nil => rfl
        | cons e A =>
          have := (h.edges e (List.mem_cons_self _ _)).1
          omega
      subst hA
      simp at hfuel
    · have := boruvkaInv_length h hn
      omega
  | succ fuel ih =>
    intro st A f h hfuel
    unfold boruvkaLoop
    by_cases hcomp : st.numComponents > 1
    · rw [if_pos hcomp]
      obtain ⟨uf1, cheapest, st1, merged, A', f', h1, h2, h3, h4, h5⟩ := boruvka_round hg h
      simp only [h1, h2]
      cases merged with
      | false =>
        obtain ⟨hA, -⟩ := h5 rfl
        have h9 := h.comps
        have h9' := h3.comps
        rw [hA] at h9'
        rw [if_pos ⟨rfl, by omega⟩]
        exact ⟨_, rfl⟩
      | true =>
        rw [if_neg (by simp)]
        exact ih st1 A' f' h3 (by have := h4 rfl; omega)
    · rw [if_neg hcomp]
      split_ifs
      · exact ⟨_, rfl⟩
      · exact ⟨_, rfl⟩

theorem boruvka_total {g : Graph} (hg : g.Undirected) :
    ∃ mst, BoruvkaSolver.solveMST g = some mst :=
  boruvkaLoop_total hg (g.adjList.length + 1) _ [] id (boruvkaInv_init g) (by simp)

/-! ## The two pairs of solvers that share their code -/

/-- C37 (Tarjan is Kruskal): for every graph `TarjanSolver::solveMST` gives
the result of `KruskalSolver::solveMST`, the same graph with the same lists in
the same order; and on every undirected graph, as the operations of `Graph`
build them, both return. -/
theorem C37_tarjan_is_kruskal (g : Graph) :
    TarjanSolver.solveMST g = KruskalSolver.solveMST g
    ∧ (g.Undirected → ∃ mst,
        TarjanSolver.solveMST g = some mst ∧ KruskalSolver.solveMST g = some mst) := by
  refine ⟨rfl, fun hg => ?_⟩
  obtain ⟨mst, h⟩ := kruskal_total hg
  exact ⟨mst, h, h⟩

/-- Witness of C37: the graph of the test of three vertices. -/
theorem C37_tarjan_is_kruskal_witness :
    test3.Undirected ∧ ∃ mst,
      TarjanSolver.solveMST test3 = some mst ∧ KruskalSolver.solveMST test3 = some mst :=
  ⟨by decide, (C37_tarjan_is_kruskal test3).2 (by decide)⟩

/-- C38 (IntegerMST is Prim): for every graph `IntegerMSTSolver::solveMST`
gives the result of `PrimSolver::solveMST`, the same graph with the same lists
in the same order; and on every undirected graph of at least one vertex, as
the operations of `Graph` build them, both return. -/
theorem C38_integer_is_prim (g : Graph) :
    IntegerMSTSolver.solveMST g = PrimSolver.solveMST g
    ∧ (g.Undirected → 1 ≤ g.adjList.length → ∃ mst,
        IntegerMSTSolver.solveMST g = some mst ∧ PrimSolver.solveMST g = some mst) := by
  refine ⟨rfl, fun hg hn => ?_⟩
  obtain ⟨mst, h⟩ := prim_total hg hn
  exact ⟨mst, h, h⟩

/-- Witness of C38: the graph of the test of three vertices. -/
theorem C38_integer_is_prim_witness :
    test3.Undirected ∧ 1 ≤ test3.adjList.length ∧ ∃ mst,
      IntegerMSTSolver.solveMST test3 = some mst ∧ PrimSolver.solveMST test3 = some mst :=
  ⟨by decide, by decide, (C38_integer_is_prim test3).2 (by decide) (by decide)⟩

namespace UnionFind

/-! ## The states of a `UnionFind` that calls can reach -/

theorem find_out_of_range {n : Nat} {uf : UnionFind} {f : Nat → Nat} (hinv : Inv n uf f)
    {u : Nat} (hu : ¬ u < n) : uf.find u = none := by
  have hnone : uf.parent[u]? = none :=
    List.getElem?_eq_none_iff.mpr (by rw [hinv.1]; omega)
  simp [find, findAux, hnone]

theorem inv_applyCall {n : Nat} {uf uf1 : UnionFind} {f : Nat → Nat} (hinv : Inv n uf f)
    (c : Call) (h : uf.applyCall c = some uf1) : ∃ f1, Inv n uf1 f1 := by
  cases c with
  | find u =>
    by_cases hu : u < n
    · obtain ⟨uf2, h1, h2, -⟩ := find_spec hinv hu
      simp only [applyCall, h1, Option.map_some', Option.some.injEq] at h
      exact ⟨f, h ▸ h2⟩
    · exfalso
      simp [applyCall, find_out_of_range hinv hu] at h
  | unionSets u v =>
    by_cases hu : u < n
    · by_cases hv : v < n
      · by_cases hfv : f u = f v
        · obtain ⟨uf2, h1, h2⟩ := unionSets_same hinv hu hv hfv
          simp only [applyCall, h1, Option.map_some', Option.some.injEq] at h
          exact ⟨f, h ▸ h2⟩
        · obtain ⟨uf2, f2, h1, h2, -⟩ := unionSets_join hinv hu hv hfv
          simp only [applyCall, h1, Option.map_some', Option.some.injEq] at h
          exact ⟨f2, h ▸ h2⟩
      · exfalso
        obtain ⟨uf2, h1, h2, -⟩ := find_spec hinv hu
        simp [applyCall, unionSets, h1, find_out_of_range h2 hv] at h
    · exfalso
      simp [applyCall, unionSets, find_out_of_range hinv hu] at h

theorem inv_runCallsFrom {n : Nat} : ∀ (calls : List Call) (uf uf1 : UnionFind) (f : Nat → Nat),
    Inv n uf f → runCallsFrom uf calls = some uf1 → ∃ f1, Inv n uf1 f1 := by
  intro calls
  induction calls with
  | nil =>
    intro uf uf1 f hinv h
    simp only [runCallsFrom, Option.some.injEq] at h
    exact ⟨f, h ▸ hinv⟩
  | cons c cs ih =>
    intro uf uf1 f hinv h
    unfold runCallsFrom at h
    cases hc : uf.applyCall c with
    | none => simp [hc] at h
    | some uf2 =>
      rw [hc] at h
      obtain ⟨f2, h2⟩ := inv_applyCall hinv c hc
      exact ih uf2 uf1 f2 h2 h

theorem inv_runCalls {n : Nat} {calls : List Call} {uf : UnionFind}
    (h : runCalls n calls = some uf) : ∃ f, Inv n uf f :=
  inv_runCallsFrom calls _ uf id (inv_new n) h

/-- Calls with their arguments in range always return. -/
theorem runCallsFrom_total {n : Nat} : ∀ (calls : List Call) (uf : UnionFind) (f : Nat → Nat),
    Inv n uf f →
    (∀ c ∈ calls, match c with
      | .find u => u < n
      | .unionSets u v => u < n ∧ v < n) →
    ∃ uf1, runCallsFrom uf calls = some uf1 := by
  intro calls
  induction calls with
  | nil => exact fun uf _ _ _ => ⟨uf, rfl⟩
  | cons c cs ih =>
    intro uf f hinv hr
    have hc := hr c (List.mem_cons_self _ _)
    have hcs := fun c hc => hr c (List.mem_cons_of_mem _ hc)
    unfold runCallsFrom
    cases c with
    | find u =>
      obtain ⟨uf2, h1, h2, -⟩ := find_spec hinv hc
      simp only [applyCall, h1, Option.map_some']
      exact ih uf2 f h2 hcs
    | unionSets u v =>
      by_cases hfv : f u = f v
      · obtain ⟨uf2, h1, h2⟩ := unionSets_same hinv hc.1 hc.2 hfv
        simp only [applyCall, h1, Option.map_some']
        exact ih uf2 f h2 hcs
      · obtain ⟨uf2, f2, h1, h2, -⟩ := unionSets_join hinv hc.1 hc.2 hfv
        simp only [applyCall, h1, Option.map_some']
        exact ih uf2 f2 h2 hcs

/-! ## What `find` changes -/

theorem findAux_parent : ∀ (fuel : Nat) (uf uf1 : UnionFind) (u r : Nat),
    findAux fuel uf u = some (r, uf1) →
    ∀ x : Nat, uf1.parent[x]? = uf.parent[x]? ∨ uf1.parent[x]? = some r := by
  intro fuel
  induction fuel with
  | zero =>
    intro uf uf1 u r h
    simp [findAux] at h
  | succ fuel ih =>
    intro uf uf1 u r h x
    unfold findAux at h
    cases hp : uf.parent[u]? with
    | none => simp [hp] at h
    | some p =>
      rw [hp] at h
      simp only at h
      by_cases hup : u ≠ p
      · rw [if_pos hup] at h
        cases hrec : findAux fuel uf p with
        | none => simp [hrec] at h
        | some res =>
          obtain ⟨r2, uf2⟩ := res
          rw [hrec] at h
          simp only [Option.some.injEq, Prod.mk.injEq] at h
          obtain ⟨hr, huf⟩ := h
          subst hr
          subst huf
          simp only
          by_cases hxu : u = x
          · subst hxu
            have hlen : u < uf2.parent.length := by
              rcases ih uf uf2 p r2 hrec u with h1 | h1
              · rw [hp] at h1
                exact (List.getElem?_eq_some_iff.mp h1).1
              · exact (List.getElem?_eq_some_iff.mp h1).1
            right
            rw [List.getElem?_set_self hlen]
          · rw [List.getElem?_set_ne hxu]
            exact ih uf uf2 p r2 hrec x
      · rw [if_neg hup] at h
        simp only [Option.some.injEq, Prod.mk.injEq] at h
        left
        rw [h.2]

/-- Under the invariant the parent links lead every vertex to its root. -/
theorem ancestor_root {n : Nat} {uf : UnionFind} {f : Nat → Nat} (hinv : Inv n uf f) :
    ∀ (d u : Nat), u < n → uf.rank.foldr max 0 < d + uf.rank.getD u 0 →
      ∃ k, uf.ancestor k u = f u := by
  intro d
  induction d with
  | zero =>
    intro u _ hd
    have := getD_le_foldr_max uf.rank u
    omega
  | succ d ih =>
    intro u hu hd
    obtain ⟨-, -, p, hp, hpn, hfp, hpu, hrk⟩ := hinv.2.2 u hu
    by_cases h : p = u
    · exact ⟨0, (hpu h).symm⟩
    · obtain ⟨k, hk⟩ := ih p hpn (by have := hrk h; omega)
      refine ⟨k + 1, ?_⟩
      have hget : uf.parent.getD u u = p := by
        rw [List.getD_eq_getElem?_getD, hp]
        rfl
      rw [ancestor, hget, hk, hfp]

end UnionFind

/-- C39 (`UnionFind::unionSets`): for every state `uf` that calls of `find` and
`unionSets` reach from `UnionFind(n)` and all `u`, `v` below `n`, with `f x`
the value of `find(x)` before the call and `f1 x` its value after the call:
`unionSets(u, v)` returns, and returns true if and only if `f u ≠ f v`;
afterwards `find(u) = find(v)`; and `find(x) = find(y)` holds afterwards
exactly when it held before or `x` and `y` lay one in the set of `u` and the
other in the set of `v`. -/
theorem C39_unionSets (n : Nat) (calls : List UnionFind.Call) (uf : UnionFind)
    (hreach : UnionFind.runCalls n calls = some uf) (u v : Nat) (hu : u < n) (hv : v < n) :
    ∃ (f f1 : Nat → Nat) (uf1 : UnionFind),
      (∀ x, x < n → (uf.find x).map Prod.fst = some (f x))
      ∧ uf.unionSets u v = some (decide (f u ≠ f v), uf1)
      ∧ (∀ x, x < n → (uf1.find x).map Prod.fst = some (f1 x))
      ∧ f1 u = f1 v
      ∧ ∀ x y, x < n → y < n →
          (f1 x = f1 y ↔ (f x = f y ∨ (f x = f u ∧ f y = f v) ∨ (f x = f v ∧ f y = f u))) := by
  obtain ⟨f, hinv⟩ := UnionFind.inv_runCalls hreach
  have hfind : ∀ {uf0 : UnionFind} {f0 : Nat → Nat}, UnionFind.Inv n uf0 f0 →
      ∀ x, x < n → (uf0.find x).map Prod.fst = some (f0 x) := by
    intro uf0 f0 h0 x hx
    obtain ⟨uf2, h1, -⟩ := UnionFind.find_spec h0 hx
    rw [h1]
    rfl
  by_cases hfv : f u = f v
  · obtain ⟨uf1, h1, h2⟩ := UnionFind.unionSets_same hinv hu hv hfv
    refine ⟨f, f, uf1, hfind hinv, ?_, hfind h2, hfv, fun x y _ _ => ?_⟩
    · rw [h1]
      simp [hfv]
    · constructor
      · exact fun h => Or.inl h
      · rintro (h | ⟨h3, h4⟩ | ⟨h3, h4⟩)
        · exact h
        · rw [h3, h4, hfv]
        · rw [h3, h4, hfv]
  · obtain ⟨uf1, f1, h1, h2, h3⟩ := UnionFind.unionSets_join hinv hu hv hfv
    refine ⟨f, f1, uf1, hfind hinv, ?_, hfind h2, ?_, fun x y _ _ => h3 x y⟩
    · rw [h1]
      simp [hfv]
    · exact (h3 u v).mpr (Or.inr (Or.inl ⟨rfl, rfl⟩))

/-- Witness of C39: four elements, 0 and 1 already joined; the call
`unionSets(1, 2)`. -/
theorem C39_unionSets_witness :
    UnionFind.runCalls 4 [.unionSets 0 1] = some ⟨[0, 0, 2, 3], [1, 0, 0, 0]⟩
    ∧ ∃ (f f1 : Nat → Nat) (uf1 : UnionFind),
      (∀ x, x < 4 → ((⟨[0, 0, 2, 3], [1, 0, 0, 0]⟩ : UnionFind).find x).map Prod.fst
          = some (f x))
      ∧ (⟨[0, 0, 2, 3], [1, 0, 0, 0]⟩ : UnionFind).unionSets 1 2
          = some (decide (f 1 ≠ f 2), uf1)
      ∧ (∀ x, x < 4 → (uf1.find x).map Prod.fst = some (f1 x))
      ∧ f1 1 = f1 2
      ∧ ∀ x y, x < 4 → y < 4 →
          (f1 x = f1 y ↔ (f x = f y ∨ (f x = f 1 ∧ f y = f 2) ∨ (f x = f 2 ∧ f y = f 1))) :=
  ⟨by decide, C39_unionSets 4 [.unionSets 0 1] _ (by decide) 1 2 (by decide) (by decide)⟩

/-- C40 (`UnionFind::find`): in every state `uf` that calls of `find` and
`unionSets` reach from `UnionFind(n)`, every element below `n` has a parent
below `n` of strictly larger rank unless it is its own parent; and for every
`u` below `n`, `find(u)` returns; the value `r` returned is its own parent and
is reached from `u` along the parent links; the call leaves the ranks alone
and changes parent entries only to `r`; and `find(x)` returns the same value
for every `x` below `n` before and after the call. -/
theorem C40_find (n : Nat) (calls : List UnionFind.Call) (uf : UnionFind)
    (hreach : UnionFind.runCalls n calls = some uf) (u : Nat) (hu : u < n) :
    (∀ x, x < n → ∃ p, uf.parent[x]? = some p ∧ p < n
        ∧ (p ≠ x → uf.rank.getD x 0 < uf.rank.getD p 0))
    ∧ ∃ (r : Nat) (uf1 : UnionFind), uf.find u = some (r, uf1)
      ∧ r < n ∧ uf.parent[r]? = some r ∧ (∃ k, uf.ancestor k u = r)
      ∧ uf1.rank = uf.rank ∧ uf1.parent.length = uf.parent.length
      ∧ (∀ x : Nat, uf1.parent[x]? = uf.parent[x]? ∨ uf1.parent[x]? = some r)
      ∧ ∀ x, x < n → ∃ rx, (uf.find x).map Prod.fst = some rx
          ∧ (uf1.find x).map Prod.fst = some rx := by
  obtain ⟨f, hinv⟩ := UnionFind.inv_runCalls hreach
  constructor
  · intro x hx
    obtain ⟨-, -, p, hp, hpn, -, -, hrk⟩ := hinv.2.2 x hx
    exact ⟨p, hp, hpn, hrk⟩
  · obtain ⟨uf1, h1, h2, h3⟩ := UnionFind.find_spec hinv hu
    obtain ⟨hfu, hroot, -⟩ := hinv.2.2 u hu
    refine ⟨f u, uf1, h1, hfu, hroot,
      UnionFind.ancestor_root hinv (uf.rank.foldr max 0 + 1) u hu (by omega), h3,
      by rw [h2.1, hinv.1], UnionFind.findAux_parent _ uf uf1 u (f u) h1, fun x hx => ?_⟩
    obtain ⟨uf2, h4, -⟩ := UnionFind.find_spec hinv hx
    obtain ⟨uf3, h5, -⟩ := UnionFind.find_spec h2 hx
    exact ⟨f x, by rw [h4]; rfl, by rw [h5]; rfl⟩

/-- Witness of C40: four elements joined into a tree of depth two; `find(3)`
climbs two links. -/
theorem C40_find_witness :
    UnionFind.runCalls 4 [.unionSets 0 1, .unionSets 2 3, .unionSets 1 3]
      = some ⟨[0, 0, 0, 2], [2, 0, 1, 0]⟩
    ∧ ∃ (r : Nat) (uf1 : UnionFind),
      (⟨[0, 0, 0, 2], [2, 0, 1, 0]⟩ : UnionFind).find 3 = some (r, uf1)
      ∧ r < 4 ∧ (⟨[0, 0, 0, 2], [2, 0, 1, 0]⟩ : UnionFind).parent[r]? = some r
      ∧ (∃ k, (⟨[0, 0, 0, 2], [2, 0, 1, 0]⟩ : UnionFind).ancestor k 3 = r)
      ∧ uf1.rank = [2, 0, 1, 0] ∧ uf1.parent.length = 4
      ∧ (∀ x : Nat, uf1.parent[x]? = ([0, 0, 0, 2] : List Nat)[x]? ∨ uf1.parent[x]? = some r)
      ∧ ∀ x, x < 4 → ∃ rx,
          ((⟨[0, 0, 0, 2], [2, 0, 1, 0]⟩ : UnionFind).find x).map Prod.fst = some rx
          ∧ (uf1.find x).map Prod.fst = some rx :=
  ⟨by decide,
    (C40_find 4 [.unionSets 0 1, .unionSets 2 3, .unionSets 1 3] _ (by decide) 3
      (by decide)).2⟩

namespace GraphObject

/-! ## `Solve` and the `mst` field -/

theorem solve_of_algo {o : GraphObject} {s : Graph → Option Graph} {t : Graph}
    (hn : 1 ≤ o.graph.adjList.length) (ha : algo o._algorithmChoice = some s)
    (ht : s o.graph = some t) :
    o.Solve = some { o with mst := some t }
    ∧ o.displayMST
        = some (indent ++ "---------------MST Representation----------------------\n"
            ++ displayBody t, { o with mst := some t }) := by
  have h1 : o.Solve = some { o with mst := some t } := by
    unfold Solve
    rw [if_neg (by simp only [Graph.getNumVertices]; omega), ha]
    simp only [ht]
  refine ⟨h1, ?_⟩
  unfold displayMST
  rw [h1]

theorem solve_served {n : Nat} (ops : List Graph.Op) {name : String} (hn : 1 ≤ n)
    (hname : name ∈ algorithmNames) :
    ∃ t, (served n ops name).Solve = some { served n ops name with mst := some t }
      ∧ (served n ops name).displayMST
        = some (indent ++ "---------------MST Representation----------------------\n"
            ++ displayBody t, { served n ops name with mst := some t }) := by
  have hg := Graph.undirected_runOps n ops
  have hlen : 1 ≤ (served n ops name).graph.adjList.length := by
    simp only [served, Graph.length_runOps]
    exact hn
  simp only [algorithmNames, List.mem_cons, List.mem_singleton, List.not_mem_nil,
    or_false] at hname
  rcases hname with h | h | h | h | h
  · subst h
    obtain ⟨t, ht⟩ := prim_total hg (by rw [Graph.length_runOps]; exact hn)
    exact ⟨t, solve_of_algo hlen (by simp [algo, served]) ht⟩
  · subst h
    obtain ⟨t, ht⟩ := kruskal_total hg
    exact ⟨t, solve_of_algo hlen (by simp [algo, served]) ht⟩
  · subst h
    obtain ⟨t, ht⟩ := boruvka_total hg
    exact ⟨t, solve_of_algo hlen (by simp [algo, served]) ht⟩
  · subst h
    obtain ⟨t, ht⟩ := kruskal_total hg
    exact ⟨t, solve_of_algo (s := TarjanSolver.solveMST) hlen
      (by simp [algo, served]) ht⟩
  · subst h
    obtain ⟨t, ht⟩ := prim_total hg (by rw [Graph.length_runOps]; exact hn)
    exact ⟨t, solve_of_algo (s := IntegerMSTSolver.solveMST) hlen
      (by simp [algo, served]) ht⟩

end GraphObject

/-- C35 (the `mst` field after `Solve`), as the code has it: on a graph of no
vertex, which `create 0` builds, `Solve()` returns at once for every algorithm
name and leaves `mst` null, and `displayMST()`, with which `Analysis()`
begins, reads through the null pointer; on every graph of at least one vertex
built by the edge commands, with any of the five algorithm names, `Solve()`
returns and leaves a graph in `mst`, which `displayMST()` then displays. -/
theorem C35_solve_mst :
    (∀ (ops : List Graph.Op) (name : String),
        (GraphObject.served 0 ops name).Solve = some (GraphObject.served 0 ops name)
        ∧ (GraphObject.served 0 ops name).mst = none
        ∧ (GraphObject.served 0 ops name).displayMST = none)
    ∧ (GraphObject.new 0).displayMST = none
    ∧ ∀ (n : Nat) (ops : List Graph.Op) (name : String), 1 ≤ n →
        name ∈ GraphObject.algorithmNames →
        ∃ t, (GraphObject.served n ops name).Solve
            = some { GraphObject.served n ops name with mst := some t }
          ∧ (GraphObject.served n ops name).displayMST
            = some (GraphObject.indent
                ++ "---------------MST Representation----------------------\n"
                ++ GraphObject.displayBody t,
              { GraphObject.served n ops name with mst := some t }) := by
  refine ⟨fun ops name => ?_, by decide, fun n ops name hn hname =>
    GraphObject.solve_served ops hn hname⟩
  have h1 : (GraphObject.served 0 ops name).Solve = some (GraphObject.served 0 ops name) := by
    unfold GraphObject.Solve
    rw [if_pos (by simp [GraphObject.served, Graph.getNumVertices, Graph.length_runOps])]
  refine ⟨h1, rfl, ?_⟩
  unfold GraphObject.displayMST
  rw [h1]
  rfl

/-! ## The path of `getTreeDepthPath_MST` -/

theorem expected5_isTree : expected5.IsTree := by
  have h1 : ((Graph.new 5).add_edge ((0 : Nat) : Int) ((1 : Nat) : Int) 2).IsGraphOf 5
      [(0, 1, 2)] :=
    Graph.isGraphOf_add_edge (u := 0) (v := 1) (Graph.isGraphOf_new 5) 2 (by decide)
      (by decide) (by rw [reach_nil]; decide)
  have h2 : (((Graph.new 5).add_edge ((0 : Nat) : Int) ((1 : Nat) : Int) 2).add_edge
      ((1 : Nat) : Int) ((2 : Nat) : Int) 3).IsGraphOf 5 [(1, 2, 3), (0, 1, 2)] :=
    Graph.isGraphOf_add_edge (u := 1) (v := 2) h1 3 (by decide) (by decide)
      (by simp only [reach_cons, reach_nil]; simp)
  have h3 : ((((Graph.new 5).add_edge ((0 : Nat) : Int) ((1 : Nat) : Int) 2).add_edge
      ((1 : Nat) : Int) ((2 : Nat) : Int) 3).add_edge ((0 : Nat) : Int) ((3 : Nat) : Int)
      6).IsGraphOf 5 [(0, 3, 6), (1, 2, 3), (0, 1, 2)] :=
    Graph.isGraphOf_add_edge (u := 0) (v := 3) h2 6 (by decide) (by decide)
      (by simp only [reach_cons, reach_nil]; simp)
  have h4 : expected5.IsGraphOf 5 [(1, 4, 5), (0, 3, 6), (1, 2, 3), (0, 1, 2)] :=
    Graph.isGraphOf_add_edge (u := 1) (v := 4) h3 5 (by decide) (by decide)
      (by simp only [reach_cons, reach_nil]; simp)
  apply isTree_of_root (A := [(1, 4, 5), (0, 3, 6), (1, 2, 3), (0, 1, 2)]) h4 (by decide)
  intro v hv
  have hv' : v < 5 := hv
  interval_cases v <;> simp only [reach_cons, reach_nil] <;> simp

/-- C33 (depth path from vertex 0): for every graph `t` that holds a tree, on
`n ≥ 1` vertices with `n` an `int`, `getTreeDepthPath_MST` returns a path that
starts at vertex 0, follows edges of the tree without repeating a vertex, and
ends at a vertex at the largest distance from vertex 0, counted in edges: no
simple path of the tree from vertex 0 to any vertex has more edges. -/
theorem C33_depth_from_zero (t : Graph) (ht : t.IsTree)
    (hn : (t.adjList.length : Int) ≤ INT_MAX) :
    1 ≤ t.adjList.length
    ∧ ∃ path, getTreeDepthPath_MST (some t) = some (showPath path)
      ∧ (∀ v ∈ path, 0 ≤ v ∧ v < (t.adjList.length : Int))
      ∧ (path.map Int.toNat).head? = some 0
      ∧ (∃ ws, t.IsPath (path.map Int.toNat) ws)
      ∧ (path.map Int.toNat).Nodup
      ∧ ∀ (v : Nat) (vs : List Nat) (ws : List Int), t.IsPath vs ws → vs.Nodup →
          vs.head? = some 0 → vs.getLast? = some v → vs.length - 1 ≤ path.length - 1 := by
  have h1 : 1 ≤ t.adjList.length := by
    obtain ⟨A, -, hlen, -⟩ := ht
    omega
  obtain ⟨path, -, h2, h3, h4, h5, ⟨ws, h6⟩, h7⟩ := treeDepthPath_spec t ht hn
  refine ⟨h1, path, h2, fun v hv => ⟨h3 v hv, ?_⟩, h4, ⟨ws, h6⟩, h5, ?_⟩
  · have hb := (Graph.isPath_bounds _ _ h6).2.1 v.toNat (List.mem_map_of_mem _ hv)
    have := h3 v hv
    omega
  · intro v vs ws1 hp hnd hhead _
    have := h7 vs ws1 hp hnd hhead
    omega

set_option maxRecDepth 100000 in
/-- Witness of C33: the tree 0-1, 1-2, 0-3, 1-4 of the test of five vertices,
for which the path is "0->1->2". -/
theorem C33_depth_from_zero_witness :
    getTreeDepthPath_MST (some expected5) = some "0->1->2"
    ∧ 1 ≤ expected5.adjList.length
    ∧ ∃ path, getTreeDepthPath_MST (some expected5) = some (showPath path)
      ∧ (∀ v ∈ path, 0 ≤ v ∧ v < (expected5.adjList.length : Int))
      ∧ (path.map Int.toNat).head? = some 0
      ∧ (∃ ws, expected5.IsPath (path.map Int.toNat) ws)
      ∧ (path.map Int.toNat).Nodup
      ∧ ∀ (v : Nat) (vs : List Nat) (ws : List Int), expected5.IsPath vs ws → vs.Nodup →
          vs.head? = some 0 → vs.getLast? = some v → vs.length - 1 ≤ path.length - 1 :=
  ⟨by decide, C33_depth_from_zero expected5 expected5_isTree (by decide)⟩

/-! ## Vertices between two vertices of a tree -/

theorem treeDist_triangle (len : Int → Int) (B : List Edge) (hw : ∀ e ∈ B, 0 ≤ len e.2.2)
    (x y k : Nat) : treeDist len B x y ≤ treeDist len B x k + treeDist len B k y := by
  have h0 := treeDist_self len B k
  have h1 := treeDist_comm len B y k
  rcases treeDist_four_point len B hw x y k k with h | h <;> omega

theorem leafOrder_no_loop {r : Nat} : ∀ B : List Edge, LeafOrder r B → ∀ e ∈ B, e.1 ≠ e.2.1 := by
  intro B
  induction B with
  | nil => intro _ e he; simp at he
  | cons a B ih =>
    intro h e he
    rcases List.mem_cons.mp he with rfl | he
    · intro heq
      exact h.2.1 (heq ▸ h.1)
    · exact ih h.2.2 e he

/-- Two different vertices of a tree are at least one edge apart. -/
theorem hop_pos {r : Nat} : ∀ B : List Edge, LeafOrder r B → ∀ x y : Nat,
    x ∈ treeVerts r B → y ∈ treeVerts r B → x ≠ y →
    1 ≤ treeDist (fun _ => 1) B x y := by
  intro B
  induction B with
  | nil =>
    intro _ x y hx hy hxy
    simp only [treeVerts, List.map_nil, List.mem_singleton] at hx hy
    exact absurd (hx.trans hy.symm) hxy
  | cons e B ih =>
    obtain ⟨p, c, w⟩ := e
    intro hB x y hx hy hxy
    have hn := treeDist_nonneg (fun _ => (1 : Int)) B (fun _ _ => Int.one_nonneg)
    rw [treeVerts_cons] at hx hy
    rw [treeDist_cons]
    by_cases hxc : x = c
    · have hyc : y ≠ c := fun h => hxy (hxc.trans h.symm)
      rw [if_pos hxc, if_neg hyc]
      have := hn p y
      omega
    · rw [if_neg hxc]
      by_cases hyc : y = c
      · rw [if_pos hyc]
        have := hn x p
        omega
      · rw [if_neg hyc]
        exact ih hB.2.2 x y (hx.resolve_left hxc) (hy.resolve_left hyc) hxy

/-- A vertex that lies between two vertices, counted in edges, splits the
distance between them, whatever the lengths of the edges. -/
theorem treeDist_between (len : Int → Int) {r : Nat} : ∀ B : List Edge, LeafOrder r B →
    ∀ x y k : Nat, x ∈ treeVerts r B → y ∈ treeVerts r B → k ∈ treeVerts r B →
    treeDist (fun _ => 1) B x y = treeDist (fun _ => 1) B x k + treeDist (fun _ => 1) B k y →
    treeDist len B x y = treeDist len B x k + treeDist len B k y := by
  intro B
  induction B with
  | nil => intro _ x y k _ _ _ _; simp [treeDist]
  | cons e B ih =>
    obtain ⟨p, c, w⟩ := e
    intro hB x y k hx hy hk
    have hn := treeDist_nonneg (fun _ => (1 : Int)) B (fun _ _ => Int.one_nonneg)
    have ht := treeDist_triangle (fun _ => (1 : Int)) B (fun _ _ => Int.one_nonneg)
    have hc1 := treeDist_comm (fun _ => (1 : Int)) B
    have hc2 := treeDist_comm len B
    have hs2 := treeDist_self len B
    have hp : p ∈ treeVerts r B := hB.1
    rw [treeVerts_cons] at hx hy hk
    simp only [treeDist_cons]
    by_cases hxc : x = c <;> by_cases hyc : y = c <;> by_cases hkc : k = c
    all_goals simp only [hxc, hyc, hkc, if_true, if_false]
    · intro _; omega
    · intro h
      have := hn p k
      have := hn k p
      omega
    · intro _; omega
    · intro h
      have := ih hB.2.2 p y k hp (hy.resolve_left hyc) (hk.resolve_left hkc) (by omega)
      omega
    · intro _; omega
    · intro h
      have := ih hB.2.2 x p k (hx.resolve_left hxc) hp (hk.resolve_left hkc) (by omega)
      omega
    · intro h
      have := ht x y p
      omega
    · exact ih hB.2.2 x y k (hx.resolve_left hxc) (hy.resolve_left hyc) (hk.resolve_left hkc)

/-- Two different vertices of a tree are joined by an edge, or a third vertex
lies between them. -/
theorem adjacent_or_between {r : Nat} : ∀ B : List Edge, LeafOrder r B → ∀ x y : Nat,
    x ∈ treeVerts r B → y ∈ treeVerts r B → x ≠ y →
    (∃ w, (x, y, w) ∈ B ∨ (y, x, w) ∈ B)
    ∨ ∃ v, v ∈ treeVerts r B ∧ v ≠ x ∧ v ≠ y
        ∧ treeDist (fun _ => 1) B x y
          = treeDist (fun _ => 1) B x v + treeDist (fun _ => 1) B v y := by
  intro B
  induction B with
  | nil =>
    intro _ x y hx hy hxy
    simp only [treeVerts, List.map_nil, List.mem_singleton] at hx hy
    exact absurd (hx.trans hy.symm) hxy
  | cons e B ih =>
    obtain ⟨p, c, w⟩ := e
    intro hB x y hx hy hxy
    have hp : p ∈ treeVerts r B := hB.1
    have hpc : p ≠ c := fun h => hB.2.1 (h ▸ hp)
    have hs := treeDist_self (fun _ => (1 : Int)) B p
    rw [treeVerts_cons] at hx hy
    by_cases hxc : x = c
    · have hyc : y ≠ c := fun h => hxy (hxc.trans h.symm)
      by_cases hyp : y = p
      · left
        exact ⟨w, Or.inr (by rw [hxc, hyp]; exact List.mem_cons_self _ _)⟩
      · right
        refine ⟨p, (treeVerts_cons r _ B p).mpr (Or.inr hp), by rw [hxc]; exact hpc,
          fun h => hyp h.symm, ?_⟩
        simp only [treeDist_cons, hxc, hyc, hpc, if_true, if_false]
        omega
    · by_cases hyc : y = c
      · by_cases hxp : x = p
        · left
          exact ⟨w, Or.inl (by rw [hyc, hxp]; exact List.mem_cons_self _ _)⟩
        · right
          refine ⟨p, (treeVerts_cons r _ B p).mpr (Or.inr hp), fun h => hxp h.symm,
            by rw [hyc]; exact hpc, ?_⟩
          simp only [treeDist_cons, hxc, hyc, hpc, if_true, if_false]
          omega
      · rcases ih hB.2.2 x y (hx.resolve_left hxc) (hy.resolve_left hyc) hxy with
          ⟨w1, h1⟩ | ⟨v, hv, hvx, hvy, h1⟩
        · left
          exact ⟨w1, h1.imp (List.mem_cons_of_mem _) (List.mem_cons_of_mem _)⟩
        · right
          have hvc : v ≠ c := fun h => hB.2.1 (h ▸ hv)
          refine ⟨v, (treeVerts_cons r _ B v).mpr (Or.inr hv), hvx, hvy, ?_⟩
          simp only [treeDist_cons, hxc, hyc, hvc, if_false]
          exact h1

/-- A vertex between `x` and `y` lies between `x` and `k` or between `k` and
`y`, whatever `k` is. -/
theorem between_split (B : List Edge) (x y k v : Nat)
    (h : treeDist (fun _ => 1) B x y
      = treeDist (fun _ => 1) B x v + treeDist (fun _ => 1) B v y) :
    treeDist (fun _ => 1) B x k = treeDist (fun _ => 1) B x v + treeDist (fun _ => 1) B v k
    ∨ treeDist (fun _ => 1) B k y
      = treeDist (fun _ => 1) B k v + treeDist (fun _ => 1) B v y := by
  have ht := treeDist_triangle (fun _ => (1 : Int)) B (fun _ _ => Int.one_nonneg)
  have hc := treeDist_comm (fun _ => (1 : Int)) B
  have h1 := ht x k v
  have h2 := ht k y v
  have c1 := hc y k
  have c2 := hc y v
  have c3 := hc k v
  rcases treeDist_four_point (fun _ => (1 : Int)) B (fun _ _ => Int.one_nonneg) x y v k with
    h4 | h4 <;> omega

/-- A vertex between `x` and `k`, where `k` lies between `x` and `y`, lies
between `x` and `y`. -/
theorem between_trans (B : List Edge) (x y k v : Nat)
    (hk : treeDist (fun _ => 1) B x y
      = treeDist (fun _ => 1) B x k + treeDist (fun _ => 1) B k y)
    (hv : treeDist (fun _ => 1) B x k
      = treeDist (fun _ => 1) B x v + treeDist (fun _ => 1) B v k) :
    treeDist (fun _ => 1) B x y
      = treeDist (fun _ => 1) B x v + treeDist (fun _ => 1) B v y := by
  have ht := treeDist_triangle (fun _ => (1 : Int)) B (fun _ _ => Int.one_nonneg)
  have h1 := ht x y v
  have h2 := ht v y k
  omega

/-! ## The matrix of `getAverageDistance_MST` -/

theorem square_replicate (n : Nat) (x : Int) :
    Square n (List.replicate n (List.replicate n x)) := by
  refine ⟨by simp, fun row hrow => ?_⟩
  rw [List.eq_of_mem_replicate hrow]
  simp

theorem square_store {n : Nat} {dist : List (List Int)} (h : Square n dist) (i j : Nat)
    (x : Int) : Square n (store dist i j x) := by
  refine ⟨by simp [store, h.1], fun row hrow => ?_⟩
  obtain ⟨a, ha⟩ := List.getElem?_of_mem hrow
  simp only [store, List.getElem?_modify] at ha
  cases hda : dist[a]? with
  | none => simp [hda] at ha
  | some row0 =>
    rw [hda] at ha
    simp only [Option.map_eq_map, Option.map_some', Option.some.injEq] at ha
    have h0 := h.2 row0 (List.getElem?_mem hda)
    by_cases hia : i = a
    · rw [if_pos hia] at ha
      rw [← ha, List.length_set, h0]
    · rw [if_neg hia] at ha
      rw [← ha, h0]

theorem entry_store {n : Nat} {dist : List (List Int)} (h : Square n dist) {i j : Nat}
    (hi : i < n) (hj : j < n) (x : Int) (a b : Nat) :
    entry (store dist i j x) a b = if a = i ∧ b = j then x else entry dist a b := by
  obtain ⟨row, hrow⟩ : ∃ row, dist[i]? = some row :=
    ⟨_, List.getElem?_eq_getElem (by rw [h.1]; exact hi)⟩
  have hlen := h.2 row (List.getElem?_mem hrow)
  have hrowD : dist.getD i [] = row := by
    rw [List.getD_eq_getElem?_getD, hrow]
    rfl
  have key : (store dist i j x).getD a [] = if a = i then row.set j x else dist.getD a [] := by
    unfold store
    rw [List.getD_eq_getElem?_getD, List.getElem?_modify, List.getD_eq_getElem?_getD]
    by_cases hai : a = i
    · subst hai
      rw [hrow, if_pos rfl]
      simp
    · rw [if_neg hai]
      cases hda : dist[a]? with
      | none => rfl
      | some row0 =>
        simp only [Option.map_eq_map, Option.map_some', Option.getD_some]
        rw [if_neg (fun h => hai h.symm)]
  unfold entry
  rw [key]
  by_cases hai : a = i
  · subst hai
    rw [if_pos rfl, hrowD]
    rw [List.getD_eq_getElem?_getD, List.getD_eq_getElem?_getD, List.getElem?_set]
    by_cases hbj : b = j
    · subst hbj
      rw [if_pos rfl, if_pos (by rw [hlen]; exact hj), if_pos ⟨rfl, rfl⟩]
      rfl
    · rw [if_neg (fun h => hbj h.symm), if_neg (fun h => hbj h.2)]
  · rw [if_neg hai, if_neg (fun h => hai h.1)]

/-- A loop over `0, …, n - 1` keeps what every step keeps. -/
theorem foldl_range_inv {α : Type} (f : α → Nat → α) (P : Nat → α → Prop) (n : Nat) (a : α)
    (h0 : P 0 a) (hstep : ∀ m x, m < n → P m x → P (m + 1) (f x m)) :
    P n ((List.range n).foldl f a) := by
  induction n with
  | zero => exact h0
  | succ n ih =>
    rw [List.range_succ, List.foldl_append, List.foldl_cons, List.foldl_nil]
    exact hstep n _ (Nat.lt_succ_self n)
      (ih fun m x hm hx => hstep m x (Nat.lt_succ_of_lt hm) hx)

/-! ## The loops of Floyd and Warshall on a tree -/

theorem FwInv.mono {n : Nat} {d h : Nat → Nat → Int} {K : Nat} {done done1 : Nat → Nat → Prop}
    {dist : List (List Int)} (hinv : FwInv n d h K done dist)
    (hd : ∀ a b, a < n → b < n → done1 a b → done a b) : FwInv n d h K done1 dist :=
  { square := hinv.square
    exact := hinv.exact
    found := hinv.found
    only := hinv.only
    finished := fun i j hi hj hdone => hinv.finished i j hi hj (hd i j hi hj hdone) }

/-- A vertex inside the first part of a way that passes through `K` is inside
the whole way. -/
theorem inside_left {n : Nat} {d h : Nat → Nat → Int} (hT : TreeMetric n d h) {i j K v : Nat}
    (hj : j < n) (hK : Inside h n K i j) (hv : Inside h n v i K) : Inside h n v i j := by
  obtain ⟨hKn, _, hKj, hb⟩ := hK
  obtain ⟨hvn, hvi, hvK, hbv⟩ := hv
  have t1 := hT.hop_triangle i j v
  have t2 := hT.hop_triangle v j K
  refine ⟨hvn, hvi, ?_, by omega⟩
  intro hvj
  subst hvj
  have := hT.hop_pos K v hKn hj hKj
  have := hT.hop_comm K v
  omega

theorem inside_right {n : Nat} {d h : Nat → Nat → Int} (hT : TreeMetric n d h) {i j K v : Nat}
    (hi : i < n) (hK : Inside h n K i j) (hv : Inside h n v K j) : Inside h n v i j := by
  obtain ⟨hKn, hKi, _, hb⟩ := hK
  obtain ⟨hvn, hvK, hvj, hbv⟩ := hv
  have t1 := hT.hop_triangle i j v
  have t2 := hT.hop_triangle i v K
  refine ⟨hvn, ?_, hvj, by omega⟩
  intro hvi
  subst hvi
  have := hT.hop_pos K v hKn hi hKi
  have := hT.hop_comm K v
  omega

/-- A vertex inside a way lies inside one of the two ways to `K`, or is `K`. -/
theorem inside_split {n : Nat} {d h : Nat → Nat → Int} (hT : TreeMetric n d h) {i j v : Nat}
    (K : Nat) (hv : Inside h n v i j) : v = K ∨ Inside h n v i K ∨ Inside h n v K j := by
  obtain ⟨hvn, hvi, hvj, hb⟩ := hv
  by_cases hvK : v = K
  · exact Or.inl hvK
  · right
    rcases hT.hop_split i j K v hb with h1 | h1
    · exact Or.inl ⟨hvn, hvi, hvK, h1⟩
    · exact Or.inr ⟨hvn, hvK, hvj, h1⟩

/-- One step of round `K`. -/
theorem fwInv_relax {n : Nat} {d h : Nat → Nat → Int} (hT : TreeMetric n d h) {K : Nat}
    {done : Nat → Nat → Prop} {dist : List (List Int)} (hinv : FwInv n d h K done dist)
    (hK : K < n) {i j : Nat} (hi : i < n) (hj : j < n) :
    FwInv n d h K (fun a b => done a b ∨ (a = i ∧ b = j)) (relax K i j dist) := by
  have hI : INT_MAX = 2147483647 := rfl
  unfold relax
  by_cases hc : entry dist i K < INT_MAX ∧ entry dist K j < INT_MAX
  · rw [if_pos hc]
    have eik : entry dist i K = d i K := by
      rcases hinv.exact i K hi hK with h1 | h1
      · have := hc.1
        omega
      · exact h1
    have ekj : entry dist K j = d K j := by
      rcases hinv.exact K j hK hj with h1 | h1
      · have := hc.2
        omega
      · exact h1
    have f1 := hT.fits i K hi hK
    have f2 := hT.fits K j hK hj
    have f3 := hT.fits i j hi hj
    have n1 := hT.nonneg i K
    have n2 := hT.nonneg K j
    have hsum : addInt (entry dist i K) (entry dist K j) = d i K + d K j := by
      rw [eik, ekj]
      exact addInt_eq _ _ (by omega) (by omega)
    have hnew : min (entry dist i j) (addInt (entry dist i K) (entry dist K j)) = d i j := by
      rw [hsum]
      rcases hinv.exact i j hi hj with h1 | h1
      · have hex : ∃ v, Inside h n v i j ∧ K ≤ v := by
          by_contra hcon
          have := hinv.found i j hi hj (fun v hv => by
            by_contra hvK
            exact hcon ⟨v, hv, by omega⟩)
          omega
        obtain ⟨v, hv, hKv⟩ := hex
        have hvK : v = K := by
          rcases inside_split hT K hv with h2 | h2 | h2
          · exact h2
          · have := hinv.only i K hi hK hc.1 v h2
            omega
          · have := hinv.only K j hK hj hc.2 v h2
            omega
        subst hvK
        have := hT.additive i j v hi hj hK hv.2.2.2
        rw [h1, min_eq_right (by omega)]
        omega
      · have := hT.triangle i j K
        rw [h1, min_eq_left this]
    rw [hnew]
    have hst := entry_store hinv.square hi hj (d i j)
    refine ⟨square_store hinv.square _ _ _, ?_, ?_, ?_, ?_⟩
    · intro a b ha hb
      rw [hst]
      by_cases hab : a = i ∧ b = j
      · rw [if_pos hab, hab.1, hab.2]
        exact Or.inr rfl
      · rw [if_neg hab]
        exact hinv.exact a b ha hb
    · intro a b ha hb hv
      rw [hst]
      by_cases hab : a = i ∧ b = j
      · rw [if_pos hab]
        omega
      · rw [if_neg hab]
        exact hinv.found a b ha hb hv
    · intro a b ha hb hfin v hv
      rw [hst] at hfin
      by_cases hab : a = i ∧ b = j
      · rw [hab.1, hab.2] at hv
        rcases inside_split hT K hv with h2 | h2 | h2
        · omega
        · exact hinv.only i K hi hK hc.1 v h2
        · exact hinv.only K j hK hj hc.2 v h2
      · rw [if_neg hab] at hfin
        exact hinv.only a b ha hb hfin v hv
    · intro a b ha hb hdone hv
      rw [hst]
      by_cases hab : a = i ∧ b = j
      · rw [if_pos hab]
        omega
      · rw [if_neg hab]
        exact hinv.finished a b ha hb (hdone.resolve_right hab) hv
  · rw [if_neg hc]
    refine ⟨hinv.square, hinv.exact, hinv.found, hinv.only, ?_⟩
    intro a b ha hb hdone hv
    rcases hdone with hdone | ⟨rfl, rfl⟩
    · exact hinv.finished a b ha hb hdone hv
    · by_cases hKin : Inside h n K a b
      · exfalso
        apply hc
        constructor
        · apply hinv.found a K ha hK
          intro v hvi
          have := hv v (inside_left hT hb hKin hvi)
          have := hvi.2.2.1
          omega
        · apply hinv.found K b hK hb
          intro v hvi
          have := hv v (inside_right hT ha hKin hvi)
          have := hvi.2.1
          omega
      · apply hinv.found a b ha hb
        intro v hvi
        have := hv v hvi
        have hne : v ≠ K := fun h => hKin (h ▸ hvi)
        omega

/-- The loop over `j` of round `K`, for the row `i`. -/
theorem fwInv_row {n : Nat} {d h : Nat → Nat → Int} (hT : TreeMetric n d h) {K : Nat}
    {done : Nat → Nat → Prop} {dist : List (List Int)} (hinv : FwInv n d h K done dist)
    (hK : K < n) {i : Nat} (hi : i < n) :
    FwInv n d h K (fun a b => done a b ∨ a = i)
      ((List.range n).foldl (fun d j => relax K i j d) dist) := by
  have key := foldl_range_inv (fun d j => relax K i j d)
    (fun m x => FwInv n d h K (fun a b => done a b ∨ (a = i ∧ b < m)) x) n dist
    (hinv.mono fun a b _ _ hd => by
      rcases hd with hd | ⟨_, hd⟩
      · exact hd
      · omega)
    (fun m x hm hx => (fwInv_relax hT hx hK hi hm).mono fun a b _ _ hd => by
      rcases hd with hd | ⟨h1, h2⟩
      · exact Or.inl (Or.inl hd)
      · by_cases hbm : b = m
        · exact Or.inr ⟨h1, hbm⟩
        · exact Or.inl (Or.inr ⟨h1, by omega⟩))
  exact key.mono fun a b _ hb hd => hd.imp id fun h1 => ⟨h1, hb⟩

/-- Round `K` of the loops. -/
theorem fwInv_round {n : Nat} {d h : Nat → Nat → Int} (hT : TreeMetric n d h) {K : Nat}
    {dist : List (List Int)} (hinv : FwInv n d h K (fun _ _ => False) dist) (hK : K < n) :
    FwInv n d h (K + 1) (fun _ _ => False)
      ((List.range n).foldl
        (fun d i => (List.range n).foldl (fun d j => relax K i j d) d) dist) := by
  have key := foldl_range_inv
    (fun d i => (List.range n).foldl (fun d j => relax K i j d) d)
    (fun m x => FwInv n d h K (fun a _ => a < m) x) n dist
    (hinv.mono fun a b _ _ hd => by omega)
    (fun m x hm hx => (fwInv_row hT hx hK hm).mono fun a b _ _ hd => by
      by_cases ham : a = m
      · exact Or.inr ham
      · exact Or.inl (by omega))
  refine ⟨key.square, key.exact, ?_, ?_, fun _ _ _ _ hd => hd.elim⟩
  · intro i j hi hj hv
    exact key.finished i j hi hj hi fun v hvi => by
      have := hv v hvi
      omega
  · intro i j hi hj hfin v hvi
    have := key.only i j hi hj hfin v hvi
    omega

/-- The three loops leave the distance of `i` and `j` in every element. -/
theorem floydWarshall_spec {n : Nat} {d h : Nat → Nat → Int} (hT : TreeMetric n d h)
    {dist : List (List Int)} (hinv : FwInv n d h 0 (fun _ _ => False) dist) :
    ∀ i j, i < n → j < n → entry (floydWarshall n dist) i j = d i j := by
  have key := foldl_range_inv
    (fun d k => (List.range n).foldl
      (fun d i => (List.range n).foldl (fun d j => relax k i j d) d) d)
    (fun m x => FwInv n d h m (fun _ _ => False) x) n dist hinv
    (fun m x hm hx => fwInv_round hT hx hm)
  intro i j hi hj
  have hfin := key.found i j hi hj fun v hv => hv.1
  rcases key.exact i j hi hj with h1 | h1
  · unfold floydWarshall
    omega
  · exact h1

/-! ## The first loop of `getAverageDistance_MST` -/

theorem entry_replicate {n : Nat} (x : Int) {a b : Nat} (ha : a < n) (hb : b < n) :
    entry (List.replicate n (List.replicate n x)) a b = x := by
  simp [entry, List.getD_eq_getElem?_getD, List.getElem?_replicate, ha, hb]

theorem initRow_spec {n i : Nat} (hi : i < n) : ∀ (l : List (Int × Int)) (dist : List (List Int)),
    Square n dist → (∀ e ∈ l, 0 ≤ e.1 ∧ e.1.toNat < n) →
    ∃ dist1, initRow i l dist = some dist1 ∧ Square n dist1
      ∧ (∀ a b, a ≠ i → entry dist1 a b = entry dist a b)
      ∧ ∀ b, ((∀ e ∈ l, e.1.toNat ≠ b) ∧ entry dist1 i b = entry dist i b)
          ∨ ∃ e ∈ l, e.1.toNat = b ∧ entry dist1 i b = e.2 := by
  intro l
  induction l with
  | nil =>
    intro dist hsq _
    exact ⟨dist, rfl, hsq, fun _ _ _ => rfl, fun b => Or.inl ⟨fun e he => by simp at he, rfl⟩⟩
  | cons e l ih =>
    intro dist hsq hval
    obtain ⟨h0, hv⟩ := hval e (List.mem_cons_self _ _)
    have hcond : 0 ≤ e.1 ∧ e.1 < (dist.length : Int) := by
      rw [hsq.1]
      omega
    obtain ⟨dist1, h1, h2, h3, h4⟩ := ih (store dist i e.1.toNat e.2)
      (square_store hsq _ _ _) (fun e' he' => hval e' (List.mem_cons_of_mem _ he'))
    have hst := entry_store hsq hi hv e.2
    refine ⟨dist1, ?_, h2, ?_, ?_⟩
    · unfold initRow
      rw [if_pos hcond]
      exact h1
    · intro a b ha
      rw [h3 a b ha, hst, if_neg (fun h => ha h.1)]
    · intro b
      rcases h4 b with ⟨h5, h6⟩ | ⟨e', he', h5, h6⟩
      · rw [hst] at h6
        by_cases hb : b = e.1.toNat
        · rw [if_pos ⟨rfl, hb⟩] at h6
          exact Or.inr ⟨e, List.mem_cons_self _ _, hb.symm, h6⟩
        · rw [if_neg (fun h => hb h.2)] at h6
          refine Or.inl ⟨fun e' he' => ?_, h6⟩
          rcases List.mem_cons.mp he' with rfl | he'
          · exact fun h => hb h.symm
          · exact h5 e' he'
      · exact Or.inr ⟨e', List.mem_cons_of_mem _ he', h5, h6⟩

theorem initRows_spec {n : Nat} (adj : List (List (Int × Int))) (hlen : adj.length = n)
    (hval : ∀ (a : Nat) (e : Int × Int), e ∈ adj.getD a [] → 0 ≤ e.1 ∧ e.1.toNat < n) :
    ∀ (ls : List (List (Int × Int))) (i : Nat) (dist : List (List Int)),
      adj.drop i = ls → Square n dist →
      ∃ dist1, initRows i ls dist = some dist1 ∧ Square n dist1
        ∧ (∀ a b, a < i → entry dist1 a b = entry dist a b)
        ∧ ∀ a b, i ≤ a → a < n → b < n →
            ((∀ e ∈ adj.getD a [], e.1.toNat ≠ b)
              ∧ entry dist1 a b = if a = b then 0 else entry dist a b)
            ∨ ∃ e ∈ adj.getD a [], e.1.toNat = b ∧ entry dist1 a b = e.2 := by
  intro ls
  induction ls with
  | nil =>
    intro i dist hdrop hsq
    have hni : n ≤ i := by
      rw [← hlen]
      exact List.drop_eq_nil_iff.mp hdrop
    exact ⟨dist, rfl, hsq, fun _ _ _ => rfl, fun a b h1 h2 _ => by omega⟩
  | cons l ls ih =>
    intro i dist hdrop hsq
    have hin : i < n := by
      by_contra hcon
      have : adj.drop i = [] := List.drop_eq_nil_iff.mpr (by omega)
      rw [this] at hdrop
      cases hdrop
    have hrow : adj.getD i [] = l := by
      have h1 := List.getElem?_drop adj i 0
      rw [hdrop] at h1
      rw [List.getD_eq_getElem?_getD, ← Nat.add_zero i, ← h1]
      simp
    have hnext : adj.drop (i + 1) = ls := by
      rw [← List.drop_drop, hdrop]
      rfl
    obtain ⟨dist1, h1, h2, h3, h4⟩ := initRow_spec hin l (store dist i i 0)
      (square_store hsq _ _ _) (fun e he => hval i e (hrow ▸ he))
    obtain ⟨dist2, k1, k2, k3, k4⟩ := ih (i + 1) dist1 hnext h2
    have hst := entry_store hsq hin hin 0
    refine ⟨dist2, ?_, k2, ?_, ?_⟩
    · unfold initRows
      rw [h1]
      exact k1
    · intro a b ha
      rw [k3 a b (by omega), h3 a b (by omega), hst, if_neg (fun h => by omega)]
    · intro a b hia han hbn
      by_cases hai : a = i
      · subst hai
        rw [k3 a b (by omega), hrow]
        rcases h4 b with ⟨h5, h6⟩ | h5
        · left
          refine ⟨h5, ?_⟩
          rw [h6, hst]
          by_cases hab : a = b
          · rw [if_pos ⟨rfl, hab.symm⟩, if_pos hab]
          · rw [if_neg (fun h => hab h.2.symm), if_neg hab]
        · exact Or.inr h5
      · rcases k4 a b (by omega) han hbn with ⟨h5, h6⟩ | h5
        · left
          refine ⟨h5, ?_⟩
          rw [h6, h3 a b hai, hst, if_neg (show ¬ (a = i ∧ b = i) from fun h => hai h.1)]
        · exact Or.inr h5

/-- The matrix after the first loop, for a tree. -/
theorem fwInv_init {t : Graph} {d h : Nat → Nat → Int}
    (hT : TreeMetric t.adjList.length d h)
    (hval : ∀ (a : Nat) (e : Int × Int), e ∈ t.adjList.getD a [] →
      0 ≤ e.1 ∧ e.1.toNat < t.adjList.length)
    (hd : ∀ a b w, t.HasEdge a b w → d a b = w)
    (hh : ∀ a b w, t.HasEdge a b w → h a b ≤ 1)
    (hadj : ∀ a b, a < t.adjList.length → b < t.adjList.length → a ≠ b →
      (∃ w, t.HasEdge a b w) ∨ ∃ v, Inside h t.adjList.length v a b) :
    ∃ dist, initRows 0 t.adjList
        (List.replicate t.adjList.length (List.replicate t.adjList.length INT_MAX)) = some dist
      ∧ FwInv t.adjList.length d h 0 (fun _ _ => False) dist := by
  have hI : INT_MAX = 2147483647 := rfl
  obtain ⟨dist, h1, h2, -, h4⟩ := initRows_spec t.adjList rfl hval t.adjList 0 _ rfl
    (square_replicate t.adjList.length INT_MAX)
  have hentry : ∀ a b, a < t.adjList.length → b < t.adjList.length →
      (a = b ∧ entry dist a b = 0)
      ∨ (a ≠ b ∧ (∀ w, ¬ t.HasEdge a b w) ∧ entry dist a b = INT_MAX)
      ∨ ∃ w, t.HasEdge a b w ∧ entry dist a b = w := by
    intro a b ha hb
    rcases h4 a b (Nat.zero_le _) ha hb with ⟨h5, h6⟩ | ⟨e, he, h5, h6⟩
    · rw [entry_replicate _ ha hb] at h6
      by_cases hab : a = b
      · rw [if_pos hab] at h6
        exact Or.inl ⟨hab, h6⟩
      · rw [if_neg hab] at h6
        refine Or.inr (Or.inl ⟨hab, fun w hw => ?_, h6⟩)
        refine h5 ((b : Int), w) hw ?_
        simp
    · refine Or.inr (Or.inr ⟨e.2, ?_, h6⟩)
      have h0 := (hval a e he).1
      unfold Graph.HasEdge
      rw [← h5, Int.toNat_of_nonneg h0]
      exact he
  have hnone : ∀ a b v, a < t.adjList.length → b < t.adjList.length → h a b ≤ 1 →
      ¬ Inside h t.adjList.length v a b := by
    intro a b v ha hb hab ⟨hv, hva, hvb, hbt⟩
    have := hT.hop_pos a v ha hv (fun h => hva h.symm)
    have := hT.hop_pos v b hv hb hvb
    omega
  have hself : ∀ a, a < t.adjList.length → h a a ≤ 1 := by
    intro a _
    rw [hT.hop_self]
    decide
  refine ⟨dist, h1, h2, ?_, ?_, ?_, fun _ _ _ _ hd => hd.elim⟩
  · intro a b ha hb
    rcases hentry a b ha hb with ⟨hab, h5⟩ | ⟨-, -, h5⟩ | ⟨w, hw, h5⟩
    · right
      rw [h5, hab, hT.self]
    · exact Or.inl h5
    · right
      rw [h5, hd a b w hw]
  · intro a b ha hb hv
    rcases hentry a b ha hb with ⟨hab, h5⟩ | ⟨hab, hno, -⟩ | ⟨w, hw, h5⟩
    · rw [h5, hI]
      decide
    · exfalso
      rcases hadj a b ha hb hab with ⟨w, hw⟩ | ⟨v, hvi⟩
      · exact hno w hw
      · have := hv v hvi
        omega
    · have := hT.fits a b ha hb
      rw [h5, ← hd a b w hw]
      omega
  · intro a b ha hb hfin v hvi
    exfalso
    rcases hentry a b ha hb with ⟨hab, -⟩ | ⟨-, -, h5⟩ | ⟨w, hw, -⟩
    · subst hab
      exact hnone a a v ha ha (hself a ha) hvi
    · omega
    · exact hnone a b v ha hb (hh a b w hw) hvi

/-! ## The loops that add the distances up -/

theorem addPair_fold (dist : List (List Int)) (i : Nat) (f : Nat → Int) :
    ∀ (L : List Nat) (acc : Int × Int),
      (∀ j ∈ L, entry dist i j = f j ∧ 0 ≤ f j ∧ f j < INT_MAX) →
      0 ≤ acc.1 → 0 ≤ acc.2 → acc.1 + (L.map f).sum ≤ INT_MAX →
      acc.2 + (L.length : Int) ≤ INT_MAX →
      L.foldl (addPair dist i) acc = (acc.1 + (L.map f).sum, acc.2 + (L.length : Int)) := by
  have hI : INT_MAX = 2147483647 := rfl
  intro L
  induction L with
  | nil =>
    intro acc _ _ _ _ _
    simp
  | cons j L ih =>
    intro acc hL h1 h2 h3 h4
    obtain ⟨e1, e2, e3⟩ := hL j (List.mem_cons_self _ _)
    have hrest : 0 ≤ (L.map f).sum :=
      List.sum_nonneg fun x hx => by
        obtain ⟨k, hk, rfl⟩ := List.mem_map.mp hx
        exact (hL k (List.mem_cons_of_mem _ hk)).2.1
    simp only [List.map_cons, List.sum_cons, List.length_cons, Nat.cast_add, Nat.cast_one]
      at h3 h4
    have hstep : addPair dist i acc j = (acc.1 + f j, acc.2 + 1) := by
      unfold addPair
      rw [if_pos (by rw [e1]; exact e3), e1, addInt_eq _ _ (by omega) (by omega),
        addInt_eq _ _ (by omega) (by omega)]
    rw [List.foldl_cons, hstep, ih _ (fun k hk => hL k (List.mem_cons_of_mem _ hk))
      (by simp only; omega) (by simp only; omega) (by simp only; omega) (by simp only; omega)]
    simp only [List.map_cons, List.sum_cons, List.length_cons, Nat.cast_add, Nat.cast_one]
    exact Prod.ext (by simp only; omega) (by simp only; omega)

theorem addPairs_fold (dist : List (List Int)) (J : Nat → List Nat) (pw : Nat → Nat → Int) :
    ∀ (I : List Nat) (acc : Int × Int),
      (∀ i ∈ I, ∀ j ∈ J i, entry dist i j = pw i j ∧ 0 ≤ pw i j ∧ pw i j < INT_MAX) →
      0 ≤ acc.1 → 0 ≤ acc.2 →
      acc.1 + (I.map fun i => ((J i).map (pw i)).sum).sum ≤ INT_MAX →
      acc.2 + ((I.map fun i => (J i).length).sum : Nat) ≤ INT_MAX →
      I.foldl (fun acc i => (J i).foldl (addPair dist i) acc) acc
        = (acc.1 + (I.map fun i => ((J i).map (pw i)).sum).sum,
            acc.2 + ((I.map fun i => (J i).length).sum : Nat)) := by
  intro I
  induction I with
  | nil =>
    intro acc _ _ _ _ _
    simp
  | cons i I ih =>
    intro acc hI h1 h2 h3 h4
    have hrow : 0 ≤ ((J i).map (pw i)).sum :=
      List.sum_nonneg fun x hx => by
        obtain ⟨k, hk, rfl⟩ := List.mem_map.mp hx
        exact (hI i (List.mem_cons_self _ _) k hk).2.1
    have hrest : 0 ≤ (I.map fun i => ((J i).map (pw i)).sum).sum :=
      List.sum_nonneg fun x hx => by
        obtain ⟨k, hk, rfl⟩ := List.mem_map.mp hx
        exact List.sum_nonneg fun y hy => by
          obtain ⟨m, hm, rfl⟩ := List.mem_map.mp hy
          exact (hI k (List.mem_cons_of_mem _ hk) m hm).2.1
    simp only [List.map_cons, List.sum_cons, Nat.cast_add] at h3 h4
    rw [List.foldl_cons, addPair_fold dist i (pw i) (J i) acc
      (hI i (List.mem_cons_self _ _)) h1 h2 (by omega) (by omega),
      ih _ (fun k hk => hI k (List.mem_cons_of_mem _ hk))
        (by simp only; omega) (by simp only; omega) (by simp only; omega)
        (by simp only; omega)]
    simp only [List.map_cons, List.sum_cons, Nat.cast_add]
    exact Prod.ext (by simp only; omega) (by simp only; omega)

/-- The number of pairs `i < j` below `n`. -/
theorem pairCount (n : Nat) :
    ((List.range n).map fun i => (List.range' (i + 1) (n - (i + 1))).length).sum
      = n * (n - 1) / 2 := by
  have key : ∀ n, 2 * ((List.range n).map fun i => n - (i + 1)).sum = n * (n - 1) := by
    intro n
    induction n with
    | zero => rfl
    | succ n ih =>
      rw [List.range_succ_eq_map, List.map_cons, List.sum_cons, List.map_map]
      have : ((fun i => n + 1 - (i + 1)) ∘ Nat.succ) = fun i => n - (i + 1) := by
        funext i
        simp only [Function.comp, Nat.succ_eq_add_one]
        omega
      rw [this, Nat.mul_add, ih]
      cases n with
      | zero => rfl
      | succ m =>
        simp only [Nat.add_sub_cancel, Nat.zero_add]
        ring
  simp only [List.length_range']
  have := key n
  omega

theorem pairTotals_spec {n : Nat} {dist : List (List Int)} (pw : Nat → Nat → Int)
    (hd : ∀ i j, i < j → j < n → entry dist i j = pw i j ∧ 0 ≤ pw i j ∧ pw i j < INT_MAX)
    (hsum : pairSum n pw ≤ INT_MAX) (hcount : ((n * (n - 1) / 2 : Nat) : Int) ≤ INT_MAX) :
    pairTotals n dist = (pairSum n pw, ((n * (n - 1) / 2 : Nat) : Int)) := by
  unfold pairTotals
  rw [addPairs_fold dist (fun i => List.range' (i + 1) (n - (i + 1))) pw (List.range n) (0, 0)
    (fun i _ j hj => by
      rw [List.mem_range'_1] at hj
      exact hd i j (by omega) (by omega))
    (le_refl _) (le_refl _)
    (by simp only [Int.zero_add]; exact hsum)
    (by rw [pairCount]; simp only [Int.zero_add]; exact hcount)]
  rw [pairCount]
  simp only [Int.zero_add]
  rfl

/-! ## `getAverageDistance_MST` on a tree -/

/-- What `getAverageDistance_MST` adds up on a tree with non-negative weights
in which twice the weight of a simple path fits an `int`: the weights of the
ways between the pairs of vertices, and the number of pairs. -/
theorem averageTotals_spec (t : Graph) (ht : t.IsTree)
    (hw : ∀ l ∈ t.adjList, ∀ e ∈ l, 0 ≤ e.2)
    (hfit : ∀ vs ws, t.IsPath vs ws → vs.Nodup → 2 * ws.sum ≤ INT_MAX)
    (pw : Nat → Nat → Int)
    (hpw : ∀ i j, i < j → j < t.adjList.length → ∃ vs ws, t.IsPath vs ws ∧ vs.Nodup
      ∧ vs.head? = some i ∧ vs.getLast? = some j ∧ ws.sum = pw i j)
    (hsum : pairSum t.adjList.length pw ≤ INT_MAX)
    (hcount : ((t.adjList.length * (t.adjList.length - 1) / 2 : Nat) : Int) ≤ INT_MAX) :
    averageTotals t
      = some (pairSum t.adjList.length pw,
          ((t.adjList.length * (t.adjList.length - 1) / 2 : Nat) : Int)) := by
  have hI : INT_MAX = 2147483647 := rfl
  have hT := ht.facts
  have hn : 0 < t.adjList.length := by
    obtain ⟨A, _, hlen, _⟩ := ht
    omega
  have hfit1 : ∀ vs ws, t.IsPath vs ws → vs.Nodup →
      (ws.map fun weight : Int => weight).sum ≤ 2147483647 := by
    intro vs ws h hnd
    rw [List.map_id']
    have := hfit vs ws h hnd
    omega
  obtain ⟨st, B, -, inv, all, -⟩ := farthestFrom_spec hT (fun weight => weight) hw hfit1 0 hn
  have hedge : ∀ e ∈ B, t.HasEdge e.1 e.2.1 e.2.2 := inv.edge
  have hcov := hT.covers 0 B inv.order all hedge
  have hweight : ∀ (len : Int → Int) (vs : List Nat) (ws : List Int) (x y : Nat),
      t.IsPath vs ws → vs.Nodup → vs.head? = some x → vs.getLast? = some y →
      (ws.map len).sum = treeDist len B x y :=
    fun len vs ws x y h hnd hx hy =>
      pathE_weight len 0 B inv.order vs ws x y (pathE_of_isPath hcov vs ws h) hnd hx hy
  have hB : ∀ e ∈ B, 0 ≤ (fun weight : Int => weight) e.2.2 := by
    intro e he
    obtain ⟨l, hl, hm⟩ := mem_adjList_of_mem_getD (inv.edge e he)
    exact hw l hl _ hm
  have hedgePath : ∀ a b w, t.HasEdge a b w →
      t.IsPath [a, b] [w] ∧ [a, b].Nodup := by
    intro a b w hab
    have hne : a ≠ b := by
      rcases hcov a b w hab with h1 | h1
      · exact leafOrder_no_loop B inv.order _ h1
      · exact fun h => leafOrder_no_loop B inv.order _ h1 h.symm
    have hb : b < t.adjList.length := Graph.hasEdge_lt (hT.symm a b w hab)
    refine ⟨?_, by simp [hne]⟩
    rw [Graph.isPath_cons_iff, Graph.isPath_single_iff]
    exact ⟨hab, hb⟩
  have hd : ∀ a b w, t.HasEdge a b w → treeDist (fun weight => weight) B a b = w := by
    intro a b w hab
    obtain ⟨h1, h2⟩ := hedgePath a b w hab
    rw [← hweight (fun weight => weight) [a, b] [w] a b h1 h2 rfl rfl]
    simp
  have hh : ∀ a b w, t.HasEdge a b w → treeDist (fun _ => 1) B a b ≤ 1 := by
    intro a b w hab
    obtain ⟨h1, h2⟩ := hedgePath a b w hab
    rw [← hweight (fun _ => 1) [a, b] [w] a b h1 h2 rfl rfl]
    simp
  have hmetric : TreeMetric t.adjList.length (treeDist (fun weight => weight) B)
      (treeDist (fun _ => 1) B) :=
    { nonneg := treeDist_nonneg _ B hB
      fits := by
        intro x y hx hy
        obtain ⟨stx, Bx, -, invx, allx, -⟩ :=
          farthestFrom_spec hT (fun weight => weight) hw hfit1 x hx
        obtain ⟨c1, c2, c3, -, -⟩ := chain_isPath hT (fun weight => weight) invx (allx y hy)
        have h1 := hweight (fun weight => weight) _ _ x y c1 c2 c3 (by simp)
        rw [List.map_id'] at h1
        rw [← h1]
        exact hfit _ _ c1 c2
      self := treeDist_self _ B
      triangle := treeDist_triangle _ B hB
      additive := fun x y k hx hy hk =>
        treeDist_between _ B inv.order x y k (all x hx) (all y hy) (all k hk)
      hop_self := treeDist_self _ B
      hop_comm := treeDist_comm _ B
      hop_pos := fun x y hx hy => hop_pos B inv.order x y (all x hx) (all y hy)
      hop_triangle := treeDist_triangle _ B (fun _ _ => Int.one_nonneg)
      hop_split := fun x y k v => between_split B x y k v }
  have hadj : ∀ a b, a < t.adjList.length → b < t.adjList.length → a ≠ b →
      (∃ w, t.HasEdge a b w) ∨ ∃ v, Inside (treeDist (fun _ => 1) B) t.adjList.length v a b := by
    intro a b ha hb hab
    rcases adjacent_or_between B inv.order a b (all a ha) (all b hb) hab with
      ⟨w, h1 | h1⟩ | ⟨v, hv, hva, hvb, h1⟩
    · exact Or.inl ⟨w, hedge _ h1⟩
    · exact Or.inl ⟨w, hT.symm _ _ _ (hedge _ h1)⟩
    · exact Or.inr ⟨v, inv.bound v hv, hva, hvb, h1⟩
  obtain ⟨dist, hinit, hinv0⟩ := fwInv_init hmetric hT.names hd hh hadj
  have hfw := floydWarshall_spec hmetric hinv0
  unfold averageTotals
  rw [hinit]
  simp only
  rw [pairTotals_spec pw (fun i j hij hj => ?_) hsum hcount]
  obtain ⟨vs, ws, p1, p2, p3, p4, p5⟩ := hpw i j hij hj
  have h1 := hweight (fun weight => weight) vs ws i j p1 p2 p3 p4
  rw [List.map_id'] at h1
  have hi : i < t.adjList.length := by omega
  have f1 := hmetric.fits i j hi hj
  have f2 := hmetric.nonneg i j
  rw [hfw i j hi hj, ← p5, h1]
  exact ⟨rfl, f2, by omega⟩

/-! ## The quotient of two `double`s -/

/-- The integers of the rounding: with `T = m * D + rho`, `0 ≤ rho < D`, the
choice between `m` and `m + 1` made by comparing `2 * rho` with `D` is at
least as near to `T / D` as every integer. -/
theorem round_nearest (T D m rho N z : Int) (hD : 0 < D) (hT : T = m * D + rho)
    (hN : (N = m ∧ 2 * rho ≤ D) ∨ (N = m + 1 ∧ D ≤ 2 * rho)) (h0 : 0 ≤ rho) (h1 : rho < D) :
    |N * D - T| ≤ |z * D - T| := by
  have key : 2 * |N * D - T| ≤ D := by
    rcases hN with ⟨rfl, h⟩ | ⟨rfl, h⟩
    · have e : N * D - T = -rho := by rw [hT]; ring
      rw [e, abs_neg, abs_of_nonneg h0]
      exact h
    · have e : (m + 1) * D - T = D - rho := by rw [hT]; ring
      rw [e, abs_of_nonneg (by omega)]
      omega
  by_cases hz : z = N
  · rw [hz]
  · have h2 : D ≤ |z * D - N * D| := by
      rw [← sub_mul, abs_mul, abs_of_pos hD]
      have : 1 ≤ |z - N| := Int.one_le_abs (sub_ne_zero.mpr hz)
      nlinarith
    have h3 : |z * D - N * D| ≤ |z * D - T| + |N * D - T| := by
      have := abs_sub_le (z * D) T (N * D)
      rwa [abs_sub_comm T (N * D)] at this
    omega

/-- No number with at most 53 significant binary digits is nearer to `T / D`
than the rounded `N`, where `D = b * 2 ^ s` and `2 ^ 52 ≤ m`. -/
theorem round_compete (T D m rho N b : Int) (s : Nat) (hb : 0 < b) (hD : D = b * 2 ^ s)
    (hT : T = m * D + rho)
    (hN : (N = m ∧ 2 * rho ≤ D) ∨ (N = m + 1 ∧ D ≤ 2 * rho)) (h0 : 0 ≤ rho) (h1 : rho < D)
    (hm : 2 ^ 52 ≤ m) (M : Int) (hM : M ≤ 2 ^ 53) (E F : Nat) :
    |N * D - T| * 2 ^ F ≤ |M * 2 ^ (E + 84) * b - T * 2 ^ F| := by
  have hDpos : 0 < D := by
    rw [hD]
    positivity
  have hF : (0 : Int) < 2 ^ F := by positivity
  by_cases hc : F + s ≤ E + 84
  · obtain ⟨g, hg⟩ : ∃ g, E + 84 = g + s + F := ⟨E + 84 - (F + s), by omega⟩
    have e : M * 2 ^ (E + 84) * b - T * 2 ^ F = (M * 2 ^ g * D - T) * 2 ^ F := by
      rw [hg, hD, pow_add, pow_add]
      ring
    rw [e, abs_mul, abs_of_pos hF]
    exact mul_le_mul_of_nonneg_right (round_nearest T D m rho N (M * 2 ^ g) hDpos hT hN h0 h1)
      hF.le
  · obtain ⟨g, hg⟩ : ∃ g, F + s = E + 84 + (g + 1) := ⟨F + s - (E + 84) - 1, by omega⟩
    have hg2 : (0 : Int) < 2 ^ (g + 1) := by positivity
    have hpow : (2 : Int) ^ s * 2 ^ F = 2 ^ (E + 84) * 2 ^ (g + 1) := by
      rw [← pow_add, ← pow_add, Nat.add_comm s F, hg]
    have hP : M * 2 ^ (E + 84) * b * 2 ^ (g + 1) = M * (D * 2 ^ F) := by
      rw [hD]
      calc M * 2 ^ (E + 84) * b * 2 ^ (g + 1) = M * b * (2 ^ (E + 84) * 2 ^ (g + 1)) := by ring
        _ = M * b * (2 ^ s * 2 ^ F) := by rw [hpow]
        _ = M * (b * 2 ^ s * 2 ^ F) := by ring
    have hDF : (0 : Int) < D * 2 ^ F := by positivity
    have h2g : (2 : Int) ^ 53 ≤ 2 ^ 52 * 2 ^ (g + 1) := by
      have : (2 : Int) ≤ 2 ^ (g + 1) := by
        rw [pow_succ]
        have : (1 : Int) ≤ 2 ^ g := one_le_pow₀ (by norm_num)
        omega
      nlinarith
    have hle : M * 2 ^ (E + 84) * b ≤ 2 ^ 52 * (D * 2 ^ F) := by
      by_contra hcon
      have hcon : 2 ^ 52 * (D * 2 ^ F) < M * 2 ^ (E + 84) * b := lt_of_not_le hcon
      have h3 : 2 ^ 52 * (D * 2 ^ F) * 2 ^ (g + 1) < M * 2 ^ (E + 84) * b * 2 ^ (g + 1) :=
        mul_lt_mul_of_pos_right hcon hg2
      rw [hP] at h3
      have h4 : M * (D * 2 ^ F) ≤ 2 ^ 53 * (D * 2 ^ F) :=
        mul_le_mul_of_nonneg_right hM hDF.le
      have h5 : (2 : Int) ^ 53 * (D * 2 ^ F) ≤ 2 ^ 52 * 2 ^ (g + 1) * (D * 2 ^ F) :=
        mul_le_mul_of_nonneg_right h2g hDF.le
      have h6 : (2 : Int) ^ 52 * 2 ^ (g + 1) * (D * 2 ^ F)
          = 2 ^ 52 * (D * 2 ^ F) * 2 ^ (g + 1) := by ring
      omega
    have hz := round_nearest T D m rho N (2 ^ 52) hDpos hT hN h0 h1
    have hTge : 2 ^ 52 * D ≤ T := by
      rw [hT]
      nlinarith
    have e1 : |(2 : Int) ^ 52 * D - T| = T - 2 ^ 52 * D := by
      rw [abs_sub_comm]
      exact abs_of_nonneg (by omega)
    rw [e1] at hz
    have h7 : |N * D - T| * 2 ^ F ≤ (T - 2 ^ 52 * D) * 2 ^ F :=
      mul_le_mul_of_nonneg_right hz hF.le
    have h8 : (T - 2 ^ 52 * D) * 2 ^ F = T * 2 ^ F - 2 ^ 52 * (D * 2 ^ F) := by ring
    have h10 : 2 ^ 52 * (D * 2 ^ F) ≤ T * 2 ^ F := by
      rw [← mul_assoc]
      exact mul_le_mul_of_nonneg_right hTge hF.le
    have h9 : M * 2 ^ (E + 84) * b - T * 2 ^ F ≤ 0 := by omega
    rw [abs_of_nonpos h9]
    omega

/-- The parts of the rounded quotient of `a ≠ 0` by `b > 0`, two `int`s. -/
theorem divDoubleParts_spec (a b : Int) (ha : a ≠ 0) (ha2 : a.natAbs ≤ 2 ^ 31) (hb : 0 < b)
    (hb2 : b.natAbs ≤ 2 ^ 31) :
    ∃ (m rho N s : Nat), divDoubleParts a b = (a.sign * (N : Int), s)
      ∧ a.natAbs * 2 ^ 84 = m * (b.natAbs * 2 ^ s) + rho ∧ rho < b.natAbs * 2 ^ s
      ∧ ((N = m ∧ 2 * rho ≤ b.natAbs * 2 ^ s) ∨ (N = m + 1 ∧ b.natAbs * 2 ^ s ≤ 2 * rho))
      ∧ 2 ^ 52 ≤ m ∧ m < 2 ^ 53 := by
  have hA : 1 ≤ a.natAbs := Int.natAbs_pos.mpr ha
  have hbn : 1 ≤ b.natAbs := Int.natAbs_pos.mpr hb.ne'
  generalize hAdef : a.natAbs = A at ha2 hA ⊢
  generalize hbdef : b.natAbs = bn at hb2 hbn ⊢
  have hqr : bn * (A * 2 ^ 84 / bn) + A * 2 ^ 84 % bn = A * 2 ^ 84 := Nat.div_add_mod _ _
  have hr : A * 2 ^ 84 % bn < bn := Nat.mod_lt _ hbn
  have hq53 : 2 ^ 53 ≤ A * 2 ^ 84 / bn := by
    rw [Nat.le_div_iff_mul_le hbn]
    calc 2 ^ 53 * bn ≤ 2 ^ 53 * 2 ^ 31 := Nat.mul_le_mul_left _ hb2
      _ = 1 * 2 ^ 84 := by norm_num
      _ ≤ A * 2 ^ 84 := Nat.mul_le_mul_right _ hA
  have hq128 : A * 2 ^ 84 / bn < 2 ^ 128 := by
    have h1 : A * 2 ^ 84 / bn ≤ A * 2 ^ 84 := Nat.div_le_self _ _
    have h2 : A * 2 ^ 84 ≤ 2 ^ 31 * 2 ^ 84 := Nat.mul_le_mul_right _ ha2
    have h3 : (2 : Nat) ^ 31 * 2 ^ 84 < 2 ^ 128 := by norm_num
    omega
  obtain ⟨hL1, hL2⟩ := bitLength_spec 128 _ hq128
  have hL2 := hL2 (by omega)
  have hL54 : 54 ≤ bitLength 128 (A * 2 ^ 84 / bn) := by
    by_contra hcon
    have h1 : (2 : Nat) ^ bitLength 128 (A * 2 ^ 84 / bn) ≤ 2 ^ 53 :=
      Nat.pow_le_pow_right (by norm_num) (by omega)
    omega
  obtain ⟨s, hs⟩ : ∃ s, bitLength 128 (A * 2 ^ 84 / bn) = s + 1 + 53 :=
    ⟨bitLength 128 (A * 2 ^ 84 / bn) - 54, by omega⟩
  have hs53 : bitLength 128 (A * 2 ^ 84 / bn) - 53 = s + 1 := by omega
  have hpowL : 2 ^ bitLength 128 (A * 2 ^ 84 / bn) = 2 * 2 ^ s * 2 ^ 53 := by
    rw [hs, pow_add, pow_succ]
    ring
  have hp : 2 ^ (s + 1) = 2 * 2 ^ s := by
    rw [pow_succ]
    ring
  have hpos : 0 < 2 ^ s := Nat.pow_pos (by norm_num)
  have hdm : 2 ^ (s + 1) * (A * 2 ^ 84 / bn / 2 ^ (s + 1)) + A * 2 ^ 84 / bn % 2 ^ (s + 1)
      = A * 2 ^ 84 / bn := Nat.div_add_mod _ _
  have hlow : A * 2 ^ 84 / bn % 2 ^ (s + 1) < 2 ^ (s + 1) := Nat.mod_lt _ (by rw [hp]; omega)
  generalize hq : A * 2 ^ 84 / bn = q at *
  generalize hrr : A * 2 ^ 84 % bn = r at *
  generalize hmm : q / 2 ^ (s + 1) = mm at *
  generalize hll : q % 2 ^ (s + 1) = low at *
  generalize hhalf : 2 ^ s = half at *
  rw [hp] at hdm hlow
  have hm1 : mm < 2 ^ 53 := by
    by_contra hcon
    have : 2 * half * 2 ^ 53 ≤ 2 * half * mm := Nat.mul_le_mul_left _ (by omega)
    omega
  have hm2 : 2 ^ 52 ≤ mm := by
    by_contra hcon
    have : 2 * half * (mm + 1) ≤ 2 * half * 2 ^ 52 := Nat.mul_le_mul_left _ (by omega)
    have e : 2 * half * (mm + 1) = 2 * half * mm + 2 * half := by ring
    have e2 : 2 * half * 2 ^ 53 = 2 * (2 * half * 2 ^ 52) := by ring
    omega
  have hX : bn * (low + 1) ≤ bn * (2 * half) := Nat.mul_le_mul_left _ (by omega)
  have hX1 : bn * (low + 1) = bn * low + bn := by ring
  refine ⟨mm, bn * low + r,
    (if (decide (2 ^ (s + 1 - 1) < low) || (decide (low = 2 ^ (s + 1 - 1))
        && (decide (r ≠ 0) || decide (mm % 2 = 1)))) = true then mm + 1 else mm), s + 1,
    ?_, ?_, ?_, ?_, hm2, hm1⟩
  · unfold divDoubleParts
    simp only [hAdef, hbdef, hq, hrr, hs53, hmm, hll]
  · rw [hp, ← hqr, ← hdm]
    ring
  · rw [hp]
    omega
  · rw [hp, Nat.add_sub_cancel, hhalf]
    have hY : bn * (2 * half) = 2 * (bn * half) := by ring
    by_cases hup : (decide (half < low) || (decide (low = half)
        && (decide (r ≠ 0) || decide (mm % 2 = 1)))) = true
    · rw [if_pos hup]
      right
      refine ⟨rfl, ?_⟩
      simp only [Bool.or_eq_true, Bool.and_eq_true, decide_eq_true_eq] at hup
      rcases hup with h1 | ⟨h1, -⟩
      · have : bn * (half + 1) ≤ bn * low := Nat.mul_le_mul_left _ (by omega)
        have e : bn * (half + 1) = bn * half + bn := by ring
        omega
      · rw [h1]
        omega
    · rw [if_neg hup]
      left
      refine ⟨rfl, ?_⟩
      simp only [Bool.or_eq_true, Bool.and_eq_true, decide_eq_true_eq, not_or, not_and,
        not_lt] at hup
      obtain ⟨h1, h2⟩ := hup
      by_cases h3 : low = half
      · have := (h2 h3).1
        rw [h3]
        simp only [ne_eq, not_not] at this
        omega
      · have : bn * (low + 1) ≤ bn * half := Nat.mul_le_mul_left _ (by omega)
        omega

/-- The quotient of the model is a number with at most 53 significant binary
digits nearest to the quotient of the two `int`s. -/
theorem divDouble_nearest (a b : Int) (ha2 : a.natAbs ≤ 2 ^ 31) (hb : 0 < b)
    (hb2 : b.natAbs ≤ 2 ^ 31) : NearestDouble ((a : ℚ) / b) (divDouble a b) := by
  by_cases ha : a = 0
  · subst ha
    have h0 : divDouble 0 b = 0 := by
      simp [divDouble, divDoubleParts]
    rw [h0]
    refine ⟨⟨0, 0, 0, by simp, by simp⟩, fun M E F _ => ?_⟩
    simp
  · obtain ⟨m, rho, N, s, hparts, hT, hrho, hN, hm2, hm1⟩ :=
      divDoubleParts_spec a b ha ha2 hb hb2
    have hbcast : ((b.natAbs : Nat) : Int) = b := Int.natAbs_of_nonneg hb.le
    have hsig : a.sign * (a.natAbs : Int) = a := Int.sign_mul_natAbs a
    generalize a.natAbs = A at hT hsig
    have hsig2 : a.sign * a.sign = 1 := by
      rcases lt_or_gt_of_ne ha with h | h
      · rw [Int.sign_eq_neg_one_of_neg h]
        rfl
      · rw [Int.sign_eq_one_of_pos h]
        rfl
    have hsabs : |a.sign| = 1 := by
      rcases lt_or_gt_of_ne ha with h | h
      · rw [Int.sign_eq_neg_one_of_neg h]
        rfl
      · rw [Int.sign_eq_one_of_pos h]
        rfl
    have hNle : N ≤ 2 ^ 53 := by
      rcases hN with ⟨h, -⟩ | ⟨h, -⟩ <;> omega
    have hr : divDouble a b = ((a.sign * (N : Int) : Int) : ℚ) * 2 ^ s / 2 ^ 84 := by
      unfold divDouble
      rw [hparts]
    refine ⟨⟨a.sign * (N : Int), s, 84, ?_, hr⟩, fun M E F hM => ?_⟩
    · rw [Int.natAbs_mul, Int.natAbs_ofNat]
      have : a.sign.natAbs = 1 := by
        have := congrArg Int.natAbs hsig2
        rw [Int.natAbs_mul] at this
        have h1 : (1 : Int).natAbs = 1 := rfl
        rw [h1] at this
        exact Nat.eq_one_of_mul_eq_one_left this
      rw [this, Nat.one_mul]
      exact hNle
    · have hM1 : a.sign * M ≤ 2 ^ 53 := by
        have h1 : a.sign * M ≤ |a.sign * M| := le_abs_self _
        rw [abs_mul, hsabs, one_mul, Int.abs_eq_natAbs] at h1
        have h2 : ((M.natAbs : Nat) : Int) ≤ ((2 ^ 53 : Nat) : Int) := Int.ofNat_le.mpr hM
        have h3 : ((2 ^ 53 : Nat) : Int) = 2 ^ 53 := by norm_num
        omega
      have hTi : ((A : Int)) * 2 ^ 84 = (m : Int) * (b * 2 ^ s) + (rho : Int) := by
        have := congrArg (fun x : Nat => (x : Int)) hT
        simp only [Nat.cast_add, Nat.cast_mul, Nat.cast_pow, Nat.cast_ofNat, hbcast] at this
        exact this
      have hrhoi : (rho : Int) < b * 2 ^ s := by
        have := Int.ofNat_lt.mpr hrho
        simp only [Nat.cast_mul, Nat.cast_pow, Nat.cast_ofNat, hbcast] at this
        exact this
      have hNi : ((N : Int) = (m : Int) ∧ 2 * (rho : Int) ≤ b * 2 ^ s)
          ∨ ((N : Int) = (m : Int) + 1 ∧ b * 2 ^ s ≤ 2 * (rho : Int)) := by
        rcases hN with ⟨h1, h2⟩ | ⟨h1, h2⟩
        · left
          refine ⟨by rw [h1], ?_⟩
          have := Int.ofNat_le.mpr h2
          simp only [Nat.cast_mul, Nat.cast_pow, Nat.cast_ofNat, hbcast] at this
          exact this
        · right
          refine ⟨by rw [h1]; rfl, ?_⟩
          have := Int.ofNat_le.mpr h2
          simp only [Nat.cast_mul, Nat.cast_pow, Nat.cast_ofNat, hbcast] at this
          exact this
      have hm2i : (2 : Int) ^ 52 ≤ (m : Int) := by
        have := Int.ofNat_le.mpr hm2
        simpa using this
      have key := round_compete ((A : Int) * 2 ^ 84) (b * 2 ^ s) m rho N b s hb rfl
        hTi hNi (Int.ofNat_nonneg _) hrhoi hm2i (a.sign * M) hM1 E F
      -- back to the rationals
      have hbq : (0 : ℚ) < (b : ℚ) := by exact_mod_cast hb
      have hc : (0 : ℚ) < (b : ℚ) * 2 ^ 84 * 2 ^ F := by positivity
      have haq : (a : ℚ) = (a.sign : ℚ) * (A : ℚ) := by
        have := congrArg (fun x : Int => (x : ℚ)) hsig
        simp only [Int.cast_mul, Int.cast_natCast] at this
        exact this.symm
      have hs2q : (a.sign : ℚ) * (a.sign : ℚ) = 1 := by exact_mod_cast hsig2
      have e1 : (divDouble a b - (a : ℚ) / b) * ((b : ℚ) * 2 ^ 84 * 2 ^ F)
          = (((a.sign * (((N : Int) * (b * 2 ^ s) - (A : Int) * 2 ^ 84) * 2 ^ F) : Int))
              : ℚ) := by
        rw [hr, haq]
        push_cast
        field_simp
        ring
      have e2 : ((M : ℚ) * 2 ^ E / 2 ^ F - (a : ℚ) / b) * ((b : ℚ) * 2 ^ 84 * 2 ^ F)
          = (((a.sign * (a.sign * M * 2 ^ (E + 84) * b - (A : Int) * 2 ^ 84 * 2 ^ F)
              : Int)) : ℚ) := by
        rw [haq]
        push_cast
        field_simp
        rw [pow_add]
        linear_combination
          (-(M : ℚ) * 2 ^ E * 2 ^ 84 * (b : ℚ) * ((b : ℚ) * 2 ^ F)) * hs2q
      have habs : ∀ Z : Int, |((a.sign * Z : Int) : ℚ)| = ((|Z| : Int) : ℚ) := by
        intro Z
        rw [← Int.cast_abs, abs_mul, hsabs, one_mul]
      have h1 : |divDouble a b - (a : ℚ) / b| * ((b : ℚ) * 2 ^ 84 * 2 ^ F)
          = ((|((N : Int) * (b * 2 ^ s) - (A : Int) * 2 ^ 84) * 2 ^ F| : Int) : ℚ) := by
        rw [← habs, ← e1, abs_mul, abs_of_pos hc]
      have h2 : |(M : ℚ) * 2 ^ E / 2 ^ F - (a : ℚ) / b| * ((b : ℚ) * 2 ^ 84 * 2 ^ F)
          = ((|a.sign * M * 2 ^ (E + 84) * b - (A : Int) * 2 ^ 84 * 2 ^ F| : Int) : ℚ) := by
        rw [← habs, ← e2, abs_mul, abs_of_pos hc]
      have h3 : |((N : Int) * (b * 2 ^ s) - (A : Int) * 2 ^ 84) * 2 ^ F|
          = |(N : Int) * (b * 2 ^ s) - (A : Int) * 2 ^ 84| * 2 ^ F := by
        rw [abs_mul, abs_of_pos (show (0 : Int) < 2 ^ F by positivity)]
      refine le_of_mul_le_mul_right ?_ hc
      rw [h1, h2, h3]
      exact_mod_cast key

/-! ## Claim C31 -/

theorem maxEdgeTree_isTree : maxEdgeTree.IsTree := by
  have h1 : maxEdgeTree.IsGraphOf 2 [(0, 1, 2147483647)] :=
    Graph.isGraphOf_add_edge (u := 0) (v := 1) (Graph.isGraphOf_new 2) 2147483647 (by decide)
      (by decide) (by rw [reach_nil]; decide)
  apply isTree_of_root (A := [(0, 1, 2147483647)]) h1 (by decide)
  intro v hv
  have hv' : v < 2 := hv
  interval_cases v
  · exact Reach.refl _ _
  · exact reach_edge (List.mem_cons_self _ _)

theorem halfEdgeTree_isTree : halfEdgeTree.IsTree := by
  have h1 : halfEdgeTree.IsGraphOf 2 [(0, 1, 1073741824)] :=
    Graph.isGraphOf_add_edge (u := 0) (v := 1) (Graph.isGraphOf_new 2) 1073741824 (by decide)
      (by decide) (by rw [reach_nil]; decide)
  apply isTree_of_root (A := [(0, 1, 1073741824)]) h1 (by decide)
  intro v hv
  have hv' : v < 2 := hv
  interval_cases v
  · exact Reach.refl _ _
  · exact reach_edge (List.mem_cons_self _ _)

theorem isPath_sum_nonneg {t : Graph} (hw : ∀ l ∈ t.adjList, ∀ e ∈ l, 0 ≤ e.2)
    {vs : List Nat} {ws : List Int} (h : t.IsPath vs ws) : 0 ≤ ws.sum := by
  obtain ⟨_, _, h3⟩ := Graph.isPath_bounds vs ws h
  apply List.sum_nonneg
  intro w hw1
  obtain ⟨l, hl, e, he, rfl⟩ := h3 w hw1
  exact hw l hl e he

theorem pairSum_nonneg (n : Nat) (pw : Nat → Nat → Int)
    (h : ∀ i j, i < j → j < n → 0 ≤ pw i j) : 0 ≤ pairSum n pw := by
  unfold pairSum
  apply List.sum_nonneg
  intro x hx
  obtain ⟨i, _, rfl⟩ := List.mem_map.mp hx
  apply List.sum_nonneg
  intro y hy
  obtain ⟨j, hj, rfl⟩ := List.mem_map.mp hy
  rw [List.mem_range'_1] at hj
  exact h i j (by omega) (by omega)

/-- C31 (average distance), with the bounds that the `int`s need and the
rounding of the `double`: for every graph `t` that holds a tree with
non-negative weights in which twice the weight of every simple path is at most
`INT_MAX`, with `pw i j` the weight of the simple path from `i` to `j`, the
sum of the `pw i j` over the pairs `i < j` at most `INT_MAX` and
`n (n - 1) / 2` at most `INT_MAX`: at its `return`, `getAverageDistance_MST`
holds that sum in `sumDistances` and `n (n - 1) / 2` in `count`; it returns 0
when `n < 2`, and otherwise a `double` nearest to the quotient of the sum by
`n (n - 1) / 2`, which is that quotient whenever the quotient is a `double`. -/
theorem C31_average_distance (t : Graph) (ht : t.IsTree)
    (hw : ∀ l ∈ t.adjList, ∀ e ∈ l, 0 ≤ e.2)
    (hfit : ∀ vs ws, t.IsPath vs ws → vs.Nodup → 2 * ws.sum ≤ INT_MAX)
    (pw : Nat → Nat → Int)
    (hpw : ∀ i j, i < j → j < t.adjList.length → ∃ vs ws, t.IsPath vs ws ∧ vs.Nodup
      ∧ vs.head? = some i ∧ vs.getLast? = some j ∧ ws.sum = pw i j)
    (hsum : pairSum t.adjList.length pw ≤ INT_MAX)
    (hcount : ((t.adjList.length * (t.adjList.length - 1) / 2 : Nat) : Int) ≤ INT_MAX) :
    averageTotals t
      = some (pairSum t.adjList.length pw,
          ((t.adjList.length * (t.adjList.length - 1) / 2 : Nat) : Int))
    ∧ ∃ r, getAverageDistance_MST (some t) = some r
      ∧ (t.adjList.length < 2 → r = 0)
      ∧ (2 ≤ t.adjList.length →
          NearestDouble ((pairSum t.adjList.length pw : ℚ)
            / ((t.adjList.length * (t.adjList.length - 1) / 2 : Nat) : ℚ)) r
          ∧ ∀ (M : Int) (E F : Nat), M.natAbs ≤ 2 ^ 53 →
              (pairSum t.adjList.length pw : ℚ)
                / ((t.adjList.length * (t.adjList.length - 1) / 2 : Nat) : ℚ)
                = (M : ℚ) * 2 ^ E / 2 ^ F →
              r = (pairSum t.adjList.length pw : ℚ)
                / ((t.adjList.length * (t.adjList.length - 1) / 2 : Nat) : ℚ)) := by
  have hI : INT_MAX = 2147483647 := rfl
  have htot := averageTotals_spec t ht hw hfit pw hpw hsum hcount
  refine ⟨htot, ?_⟩
  have hS0 : 0 ≤ pairSum t.adjList.length pw :=
    pairSum_nonneg _ pw fun i j hij hj => by
      obtain ⟨vs, ws, p1, -, -, -, p5⟩ := hpw i j hij hj
      rw [← p5]
      exact isPath_sum_nonneg hw p1
  by_cases hn : t.adjList.length < 2
  · have hc0 : t.adjList.length * (t.adjList.length - 1) / 2 = 0 := by
      have h1 : t.adjList.length - 1 = 0 := by omega
      rw [h1]
      simp
    refine ⟨0, ?_, fun _ => rfl, fun h => by omega⟩
    simp only [getAverageDistance_MST, htot, hc0]
    simp
  · have hn2 : 2 ≤ t.adjList.length := by omega
    have hpos : 0 < t.adjList.length * (t.adjList.length - 1) / 2 := by
      apply Nat.div_pos _ (by norm_num)
      calc 2 = 2 * 1 := rfl
        _ ≤ t.adjList.length * (t.adjList.length - 1) :=
          Nat.mul_le_mul hn2 (by omega)
    have hposi : (0 : Int) < ((t.adjList.length * (t.adjList.length - 1) / 2 : Nat) : Int) :=
      Int.ofNat_lt.mpr hpos
    have hres : getAverageDistance_MST (some t)
        = some (divDouble (pairSum t.adjList.length pw)
            ((t.adjList.length * (t.adjList.length - 1) / 2 : Nat) : Int)) := by
      simp only [getAverageDistance_MST, htot]
      rw [if_pos hposi]
    have hnear := divDouble_nearest (pairSum t.adjList.length pw)
      ((t.adjList.length * (t.adjList.length - 1) / 2 : Nat) : Int) (by omega) hposi (by omega)
    rw [Int.cast_natCast] at hnear
    refine ⟨_, hres, fun h => by omega, fun _ => ⟨hnear, fun M E F hM hx => ?_⟩⟩
    have := hnear.2 M E F hM
    rw [← hx, sub_self, abs_zero] at this
    exact sub_eq_zero.mp (abs_eq_zero.mp (le_antisymm this (abs_nonneg _)))

set_option maxRecDepth 100000 in
theorem average_expected3 :
    getAverageDistance_MST (some expected3)
      = some ((7505999378950827 : ℚ) / 2251799813685248) := by
  have h1 : averageTotals expected3 = some (10, 3) := by decide
  have h2 : divDoubleParts 10 3 = (7505999378950827, 33) := by decide
  simp only [getAverageDistance_MST, h1, divDouble, h2]
  norm_num

set_option maxRecDepth 100000 in
/-- Witness of C31: the tree 0-1:2, 1-2:3 of the tests; the sum is 10, the
count 3, and the value returned is the `double` nearest to 10/3. -/
theorem C31_average_distance_witness :
    getAverageDistance_MST (some expected3)
      = some ((7505999378950827 : ℚ) / 2251799813685248)
    ∧ averageTotals expected3 = some (10, 3)
    ∧ averageTotals expected3
      = some (pairSum expected3.adjList.length expected3Weights,
          ((expected3.adjList.length * (expected3.adjList.length - 1) / 2 : Nat) : Int))
    ∧ ∃ r, getAverageDistance_MST (some expected3) = some r
      ∧ (expected3.adjList.length < 2 → r = 0)
      ∧ (2 ≤ expected3.adjList.length →
          NearestDouble ((pairSum expected3.adjList.length expected3Weights : ℚ)
            / ((expected3.adjList.length * (expected3.adjList.length - 1) / 2 : Nat) : ℚ)) r
          ∧ ∀ (M : Int) (E F : Nat), M.natAbs ≤ 2 ^ 53 →
              (pairSum expected3.adjList.length expected3Weights : ℚ)
                / ((expected3.adjList.length * (expected3.adjList.length - 1) / 2 : Nat) : ℚ)
                = (M : ℚ) * 2 ^ E / 2 ^ F →
              r = (pairSum expected3.adjList.length expected3Weights : ℚ)
                / ((expected3.adjList.length * (expected3.adjList.length - 1) / 2 : Nat) : ℚ)) :=
  ⟨average_expected3, by decide,
    C31_average_distance expected3 expected3_isTree (by decide)
      (fun vs ws h hnd => by
        have h1 := Graph.isPath_sum_le 3 (by decide) (by decide) h hnd
        have h2 : ((expected3.adjList.length : Int) - 1) * 3 = 6 := by decide
        have hI : INT_MAX = 2147483647 := rfl
        omega)
      expected3Weights
      (fun i j hij hj => by
        have hj1 : j < 3 := hj
        interval_cases j <;> interval_cases i
        · refine ⟨[0, 1], [2], ?_, by decide, rfl, rfl, rfl⟩
          rw [Graph.isPath_cons_iff, Graph.isPath_single_iff]
          exact ⟨by decide, by decide⟩
        · refine ⟨[0, 1, 2], [2, 3], ?_, by decide, rfl, rfl, rfl⟩
          rw [Graph.isPath_cons_iff, Graph.isPath_cons_iff, Graph.isPath_single_iff]
          exact ⟨by decide, by decide, by decide⟩
        · refine ⟨[1, 2], [3], ?_, by decide, rfl, rfl, rfl⟩
          rw [Graph.isPath_cons_iff, Graph.isPath_single_iff]
          exact ⟨by decide, by decide⟩)
      (by decide) (by decide)⟩

set_option maxRecDepth 100000 in
/-- C31 as the claim has it fails.  In the tree of two vertices joined by an
edge of weight `INT_MAX`, a weight that an `int` holds, the element of the
matrix is taken for a missing one: no pair is counted and the value returned
is 0, while the average is 2147483647.  In the tree of two vertices joined by
an edge of weight 2^30 the sum `dist[1][0] + dist[0][1]` wraps around and the
value returned is -2^30.  For the tree 0-1:2, 1-2:3 the value returned is the
`double` nearest to 10/3, which is not 10/3. -/
theorem C31_average_distance_counterexample :
    (maxEdgeTree.IsTree ∧ (∀ l ∈ maxEdgeTree.adjList, ∀ e ∈ l, 0 ≤ e.2)
      ∧ maxEdgeTree.IsPath [0, 1] [2147483647] ∧ (2147483647 : Int) ≤ INT_MAX
      ∧ getAverageDistance_MST (some maxEdgeTree) = some 0)
    ∧ (halfEdgeTree.IsTree ∧ (∀ l ∈ halfEdgeTree.adjList, ∀ e ∈ l, 0 ≤ e.2)
      ∧ halfEdgeTree.IsPath [0, 1] [1073741824] ∧ (1073741824 : Int) ≤ INT_MAX
      ∧ getAverageDistance_MST (some halfEdgeTree) = some (-1073741824))
    ∧ (getAverageDistance_MST (some expected3)
        = some ((7505999378950827 : ℚ) / 2251799813685248)
      ∧ (7505999378950827 : ℚ) / 2251799813685248 ≠ 10 / 3) := by
  refine ⟨⟨maxEdgeTree_isTree, by decide, ?_, by decide, ?_⟩,
    ⟨halfEdgeTree_isTree, by decide, ?_, by decide, ?_⟩, average_expected3, by norm_num⟩
  · rw [Graph.isPath_cons_iff, Graph.isPath_single_iff]
    exact ⟨by decide, by decide⟩
  · have h1 : averageTotals maxEdgeTree = some (0, 0) := by decide
    simp [getAverageDistance_MST, h1]
  · rw [Graph.isPath_cons_iff, Graph.isPath_single_iff]
    exact ⟨by decide, by decide⟩
  · have h1 : averageTotals halfEdgeTree = some (-1073741824, 1) := by decide
    have h2 : divDoubleParts (-1073741824) 1 = (-4503599627370496, 62) := by decide
    simp only [getAverageDistance_MST, h1, divDouble, h2]
    norm_num

/-! ## Totals beyond 2^53 -/

theorem getD_replicate_nil (k i : Nat) :
    (List.replicate k ([] : List (Int × Int))).getD i [] = [] := by
  rw [List.getD_eq_getElem?_getD, List.getElem?_replicate]
  split_ifs <;> rfl

theorem length_starRows (m : Nat) (W : Int) (tail : List (List (Int × Int))) :
    (starRows m W tail).length = m + 1 + tail.length := by
  simp [starRows]
  omega

theorem getD_starRows (m : Nat) (W : Int) (tail : List (List (Int × Int))) (x : Nat) :
    (starRows m W tail).getD x [] =
      if x = 0 then (List.range m).map fun i => (((i + 1 : Nat) : Int), W)
      else if x ≤ m then [(((0 : Nat) : Int), W)]
      else tail.getD (x - (m + 1)) [] := by
  unfold starRows
  cases x with
  | zero => rfl
  | succ x =>
    rw [List.getD_cons_succ, if_neg (Nat.succ_ne_zero x)]
    by_cases hx : x < m
    · rw [if_pos (by omega), List.getD_append _ _ _ _ (by simpa using hx),
        List.getD_eq_getElem?_getD, List.getElem?_replicate, if_pos hx]
      rfl
    · rw [if_neg (by omega), List.getD_append_right _ _ _ _ (by simpa using hx)]
      simp only [List.length_replicate]
      have e : x + 1 - (m + 1) = x - m := by omega
      rw [e]

theorem hub_ne (m : Nat) (W : Int) (v : Nat) (hv : m < v) :
    ∀ e ∈ (List.range m).map (fun i => (((i + 1 : Nat) : Int), W)), e.1 ≠ (v : Int) := by
  intro e he
  obtain ⟨i, hi, rfl⟩ := List.mem_map.mp he
  have := List.mem_range.mp hi
  show ((i + 1 : Nat) : Int) ≠ (v : Int)
  omega

theorem star_step (m r : Nat) (W : Int) :
    (⟨starRows m W (List.replicate (r + 1) [])⟩ : Graph).add_edge
        ((0 : Nat) : Int) ((m + 1 : Nat) : Int) W
      = ⟨starRows (m + 1) W (List.replicate r [])⟩ := by
  apply Graph.ext_getD
  · rw [Graph.length_add_edge]
    simp only [length_starRows, List.length_replicate]
    omega
  · intro x
    rw [Graph.row_add_edge _ 0 (m + 1) W
      (by simp only [length_starRows]; omega)
      (by simp only [length_starRows, List.length_replicate]; omega) (by omega)]
    dsimp only
    by_cases h0 : x = 0
    · subst h0
      rw [if_pos rfl, getD_starRows, if_pos rfl, getD_starRows, if_pos rfl,
        Graph.eraseFirst_eq_self _ _ (hub_ne m W (m + 1) (by omega)),
        List.range_succ, List.map_append]
      rfl
    · by_cases h1 : x = m + 1
      · subst h1
        rw [if_neg h0, if_pos rfl, getD_starRows, if_neg h0, if_neg (by omega),
          Nat.sub_self, getD_starRows, if_neg h0, if_pos (le_refl _)]
        rfl
      · rw [if_neg h0, if_neg h1, getD_starRows, getD_starRows, if_neg h0, if_neg h0]
        by_cases h2 : x ≤ m
        · rw [if_pos h2, if_pos (by omega)]
        · rw [if_neg h2, if_neg (by omega), getD_replicate_nil, getD_replicate_nil]

theorem starOps_succ (m : Nat) (W : Int) :
    starOps (m + 1) W
      = starOps m W ++ [Graph.Op.add_edge ((0 : Nat) : Int) ((m + 1 : Nat) : Int) W] := by
  unfold starOps
  rw [List.range_succ, List.map_append]
  rfl

theorem runOps_append (n : Nat) (A B : List Graph.Op) :
    Graph.runOps n (A ++ B) = B.foldl Graph.applyOp (Graph.runOps n A) := by
  unfold Graph.runOps
  rw [List.foldl_append]

/-- The graph after the calls of `starOps`. -/
theorem runOps_starOps (W : Int) : ∀ (m r : Nat),
    Graph.runOps (m + 1 + r) (starOps m W) = ⟨starRows m W (List.replicate r [])⟩ := by
  intro m
  induction m with
  | zero =>
    intro r
    have e : 0 + 1 + r = r + 1 := by omega
    rw [e]
    simp [Graph.runOps, starOps, Graph.new, starRows, List.replicate_succ]
  | succ m ih =>
    intro r
    have e : m + 1 + 1 + r = m + 1 + (r + 1) := by omega
    rw [e, starOps_succ, runOps_append, ih (r + 1)]
    exact star_step m r W

theorem getD_starRows_tail (m : Nat) (W : Int) (tail : List (List (Int × Int))) (k : Nat) :
    (starRows m W tail).getD (m + 1 + k) [] = tail.getD k [] := by
  rw [getD_starRows, if_neg (by omega), if_neg (by omega)]
  have e : m + 1 + k - (m + 1) = k := by omega
  rw [e]

theorem getD_starRows_head (m : Nat) (W : Int) (tail tail2 : List (List (Int × Int))) (x : Nat)
    (hx : x ≤ m) : (starRows m W tail).getD x [] = (starRows m W tail2).getD x [] := by
  rw [getD_starRows, getD_starRows]
  by_cases h0 : x = 0
  · rw [if_pos h0, if_pos h0]
  · rw [if_neg h0, if_neg h0, if_pos hx, if_pos hx]

/-- A call of `add_edge` for two vertices beyond the star. -/
theorem star_add_edge (m : Nat) (W : Int) (tail tail2 : List (List (Int × Int))) (i j : Nat)
    (w : Int) (hi : i < tail.length) (hj : j < tail.length) (hij : i ≠ j)
    (hl : tail2.length = tail.length)
    (hrow : ∀ k, tail2.getD k [] =
      if k = i then
        Graph.eraseFirst ((m + 1 + j : Nat) : Int) (tail.getD i []) ++ [(((m + 1 + j : Nat) : Int), w)]
      else if k = j then
        Graph.eraseFirst ((m + 1 + i : Nat) : Int) (tail.getD j []) ++ [(((m + 1 + i : Nat) : Int), w)]
      else tail.getD k []) :
    (⟨starRows m W tail⟩ : Graph).add_edge ((m + 1 + i : Nat) : Int) ((m + 1 + j : Nat) : Int) w
      = ⟨starRows m W tail2⟩ := by
  apply Graph.ext_getD
  · rw [Graph.length_add_edge]
    simp only [length_starRows, hl]
  · intro x
    rw [Graph.row_add_edge _ (m + 1 + i) (m + 1 + j) w
      (by simp only [length_starRows]; omega) (by simp only [length_starRows]; omega)
      (by omega)]
    dsimp only
    by_cases hx : x ≤ m
    · rw [if_neg (by omega), if_neg (by omega)]
      exact getD_starRows_head m W tail tail2 x hx
    · obtain ⟨k, rfl⟩ : ∃ k, x = m + 1 + k := ⟨x - (m + 1), by omega⟩
      rw [getD_starRows_tail, getD_starRows_tail, getD_starRows_tail, getD_starRows_tail, hrow k]
      by_cases h1 : k = i
      · rw [if_pos h1, if_pos (by omega)]
      · rw [if_neg h1, if_neg (by omega)]
        by_cases h2 : k = j
        · rw [if_pos h2, if_pos (by omega)]
        · rw [if_neg h2, if_neg (by omega)]

/-- A call of `remove_edge` for two vertices beyond the star. -/
theorem star_remove_edge (m : Nat) (W : Int) (tail tail2 : List (List (Int × Int))) (i j : Nat)
    (hi : i < tail.length) (hj : j < tail.length) (hl : tail2.length = tail.length)
    (hrow : ∀ k, tail2.getD k [] =
      if j = k then
        Graph.eraseFirst ((m + 1 + i : Nat) : Int)
          (if i = k then Graph.eraseFirst ((m + 1 + j : Nat) : Int) (tail.getD k [])
            else tail.getD k [])
      else if i = k then Graph.eraseFirst ((m + 1 + j : Nat) : Int) (tail.getD k [])
      else tail.getD k []) :
    (⟨starRows m W tail⟩ : Graph).remove_edge ((m + 1 + i : Nat) : Int) ((m + 1 + j : Nat) : Int)
      = ⟨starRows m W tail2⟩ := by
  apply Graph.ext_getD
  · rw [Graph.length_remove_edge]
    simp only [length_starRows, hl]
  · intro x
    rw [Graph.row_remove_edge _ (m + 1 + i) (m + 1 + j)
      (by simp only [length_starRows]; omega) (by simp only [length_starRows]; omega)]
    dsimp only
    by_cases hx : x ≤ m
    · rw [if_neg (by omega), if_neg (by omega)]
      exact getD_starRows_head m W tail tail2 x hx
    · obtain ⟨k, rfl⟩ : ∃ k, x = m + 1 + k := ⟨x - (m + 1), by omega⟩
      rw [getD_starRows_tail, getD_starRows_tail, hrow k]
      by_cases h1 : j = k
      · rw [if_pos h1, if_pos (by omega)]
        by_cases h2 : i = k
        · rw [if_pos h2, if_pos (by omega)]
        · rw [if_neg h2, if_neg (by omega)]
      · rw [if_neg h1, if_neg (by omega)]
        by_cases h2 : i = k
        · rw [if_pos h2, if_pos (by omega)]
        · rw [if_neg h2, if_neg (by omega)]

theorem star_head_sum (m : Nat) (W : Int) :
    ((((List.range m).map fun i => (((i + 1 : Nat) : Int), W))
        :: List.replicate m [(((0 : Nat) : Int), W)]).map
      fun l => (l.map Prod.snd).sum).sum = 2 * (m : Int) * W := by
  simp [List.map_replicate, List.sum_replicate, Function.comp_def]
  ring

theorem star_head_abs (m : Nat) (W : Int) :
    ((((List.range m).map fun i => (((i + 1 : Nat) : Int), W))
        :: List.replicate m [(((0 : Nat) : Int), W)]).map
      fun l => (l.map fun e => e.2.natAbs).sum).sum = 2 * m * W.natAbs := by
  simp [List.map_replicate, List.sum_replicate, Function.comp_def]
  ring

/-- The `double` sum over a star whose entries sum to at most 2^53: the star
is summed without rounding, then the other lists follow. -/
theorem sumWeights_starRows (m : Nat) (W : Int) (tail : List (List (Int × Int)))
    (h : 2 * m * W.natAbs ≤ 2 ^ 53) :
    Graph.sumWeights ⟨starRows m W tail⟩ = tail.foldl Graph.addWeights (2 * (m : Int) * W) := by
  unfold Graph.sumWeights starRows
  dsimp only
  rw [← List.cons_append, List.foldl_append,
    foldl_addWeights_exact _ 0 (by rw [star_head_abs]; simpa using h), star_head_sum, zero_add]

theorem weightSum_starRows (m : Nat) (W : Int) (tail : List (List (Int × Int))) :
    Graph.weightSum ⟨starRows m W tail⟩ = 2 * (m : Int) * W + Graph.weightSum ⟨tail⟩ := by
  unfold Graph.weightSum starRows
  dsimp only
  rw [← List.cons_append, List.map_append, List.sum_append, star_head_sum]

/-! ## Graphs whose totals pass 2^53 -/

/-- The star of 2^22 edges of weight 2^30 on 2^22 + 4 vertices, built by
`add_edge` alone: its entries sum to 2^53. -/
theorem bigStar :
    Graph.runOps 4194308 (starOps 4194304 1073741824)
      = ⟨starRows 4194304 1073741824 [[], [], []]⟩ :=
  runOps_starOps 1073741824 4194304 3

theorem bigStar_tail (k : Nat) (t : List (Int × Int)) :
    ([[], [], []] : List (List (Int × Int))).getD (k + 3) t = t := rfl

/-- A call of `add_edge` for two of the three vertices beyond the star. -/
theorem bigStar_add (tail tail2 : List (List (Int × Int))) (i j : Nat) (a b w : Int)
    (ha : a = ((4194304 + 1 + i : Nat) : Int)) (hb : b = ((4194304 + 1 + j : Nat) : Int))
    (hi : i < tail.length) (hj : j < tail.length) (hij : i ≠ j)
    (hl : tail2.length = tail.length)
    (hrow : ∀ k, tail2.getD k [] =
      if k = i then Graph.eraseFirst b (tail.getD i []) ++ [(b, w)]
      else if k = j then Graph.eraseFirst a (tail.getD j []) ++ [(a, w)]
      else tail.getD k []) :
    (⟨starRows 4194304 1073741824 tail⟩ : Graph).add_edge a b w
      = ⟨starRows 4194304 1073741824 tail2⟩ := by
  subst ha hb
  exact star_add_edge 4194304 1073741824 tail tail2 i j w hi hj hij hl hrow

/-- The star and the edge of weight 1 between the vertices 2^22 + 1 and
2^22 + 2. -/
theorem bigStar_edge :
    Graph.runOps 4194308 (starOps 4194304 1073741824 ++ [Graph.Op.add_edge 4194305 4194306 1])
      = ⟨starRows 4194304 1073741824 [[(4194306, 1)], [(4194305, 1)], []]⟩ := by
  rw [runOps_append, bigStar, List.foldl_cons, List.foldl_nil]
  refine bigStar_add [[], [], []] _ 0 1 4194305 4194306 1 (by decide) (by decide) (by decide)
    (by decide) (by decide) rfl ?_
  intro k
  rcases k with _ | _ | _ | k
  · decide
  · decide
  · decide
  · rw [if_neg (by omega), if_neg (by omega)]
    rfl

/-- The star and the edges of weight 1 and 2 from the vertex 2^22 + 3 to the
vertices 2^22 + 1 and 2^22 + 2, added in this order. -/
theorem bigStar_one_two :
    Graph.runOps 4194308 (starOps 4194304 1073741824
        ++ [Graph.Op.add_edge 4194307 4194305 1, Graph.Op.add_edge 4194307 4194306 2])
      = ⟨starRows 4194304 1073741824
          [[(4194307, 1)], [(4194307, 2)], [(4194305, 1), (4194306, 2)]]⟩ := by
  rw [runOps_append, bigStar, List.foldl_cons, List.foldl_cons, List.foldl_nil]
  have h1 : Graph.applyOp ⟨starRows 4194304 1073741824 [[], [], []]⟩
      (Graph.Op.add_edge 4194307 4194305 1)
      = ⟨starRows 4194304 1073741824 [[(4194307, 1)], [], [(4194305, 1)]]⟩ := by
    refine bigStar_add [[], [], []] _ 2 0 4194307 4194305 1 (by decide) (by decide)
      (by decide) (by decide) (by decide) rfl ?_
    intro k
    rcases k with _ | _ | _ | k
    · decide
    · decide
    · decide
    · rw [if_neg (by omega), if_neg (by omega)]
      rfl
  rw [h1]
  refine bigStar_add [[(4194307, 1)], [], [(4194305, 1)]] _ 2 1 4194307 4194306 2 (by decide)
    (by decide) (by decide) (by decide) (by decide) rfl ?_
  intro k
  rcases k with _ | _ | _ | k
  · decide
  · decide
  · decide
  · rw [if_neg (by omega), if_neg (by omega)]
    rfl

/-- The same edges added in the other order. -/
theorem bigStar_two_one :
    Graph.runOps 4194308 (starOps 4194304 1073741824
        ++ [Graph.Op.add_edge 4194307 4194306 2, Graph.Op.add_edge 4194307 4194305 1])
      = ⟨starRows 4194304 1073741824
          [[(4194307, 1)], [(4194307, 2)], [(4194306, 2), (4194305, 1)]]⟩ := by
  rw [runOps_append, bigStar, List.foldl_cons, List.foldl_cons, List.foldl_nil]
  have h1 : Graph.applyOp ⟨starRows 4194304 1073741824 [[], [], []]⟩
      (Graph.Op.add_edge 4194307 4194306 2)
      = ⟨starRows 4194304 1073741824 [[], [(4194307, 2)], [(4194306, 2)]]⟩ := by
    refine bigStar_add [[], [], []] _ 2 1 4194307 4194306 2 (by decide) (by decide)
      (by decide) (by decide) (by decide) rfl ?_
    intro k
    rcases k with _ | _ | _ | k
    · decide
    · decide
    · decide
    · rw [if_neg (by omega), if_neg (by omega)]
      rfl
  rw [h1]
  refine bigStar_add [[], [(4194307, 2)], [(4194306, 2)]] _ 2 0 4194307 4194305 1 (by decide)
    (by decide) (by decide) (by decide) (by decide) rfl ?_
  intro k
  rcases k with _ | _ | _ | k
  · decide
  · decide
  · decide
  · rw [if_neg (by omega), if_neg (by omega)]
    rfl

/-- The edge of weight 1 removed again. -/
theorem bigStar_remove :
    (⟨starRows 4194304 1073741824 [[(4194306, 1)], [(4194305, 1)], []]⟩ : Graph).remove_edge
        ((4194305 : Nat) : Int) ((4194306 : Nat) : Int)
      = ⟨starRows 4194304 1073741824 [[], [], []]⟩ := by
  refine star_remove_edge 4194304 1073741824 [[(4194306, 1)], [(4194305, 1)], []] _ 0 1
    (by decide) (by decide) rfl ?_
  intro k
  rcases k with _ | _ | _ | k
  · decide
  · decide
  · decide
  · rw [if_neg (by omega), if_neg (by omega)]
    rfl

/-- The `double` total of the star with the three lists `tail` behind it. -/
theorem bigStar_total (tail : List (List (Int × Int))) (t : Int)
    (h : tail.foldl Graph.addWeights 9007199254740992 = t) :
    Graph.getTotalWeight ⟨starRows 4194304 1073741824 tail⟩ = (t : ℚ) / 2 := by
  rw [Graph.getTotalWeight, sumWeights_starRows 4194304 1073741824 tail (by decide)]
  have e : 2 * ((4194304 : Nat) : Int) * 1073741824 = 9007199254740992 := by decide
  rw [e, h]

set_option maxRecDepth 100000 in
/-- C21 fails beyond 2^53: the graph of 2^22 + 4 vertices built by
`add_edge(0, i, 2^30)` for `i` from 1 to 2^22 and `add_edge(2^22 + 1, 2^22 + 2, 1)`
has edges of total weight 2^52 + 1, and `getTotalWeight()` returns 2^52: the
`double` sum stands at 2^53 when the two entries of weight 1 are added, and
each of them is lost, as 2^53 + 1 is no `double` and is rounded to 2^53. -/
theorem C21_total_weight_counterexample :
    (Graph.runOps 4194308
        (starOps 4194304 1073741824 ++ [Graph.Op.add_edge 4194305 4194306 1])).getTotalWeight
      = 4503599627370496
    ∧ totalWeight (Graph.runOps 4194308
        (starOps 4194304 1073741824 ++ [Graph.Op.add_edge 4194305 4194306 1])).edges
      = 4503599627370497 := by
  have hs := Graph.weightSum_eq_edges (Graph.wellFormed_runOps 4194308
    (starOps 4194304 1073741824 ++ [Graph.Op.add_edge 4194305 4194306 1]))
  rw [bigStar_edge] at hs ⊢
  rw [weightSum_starRows] at hs
  have e : Graph.weightSum ⟨[[(4194306, 1)], [(4194305, 1)], []]⟩ = 2 := by decide
  rw [e] at hs
  refine ⟨?_, by omega⟩
  rw [bigStar_total _ 9007199254740992 (by decide)]
  norm_num

set_option maxRecDepth 100000 in
/-- C22 fails beyond 2^53: in the graph of 2^22 + 4 vertices built by
`add_edge(0, i, 2^30)` for `i` from 1 to 2^22 the vertices 2^22 + 1 and
2^22 + 2 are valid and have empty lists; `getTotalWeight()` returns 2^52
before `add_edge(2^22 + 1, 2^22 + 2, 1)` and 2^52 after it, not 2^52 + 1. -/
theorem C22_add_new_edge_counterexample :
    4194305 < (Graph.runOps 4194308 (starOps 4194304 1073741824)).adjList.length
    ∧ 4194306 < (Graph.runOps 4194308 (starOps 4194304 1073741824)).adjList.length
    ∧ (Graph.runOps 4194308 (starOps 4194304 1073741824)).adjList.getD 4194305 [] = []
    ∧ (Graph.runOps 4194308 (starOps 4194304 1073741824)).adjList.getD 4194306 [] = []
    ∧ (Graph.runOps 4194308 (starOps 4194304 1073741824)).getTotalWeight = 4503599627370496
    ∧ ((Graph.runOps 4194308 (starOps 4194304 1073741824)).add_edge
        ((4194305 : Nat) : Int) ((4194306 : Nat) : Int) 1).getTotalWeight = 4503599627370496
    ∧ ((Graph.runOps 4194308 (starOps 4194304 1073741824)).add_edge
        ((4194305 : Nat) : Int) ((4194306 : Nat) : Int) 1).getTotalWeight
      ≠ (Graph.runOps 4194308 (starOps 4194304 1073741824)).getTotalWeight + (1 : Int) := by
  have hlen := Graph.length_runOps 4194308 (starOps 4194304 1073741824)
  have h1 : (Graph.runOps 4194308 (starOps 4194304 1073741824)).getTotalWeight
      = 4503599627370496 := by
    rw [bigStar, bigStar_total _ 9007199254740992 (by decide)]
    norm_num
  have h2 : ((Graph.runOps 4194308 (starOps 4194304 1073741824)).add_edge
      ((4194305 : Nat) : Int) ((4194306 : Nat) : Int) 1).getTotalWeight = 4503599627370496 := by
    have e := bigStar_edge
    rw [runOps_append, List.foldl_cons, List.foldl_nil] at e
    have e2 : (Graph.runOps 4194308 (starOps 4194304 1073741824)).add_edge
        ((4194305 : Nat) : Int) ((4194306 : Nat) : Int) 1
        = ⟨starRows 4194304 1073741824 [[(4194306, 1)], [(4194305, 1)], []]⟩ := e
    rw [e2, bigStar_total _ 9007199254740992 (by decide)]
    norm_num
  refine ⟨by rw [hlen]; decide, by rw [hlen]; decide, ?_, ?_, h1, h2, ?_⟩
  · rw [bigStar]
    exact getD_starRows_tail 4194304 1073741824 [[], [], []] 0
  · rw [bigStar]
    exact getD_starRows_tail 4194304 1073741824 [[], [], []] 1
  · rw [h1, h2]
    norm_num

set_option maxRecDepth 100000 in
/-- C24 fails beyond 2^53: in the graph of 2^22 + 4 vertices built by
`add_edge(0, i, 2^30)` for `i` from 1 to 2^22 and
`add_edge(2^22 + 1, 2^22 + 2, 1)` the edge of weight 1 is present;
`getTotalWeight()` returns 2^52 before `remove_edge(2^22 + 1, 2^22 + 2)` and
2^52 after it, not 2^52 - 1. -/
theorem C24_remove_edge_counterexample :
    (Graph.runOps 4194308
        (starOps 4194304 1073741824 ++ [Graph.Op.add_edge 4194305 4194306 1])).HasEdge
      4194305 4194306 1
    ∧ (Graph.runOps 4194308
        (starOps 4194304 1073741824 ++ [Graph.Op.add_edge 4194305 4194306 1])).getTotalWeight
      = 4503599627370496
    ∧ ((Graph.runOps 4194308
        (starOps 4194304 1073741824 ++ [Graph.Op.add_edge 4194305 4194306 1])).remove_edge
          ((4194305 : Nat) : Int) ((4194306 : Nat) : Int)).getTotalWeight = 4503599627370496
    ∧ ((Graph.runOps 4194308
        (starOps 4194304 1073741824 ++ [Graph.Op.add_edge 4194305 4194306 1])).remove_edge
          ((4194305 : Nat) : Int) ((4194306 : Nat) : Int)).getTotalWeight
      ≠ (Graph.runOps 4194308
        (starOps 4194304 1073741824 ++ [Graph.Op.add_edge 4194305 4194306 1])).getTotalWeight
        - (1 : Int) := by
  rw [bigStar_edge, bigStar_remove, bigStar_total _ 9007199254740992 (by decide),
    bigStar_total _ 9007199254740992 (by decide)]
  refine ⟨?_, by norm_num, by norm_num, by norm_num⟩
  show (((4194306 : Nat) : Int), (1 : Int)) ∈ (starRows 4194304 1073741824
    [[(4194306, 1)], [(4194305, 1)], []]).getD (4194304 + 1 + 0) []
  rw [getD_starRows_tail]
  decide

set_option maxRecDepth 100000 in
/-- C20 fails beyond 2^53: the graphs of 2^22 + 4 vertices built by
`add_edge(0, i, 2^30)` for `i` from 1 to 2^22 and then the edges of weight 1
and 2 from the vertex 2^22 + 3 to the vertices 2^22 + 1 and 2^22 + 2, in the
one graph in this order and in the other graph in the other order, have the
same number of vertices and every list of the one is a permutation of the list
of the other, yet `compareGraphs` returns false: the `double` sums stand at
2^53 + 2 before the last list, where 1 and then 2 give 2^53 + 4 and 2^53 + 6,
and 2 and then 1 give 2^53 + 4 and 2^53 + 4, so that the totals differ. -/
theorem C20_compareGraphs_counterexample :
    (Graph.runOps 4194308 (starOps 4194304 1073741824
        ++ [Graph.Op.add_edge 4194307 4194305 1, Graph.Op.add_edge 4194307 4194306 2])).adjList.length
      = (Graph.runOps 4194308 (starOps 4194304 1073741824
        ++ [Graph.Op.add_edge 4194307 4194306 2, Graph.Op.add_edge 4194307 4194305 1])).adjList.length
    ∧ (∀ (i : Nat) (la lb : List (Int × Int)),
        (Graph.runOps 4194308 (starOps 4194304 1073741824
          ++ [Graph.Op.add_edge 4194307 4194305 1,
            Graph.Op.add_edge 4194307 4194306 2])).adjList[i]? = some la →
        (Graph.runOps 4194308 (starOps 4194304 1073741824
          ++ [Graph.Op.add_edge 4194307 4194306 2,
            Graph.Op.add_edge 4194307 4194305 1])).adjList[i]? = some lb →
        la.Perm lb)
    ∧ (Graph.runOps 4194308 (starOps 4194304 1073741824
        ++ [Graph.Op.add_edge 4194307 4194305 1,
          Graph.Op.add_edge 4194307 4194306 2])).getTotalWeight = 4503599627370499
    ∧ (Graph.runOps 4194308 (starOps 4194304 1073741824
        ++ [Graph.Op.add_edge 4194307 4194306 2,
          Graph.Op.add_edge 4194307 4194305 1])).getTotalWeight = 4503599627370498
    ∧ (Graph.runOps 4194308 (starOps 4194304 1073741824
        ++ [Graph.Op.add_edge 4194307 4194305 1, Graph.Op.add_edge 4194307 4194306 2])).compareGraphs
        (Graph.runOps 4194308 (starOps 4194304 1073741824
        ++ [Graph.Op.add_edge 4194307 4194306 2, Graph.Op.add_edge 4194307 4194305 1]))
      = false := by
  have ha : Graph.getTotalWeight ⟨starRows 4194304 1073741824
      [[(4194307, 1)], [(4194307, 2)], [(4194305, 1), (4194306, 2)]]⟩ = 4503599627370499 := by
    rw [bigStar_total _ 9007199254740998 (by decide)]
    norm_num
  have hb : Graph.getTotalWeight ⟨starRows 4194304 1073741824
      [[(4194307, 1)], [(4194307, 2)], [(4194306, 2), (4194305, 1)]]⟩ = 4503599627370498 := by
    rw [bigStar_total _ 9007199254740996 (by decide)]
    norm_num
  have hp : List.Forall₂ List.Perm
      (starRows 4194304 1073741824
        [[(4194307, 1)], [(4194307, 2)], [(4194305, 1), (4194306, 2)]])
      (starRows 4194304 1073741824
        [[(4194307, 1)], [(4194307, 2)], [(4194306, 2), (4194305, 1)]]) := by
    unfold starRows
    refine List.Forall₂.cons (List.Perm.refl _) (List.rel_append ?_ ?_)
    · exact List.forall₂_same.mpr fun _ _ => List.Perm.refl _
    · decide
  rw [bigStar_one_two, bigStar_two_one]
  refine ⟨hp.length_eq, ((Graph.forall₂_perm_iff _ _).mp hp).2, ha, hb, ?_⟩
  cases h : Graph.compareGraphs
      ⟨starRows 4194304 1073741824
        [[(4194307, 1)], [(4194307, 2)], [(4194305, 1), (4194306, 2)]]⟩
      ⟨starRows 4194304 1073741824
        [[(4194307, 1)], [(4194307, 2)], [(4194306, 2), (4194305, 1)]]⟩ with
  | false => rfl
  | true =>
    exfalso
    have h2 := (Graph.getTotalWeight_eq_iff _ _).mpr ((Graph.compareGraphs_iff _ _).mp h).1
    rw [ha, hb] at h2
    norm_num at h2

/-! ## The rounding of the sums is the rounding of `double` -/

/-- The `double` of the model is, among the numbers with at most 53
significant binary digits, one nearest to the integer. -/
theorem roundDouble_nearest (z : Int) : NearestDouble (z : ℚ) ((roundDouble z : Int) : ℚ) := by
  by_cases hz : z.natAbs ≤ 2 ^ 53
  · rw [roundDouble_of_le z hz]
    refine ⟨⟨z, 0, 0, hz, by simp⟩, fun M E F _ => ?_⟩
    rw [sub_self, abs_zero]
    exact abs_nonneg _
  · have hz0 : z ≠ 0 := by
      intro h
      rw [h] at hz
      exact hz (by decide)
    obtain ⟨m, low, s, N, hr, hT, hlow, hm2, hm1, hN⟩ := roundDouble_spec z (by omega)
    have hsig : z.sign * (z.natAbs : Int) = z := Int.sign_mul_natAbs z
    generalize z.natAbs = A at hT hsig
    have hsig2 : z.sign * z.sign = 1 := by
      rcases lt_or_gt_of_ne hz0 with h | h
      · rw [Int.sign_eq_neg_one_of_neg h]
        rfl
      · rw [Int.sign_eq_one_of_pos h]
        rfl
    have hsabs : |z.sign| = 1 := by
      rcases lt_or_gt_of_ne hz0 with h | h
      · rw [Int.sign_eq_neg_one_of_neg h]
        rfl
      · rw [Int.sign_eq_one_of_pos h]
        rfl
    have hNle : N ≤ 2 ^ 53 := by
      rcases hN with ⟨h, -⟩ | ⟨h, -⟩ <;> omega
    have hrq : ((roundDouble z : Int) : ℚ) = ((z.sign * (N : Int) : Int) : ℚ) * 2 ^ s / 2 ^ 0 := by
      rw [hr]
      push_cast
      ring
    refine ⟨⟨z.sign * (N : Int), s, 0, ?_, hrq⟩, fun M E F hM => ?_⟩
    · rw [Int.natAbs_mul, Int.natAbs_ofNat]
      have : z.sign.natAbs = 1 := by
        have := congrArg Int.natAbs hsig2
        rw [Int.natAbs_mul] at this
        have h1 : (1 : Int).natAbs = 1 := rfl
        rw [h1] at this
        exact Nat.eq_one_of_mul_eq_one_left this
      rw [this, Nat.one_mul]
      exact hNle
    · have hM1 : z.sign * M ≤ 2 ^ 53 := by
        have h1 : z.sign * M ≤ |z.sign * M| := le_abs_self _
        rw [abs_mul, hsabs, one_mul, Int.abs_eq_natAbs] at h1
        have h2 : ((M.natAbs : Nat) : Int) ≤ ((2 ^ 53 : Nat) : Int) := Int.ofNat_le.mpr hM
        have h3 : ((2 ^ 53 : Nat) : Int) = 2 ^ 53 := by norm_num
        omega
      have hTi : (A : Int) = (m : Int) * (1 * 2 ^ s) + (low : Int) := by
        have := congrArg (fun x : Nat => (x : Int)) hT
        simp only [Nat.cast_add, Nat.cast_mul, Nat.cast_pow, Nat.cast_ofNat] at this
        rw [this]
        ring
      have hlowi : (low : Int) < 1 * 2 ^ s := by
        have := Int.ofNat_lt.mpr hlow
        simp only [Nat.cast_pow, Nat.cast_ofNat] at this
        rw [one_mul]
        exact this
      have hNi : ((N : Int) = (m : Int) ∧ 2 * (low : Int) ≤ 1 * 2 ^ s)
          ∨ ((N : Int) = (m : Int) + 1 ∧ 1 * 2 ^ s ≤ 2 * (low : Int)) := by
        rw [one_mul]
        rcases hN with ⟨h1, h2⟩ | ⟨h1, h2⟩
        · left
          refine ⟨by rw [h1], ?_⟩
          have h3 : 2 * low ≤ 2 ^ s := by omega
          have := Int.ofNat_le.mpr h3
          simp only [Nat.cast_mul, Nat.cast_pow, Nat.cast_ofNat] at this
          exact this
        · right
          refine ⟨by rw [h1]; rfl, ?_⟩
          have h3 : 2 ^ s ≤ 2 * low := by omega
          have := Int.ofNat_le.mpr h3
          simp only [Nat.cast_mul, Nat.cast_pow, Nat.cast_ofNat] at this
          exact this
      have hm2i : (2 : Int) ^ 52 ≤ (m : Int) := by
        have := Int.ofNat_le.mpr hm2
        simpa using this
      have key := round_compete (A : Int) (1 * 2 ^ s) m low N 1 s (by norm_num) rfl
        hTi hNi (Int.ofNat_nonneg _) hlowi hm2i (z.sign * M) hM1 E (F + 84)
      -- back to the rationals
      have hc : (0 : ℚ) < 2 ^ (F + 84) := by positivity
      have hzq : (z : ℚ) = (z.sign : ℚ) * (A : ℚ) := by
        have := congrArg (fun x : Int => (x : ℚ)) hsig
        simp only [Int.cast_mul, Int.cast_natCast] at this
        exact this.symm
      have hs2q : (z.sign : ℚ) * (z.sign : ℚ) = 1 := by exact_mod_cast hsig2
      have e1 : (((roundDouble z : Int) : ℚ) - (z : ℚ)) * 2 ^ (F + 84)
          = (((z.sign * (((N : Int) * (1 * 2 ^ s) - (A : Int)) * 2 ^ (F + 84)) : Int)) : ℚ) := by
        rw [hrq, hzq]
        push_cast
        ring
      have e2 : ((M : ℚ) * 2 ^ E / 2 ^ F - (z : ℚ)) * 2 ^ (F + 84)
          = (((z.sign * (z.sign * M * 2 ^ (E + 84) * 1 - (A : Int) * 2 ^ (F + 84)) : Int)) : ℚ) := by
        rw [hzq]
        push_cast
        rw [pow_add, pow_add]
        field_simp
        linear_combination
          (-(M : ℚ) * 2 ^ E * 2 ^ 84 * 2 ^ F) * hs2q
      have habs : ∀ Z : Int, |((z.sign * Z : Int) : ℚ)| = ((|Z| : Int) : ℚ) := by
        intro Z
        rw [← Int.cast_abs, abs_mul, hsabs, one_mul]
      have h1 : |((roundDouble z : Int) : ℚ) - (z : ℚ)| * 2 ^ (F + 84)
          = ((|((N : Int) * (1 * 2 ^ s) - (A : Int)) * 2 ^ (F + 84)| : Int) : ℚ) := by
        rw [← habs, ← e1, abs_mul, abs_of_pos hc]
      have h2 : |(M : ℚ) * 2 ^ E / 2 ^ F - (z : ℚ)| * 2 ^ (F + 84)
          = ((|z.sign * M * 2 ^ (E + 84) * 1 - (A : Int) * 2 ^ (F + 84)| : Int) : ℚ) := by
        rw [← habs, ← e2, abs_mul, abs_of_pos hc]
      have h3 : |((N : Int) * (1 * 2 ^ s) - (A : Int)) * 2 ^ (F + 84)|
          = |(N : Int) * (1 * 2 ^ s) - (A : Int)| * 2 ^ (F + 84) := by
        rw [abs_mul, abs_of_pos (show (0 : Int) < 2 ^ (F + 84) by positivity)]
      refine le_of_mul_le_mul_right ?_ hc
      rw [h1, h2, h3]
      exact_mod_cast key

end OSFinal
